import Mathlib

/-! SimOS: a shallow embedding of the simulator and its properties.

The C++ class `SimOS` (files `SimOS.h`, `SimOS.c`) is rendered as a record of its
data members together with one Lean function per member function.

Conventions of the embedding.

* `unsigned long long` values are natural numbers; every addition and subtraction
  the source performs on them is reduced modulo `2 ^ 64` (`addU64`, `subU64`).
* `int` values (identifiers, priorities, disk numbers) are integers.  Signed
  overflow of the identifier counter has no defined meaning in C++ and is outside
  the model.
* `std::vector` and `std::list` are lists, and an iterator is a position in the
  stored sequence.  While the storage of a vector stays in place, `erase` moves the
  tail down by one slot, `insert` moves it up by one slot, and an iterator taken
  before such a call designates the same position after it.
* The vector `memoryBlocks_` is a list together with its capacity.  The constructor
  fills it with `push_back` (capacity 1, then 2) and nothing reserves more, so
  `memoryBlocks_.insert` in `allocateMemory` finds the vector full again and again;
  it then moves the elements to new storage of twice the capacity (the growth of
  libstdc++ and libc++) and releases the old storage.  The source keeps using
  `worstFitIt` after the insert.  When the storage has moved, the iterator designates
  the released storage: what is written through it does not reach the vector, and
  what is read through it is what the chosen block held.
* `std::unordered_map<int, T>` is a function `Int → Option T`.  The source never
  iterates over a map, it only looks keys up, inserts and erases.
  `operator[]` inserts a value-initialised (all zero) entry when the key is
  missing; this is `mapIndex`.
* A member function that does not return normally yields `none`: `processes_.at`
  throwing `std::out_of_range`, the loop of `terminateProcessAndDescendants` going on
  over the children of a process whose map node has been erased, or its recursion
  exceeding the recursion depth given as `fuel`.  A result `some s` does not depend
  on the fuel beyond its being sufficient.
-/

namespace Sim

/-! ## Data model (SimOS.h) -/

/-- The constant `NO_PROCESS` of SimOS.h. -/
def NO_PROCESS : Int := -1

/-- Addition of two `unsigned long long` values. -/
def addU64 (a b : Nat) : Nat := (a + b) % 2 ^ 64

/-- Subtraction of two `unsigned long long` values. -/
def subU64 (a b : Nat) : Nat := (a + (2 ^ 64 - b % 2 ^ 64)) % 2 ^ 64

/-- The struct `FileReadRequest`. -/
structure FileReadRequest where
  PID : Int
  fileName : String
deriving DecidableEq

/-- The struct `MemoryItem`. -/
structure MemoryItem where
  itemAddress : Nat
  itemSize : Nat
  PID : Int
deriving DecidableEq

/-- The type `MemoryUse`. -/
abbrev MemoryUse := List MemoryItem

/-- A `std::vector<int>` as the source uses it for child lists.  `elems` are the
elements of the vector.  `vacated` are the contents of the storage slots that
follow the last element, nearest first: `erase` moves the tail one slot down and
leaves the value of the old last slot in place.  The range-for loop of
`terminateProcessAndDescendants` keeps the end iterator it computed on entry
while the recursive calls erase from the same vector, so it goes on to read such
slots. -/
structure PidVector where
  elems : List Int
  vacated : List Int
deriving DecidableEq

/-- The empty vector. -/
def PidVector.empty : PidVector := ⟨[], []⟩

/-- The method `push_back`: the slot after the last element receives the value. -/
def PidVector.push_back (v : PidVector) (x : Int) : PidVector :=
  ⟨v.elems ++ [x], v.vacated.drop 1⟩

/-- The method `erase(begin() + i)`. -/
def PidVector.eraseAt (v : PidVector) (i : Nat) : PidVector :=
  match v.elems.getLast? with
  | none => v
  | some z => if i < v.elems.length then ⟨v.elems.eraseIdx i, z :: v.vacated⟩ else v

/-- Reading the storage slot `i` places after `begin()`. -/
def PidVector.slot (v : PidVector) (i : Nat) : Option Int :=
  (v.elems ++ v.vacated)[i]?

/-- Position of the first element equal to `x`, as `std::find` reports it. -/
def findIndex (x : Int) : List Int → Nat → Option Nat
  | [], _ => none
  | y :: ys, i => if y = x then some i else findIndex x ys (i + 1)

/-- The idiom `it = std::find(v.begin(), v.end(), x); if (it != v.end()) v.erase(it)`. -/
def PidVector.eraseValue (v : PidVector) (x : Int) : PidVector :=
  match findIndex x v.elems 0 with
  | none => v
  | some i => v.eraseAt i

/-- The private struct `SimOS::Process`. -/
structure Process where
  pid : Int
  priority : Int
  memorySize : Nat
  parentPid : Int
  children : PidVector
  isZombie : Bool
  memory : MemoryItem
deriving DecidableEq

/-- The private struct `SimOS::MemoryBlock`. -/
structure MemoryBlock where
  start : Nat
  size : Nat
  isFree : Bool
  pid : Int
deriving DecidableEq

/-- The data members of the class `SimOS`.  The vector `memoryBlocks_` is held as the
list of its elements and its capacity, `blocksCapacity_`. -/
structure SimOS where
  nextPid_ : Int
  cpuPid_ : Int
  totalRAM_ : Nat
  memoryBlocks_ : List MemoryBlock
  blocksCapacity_ : Nat
  processes_ : Int → Option Process
  readyQueue_ : List Int
  diskQueues_ : List (List FileReadRequest)
  activeDiskJobs_ : Int → Option FileReadRequest

/-! ## Maps -/

/-- A value-initialised `Process`, as `operator[]` inserts it. -/
def zeroProcess : Process :=
  { pid := 0, priority := 0, memorySize := 0, parentPid := 0,
    children := PidVector.empty, isZombie := false, memory := ⟨0, 0, 0⟩ }

/-- The method `count` of a map. -/
def mapCount {α : Type} (m : Int → Option α) (k : Int) : Bool := (m k).isSome

/-- Assignment `m[k] = v`. -/
def mapSet {α : Type} (m : Int → Option α) (k : Int) (v : α) : Int → Option α :=
  fun x => if x = k then some v else m x

/-- The method `erase(k)` of a map. -/
def mapErase {α : Type} (m : Int → Option α) (k : Int) : Int → Option α :=
  fun x => if x = k then none else m x

/-- The map after `processes_[k]` has been evaluated. -/
def mapIndex (m : Int → Option Process) (k : Int) : Int → Option Process :=
  match m k with
  | some _ => m
  | none => mapSet m k zeroProcess

/-- The entry that a reference obtained from `processes_[k]` designates. -/
def mapGet (m : Int → Option Process) (k : Int) : Process :=
  (m k).getD zeroProcess

/-- Update through a reference to the node of key `k`. -/
def mapModify (m : Int → Option Process) (k : Int) (f : Process → Process) :
    Int → Option Process :=
  fun x => if x = k then (m k).map f else m x

/-! ## Construction -/

/-- The constructor `SimOS::SimOS`.  The number of disks is a natural number: with a
negative `int` the call `diskQueues_.resize` throws and no simulator exists. -/
def SimOS.construct (numberOfDisks amountOfRAM sizeOfOS : Nat) : SimOS :=
  let osBlock : MemoryBlock := ⟨0, sizeOfOS, false, 1⟩
  let osProcess : Process :=
    { pid := 1, priority := 0, memorySize := sizeOfOS, parentPid := NO_PROCESS,
      children := PidVector.empty, isZombie := false, memory := ⟨0, sizeOfOS, 1⟩ }
  { nextPid_ := 2
    cpuPid_ := NO_PROCESS
    totalRAM_ := amountOfRAM
    memoryBlocks_ :=
      if sizeOfOS < amountOfRAM then
        [osBlock, ⟨sizeOfOS, subU64 amountOfRAM sizeOfOS, true, NO_PROCESS⟩]
      else [osBlock]
    blocksCapacity_ := if sizeOfOS < amountOfRAM then 2 else 1
    processes_ := mapSet (fun _ => none) 1 osProcess
    readyQueue_ := []
    diskQueues_ := List.replicate numberOfDisks []
    activeDiskJobs_ := fun _ => none }

/-! ## Ready queue and CPU -/

/-- The list after `if (std::find(...) == end()) push_back(pid)`. -/
def addPid (q : List Int) (pid : Int) : List Int := if pid ∈ q then q else q ++ [pid]

/-- The list after `std::list::remove(pid)`, which deletes every element equal to
`pid`. -/
def removePid (q : List Int) (pid : Int) : List Int := q.filter (fun x => decide (x ≠ pid))

/-- The method `SimOS::addToReadyQueue`. -/
def SimOS.addToReadyQueue (s : SimOS) (pid : Int) : SimOS :=
  { s with readyQueue_ := addPid s.readyQueue_ pid }

/-- The method `SimOS::removeFromReadyQueue`. -/
def SimOS.removeFromReadyQueue (s : SimOS) (pid : Int) : SimOS :=
  { s with readyQueue_ := removePid s.readyQueue_ pid }

/-- The loop of `std::max_element` with the comparator of `scheduleCPU`:
`largest` is replaced by a later element only when its priority is strictly
smaller.  The comparator reads both priorities with `processes_.at`. -/
def maxElementFrom (m : Int → Option Process) : Int → List Int → Option Int
  | largest, [] => some largest
  | largest, x :: rest =>
    match m largest, m x with
    | some pl, some px =>
      if pl.priority < px.priority then maxElementFrom m x rest
      else maxElementFrom m largest rest
    | _, _ => none

/-- The method `SimOS::scheduleCPU`. -/
def SimOS.scheduleCPU (s : SimOS) : Option SimOS :=
  match s.readyQueue_ with
  | [] => some { s with cpuPid_ := NO_PROCESS }
  | first :: rest =>
    match maxElementFrom s.processes_ first rest with
    | none => none
    | some highestPid =>
      if s.cpuPid_ = NO_PROCESS then
        some ({ s with cpuPid_ := highestPid }.removeFromReadyQueue highestPid)
      else
        let m := mapIndex (mapIndex s.processes_ highestPid) s.cpuPid_
        let s1 := { s with processes_ := m }
        if (mapGet m s.cpuPid_).priority < (mapGet m highestPid).priority then
          some ({ s1.addToReadyQueue s.cpuPid_ with
                  cpuPid_ := highestPid }.removeFromReadyQueue highestPid)
        else some s1

/-! ## Memory -/

/-- The search loop of `allocateMemory`: `i` is the position of the iterator,
`worstFit` the position held by `worstFitIt` (`none` for `end()`), `maxSize` the
local of that name. -/
def worstFitScan (memorySize : Nat) :
    List MemoryBlock → Nat → Option Nat → Nat → Option Nat
  | [], _, worstFit, _ => worstFit
  | b :: bs, i, worstFit, maxSize =>
    if b.isFree ∧ memorySize ≤ b.size ∧ maxSize < b.size then
      worstFitScan memorySize bs (i + 1) (some i) b.size
    else worstFitScan memorySize bs (i + 1) worstFit maxSize

/-- Replace the element at position `i` of a list by its image under `f`. -/
def modifyNth {α : Type} (f : α → α) : List α → Nat → List α
  | [], _ => []
  | x :: xs, 0 => f x :: xs
  | x :: xs, i + 1 => x :: modifyNth f xs i

/-- The block list after `memoryBlocks_.insert(worstFitIt + 1, newFreeBlock)`, where
`worstFitIt` is at position `i` and `b` is the block it designates. -/
def insertRemainder (blocks : List MemoryBlock) (i : Nat) (b : MemoryBlock)
    (memorySize : Nat) : List MemoryBlock :=
  blocks.take (i + 1) ++
    ⟨addU64 b.start memorySize, subU64 b.size memorySize, true, NO_PROCESS⟩ ::
      blocks.drop (i + 1)

/-- The block list after the three assignments `worstFitIt->isFree = false`,
`worstFitIt->pid = process.pid`, `worstFitIt->size = process.memorySize`, when
`worstFitIt` designates position `i` of the vector. -/
def writeThrough (blocks : List MemoryBlock) (i : Nat) (memorySize : Nat) (pid : Int) :
    List MemoryBlock :=
  modifyNth (fun b => { b with isFree := false, pid := pid, size := memorySize }) blocks i

/-- The method `SimOS::allocateMemory`.  The result is the returned flag, the
simulator and the process passed by reference.  When the chosen block is larger than
the request, the remainder is inserted behind it.  With spare capacity the storage
stays in place and the assignments through `worstFitIt` reach the chosen block.  With
the vector full, the insert moves the storage and doubles the capacity, and the
assignments go to the released storage: the chosen block stays as it was.  In each
case `worstFitIt->start` and `worstFitIt->size` read back the start of the chosen
block and the size just assigned. -/
def SimOS.allocateMemory (s : SimOS) (process : Process) : Bool × SimOS × Process :=
  match worstFitScan process.memorySize s.memoryBlocks_ 0 none 0 with
  | none => (false, s, process)
  | some i =>
    match s.memoryBlocks_[i]? with
    | none => (false, s, process)
    | some b =>
      let recorded : Process :=
        { process with memory := ⟨b.start, process.memorySize, process.pid⟩ }
      if process.memorySize < b.size then
        let inserted := insertRemainder s.memoryBlocks_ i b process.memorySize
        if s.memoryBlocks_.length < s.blocksCapacity_ then
          (true,
           { s with memoryBlocks_ :=
               writeThrough inserted i process.memorySize process.pid },
           recorded)
        else
          (true,
           { s with memoryBlocks_ := inserted,
                    blocksCapacity_ := 2 * s.memoryBlocks_.length },
           recorded)
      else
        (true,
         { s with memoryBlocks_ :=
             writeThrough s.memoryBlocks_ i process.memorySize process.pid },
         recorded)

/-- The first `while` loop of `deallocateMemory`.  `before` holds the blocks in
front of the iterator, nearest first; `cur` is the block at the iterator. -/
def mergeBackward : List MemoryBlock → MemoryBlock → List MemoryBlock × MemoryBlock
  | [], cur => ([], cur)
  | p :: before, cur =>
    if p.isFree then mergeBackward before { p with size := addU64 p.size cur.size }
    else (p :: before, cur)

/-- The second `while` loop of `deallocateMemory`. -/
def mergeForward : MemoryBlock → List MemoryBlock → MemoryBlock × List MemoryBlock
  | cur, [] => (cur, [])
  | cur, n :: rest =>
    if n.isFree then mergeForward { cur with size := addU64 cur.size n.size } rest
    else (cur, n :: rest)

/-- The `for` loop of `deallocateMemory`.  `before` holds the blocks already passed,
nearest first. -/
def deallocateScan (pid : Int) : List MemoryBlock → List MemoryBlock → List MemoryBlock
  | before, [] => before.reverse
  | before, b :: rest =>
    if b.isFree = false ∧ b.pid = pid then
      let r := mergeBackward before { b with isFree := true, pid := NO_PROCESS }
      let q := mergeForward r.2 rest
      r.1.reverse ++ q.1 :: q.2
    else deallocateScan pid (b :: before) rest

/-- The method `SimOS::deallocateMemory`. -/
def SimOS.deallocateMemory (s : SimOS) (pid : Int) : SimOS :=
  { s with memoryBlocks_ := deallocateScan pid [] s.memoryBlocks_ }

/-! ## Process operations -/

/-- The local `newProcess` of `NewProcess` when `allocateMemory` is called.  It is
default-initialised; its member `memory` is written by `allocateMemory` before it
is read. -/
def SimOS.newProcessRecord (s : SimOS) (size : Nat) (priority : Int) : Process :=
  { pid := s.nextPid_, priority := priority, memorySize := size,
    parentPid := NO_PROCESS, children := PidVector.empty, isZombie := false,
    memory := ⟨0, 0, 0⟩ }

/-- The method `SimOS::NewProcess`. -/
def SimOS.NewProcess (s : SimOS) (size : Nat) (priority : Int) : Option (Bool × SimOS) :=
  let newProcess := s.newProcessRecord size priority
  let s1 := { s with nextPid_ := s.nextPid_ + 1 }
  match s1.allocateMemory newProcess with
  | (false, s2, _) => some (false, s2)
  | (true, s2, p) =>
    let s3 := { s2 with processes_ := mapSet s2.processes_ p.pid p }
    (s3.addToReadyQueue p.pid).scheduleCPU.map (fun s4 => (true, s4))

/-- The local `child` of `SimFork` when `allocateMemory` is called; `parent` is the
entry `processes_[cpuPid_]`. -/
def SimOS.childRecord (s : SimOS) : Process :=
  let parent := mapGet (mapIndex s.processes_ s.cpuPid_) s.cpuPid_
  { pid := s.nextPid_, priority := parent.priority, memorySize := parent.memorySize,
    parentPid := s.cpuPid_, children := PidVector.empty, isZombie := false,
    memory := ⟨0, 0, 0⟩ }

/-- The method `SimOS::SimFork`. -/
def SimOS.SimFork (s : SimOS) : Option (Bool × SimOS) :=
  if s.cpuPid_ = NO_PROCESS ∨ s.cpuPid_ = 1 then some (false, s)
  else
    let child := s.childRecord
    let s1 := { s with processes_ := mapIndex s.processes_ s.cpuPid_,
                       nextPid_ := s.nextPid_ + 1 }
    match s1.allocateMemory child with
    | (false, s2, _) => some (false, s2)
    | (true, s2, c) =>
      let m1 := mapSet s2.processes_ c.pid c
      let m2 := mapModify m1 s.cpuPid_
        (fun p => { p with children := p.children.push_back c.pid })
      ({ s2 with processes_ := m2 }.addToReadyQueue c.pid).scheduleCPU.map
        (fun s4 => (true, s4))

/-- The range-for loop of `terminateProcessAndDescendants` over `process.children`.
The end iterator is fixed on entry, so the loop runs `remaining` more times and
reads slot `i` of the storage each time, whatever the recursive calls have erased
from the vector in the meantime.  `recurse` is the recursive call. -/
def childLoop (recurse : SimOS → Int → Option SimOS) (pid : Int) :
    Nat → Nat → SimOS → Option SimOS
  | 0, _, s => some s
  | remaining + 1, i, s =>
    match s.processes_ pid with
    | none => none
    | some process =>
      match process.children.slot i with
      | none => none
      | some childPid =>
        if mapCount s.processes_ childPid then
          (recurse s childPid).bind (fun s1 => childLoop recurse pid remaining (i + 1) s1)
        else childLoop recurse pid remaining (i + 1) s

/-- The block "Remove from CPU or ready queue" of `terminateProcessAndDescendants`. -/
def SimOS.leaveCpuOrQueue (s : SimOS) (pid : Int) : SimOS :=
  if s.cpuPid_ = pid then { s with cpuPid_ := NO_PROCESS }
  else s.removeFromReadyQueue pid

/-- The part of `terminateProcessAndDescendants` that follows the loop; `process` is
the entry of `pid`.  The two `if` statements on the parent test the same condition,
which the first of them does not change (it only erases from a child list), so they
are one branch here: detach from the parent and mark as zombie, or else deallocate
and erase. -/
def finishTermination (s : SimOS) (pid : Int) (process : Process) : SimOS :=
  let hasParent : Bool :=
    decide (process.parentPid ≠ NO_PROCESS) && mapCount s.processes_ process.parentPid
  if hasParent then
    let detached := mapModify s.processes_ process.parentPid
      (fun parent => { parent with children := parent.children.eraseValue pid })
    let marked := mapModify detached pid (fun p => { p with isZombie := true })
    SimOS.leaveCpuOrQueue { s with processes_ := marked } pid
  else
    let s1 := s.deallocateMemory pid
    SimOS.leaveCpuOrQueue { s1 with processes_ := mapErase s1.processes_ pid } pid

/-- The method `SimOS::terminateProcessAndDescendants`; `fuel` bounds the depth of
the recursion. -/
def SimOS.terminateProcessAndDescendants : Nat → SimOS → Int → Option SimOS
  | 0, _, _ => none
  | fuel + 1, s, pid =>
    let s0 := { s with processes_ := mapIndex s.processes_ pid }
    let n := (mapGet s0.processes_ pid).children.elems.length
    match childLoop (SimOS.terminateProcessAndDescendants fuel) pid n 0 s0 with
    | none => none
    | some s1 =>
      match s1.processes_ pid with
      | none => none
      | some process => some (finishTermination s1 pid process)

/-- The method `SimOS::SimExit`. -/
def SimOS.SimExit (fuel : Nat) (s : SimOS) : Option SimOS :=
  if s.cpuPid_ = NO_PROCESS ∨ s.cpuPid_ = 1 then some s
  else (s.terminateProcessAndDescendants fuel s.cpuPid_).bind SimOS.scheduleCPU

/-- The call of `std::find_if` in `SimWait`: the predicate evaluates
`processes_[pid].isZombie` for each child it visits.  The result is the map after
these evaluations and the position found. -/
def findZombie (m : Int → Option Process) :
    List Int → Nat → (Int → Option Process) × Option Nat
  | [], _ => (m, none)
  | c :: cs, i =>
    let m1 := mapIndex m c
    if (mapGet m1 c).isZombie then (m1, some i) else findZombie m1 cs (i + 1)

/-- The method `SimOS::SimWait`.  The position that `find_if` returns lies in the child
vector, so the lookup `children.elems[i]?` finds an identifier.  The zombie is erased
from the registry and then from the child vector of `process`, the entry of the
occupant; were the zombie the occupant itself, that vector would belong to the erased
entry and the second erasure would leave no trace (`mapModify` of a missing key). -/
def SimOS.SimWait (s : SimOS) : Option SimOS :=
  if s.cpuPid_ = NO_PROCESS ∨ s.cpuPid_ = 1 then some s
  else
    let m := mapIndex s.processes_ s.cpuPid_
    let children := (mapGet m s.cpuPid_).children
    match findZombie m children.elems 0 with
    | (m1, some i) =>
      match children.elems[i]? with
      | none => none
      | some z =>
        let m2 := mapModify (mapErase m1 z) s.cpuPid_
          (fun p => { p with children := p.children.eraseAt i })
        some { s with processes_ := m2 }
    | (m1, none) =>
      SimOS.scheduleCPU { s with processes_ := m1, cpuPid_ := NO_PROCESS }

/-! ## Disks -/

/-- The method `SimOS::DiskReadRequest`. -/
def SimOS.DiskReadRequest (s : SimOS) (diskNumber : Int) (fileName : String) :
    Option SimOS :=
  if s.cpuPid_ = NO_PROCESS ∨ s.cpuPid_ = 1 ∨ diskNumber < 0 ∨
      (s.diskQueues_.length : Int) ≤ diskNumber then some s
  else
    let request : FileReadRequest := ⟨s.cpuPid_, fileName⟩
    let s1 :=
      if mapCount s.activeDiskJobs_ diskNumber = false then
        { s with activeDiskJobs_ := mapSet s.activeDiskJobs_ diskNumber request }
      else
        { s with diskQueues_ :=
            modifyNth (fun q => q ++ [request]) s.diskQueues_ diskNumber.toNat }
    SimOS.scheduleCPU { s1 with cpuPid_ := NO_PROCESS }

/-- The block of `DiskJobCompleted` that starts the next job of the disk: the front
of the queue, when there is one, becomes the active job and is popped. -/
def SimOS.startNextJob (s : SimOS) (diskNumber : Int) : SimOS :=
  match s.diskQueues_[diskNumber.toNat]? with
  | some (front :: _) =>
    { s with
        activeDiskJobs_ := mapSet s.activeDiskJobs_ diskNumber front,
        diskQueues_ := modifyNth (fun q => q.drop 1) s.diskQueues_ diskNumber.toNat }
  | _ => s

/-- The method `SimOS::DiskJobCompleted`. -/
def SimOS.DiskJobCompleted (s : SimOS) (diskNumber : Int) : Option SimOS :=
  if diskNumber < 0 ∨ (s.diskQueues_.length : Int) ≤ diskNumber then some s
  else
    match s.activeDiskJobs_ diskNumber with
    | none => some s
    | some job =>
      let completedPid := job.PID
      let s1 := { s with activeDiskJobs_ := mapErase s.activeDiskJobs_ diskNumber }
      let s2 := s1.startNextJob diskNumber
      match s2.processes_ completedPid with
      | some p =>
        if p.isZombie = false then (s2.addToReadyQueue completedPid).scheduleCPU
        else some s2
      | none => some s2

/-! ## Queries -/

/-- The method `SimOS::GetCPU`. -/
def SimOS.GetCPU (s : SimOS) : Int := s.cpuPid_

/-- The method `SimOS::GetReadyQueue`. -/
def SimOS.GetReadyQueue (s : SimOS) : List Int := s.readyQueue_

/-- The method `SimOS::GetMemory`. -/
def SimOS.GetMemory (s : SimOS) : MemoryUse :=
  (s.memoryBlocks_.filter (fun b => b.isFree = false)).map
    (fun b => ⟨b.start, b.size, b.pid⟩)

/-- The method `SimOS::GetDisk`; a default-constructed `FileReadRequest` has PID 0 and
an empty file name. -/
def SimOS.GetDisk (s : SimOS) (diskNumber : Int) : FileReadRequest :=
  if diskNumber < 0 ∨ (s.diskQueues_.length : Int) ≤ diskNumber then ⟨0, ""⟩
  else (s.activeDiskJobs_ diskNumber).getD ⟨0, ""⟩

/-- The method `SimOS::GetDiskQueue`. -/
def SimOS.GetDiskQueue (s : SimOS) (diskNumber : Int) : List FileReadRequest :=
  if diskNumber < 0 ∨ (s.diskQueues_.length : Int) ≤ diskNumber then []
  else s.diskQueues_.getD diskNumber.toNat []

/-! ## Block-list invariants -/

/-- Two neighbours are not both free. -/
def NotBothFree (a b : MemoryBlock) : Prop := ¬ (a.isFree = true ∧ b.isFree = true)

/-- No two adjacent blocks of the list are both free. -/
def NoAdjacentFree (bs : List MemoryBlock) : Prop := List.Chain' NotBothFree bs

/-- State of the search loop of `allocateMemory` once the blocks `pre` have been
visited: what `worstFitIt` and `maxSize` hold. -/
def ScanState (memorySize : Nat) (pre : List MemoryBlock) : Option Nat → Nat → Prop
  | none, maxSize =>
    maxSize = 0 ∧ ∀ c ∈ pre, c.isFree = true → memorySize ≤ c.size → c.size = 0
  | some j, maxSize =>
    ∃ X b Y, pre = X ++ b :: Y ∧ X.length = j ∧ b.isFree = true ∧ memorySize ≤ b.size ∧
      maxSize = b.size ∧ 0 < b.size ∧
      (∀ c ∈ pre, c.isFree = true → memorySize ≤ c.size → c.size ≤ b.size) ∧
      (∀ c ∈ X, c.isFree = true → memorySize ≤ c.size → c.size < b.size)

/-- The states that the public member functions lead to from `s0`.  A call counts
when it returns normally; `SimExit` may use any recursion depth. -/
inductive Reachable (s0 : SimOS) : SimOS → Prop
  | start : Reachable s0 s0
  | newProcess (s s' : SimOS) (size : Nat) (priority : Int) (r : Bool) :
      Reachable s0 s → s.NewProcess size priority = some (r, s') → Reachable s0 s'
  | simFork (s s' : SimOS) (r : Bool) :
      Reachable s0 s → s.SimFork = some (r, s') → Reachable s0 s'
  | simExit (s s' : SimOS) (fuel : Nat) :
      Reachable s0 s → s.SimExit fuel = some s' → Reachable s0 s'
  | simWait (s s' : SimOS) :
      Reachable s0 s → s.SimWait = some s' → Reachable s0 s'
  | diskReadRequest (s s' : SimOS) (diskNumber : Int) (fileName : String) :
      Reachable s0 s → s.DiskReadRequest diskNumber fileName = some s' → Reachable s0 s'
  | diskJobCompleted (s s' : SimOS) (diskNumber : Int) :
      Reachable s0 s → s.DiskJobCompleted diskNumber = some s' → Reachable s0 s'

/-- A call of one of the public member functions that change the simulator. -/
inductive Call where
  | newProcess (size : Nat) (priority : Int)
  | simFork
  | simExit (fuel : Nat)
  | simWait
  | diskReadRequest (diskNumber : Int) (fileName : String)
  | diskJobCompleted (diskNumber : Int)

/-- The simulator after one call, when the call returns normally. -/
def SimOS.step (s : SimOS) : Call → Option SimOS
  | Call.newProcess size priority => (s.NewProcess size priority).map (fun r => r.2)
  | Call.simFork => s.SimFork.map (fun r => r.2)
  | Call.simExit fuel => s.SimExit fuel
  | Call.simWait => s.SimWait
  | Call.diskReadRequest diskNumber fileName => s.DiskReadRequest diskNumber fileName
  | Call.diskJobCompleted diskNumber => s.DiskJobCompleted diskNumber

/-- The simulator after a sequence of calls, when all of them return normally. -/
def SimOS.run (s : SimOS) : List Call → Option SimOS
  | [] => some s
  | c :: cs => (s.step c).bind (fun s1 => s1.run cs)

/-! ## Concrete states used as examples -/

/-- A simulator whose block list has free blocks of sizes 5, 8 and 8, in a vector of
capacity 8. -/
def fragmentedExample : SimOS :=
  { nextPid_ := 5, cpuPid_ := NO_PROCESS, totalRAM_ := 40,
    memoryBlocks_ := [⟨0, 10, false, 1⟩, ⟨10, 5, true, NO_PROCESS⟩, ⟨15, 4, false, 2⟩,
      ⟨19, 8, true, NO_PROCESS⟩, ⟨27, 5, false, 3⟩, ⟨32, 8, true, NO_PROCESS⟩],
    blocksCapacity_ := 8,
    processes_ := fun _ => none, readyQueue_ := [], diskQueues_ := [],
    activeDiskJobs_ := fun _ => none }

/-- A simulator whose block list is the OS block `[0, 5)`, a free block of size 0 at
address 5 and the block `[5, 10)` of process 3. -/
def zeroBlockExample : SimOS :=
  { nextPid_ := 4, cpuPid_ := NO_PROCESS, totalRAM_ := 10,
    memoryBlocks_ := [⟨0, 5, false, 1⟩, ⟨5, 0, true, NO_PROCESS⟩, ⟨5, 5, false, 3⟩],
    blocksCapacity_ := 4,
    processes_ := fun _ => none, readyQueue_ := [], diskQueues_ := [],
    activeDiskJobs_ := fun _ => none }

/-- A process record asking for `memorySize` units, as `NewProcess` builds it. -/
def requestExample (pid : Int) (memorySize : Nat) : Process :=
  { pid := pid, priority := 1, memorySize := memorySize, parentPid := NO_PROCESS,
    children := PidVector.empty, isZombie := false, memory := ⟨0, 0, 0⟩ }

/-- The state after the calls `calls` on `SimOS(numberOfDisks, amountOfRAM, sizeOfOS)`;
the initial state when one of the calls does not return normally. -/
def stateAfter (numberOfDisks amountOfRAM sizeOfOS : Nat) (calls : List Call) : SimOS :=
  ((SimOS.construct numberOfDisks amountOfRAM sizeOfOS).run calls).getD
    (SimOS.construct numberOfDisks amountOfRAM sizeOfOS)

/-! ## Invariants of the scheduler state -/

/-- The identifier `k` has been handed out: it lies between 1 and the counter. -/
def InRange (s : SimOS) (k : Int) : Prop := 1 ≤ k ∧ k < s.nextPid_

/-- The identifier `x` is the requester of an active or queued disk job. -/
def PendingPid (s : SimOS) (x : Int) : Prop :=
  (∃ d job, s.activeDiskJobs_ d = some job ∧ job.PID = x) ∨
  (∃ (i : Nat) (q : List FileReadRequest) (job : FileReadRequest),
    s.diskQueues_[i]? = some q ∧ job ∈ q ∧ job.PID = x)

/-- Every identifier stored anywhere in the simulator has been handed out. -/
structure RangeInv (s : SimOS) : Prop where
  next : 1 ≤ s.nextPid_
  keys : ∀ k, (s.processes_ k).isSome = true → InRange s k
  cpu : s.cpuPid_ ≠ NO_PROCESS → InRange s s.cpuPid_
  ready : ∀ r ∈ s.readyQueue_, InRange s r
  children : ∀ k p, s.processes_ k = some p → ∀ c ∈ p.children.elems, InRange s c
  pending : ∀ x, PendingPid s x → InRange s x

/-- A process is in at most one place: on the CPU, once in the ready queue, or
once among the disk jobs. -/
structure ExclInv (s : SimOS) : Prop where
  ready_nodup : s.readyQueue_.Nodup
  cpu_not_ready : s.cpuPid_ ≠ NO_PROCESS → s.cpuPid_ ∉ s.readyQueue_
  pending_idle : ∀ x, PendingPid s x →
    x ≠ NO_PROCESS ∧ x ≠ s.cpuPid_ ∧ x ∉ s.readyQueue_
  active_active : ∀ d d' j j', s.activeDiskJobs_ d = some j →
    s.activeDiskJobs_ d' = some j' → j.PID = j'.PID → d = d'
  active_queued : ∀ (d : Int) (j : FileReadRequest) (i : Nat) (q : List FileReadRequest)
    (j' : FileReadRequest), s.activeDiskJobs_ d = some j →
    s.diskQueues_[i]? = some q → j' ∈ q → j'.PID ≠ j.PID
  queue_nodup : ∀ (i : Nat) (q : List FileReadRequest), s.diskQueues_[i]? = some q →
    (q.map (fun j => j.PID)).Nodup
  queue_disjoint : ∀ (i i' : Nat) (q q' : List FileReadRequest) (j j' : FileReadRequest),
    s.diskQueues_[i]? = some q → s.diskQueues_[i']? = some q' → i ≠ i' →
    j ∈ q → j' ∈ q' → j.PID ≠ j'.PID

/-- The process on the CPU `c` and the processes of the ready queue `q` are
registered in `m` and are not zombies. -/
def Alive (m : Int → Option Process) (c : Int) (q : List Int) : Prop :=
  (c ≠ NO_PROCESS → ∃ p, m c = some p ∧ p.isZombie = false) ∧
  ∀ r ∈ q, ∃ p, m r = some p ∧ p.isZombie = false

/-- No process of the ready queue `q` has a higher priority than the process on the
CPU `c`. -/
def Prio (m : Int → Option Process) (c : Int) (q : List Int) : Prop :=
  c ≠ NO_PROCESS → ∀ r ∈ q, (mapGet m r).priority ≤ (mapGet m c).priority

/-- The CPU and the ready queue hold registered processes that are not zombies, and
no ready process has a higher priority than the process on the CPU. -/
structure SchedInv (s : SimOS) : Prop where
  alive : Alive s.processes_ s.cpuPid_ s.readyQueue_
  prio : Prio s.processes_ s.cpuPid_ s.readyQueue_

/-! ## Intermediate results of the public operations -/

/-- The result of the call of `allocateMemory` in `NewProcess`. -/
def SimOS.newAlloc (s : SimOS) (size : Nat) (priority : Int) : Bool × SimOS × Process :=
  SimOS.allocateMemory { s with nextPid_ := s.nextPid_ + 1 } (s.newProcessRecord size priority)

/-- The result of the call of `allocateMemory` in `SimFork`. -/
def SimOS.forkAlloc (s : SimOS) : Bool × SimOS × Process :=
  SimOS.allocateMemory
    { s with processes_ := mapIndex s.processes_ s.cpuPid_, nextPid_ := s.nextPid_ + 1 }
    s.childRecord

/-- The result of the call of `std::find_if` in `SimWait`. -/
def SimOS.waitScan (s : SimOS) : (Int → Option Process) × Option Nat :=
  findZombie (mapIndex s.processes_ s.cpuPid_)
    (mapGet (mapIndex s.processes_ s.cpuPid_) s.cpuPid_).children.elems 0


/-- The CPU and the ready queue of `t` come from those of `s` by vacating the CPU
and removing entries of the queue; the disks are the same. -/
def Shrinks (s t : SimOS) : Prop :=
  (t.cpuPid_ = s.cpuPid_ ∨ t.cpuPid_ = NO_PROCESS) ∧
  t.readyQueue_.Sublist s.readyQueue_ ∧
  t.nextPid_ = s.nextPid_ ∧
  t.diskQueues_ = s.diskQueues_ ∧ t.activeDiskJobs_ = s.activeDiskJobs_

/-- Neither the CPU occupant nor `NO_PROCESS` is in the ready queue. -/
def Apart (s : SimOS) : Prop :=
  s.cpuPid_ ∉ s.readyQueue_ ∧ NO_PROCESS ∉ s.readyQueue_

/-- The state in which `NewProcess(2000, 3)` calls `scheduleCPU` on
`SimOS(1, 10000, 1000)`: process 2 is registered and in the ready queue, the CPU is
idle. -/
def admittedExample : SimOS :=
  { SimOS.construct 1 10000 1000 with
    nextPid_ := 3,
    memoryBlocks_ := ((SimOS.construct 1 10000 1000).newAlloc 2000 3).2.1.memoryBlocks_,
    blocksCapacity_ := ((SimOS.construct 1 10000 1000).newAlloc 2000 3).2.1.blocksCapacity_,
    processes_ := mapSet (SimOS.construct 1 10000 1000).processes_ 2
      { (SimOS.construct 1 10000 1000).newProcessRecord 2000 3 with
        memory := ((SimOS.construct 1 10000 1000).newAlloc 2000 3).2.2.memory },
    readyQueue_ := addPid (SimOS.construct 1 10000 1000).readyQueue_ 2 }

/-- A state whose ready queue holds the value `NO_PROCESS` in front of process 5, both
registered with priority 1, and whose CPU is idle. -/
def sentinelQueueExample : SimOS :=
  { SimOS.construct 1 10 5 with
    nextPid_ := 6,
    processes_ := mapSet (mapSet (SimOS.construct 1 10 5).processes_ NO_PROCESS
      (requestExample NO_PROCESS 0)) 5 (requestExample 5 0),
    readyQueue_ := [NO_PROCESS, 5] }

/-- A state without free memory whose CPU holds the identifier 7, which is not
registered. -/
def strayCpuExample : SimOS :=
  { SimOS.construct 1 10 10 with nextPid_ := 8, cpuPid_ := 7 }

/-! ## The process tree -/

/-- The storage of the child vector of process `k`: its elements followed by the
vacated slots; empty when `k` is not registered. -/
def storage (m : Int → Option Process) (k : Int) : List Int :=
  match m k with
  | some p => p.children.elems ++ p.children.vacated
  | none => []

/-- Every identifier held in the storage of a child vector is larger than the
identifier of the process that owns the vector. -/
def TreeInv (m : Int → Option Process) : Prop :=
  ∀ k, ∀ c ∈ storage m k, k < c

/-- The identifiers below `c` are registered in `m'` exactly when they are in `m`,
and the storage of their child vectors has the same length in both. -/
def SameBelow (c : Int) (m m' : Int → Option Process) : Prop :=
  ∀ k, k < c → (m' k).isSome = (m k).isSome ∧ (storage m' k).length = (storage m k).length

/-- Every public member function that changes the simulator returns normally when it
is called in state `s`, whatever its arguments; for the recursion of `SimExit` a
depth equal to the value of the identifier counter is enough. -/
def ReturnsNormally (s : SimOS) : Prop :=
  (∀ (size : Nat) (priority : Int), (s.NewProcess size priority).isSome = true) ∧
  s.SimFork.isSome = true ∧
  (s.SimExit s.nextPid_.toNat).isSome = true ∧
  s.SimWait.isSome = true ∧
  (∀ (diskNumber : Int) (fileName : String),
    (s.DiskReadRequest diskNumber fileName).isSome = true) ∧
  (∀ diskNumber : Int, (s.DiskJobCompleted diskNumber).isSome = true)

/-- The state in which `NewProcess(10, 5)` calls `scheduleCPU` after `NewProcess(10, 1)`
and `NewProcess(10, 0)` on `SimOS(1, 100, 10)`: process 2 of priority 1 is on the CPU
and the ready queue `[3, 4]` holds process 3 of priority 0 and the new process 4 of
priority 5. -/
def preemptExample : SimOS :=
  let s := stateAfter 1 100 10 [Call.newProcess 10 1, Call.newProcess 10 0]
  { s with
    nextPid_ := s.nextPid_ + 1,
    memoryBlocks_ := (s.newAlloc 10 5).2.1.memoryBlocks_,
    blocksCapacity_ := (s.newAlloc 10 5).2.1.blocksCapacity_,
    processes_ := mapSet s.processes_ s.nextPid_
      { s.newProcessRecord 10 5 with memory := (s.newAlloc 10 5).2.2.memory },
    readyQueue_ := addPid s.readyQueue_ s.nextPid_ }

/-! ## Invariants of scheduling and of the disks -/

/-- The OS process and the value `NO_PROCESS` take no part in scheduling or disk input:
neither is in the ready queue or the requester of a disk job, the OS process is not on
the CPU, and the identifier counter is past the OS process. -/
structure OsInv (s : SimOS) : Prop where
  next : 2 ≤ s.nextPid_
  cpu : s.cpuPid_ ≠ 1
  ready : (1 : Int) ∉ s.readyQueue_
  sentinel : NO_PROCESS ∉ s.readyQueue_
  pending : ∀ x, PendingPid s x → x ≠ 1 ∧ x ≠ NO_PROCESS

/-- An idle CPU comes with an empty ready queue. -/
def WorkConserving (s : SimOS) : Prop := s.cpuPid_ = NO_PROCESS → s.readyQueue_ = []

/-- A disk without active job has an empty queue. -/
def DiskIdle (s : SimOS) : Prop :=
  ∀ (d : Int) (q : List FileReadRequest), 0 ≤ d → s.activeDiskJobs_ d = none →
    s.diskQueues_[d.toNat]? = some q → q = []

/-- The requests of disk `d` in the order of service: the active job, when there is
one, followed by the queue of the disk. -/
def SimOS.diskLine (s : SimOS) (d : Int) : List FileReadRequest :=
  (s.activeDiskJobs_ d).toList ++ s.diskQueues_.getD d.toNat []

/-- The state after `NewProcess(2000, 3)`, `NewProcess(500, 1)` and
`DiskReadRequest(0, "a")` on `SimOS(1, 10000, 1000)`: process 2 waits for disk 0 and
process 3 is on the CPU. -/
def diskBusyExample : SimOS :=
  stateAfter 1 10000 1000
    [Call.newProcess 2000 3, Call.newProcess 500 1, Call.diskReadRequest 0 "a"]

/-- The state after `NewProcess(100, 5)`, `SimFork()`, `DiskReadRequest(0, "a")`,
`DiskReadRequest(1, "b")`, `DiskJobCompleted(0)` and `SimExit()` on
`SimOS(2, 10000, 1000)`: process 3, the child of the exited process 2, is a zombie and
the requester of the active job of disk 1. -/
def zombieRequesterExample : SimOS :=
  stateAfter 2 10000 1000
    [Call.newProcess 100 5, Call.simFork, Call.diskReadRequest 0 "a",
      Call.diskReadRequest 1 "b", Call.diskJobCompleted 0, Call.simExit 2]

/-! ## Families of processes and their memory -/

/-- The records of `m'` come from records of `m` under the same key: identity, priority,
size, parent and memory region are the same, a zombie flag that was set is set, and the
storage of a child vector holds no value that it did not hold before. -/
def Fades (m m' : Int → Option Process) : Prop :=
  (∀ k p', m' k = some p' → ∃ p, m k = some p ∧ p'.pid = p.pid ∧
    p'.priority = p.priority ∧ p'.memorySize = p.memorySize ∧
    p'.parentPid = p.parentPid ∧ p'.memory = p.memory ∧
    (p.isZombie = true → p'.isZombie = true)) ∧
  (∀ k, ∀ c ∈ storage m' k, c ∈ storage m k)

/-- Child lists hold no identifier twice, and every identifier in a child list is
registered and not a zombie. -/
def ChildInv (m : Int → Option Process) : Prop :=
  ∀ k p, m k = some p → p.children.elems.Nodup ∧
    ∀ c ∈ p.children.elems, ∃ pc, m c = some pc ∧ pc.isZombie = false

/-- A registered process whose identifier is held in the storage of the child vector of
`k` has `k` as its parent. -/
def ParentInv (m : Int → Option Process) : Prop :=
  ∀ k, ∀ c ∈ storage m k, ∀ pc, m c = some pc → pc.parentPid = k

/-- The test `process.parentPid != NO_PROCESS && processes_.count(process.parentPid)` of
`terminateProcessAndDescendants`. -/
def hasParent (m : Int → Option Process) (process : Process) : Bool :=
  decide (process.parentPid ≠ NO_PROCESS) && mapCount m process.parentPid

/-- The invariants of the process tree: child lists, parents, and the range of the
identifiers held in child-vector storage. -/
structure FamilyInv (s : SimOS) : Prop where
  child : ChildInv s.processes_
  parent : ParentInv s.processes_
  bound : ∀ k, ∀ c ∈ storage s.processes_ k, c < s.nextPid_

/-- The occupied blocks of a block list, in order. -/
def occupied (bl : List MemoryBlock) : List MemoryBlock :=
  bl.filter (fun b => b.isFree = false)

/-- The list without its first block owned by `pid`. -/
def dropOwner (pid : Int) : List MemoryBlock → List MemoryBlock
  | [] => []
  | b :: bs => if b.pid = pid then bs else b :: dropOwner pid bs

/-- Occupied blocks have distinct owners with identifiers handed out before, an
occupied block whose owner is registered is the region that the record of the owner
names, and the region that a record names carries the identifier of the record. -/
structure BlockInv (s : SimOS) : Prop where
  nodup : ((occupied s.memoryBlocks_).map (fun b => b.pid)).Nodup
  bound : ∀ b ∈ occupied s.memoryBlocks_, b.pid < s.nextPid_
  names : ∀ b ∈ occupied s.memoryBlocks_, ∀ p, s.processes_ b.pid = some p →
    p.memory = ⟨b.start, b.size, b.pid⟩
  pids : ∀ k p, s.processes_ k = some p → p.memory.PID = k

/-- The state after `NewProcess(10, 1)` and `SimFork()` on `SimOS(1, 100, 10)`: process 2,
which has no parent, is on the CPU and its child 3 is ready. -/
def parentOnCpuExample : SimOS :=
  stateAfter 1 100 10 [Call.newProcess 10 1, Call.simFork]

/-- The state after `NewProcess(10, 1)`, `SimFork()` and `SimWait()` on
`SimOS(1, 100, 10)`: process 2 waits and its child 3 is on the CPU. -/
def childOnCpuExample : SimOS :=
  stateAfter 1 100 10 [Call.newProcess 10 1, Call.simFork, Call.simWait]

/-- A state in which process 2 is on the CPU with the child list `[4, 3]`, process 4 is
ready and process 3 is a zombie; all three are registered. -/
def zombieChildExample : SimOS :=
  { SimOS.construct 1 10 5 with
    nextPid_ := 5,
    cpuPid_ := 2,
    processes_ := mapSet (mapSet (mapSet (SimOS.construct 1 10 5).processes_ 2
      { requestExample 2 0 with children := ⟨[4, 3], []⟩ }) 4
      { requestExample 4 0 with parentPid := 2 }) 3
      { requestExample 3 0 with parentPid := 2, isZombie := true },
    readyQueue_ := [4] }

/-- The state after `NewProcess(10, 1)` and `NewProcess(10, 5)` on `SimOS(1, 100, 10)`:
process 3, which has no parent, is on the CPU and owns the block at address 10; process
2 is ready. -/
def ownerOnCpuExample : SimOS :=
  stateAfter 1 100 10 [Call.newProcess 10 1, Call.newProcess 10 5]

/-- What the claim on `SimWait` says of a state `s` whose CPU holds the process with
record `p`.  If the child list of the process is `X ++ z :: Y` with no registered zombie
in `X` and `z` a registered zombie, the call returns the state that differs from `s`
only in the registry: `z` is erased, the record of the process has the child list
`X ++ Y` and is otherwise as before, and every other entry is as before.  If the child
list holds no registered zombie, the call returns, the process is neither on the CPU
nor in the ready queue afterwards, the CPU is idle when the ready queue was empty, and
otherwise it holds the first ready process of the highest priority, which alone has
left the ready queue. -/
def WaitOutcome (s : SimOS) (p : Process) : Prop :=
  (∀ (X : List Int) (z : Int) (Y : List Int) (pz : Process),
    p.children.elems = X ++ z :: Y →
    (∀ c ∈ X, ∀ pc, s.processes_ c = some pc → pc.isZombie = false) →
    s.processes_ z = some pz → pz.isZombie = true →
    ∃ m : Int → Option Process, s.SimWait = some { s with processes_ := m } ∧
      m z = none ∧
      m s.cpuPid_ = some { p with children := p.children.eraseAt X.length } ∧
      (p.children.eraseAt X.length).elems = X ++ Y ∧
      ∀ k, k ≠ z → k ≠ s.cpuPid_ → m k = s.processes_ k) ∧
  ((∀ c ∈ p.children.elems, ∀ pc, s.processes_ c = some pc → pc.isZombie = false) →
    ∃ s', s.SimWait = some s' ∧ s'.cpuPid_ ≠ s.cpuPid_ ∧ s.cpuPid_ ∉ s'.readyQueue_ ∧
      (s.readyQueue_ = [] → s'.cpuPid_ = NO_PROCESS ∧ s'.readyQueue_ = []) ∧
      (s.readyQueue_ ≠ [] →
        ∃ X h Y, s.readyQueue_ = X ++ h :: Y ∧
          (∀ r ∈ X, (mapGet s.processes_ r).priority < (mapGet s.processes_ h).priority) ∧
          (∀ r ∈ s.readyQueue_,
            (mapGet s.processes_ r).priority ≤ (mapGet s.processes_ h).priority) ∧
          s'.cpuPid_ = h ∧
          s'.readyQueue_ = s.readyQueue_.filter (fun x => decide (x ≠ h))))

/-! ## Lemmas on lists -/

theorem split_at {α : Type} (l : List α) (i : Nat) (b : α) (h : l[i]? = some b) :
    l = l.take i ++ b :: l.drop (i + 1) := by
  induction l generalizing i with
  | nil => simp at h
  | cons x xs ih =>
    cases i with
    | zero => simp at h; simp [h]
    | succ i => simp at h; simp; exact ih i h


/-! ## The worst-fit search -/

theorem scanState_step (memorySize : Nat) (pre : List MemoryBlock) (b : MemoryBlock)
    (w : Option Nat) (mx : Nat) (h : ScanState memorySize pre w mx) :
    (b.isFree = true ∧ memorySize ≤ b.size ∧ mx < b.size →
      ScanState memorySize (pre ++ [b]) (some pre.length) b.size) ∧
    (¬ (b.isFree = true ∧ memorySize ≤ b.size ∧ mx < b.size) →
      ScanState memorySize (pre ++ [b]) w mx) := by
  cases w with
  | none =>
    obtain ⟨hmx, hall⟩ := h
    subst hmx
    constructor
    · rintro ⟨hf, hfit, hpos⟩
      refine ⟨pre, b, [], rfl, rfl, hf, hfit, rfl, hpos, ?_, ?_⟩
      · intro c hc hcf hcfit
        rcases List.mem_append.1 hc with hc | hc
        · rw [hall c hc hcf hcfit]; omega
        · simp at hc; subst hc; exact le_refl _
      · intro c hc hcf hcfit
        rw [hall c hc hcf hcfit]; exact hpos
    · intro hn
      refine ⟨rfl, ?_⟩
      intro c hc hcf hcfit
      rcases List.mem_append.1 hc with hc | hc
      · exact hall c hc hcf hcfit
      · simp at hc; subst hc
        by_contra hne
        exact hn ⟨hcf, hcfit, by omega⟩
  | some j =>
    obtain ⟨X, b0, Y, hpre, hlen, hf0, hfit0, hmx, hpos0, hle, hlt⟩ := h
    subst hmx
    constructor
    · rintro ⟨hf, hfit, hbig⟩
      refine ⟨pre, b, [], rfl, rfl, hf, hfit, rfl, by omega, ?_, ?_⟩
      · intro c hc hcf hcfit
        rcases List.mem_append.1 hc with hc | hc
        · have := hle c hc hcf hcfit; omega
        · simp at hc; subst hc; exact le_refl _
      · intro c hc hcf hcfit
        have := hle c hc hcf hcfit; omega
    · intro hn
      refine ⟨X, b0, Y ++ [b], by simp [hpre], hlen, hf0, hfit0, rfl, hpos0, ?_, hlt⟩
      intro c hc hcf hcfit
      rcases List.mem_append.1 hc with hc | hc
      · exact hle c hc hcf hcfit
      · simp at hc; subst hc
        by_contra hne
        exact hn ⟨hcf, hcfit, by omega⟩

theorem worstFitScan_state (memorySize : Nat) :
    ∀ (bs pre : List MemoryBlock) (w : Option Nat) (mx : Nat),
      ScanState memorySize pre w mx →
      ∃ mx', ScanState memorySize (pre ++ bs)
        (worstFitScan memorySize bs pre.length w mx) mx' := by
  intro bs
  induction bs with
  | nil => intro pre w mx h; exact ⟨mx, by simpa [worstFitScan] using h⟩
  | cons b bs ih =>
    intro pre w mx h
    have hstep := scanState_step memorySize pre b w mx h
    have e : pre ++ b :: bs = (pre ++ [b]) ++ bs := by simp
    have el : pre.length + 1 = (pre ++ [b]).length := by simp
    simp only [worstFitScan]
    split
    · next hc => rw [e, el]; exact ih _ _ _ (hstep.1 hc)
    · next hc => rw [e, el]; exact ih _ _ _ (hstep.2 hc)

/-- What the search of `allocateMemory` returns, for the whole block list. -/
theorem worstFitScan_spec (memorySize : Nat) (bl : List MemoryBlock) :
    ∃ mx, ScanState memorySize bl (worstFitScan memorySize bl 0 none 0) mx := by
  have h := worstFitScan_state memorySize bl [] none 0 ⟨rfl, by simp⟩
  simpa using h

theorem worstFitScan_none_iff (memorySize : Nat) (bl : List MemoryBlock) :
    worstFitScan memorySize bl 0 none 0 = none ↔
      ∀ c ∈ bl, c.isFree = true → memorySize ≤ c.size → c.size = 0 := by
  obtain ⟨mx, h⟩ := worstFitScan_spec memorySize bl
  constructor
  · intro hn
    rw [hn] at h
    exact h.2
  · intro hall
    cases hw : worstFitScan memorySize bl 0 none 0 with
    | none => rfl
    | some j =>
      rw [hw] at h
      obtain ⟨X, b, Y, hbl, _, hf, hfit, _, hpos, _, _⟩ := h
      have := hall b (by simp [hbl]) hf hfit
      omega

theorem getElem?_split {α : Type} (X Y : List α) (b : α) :
    (X ++ b :: Y)[X.length]? = some b := by
  induction X with
  | nil => simp
  | cons x X ih => simpa using ih

theorem modifyNth_split {α : Type} (f : α → α) (X Y : List α) (b : α) :
    modifyNth f (X ++ b :: Y) X.length = X ++ f b :: Y := by
  induction X with
  | nil => rfl
  | cons x X ih =>
    show x :: modifyNth f (X ++ b :: Y) X.length = x :: (X ++ f b :: Y)
    rw [ih]

theorem insertRemainder_split (X Y : List MemoryBlock) (b : MemoryBlock) (memorySize : Nat) :
    insertRemainder (X ++ b :: Y) X.length b memorySize =
      X ++ b :: ⟨addU64 b.start memorySize, subU64 b.size memorySize, true, NO_PROCESS⟩ ::
        Y := by
  unfold insertRemainder
  have h1 : (X ++ b :: Y).take (X.length + 1) = X ++ [b] := by
    have e : X ++ b :: Y = (X ++ [b]) ++ Y := by simp
    rw [e, List.take_left' (by simp)]
  have h2 : (X ++ b :: Y).drop (X.length + 1) = Y := by
    have e : X ++ b :: Y = (X ++ [b]) ++ Y := by simp
    rw [e, List.drop_left' (by simp)]
  rw [h1, h2]
  simp

/-- The outcomes of `allocateMemory`: failure, or one of three block lists after the
search has chosen the block `b` behind the blocks `X`.  With a remainder and spare
capacity the chosen block is occupied and the remainder follows it; with a remainder
and the vector full the chosen block is as before, the remainder follows it and the
capacity has doubled; without remainder the chosen block is occupied. -/
theorem allocateMemory_cases (s : SimOS) (process : Process) :
    (s.allocateMemory process = (false, s, process) ∧
      ∀ c ∈ s.memoryBlocks_, c.isFree = true → process.memorySize ≤ c.size → c.size = 0) ∨
    (∃ X b Y, s.memoryBlocks_ = X ++ b :: Y ∧ b.isFree = true ∧
      process.memorySize ≤ b.size ∧ 0 < b.size ∧
      (∀ c ∈ s.memoryBlocks_, c.isFree = true → process.memorySize ≤ c.size →
        c.size ≤ b.size) ∧
      (∀ c ∈ X, c.isFree = true → process.memorySize ≤ c.size → c.size < b.size) ∧
      ∃ bl cap,
        s.allocateMemory process =
          (true, { s with memoryBlocks_ := bl, blocksCapacity_ := cap },
           { process with memory := ⟨b.start, process.memorySize, process.pid⟩ }) ∧
        ((process.memorySize < b.size ∧ s.memoryBlocks_.length < s.blocksCapacity_ ∧
            bl = X ++ { b with isFree := false, pid := process.pid,
                               size := process.memorySize } ::
              ⟨addU64 b.start process.memorySize, subU64 b.size process.memorySize, true,
                NO_PROCESS⟩ :: Y ∧
            cap = s.blocksCapacity_) ∨
         (process.memorySize < b.size ∧ ¬ s.memoryBlocks_.length < s.blocksCapacity_ ∧
            bl = X ++ b ::
              ⟨addU64 b.start process.memorySize, subU64 b.size process.memorySize, true,
                NO_PROCESS⟩ :: Y ∧
            cap = 2 * s.memoryBlocks_.length) ∨
         (process.memorySize = b.size ∧
            bl = X ++ { b with isFree := false, pid := process.pid,
                               size := process.memorySize } :: Y ∧
            cap = s.blocksCapacity_))) := by
  obtain ⟨mx, h⟩ := worstFitScan_spec process.memorySize s.memoryBlocks_
  cases hw : worstFitScan process.memorySize s.memoryBlocks_ 0 none 0 with
  | none =>
    left
    rw [hw] at h
    exact ⟨by simp [SimOS.allocateMemory, hw], h.2⟩
  | some j =>
    right
    rw [hw] at h
    obtain ⟨X, b, Y, hbl, hlen, hf, hfit, _, hpos, hle, hlt⟩ := h
    refine ⟨X, b, Y, hbl, hf, hfit, hpos, hle, hlt, ?_⟩
    have hget : s.memoryBlocks_[j]? = some b := by
      rw [hbl, ← hlen]; exact getElem?_split X Y b
    subst hlen
    unfold SimOS.allocateMemory
    rw [hw]
    simp only [hget]
    by_cases hsplit : process.memorySize < b.size
    · rw [if_pos hsplit]
      by_cases hcap : s.memoryBlocks_.length < s.blocksCapacity_
      · rw [if_pos hcap]
        refine ⟨_, s.blocksCapacity_, rfl, Or.inl ⟨hsplit, hcap, ?_, rfl⟩⟩
        unfold writeThrough
        rw [hbl, insertRemainder_split, modifyNth_split]
      · rw [if_neg hcap]
        refine ⟨_, _, rfl, Or.inr (Or.inl ⟨hsplit, hcap, ?_, rfl⟩)⟩
        rw [hbl, insertRemainder_split]
    · rw [if_neg hsplit]
      refine ⟨_, s.blocksCapacity_, rfl, Or.inr (Or.inr ⟨by omega, ?_, rfl⟩)⟩
      unfold writeThrough
      rw [hbl, modifyNth_split]

/-! ## Adjacent free blocks -/

theorem notBothFree_flip : flip NotBothFree = NotBothFree := by
  funext a b
  simp [flip, NotBothFree, and_comm]

theorem noAdjacentFree_reverse (l : List MemoryBlock) :
    NoAdjacentFree l.reverse ↔ NoAdjacentFree l := by
  unfold NoAdjacentFree
  rw [List.chain'_reverse, notBothFree_flip]

/-- Replacing the head of a list by a block that is free only if the old head was. -/
theorem noAdjacentFree_head (b c : MemoryBlock) (l : List MemoryBlock)
    (hbc : c.isFree = true → b.isFree = true) (h : NoAdjacentFree (b :: l)) :
    NoAdjacentFree (c :: l) := by
  unfold NoAdjacentFree at *
  rw [List.chain'_cons'] at *
  refine ⟨?_, h.2⟩
  intro y hy hcy
  exact h.1 y hy ⟨hbc hcy.1, hcy.2⟩

theorem noAdjacentFree_occupied_head (c : MemoryBlock) (l : List MemoryBlock)
    (hc : c.isFree = false) (h : NoAdjacentFree l) : NoAdjacentFree (c :: l) := by
  unfold NoAdjacentFree at *
  rw [List.chain'_cons']
  refine ⟨?_, h⟩
  intro y _ hcy
  rw [hc] at hcy
  exact Bool.false_ne_true hcy.1

theorem noAdjacentFree_tail (b : MemoryBlock) (l : List MemoryBlock)
    (h : NoAdjacentFree (b :: l)) : NoAdjacentFree l := by
  unfold NoAdjacentFree at *
  exact h.tail

theorem noAdjacentFree_join (X Y : List MemoryBlock) (b : MemoryBlock) :
    NoAdjacentFree (X ++ b :: Y) ↔ NoAdjacentFree (b :: X.reverse) ∧ NoAdjacentFree (b :: Y) := by
  have e : b :: X.reverse = (X ++ [b]).reverse := by simp
  rw [e, noAdjacentFree_reverse]
  unfold NoAdjacentFree
  exact List.chain'_split

theorem mergeBackward_noAdjacentFree :
    ∀ (before : List MemoryBlock) (cur : MemoryBlock),
      NoAdjacentFree before → cur.isFree = true →
      (mergeBackward before cur).2.isFree = true ∧
      NoAdjacentFree ((mergeBackward before cur).2 :: (mergeBackward before cur).1) := by
  intro before
  induction before with
  | nil => intro cur _ hc; exact ⟨hc, by simp [mergeBackward, NoAdjacentFree]⟩
  | cons p before ih =>
    intro cur h hc
    simp only [mergeBackward]
    split
    · next hp => exact ih _ (noAdjacentFree_tail p before h) hp
    · next hp =>
      refine ⟨hc, ?_⟩
      have h2 := noAdjacentFree_occupied_head p before (by simpa using hp)
        (noAdjacentFree_tail p before h)
      unfold NoAdjacentFree at *
      rw [List.chain'_cons]
      exact ⟨fun hh => hp hh.2, h2⟩

theorem mergeForward_noAdjacentFree :
    ∀ (rest : List MemoryBlock) (cur : MemoryBlock),
      NoAdjacentFree rest → cur.isFree = true →
      (mergeForward cur rest).1.isFree = true ∧
      NoAdjacentFree ((mergeForward cur rest).1 :: (mergeForward cur rest).2) := by
  intro rest
  induction rest with
  | nil => intro cur _ hc; exact ⟨hc, by simp [mergeForward, NoAdjacentFree]⟩
  | cons n rest ih =>
    intro cur h hc
    simp only [mergeForward]
    split
    · next hn => exact ih _ (noAdjacentFree_tail n rest h) hc
    · next hn =>
      refine ⟨hc, ?_⟩
      unfold NoAdjacentFree at *
      rw [List.chain'_cons]
      exact ⟨fun hh => hn hh.2, h⟩

theorem deallocateScan_noAdjacentFree (pid : Int) :
    ∀ (rest before : List MemoryBlock),
      NoAdjacentFree (before.reverse ++ rest) →
      NoAdjacentFree (deallocateScan pid before rest) := by
  intro rest
  induction rest with
  | nil => intro before h; simpa [deallocateScan] using h
  | cons b rest ih =>
    intro before h
    simp only [deallocateScan]
    split
    · rw [noAdjacentFree_join, List.reverse_reverse] at h
      have hB := mergeBackward_noAdjacentFree before
        { b with isFree := true, pid := NO_PROCESS } (noAdjacentFree_tail b _ h.1) rfl
      have hF := mergeForward_noAdjacentFree rest
        (mergeBackward before { b with isFree := true, pid := NO_PROCESS }).2
        (noAdjacentFree_tail b _ h.2) hB.1
      rw [noAdjacentFree_join, List.reverse_reverse]
      exact ⟨noAdjacentFree_head _ _ _ (fun _ => hB.1) hB.2, hF.2⟩
    · apply ih
      simpa using h


/-! ## Runs and reachability -/

theorem reachable_step (s0 s s' : SimOS) (c : Call) (h : Reachable s0 s)
    (hc : s.step c = some s') : Reachable s0 s' := by
  cases c with
  | newProcess size priority =>
    simp only [SimOS.step, Option.map_eq_some'] at hc
    obtain ⟨⟨r, s1⟩, h1, e⟩ := hc
    cases e
    exact Reachable.newProcess s s1 size priority r h h1
  | simFork =>
    simp only [SimOS.step, Option.map_eq_some'] at hc
    obtain ⟨⟨r, s1⟩, h1, e⟩ := hc
    cases e
    exact Reachable.simFork s s1 r h h1
  | simExit fuel => exact Reachable.simExit s s' fuel h hc
  | simWait => exact Reachable.simWait s s' h hc
  | diskReadRequest d f => exact Reachable.diskReadRequest s s' d f h hc
  | diskJobCompleted d => exact Reachable.diskJobCompleted s s' d h hc

theorem reachable_run (s0 : SimOS) (calls : List Call) :
    ∀ (s s' : SimOS), Reachable s0 s → s.run calls = some s' → Reachable s0 s' := by
  induction calls with
  | nil => intro s s' h hr; simp only [SimOS.run] at hr; cases hr; exact h
  | cons c cs ih =>
    intro s s' h hr
    simp only [SimOS.run, Option.bind_eq_some] at hr
    obtain ⟨s1, h1, h2⟩ := hr
    exact ih s1 s' (reachable_step s0 s s1 c h h1) h2

/-- The state after a run from `s0` is reachable from `s0`. -/
theorem reachable_of_run (s0 s : SimOS) (calls : List Call) (h : s0.run calls = some s) :
    Reachable s0 s :=
  reachable_run s0 calls s0 s Reachable.start h

theorem reachable_run_getD (s0 : SimOS) (calls : List Call) :
    Reachable s0 ((s0.run calls).getD s0) := by
  cases h : s0.run calls with
  | none => exact Reachable.start
  | some s => exact reachable_of_run s0 s calls h


/-! ## Maps -/

theorem mapSet_apply {α : Type} (m : Int → Option α) (k : Int) (v : α) (x : Int) :
    mapSet m k v x = if x = k then some v else m x := rfl

theorem mapErase_apply {α : Type} (m : Int → Option α) (k : Int) (x : Int) :
    mapErase m k x = if x = k then none else m x := rfl

theorem mapModify_apply (m : Int → Option Process) (k : Int) (f : Process → Process)
    (x : Int) : mapModify m k f x = if x = k then (m k).map f else m x := rfl

theorem mapIndex_apply (m : Int → Option Process) (k : Int) (x : Int) :
    mapIndex m k x = if x = k then some (mapGet m k) else m x := by
  unfold mapIndex mapGet
  cases h : m k with
  | none => simp [mapSet]
  | some p =>
    simp only [Option.getD_some]
    split
    · next e => rw [e, h]
    · rfl

theorem mapIndex_of_isSome (m : Int → Option Process) (k : Int)
    (h : (m k).isSome = true) : mapIndex m k = m := by
  unfold mapIndex
  cases hk : m k with
  | none => rw [hk] at h; cases h
  | some p => rfl

theorem mapGet_of_eq (m : Int → Option Process) (k : Int) (p : Process)
    (h : m k = some p) : mapGet m k = p := by
  simp [mapGet, h]

/-! ## The choice of `scheduleCPU` -/

theorem maxElementFrom_spec (m : Int → Option Process) :
    ∀ (rest : List Int) (a hp : Int), maxElementFrom m a rest = some hp →
      hp ∈ a :: rest ∧
      (rest ≠ [] → ∀ r ∈ a :: rest, (m r).isSome = true) ∧
      ((m a).isSome = true → (m hp).isSome = true) ∧
      ∀ r ∈ a :: rest, (mapGet m r).priority ≤ (mapGet m hp).priority := by
  intro rest
  induction rest with
  | nil =>
    intro a hp h
    simp only [maxElementFrom, Option.some.injEq] at h
    subst h
    simp
  | cons x rest ih =>
    intro a hp h
    simp only [maxElementFrom] at h
    split at h
    · next pl px hl hx =>
      have gl : mapGet m a = pl := mapGet_of_eq m a pl hl
      have gx : mapGet m x = px := mapGet_of_eq m x px hx
      split at h
      · next hlt =>
        obtain ⟨h1, h2, h3, h4⟩ := ih x hp h
        have hxp := h4 x (by simp)
        refine ⟨by simp only [List.mem_cons] at h1 ⊢; tauto, ?_, ?_, ?_⟩
        · intro _ r hr
          simp only [List.mem_cons] at hr
          rcases hr with rfl | rfl | hr
          · simp [hl]
          · simp [hx]
          · cases rest with
            | nil => simp at hr
            | cons y ys => exact h2 (by simp) r (by simp only [List.mem_cons] at hr ⊢; tauto)
        · intro _; exact h3 (by simp [hx])
        · intro r hr
          simp only [List.mem_cons] at hr
          rcases hr with rfl | hr
          · rw [gl]; rw [gx] at hxp; omega
          · exact h4 r (by simp only [List.mem_cons]; exact hr)
      · next hge =>
        obtain ⟨h1, h2, h3, h4⟩ := ih a hp h
        have hap := h4 a (by simp)
        refine ⟨by simp only [List.mem_cons] at h1 ⊢; tauto, ?_, ?_, ?_⟩
        · intro _ r hr
          simp only [List.mem_cons] at hr
          rcases hr with rfl | rfl | hr
          · simp [hl]
          · simp [hx]
          · cases rest with
            | nil => simp at hr
            | cons y ys => exact h2 (by simp) r (by simp only [List.mem_cons] at hr ⊢; tauto)
        · exact h3
        · intro r hr
          simp only [List.mem_cons] at hr
          rcases hr with rfl | rfl | hr
          · exact hap
          · rw [gx]; rw [gl] at hap; omega
          · exact h4 r (by simp only [List.mem_cons]; right; exact hr)
    · cases h

theorem maxElementFrom_isSome (m : Int → Option Process) :
    ∀ (rest : List Int) (a : Int), (∀ r ∈ a :: rest, (m r).isSome = true) →
      (maxElementFrom m a rest).isSome = true := by
  intro rest
  induction rest with
  | nil => intro a _; rfl
  | cons x rest ih =>
    intro a h
    have ha := h a (by simp)
    have hx := h x (by simp)
    obtain ⟨pl, hl⟩ := Option.isSome_iff_exists.1 ha
    obtain ⟨px, hx'⟩ := Option.isSome_iff_exists.1 hx
    simp only [maxElementFrom, hl, hx']
    split
    · exact ih x (fun r hr => h r (by simp only [List.mem_cons] at hr ⊢; tauto))
    · exact ih a (fun r hr => h r (by simp only [List.mem_cons] at hr ⊢; tauto))

/-- The outcomes of `scheduleCPU`: the CPU goes idle on an empty ready queue; or the
chosen process `hp` takes an idle CPU; or it preempts the occupant; or nothing but
the evaluation of `processes_[...]` happens. -/
theorem scheduleCPU_cases (s s' : SimOS) (h : s.scheduleCPU = some s') :
    (s.readyQueue_ = [] ∧ s' = { s with cpuPid_ := NO_PROCESS }) ∨
    ∃ first rest hp, s.readyQueue_ = first :: rest ∧
      maxElementFrom s.processes_ first rest = some hp ∧
      ((s.cpuPid_ = NO_PROCESS ∧
          s' = { s with cpuPid_ := hp, readyQueue_ := removePid s.readyQueue_ hp }) ∨
       (s.cpuPid_ ≠ NO_PROCESS ∧
          (mapGet (mapIndex (mapIndex s.processes_ hp) s.cpuPid_) s.cpuPid_).priority <
            (mapGet (mapIndex (mapIndex s.processes_ hp) s.cpuPid_) hp).priority ∧
          s' = { s with processes_ := mapIndex (mapIndex s.processes_ hp) s.cpuPid_,
                        cpuPid_ := hp,
                        readyQueue_ :=
                          removePid (addPid s.readyQueue_ s.cpuPid_) hp }) ∨
       (s.cpuPid_ ≠ NO_PROCESS ∧
          ¬ ((mapGet (mapIndex (mapIndex s.processes_ hp) s.cpuPid_) s.cpuPid_).priority <
            (mapGet (mapIndex (mapIndex s.processes_ hp) s.cpuPid_) hp).priority) ∧
          s' = { s with processes_ := mapIndex (mapIndex s.processes_ hp) s.cpuPid_ })) := by
  unfold SimOS.scheduleCPU at h
  split at h
  · next hq => cases h; exact Or.inl ⟨hq, rfl⟩
  · next first rest hq =>
    right
    split at h
    · cases h
    · next hp hmax =>
      refine ⟨first, rest, hp, hq, hmax, ?_⟩
      split at h
      · next hc =>
        cases h
        exact Or.inl ⟨hc, rfl⟩
      · next hc =>
        simp only at h
        split at h
        · next hlt =>
          cases h
          exact Or.inr (Or.inl ⟨hc, hlt, rfl⟩)
        · next hge =>
          cases h
          exact Or.inr (Or.inr ⟨hc, hge, rfl⟩)

/-! ## The public operations, case by case -/

/-- The call `allocateMemory` changes nothing but the vector of blocks and the member
`memory` of the process, and nothing at all when it fails. -/
theorem allocateMemory_eq (s : SimOS) (process : Process) :
    ((s.allocateMemory process).1 = false ∧ s.allocateMemory process = (false, s, process)) ∨
    ((s.allocateMemory process).1 = true ∧
      s.allocateMemory process =
        (true,
          { s with memoryBlocks_ := (s.allocateMemory process).2.1.memoryBlocks_,
                   blocksCapacity_ := (s.allocateMemory process).2.1.blocksCapacity_ },
          { process with memory := (s.allocateMemory process).2.2.memory })) := by
  rcases allocateMemory_cases s process with ⟨e, _⟩ | ⟨X, b, Y, _, _, _, _, _, _, bl, cap, e, _⟩
  · left; rw [e]; exact ⟨rfl, rfl⟩
  · right; rw [e]; exact ⟨rfl, rfl⟩

theorem NewProcess_cases (s : SimOS) (size : Nat) (priority : Int) (r : Bool) (s' : SimOS)
    (h : s.NewProcess size priority = some (r, s')) :
    ((s.newAlloc size priority).1 = false ∧ r = false ∧
      s' = { s with nextPid_ := s.nextPid_ + 1 }) ∨
    ((s.newAlloc size priority).1 = true ∧ r = true ∧
      SimOS.scheduleCPU
        { s with
          nextPid_ := s.nextPid_ + 1,
          memoryBlocks_ := (s.newAlloc size priority).2.1.memoryBlocks_,
          blocksCapacity_ := (s.newAlloc size priority).2.1.blocksCapacity_,
          processes_ := mapSet s.processes_ s.nextPid_
            { s.newProcessRecord size priority with
              memory := (s.newAlloc size priority).2.2.memory },
          readyQueue_ := addPid s.readyQueue_ s.nextPid_ } = some s') := by
  unfold SimOS.NewProcess at h
  simp only at h
  unfold SimOS.newAlloc
  rcases allocateMemory_eq { s with nextPid_ := s.nextPid_ + 1 }
      (s.newProcessRecord size priority) with ⟨e1, e⟩ | ⟨e1, e⟩
  · left
    rw [e] at h
    simp only [Option.some.injEq, Prod.mk.injEq] at h
    exact ⟨e1, h.1.symm, h.2.symm⟩
  · right
    rw [e] at h
    simp only [Option.map_eq_some', Prod.mk.injEq] at h
    obtain ⟨s4, h4, hr, hs⟩ := h
    subst hs
    exact ⟨e1, hr.symm, h4⟩

theorem SimFork_cases (s : SimOS) (r : Bool) (s' : SimOS) (h : s.SimFork = some (r, s')) :
    ((s.cpuPid_ = NO_PROCESS ∨ s.cpuPid_ = 1) ∧ r = false ∧ s' = s) ∨
    (¬ (s.cpuPid_ = NO_PROCESS ∨ s.cpuPid_ = 1) ∧
      ((s.forkAlloc.1 = false ∧ r = false ∧
        s' = { s with processes_ := mapIndex s.processes_ s.cpuPid_,
                      nextPid_ := s.nextPid_ + 1 }) ∨
      (s.forkAlloc.1 = true ∧ r = true ∧
        SimOS.scheduleCPU
          { s with
            nextPid_ := s.nextPid_ + 1,
            memoryBlocks_ := s.forkAlloc.2.1.memoryBlocks_,
            blocksCapacity_ := s.forkAlloc.2.1.blocksCapacity_,
            processes_ := mapModify
              (mapSet (mapIndex s.processes_ s.cpuPid_) s.nextPid_
                { s.childRecord with memory := s.forkAlloc.2.2.memory })
              s.cpuPid_ (fun p => { p with children := p.children.push_back s.nextPid_ }),
            readyQueue_ := addPid s.readyQueue_ s.nextPid_ } = some s'))) := by
  unfold SimOS.SimFork at h
  split at h
  · next hg =>
    left
    simp only [Option.some.injEq, Prod.mk.injEq] at h
    exact ⟨hg, h.1.symm, h.2.symm⟩
  · next hg =>
    right
    refine ⟨hg, ?_⟩
    simp only at h
    unfold SimOS.forkAlloc
    rcases allocateMemory_eq
        { s with processes_ := mapIndex s.processes_ s.cpuPid_, nextPid_ := s.nextPid_ + 1 }
        s.childRecord with ⟨e1, e⟩ | ⟨e1, e⟩
    · left
      rw [e] at h
      simp only [Option.some.injEq, Prod.mk.injEq] at h
      exact ⟨e1, h.1.symm, h.2.symm⟩
    · right
      rw [e] at h
      simp only [Option.map_eq_some', Prod.mk.injEq] at h
      obtain ⟨s4, h4, hr, hs⟩ := h
      subst hs
      exact ⟨e1, hr.symm, h4⟩

theorem terminate_cases (fuel : Nat) (s : SimOS) (pid : Int) (s' : SimOS)
    (h : s.terminateProcessAndDescendants (fuel + 1) pid = some s') :
    ∃ s1 process,
      childLoop (SimOS.terminateProcessAndDescendants fuel) pid
        (mapGet (mapIndex s.processes_ pid) pid).children.elems.length 0
        { s with processes_ := mapIndex s.processes_ pid } = some s1 ∧
      s1.processes_ pid = some process ∧ s' = finishTermination s1 pid process := by
  simp only [SimOS.terminateProcessAndDescendants] at h
  split at h
  · cases h
  · next s1 h1 =>
    split at h
    · cases h
    · next process hp =>
      cases h
      exact ⟨s1, process, h1, hp, rfl⟩

theorem childLoop_cases (recurse : SimOS → Int → Option SimOS) (pid : Int)
    (remaining i : Nat) (s s' : SimOS)
    (h : childLoop recurse pid (remaining + 1) i s = some s') :
    ∃ process childPid, s.processes_ pid = some process ∧
      process.children.slot i = some childPid ∧
      ((mapCount s.processes_ childPid = true ∧ ∃ s1, recurse s childPid = some s1 ∧
          childLoop recurse pid remaining (i + 1) s1 = some s') ∨
       (mapCount s.processes_ childPid = false ∧
          childLoop recurse pid remaining (i + 1) s = some s')) := by
  simp only [childLoop] at h
  split at h
  · cases h
  · next process hp =>
    split at h
    · cases h
    · next childPid hc =>
      refine ⟨process, childPid, hp, hc, ?_⟩
      split at h
      · next hcount =>
        simp only [Option.bind_eq_some] at h
        exact Or.inl ⟨hcount, h⟩
      · next hcount =>
        exact Or.inr ⟨by simpa using hcount, h⟩

theorem SimExit_cases (fuel : Nat) (s s' : SimOS) (h : s.SimExit fuel = some s') :
    ((s.cpuPid_ = NO_PROCESS ∨ s.cpuPid_ = 1) ∧ s' = s) ∨
    (¬ (s.cpuPid_ = NO_PROCESS ∨ s.cpuPid_ = 1) ∧
      ∃ s1, s.terminateProcessAndDescendants fuel s.cpuPid_ = some s1 ∧
        s1.scheduleCPU = some s') := by
  unfold SimOS.SimExit at h
  split at h
  · next hg => cases h; exact Or.inl ⟨hg, rfl⟩
  · next hg =>
    simp only [Option.bind_eq_some] at h
    exact Or.inr ⟨hg, h⟩

theorem SimWait_cases (s s' : SimOS) (h : s.SimWait = some s') :
    ((s.cpuPid_ = NO_PROCESS ∨ s.cpuPid_ = 1) ∧ s' = s) ∨
    (¬ (s.cpuPid_ = NO_PROCESS ∨ s.cpuPid_ = 1) ∧
      ((∃ i z, s.waitScan.2 = some i ∧
          (mapGet (mapIndex s.processes_ s.cpuPid_) s.cpuPid_).children.elems[i]? = some z ∧
          s' = { s with
                 processes_ := mapModify (mapErase s.waitScan.1 z) s.cpuPid_
                    (fun p => { p with children := p.children.eraseAt i }) }) ∨
       (s.waitScan.2 = none ∧
          SimOS.scheduleCPU
            { s with processes_ := s.waitScan.1, cpuPid_ := NO_PROCESS } = some s'))) := by
  unfold SimOS.SimWait at h
  split at h
  · next hg => cases h; exact Or.inl ⟨hg, rfl⟩
  · next hg =>
    right
    refine ⟨hg, ?_⟩
    simp only at h
    unfold SimOS.waitScan
    split at h
    · next m1 i heq =>
      left
      split at h
      · cases h
      · next z hz =>
        cases h
        refine ⟨i, z, by rw [heq], hz, ?_⟩
        rw [heq]
    · next m1 heq =>
      right
      rw [heq]
      exact ⟨rfl, h⟩

theorem DiskReadRequest_cases (s s' : SimOS) (diskNumber : Int) (fileName : String)
    (h : s.DiskReadRequest diskNumber fileName = some s') :
    ((s.cpuPid_ = NO_PROCESS ∨ s.cpuPid_ = 1 ∨ diskNumber < 0 ∨
        (s.diskQueues_.length : Int) ≤ diskNumber) ∧ s' = s) ∨
    (¬ (s.cpuPid_ = NO_PROCESS ∨ s.cpuPid_ = 1 ∨ diskNumber < 0 ∨
        (s.diskQueues_.length : Int) ≤ diskNumber) ∧
      ((s.activeDiskJobs_ diskNumber = none ∧
          SimOS.scheduleCPU
            { s with activeDiskJobs_ := mapSet s.activeDiskJobs_ diskNumber
                        ⟨s.cpuPid_, fileName⟩,
                     cpuPid_ := NO_PROCESS } = some s') ∨
       ((s.activeDiskJobs_ diskNumber).isSome = true ∧
          SimOS.scheduleCPU
            { s with diskQueues_ := modifyNth (fun q => q ++ [⟨s.cpuPid_, fileName⟩])
                        s.diskQueues_ diskNumber.toNat,
                     cpuPid_ := NO_PROCESS } = some s'))) := by
  unfold SimOS.DiskReadRequest at h
  split at h
  · next hg => cases h; exact Or.inl ⟨hg, rfl⟩
  · next hg =>
    right
    refine ⟨hg, ?_⟩
    simp only [mapCount] at h
    split at h
    · next hc =>
      left
      exact ⟨by simpa using hc, h⟩
    · next hc =>
      right
      refine ⟨?_, h⟩
      cases hj : s.activeDiskJobs_ diskNumber with
      | none => rw [hj] at hc; simp at hc
      | some j => rfl

theorem DiskJobCompleted_cases (s s' : SimOS) (diskNumber : Int)
    (h : s.DiskJobCompleted diskNumber = some s') :
    ((diskNumber < 0 ∨ (s.diskQueues_.length : Int) ≤ diskNumber) ∧ s' = s) ∨
    (s.activeDiskJobs_ diskNumber = none ∧ s' = s) ∨
    (∃ job, ¬ (diskNumber < 0 ∨ (s.diskQueues_.length : Int) ≤ diskNumber) ∧
      s.activeDiskJobs_ diskNumber = some job ∧
      (((∃ p, s.processes_ job.PID = some p ∧ p.isZombie = false) ∧
          SimOS.scheduleCPU
            (SimOS.addToReadyQueue
              (SimOS.startNextJob
                { s with activeDiskJobs_ := mapErase s.activeDiskJobs_ diskNumber }
                diskNumber) job.PID) = some s') ∨
       (s' = SimOS.startNextJob
                { s with activeDiskJobs_ := mapErase s.activeDiskJobs_ diskNumber }
                diskNumber))) := by
  unfold SimOS.DiskJobCompleted at h
  split at h
  · next hg => cases h; exact Or.inl ⟨hg, rfl⟩
  · next hg =>
    right
    split at h
    · next hn => cases h; exact Or.inl ⟨hn, rfl⟩
    · next job hj =>
      right
      refine ⟨job, hg, hj, ?_⟩
      simp only at h
      have hproc : (SimOS.startNextJob
          { s with activeDiskJobs_ := mapErase s.activeDiskJobs_ diskNumber }
          diskNumber).processes_ = s.processes_ := by
        unfold SimOS.startNextJob
        split <;> rfl
      rw [hproc] at h
      split at h
      · next p hp =>
        split at h
        · next hz => exact Or.inl ⟨⟨p, hp, hz⟩, h⟩
        · cases h; exact Or.inr rfl
      · cases h; exact Or.inr rfl

/-! ## The recursion depth -/

theorem childLoop_mono (r1 r2 : SimOS → Int → Option SimOS)
    (h : ∀ s pid s', r1 s pid = some s' → r2 s pid = some s') (pid : Int) :
    ∀ (remaining i : Nat) (s s' : SimOS), childLoop r1 pid remaining i s = some s' →
      childLoop r2 pid remaining i s = some s' := by
  intro remaining
  induction remaining with
  | zero => intro i s s' hl; simpa [childLoop] using hl
  | succ k ih =>
    intro i s s' hl
    obtain ⟨process, childPid, hp, hc, ⟨hcount, s1, h1, h2⟩ | ⟨hcount, h2⟩⟩ :=
      childLoop_cases r1 pid k i s s' hl
    · simp only [childLoop, hp, hc, hcount, if_true, h _ _ _ h1, Option.some_bind]
      exact ih _ _ _ h2
    · simp only [childLoop, hp, hc, hcount]
      exact ih _ _ _ h2

/-- A result of `terminateProcessAndDescendants` obtained with some recursion depth is
the result with every larger depth. -/
theorem terminate_mono :
    ∀ (fuel : Nat) (s : SimOS) (pid : Int) (s' : SimOS),
      s.terminateProcessAndDescendants fuel pid = some s' →
      s.terminateProcessAndDescendants (fuel + 1) pid = some s' := by
  intro fuel
  induction fuel with
  | zero => intro s pid s' h; simp [SimOS.terminateProcessAndDescendants] at h
  | succ f ih =>
    intro s pid s' h
    obtain ⟨s1, process, h1, hp, rfl⟩ := terminate_cases f s pid s' h
    have h2 := childLoop_mono _ _ ih pid _ _ _ _ h1
    simp only [SimOS.terminateProcessAndDescendants] at h2 ⊢
    rw [h2]
    simp only [hp]

/-- A result of `SimExit` obtained with some recursion depth is the result with every
larger depth. -/
theorem SimExit_mono (fuel extra : Nat) (s s' : SimOS) (h : s.SimExit fuel = some s') :
    s.SimExit (fuel + extra) = some s' := by
  induction extra with
  | zero => exact h
  | succ k ih =>
    rcases SimExit_cases (fuel + k) s s' ih with ⟨hg, rfl⟩ | ⟨hg, s1, h1, h2⟩
    · unfold SimOS.SimExit
      rw [if_pos hg]
    · unfold SimOS.SimExit
      rw [if_neg hg, show fuel + (k + 1) = fuel + k + 1 from rfl,
        terminate_mono _ _ _ _ h1]
      exact h2

/-! ## Identifiers stay in range -/

theorem mem_addPid (q : List Int) (pid x : Int) : x ∈ addPid q pid ↔ x ∈ q ∨ x = pid := by
  unfold addPid
  split
  · next h =>
    constructor
    · exact Or.inl
    · rintro (hx | rfl)
      · exact hx
      · exact h
  · simp

theorem mem_removePid (q : List Int) (pid x : Int) : x ∈ removePid q pid ↔ x ∈ q ∧ x ≠ pid := by
  simp [removePid]

theorem mem_eraseAt (v : PidVector) (i : Nat) (c : Int) (h : c ∈ (v.eraseAt i).elems) :
    c ∈ v.elems := by
  unfold PidVector.eraseAt at h
  split at h
  · exact h
  · split at h
    · exact List.mem_of_mem_eraseIdx h
    · exact h

theorem mem_eraseValue (v : PidVector) (x c : Int) (h : c ∈ (v.eraseValue x).elems) :
    c ∈ v.elems := by
  unfold PidVector.eraseValue at h
  split at h
  · exact h
  · exact mem_eraseAt v _ c h

theorem range_procs (s : SimOS) (m : Int → Option Process) (hr : RangeInv s)
    (hk : ∀ k, (m k).isSome = true → InRange s k)
    (hc : ∀ k p, m k = some p → ∀ c ∈ p.children.elems, InRange s c) :
    RangeInv { s with processes_ := m } :=
  { next := hr.next, keys := hk, cpu := hr.cpu, ready := hr.ready, children := hc,
    pending := hr.pending }

theorem range_queue (s : SimOS) (c : Int) (q : List Int) (hr : RangeInv s)
    (hc : c ≠ NO_PROCESS → InRange s c) (hq : ∀ r ∈ q, InRange s r) :
    RangeInv { s with cpuPid_ := c, readyQueue_ := q } :=
  { next := hr.next, keys := hr.keys, cpu := hc, ready := hq, children := hr.children,
    pending := hr.pending }

theorem range_blocks (s : SimOS) (bl : List MemoryBlock) (cap : Nat) (hr : RangeInv s) :
    RangeInv { s with memoryBlocks_ := bl, blocksCapacity_ := cap } :=
  { next := hr.next, keys := hr.keys, cpu := hr.cpu, ready := hr.ready,
    children := hr.children, pending := hr.pending }

theorem range_next (s : SimOS) (hr : RangeInv s) :
    RangeInv { s with nextPid_ := s.nextPid_ + 1 } := by
  have mono : ∀ k, InRange s k → InRange { s with nextPid_ := s.nextPid_ + 1 } k := by
    intro k hk
    exact ⟨hk.1, by have := hk.2; show k < s.nextPid_ + 1; omega⟩
  exact
    { next := by have := hr.next; show 1 ≤ s.nextPid_ + 1; omega
      keys := fun k hk => mono k (hr.keys k hk)
      cpu := fun hc => mono _ (hr.cpu hc)
      ready := fun r hq => mono r (hr.ready r hq)
      children := fun k p hp c hc => mono c (hr.children k p hp c hc)
      pending := fun x hx => mono x (hr.pending x hx) }

theorem RangeInv.fresh (t : SimOS) (k : Int) (_ : RangeInv t) (h1 : 1 ≤ k)
    (h2 : k < t.nextPid_) : InRange t k := ⟨h1, h2⟩

theorem range_mapIndex (s : SimOS) (k : Int) (hr : RangeInv s) (hk : InRange s k) :
    RangeInv { s with processes_ := mapIndex s.processes_ k } := by
  apply range_procs s _ hr
  · intro x hx
    rw [mapIndex_apply] at hx
    split at hx
    · next e => rw [e]; exact hk
    · exact hr.keys x hx
  · intro x p hp c hc
    rw [mapIndex_apply] at hp
    split at hp
    · next e =>
      simp only [Option.some.injEq] at hp
      subst hp
      unfold mapGet at hc
      cases hm : s.processes_ k with
      | none => rw [hm] at hc; simp [zeroProcess, PidVector.empty] at hc
      | some p0 => rw [hm] at hc; exact hr.children k p0 hm c hc
    · exact hr.children x p hp c hc

theorem range_mapSet (s : SimOS) (k : Int) (p : Process) (hr : RangeInv s)
    (hk : InRange s k) (hp : ∀ c ∈ p.children.elems, InRange s c) :
    RangeInv { s with processes_ := mapSet s.processes_ k p } := by
  apply range_procs s _ hr
  · intro x hx
    rw [mapSet_apply] at hx
    split at hx
    · next e => rw [e]; exact hk
    · exact hr.keys x hx
  · intro x p' hp' c hc
    rw [mapSet_apply] at hp'
    split at hp'
    · simp only [Option.some.injEq] at hp'
      subst hp'
      exact hp c hc
    · exact hr.children x p' hp' c hc

theorem range_mapModify (s : SimOS) (k : Int) (f : Process → Process) (hr : RangeInv s)
    (hf : ∀ p, ∀ c ∈ (f p).children.elems, c ∈ p.children.elems ∨ InRange s c) :
    RangeInv { s with processes_ := mapModify s.processes_ k f } := by
  apply range_procs s _ hr
  · intro x hx
    rw [mapModify_apply] at hx
    split at hx
    · next e =>
      rw [e]
      apply hr.keys
      cases hm : s.processes_ k with
      | none => rw [hm] at hx; cases hx
      | some p0 => rfl
    · exact hr.keys x hx
  · intro x p' hp' c hc
    rw [mapModify_apply] at hp'
    split at hp'
    · cases hm : s.processes_ k with
      | none => rw [hm] at hp'; cases hp'
      | some p0 =>
        rw [hm] at hp'
        simp only [Option.map_some', Option.some.injEq] at hp'
        subst hp'
        rcases hf p0 c hc with h1 | h1
        · exact hr.children k p0 hm c h1
        · exact h1
    · exact hr.children x p' hp' c hc

theorem range_mapErase (s : SimOS) (k : Int) (hr : RangeInv s) :
    RangeInv { s with processes_ := mapErase s.processes_ k } := by
  apply range_procs s _ hr
  · intro x hx
    rw [mapErase_apply] at hx
    split at hx
    · cases hx
    · exact hr.keys x hx
  · intro x p' hp' c hc
    rw [mapErase_apply] at hp'
    split at hp'
    · cases hp'
    · exact hr.children x p' hp' c hc

theorem scheduleCPU_range (s s' : SimOS) (h : s.scheduleCPU = some s') (hr : RangeInv s) :
    RangeInv s' := by
  rcases scheduleCPU_cases s s' h with ⟨_, rfl⟩ |
    ⟨first, rest, hp, hq, hmax, ⟨hc, rfl⟩ | ⟨hc, _, rfl⟩ | ⟨hc, _, rfl⟩⟩
  · exact range_queue s NO_PROCESS s.readyQueue_ hr (fun hne => absurd rfl hne) hr.ready
  · have hmem : hp ∈ s.readyQueue_ := by
      rw [hq]; exact (maxElementFrom_spec _ _ _ _ hmax).1
    exact range_queue s hp (removePid s.readyQueue_ hp) hr (fun _ => hr.ready hp hmem)
      (fun r hrm => hr.ready r ((mem_removePid _ _ _).1 hrm).1)
  · have hmem : hp ∈ s.readyQueue_ := by
      rw [hq]; exact (maxElementFrom_spec _ _ _ _ hmax).1
    have h1 := range_mapIndex s hp hr (hr.ready hp hmem)
    have h2 := range_mapIndex _ s.cpuPid_ h1 (hr.cpu hc)
    exact range_queue _ hp (removePid (addPid s.readyQueue_ s.cpuPid_) hp) h2
      (fun _ => hr.ready hp hmem)
      (fun r hrm => by
        rcases (mem_addPid _ _ _).1 ((mem_removePid _ _ _).1 hrm).1 with h3 | h3
        · exact hr.ready r h3
        · rw [h3]; exact hr.cpu hc)
  · have hmem : hp ∈ s.readyQueue_ := by
      rw [hq]; exact (maxElementFrom_spec _ _ _ _ hmax).1
    have h1 := range_mapIndex s hp hr (hr.ready hp hmem)
    exact range_mapIndex _ s.cpuPid_ h1 (hr.cpu hc)

theorem NewProcess_range (s s' : SimOS) (size : Nat) (priority : Int) (r : Bool)
    (h : s.NewProcess size priority = some (r, s')) (hr : RangeInv s) : RangeInv s' := by
  rcases NewProcess_cases s size priority r s' h with ⟨_, _, rfl⟩ | ⟨_, _, hs⟩
  · exact range_next s hr
  · apply scheduleCPU_range _ _ hs
    have h1 := range_next s hr
    have hnew := RangeInv.fresh _ s.nextPid_ h1 hr.next
      (by show s.nextPid_ < s.nextPid_ + 1; omega)
    have h2 := range_mapSet _ s.nextPid_
      { s.newProcessRecord size priority with
        memory := (s.newAlloc size priority).2.2.memory } h1 hnew
      (by intro c hc; simp [SimOS.newProcessRecord, PidVector.empty] at hc)
    have h3 := range_blocks _ (s.newAlloc size priority).2.1.memoryBlocks_
      (s.newAlloc size priority).2.1.blocksCapacity_ h2
    exact range_queue _ s.cpuPid_ (addPid s.readyQueue_ s.nextPid_) h3 h1.cpu
      (fun x hx => by
        rcases (mem_addPid _ _ _).1 hx with h4 | h4
        · exact h1.ready x h4
        · rw [h4]; exact hnew)

theorem SimFork_range (s s' : SimOS) (r : Bool) (h : s.SimFork = some (r, s'))
    (hr : RangeInv s) : RangeInv s' := by
  rcases SimFork_cases s r s' h with ⟨_, _, rfl⟩ | ⟨hg, ⟨_, _, rfl⟩ | ⟨_, _, hs⟩⟩
  · exact hr
  · have hc : s.cpuPid_ ≠ NO_PROCESS := fun e => hg (Or.inl e)
    exact range_next _ (range_mapIndex s s.cpuPid_ hr (hr.cpu hc))
  · have hc : s.cpuPid_ ≠ NO_PROCESS := fun e => hg (Or.inl e)
    apply scheduleCPU_range _ _ hs
    have h1 := range_next _ (range_mapIndex s s.cpuPid_ hr (hr.cpu hc))
    have hnew := RangeInv.fresh _ s.nextPid_ h1 hr.next
      (by show s.nextPid_ < s.nextPid_ + 1; omega)
    have h2 := range_mapSet _ s.nextPid_
      { s.childRecord with memory := s.forkAlloc.2.2.memory } h1 hnew
      (by intro c hc; simp [SimOS.childRecord, PidVector.empty] at hc)
    have h3 := range_mapModify _ s.cpuPid_
      (fun p => { p with children := p.children.push_back s.nextPid_ }) h2
      (by
        intro p c hc
        simp only [PidVector.push_back, List.mem_append, List.mem_singleton] at hc
        rcases hc with h4 | h4
        · exact Or.inl h4
        · right; rw [h4]; exact hnew)
    have h4 := range_blocks _ s.forkAlloc.2.1.memoryBlocks_ s.forkAlloc.2.1.blocksCapacity_ h3
    exact range_queue _ s.cpuPid_ (addPid s.readyQueue_ s.nextPid_) h4 h1.cpu
      (fun x hx => by
        rcases (mem_addPid _ _ _).1 hx with h5 | h5
        · exact h1.ready x h5
        · rw [h5]; exact hnew)

theorem leaveCpuOrQueue_range (s : SimOS) (pid : Int) (hr : RangeInv s) :
    RangeInv (s.leaveCpuOrQueue pid) := by
  unfold SimOS.leaveCpuOrQueue
  split
  · exact range_queue s NO_PROCESS s.readyQueue_ hr (fun hne => absurd rfl hne) hr.ready
  · exact range_queue s s.cpuPid_ (removePid s.readyQueue_ pid) hr hr.cpu
      (fun r hrm => hr.ready r ((mem_removePid _ _ _).1 hrm).1)

theorem finishTermination_range (s : SimOS) (pid : Int) (process : Process)
    (hr : RangeInv s) : RangeInv (finishTermination s pid process) := by
  unfold finishTermination
  simp only
  split
  · apply leaveCpuOrQueue_range
    have h1 := range_mapModify s process.parentPid
      (fun parent => { parent with children := parent.children.eraseValue pid }) hr
      (fun p c hc => Or.inl (mem_eraseValue _ _ _ hc))
    exact range_mapModify _ pid (fun p => { p with isZombie := true }) h1
      (fun p c hc => Or.inl hc)
  · apply leaveCpuOrQueue_range
    exact range_mapErase _ pid (range_blocks s _ s.blocksCapacity_ hr)

theorem childLoop_range (recurse : SimOS → Int → Option SimOS)
    (hrec : ∀ s pid s', recurse s pid = some s' → RangeInv s → InRange s pid → RangeInv s')
    (pid : Int) :
    ∀ (remaining i : Nat) (s s' : SimOS), childLoop recurse pid remaining i s = some s' →
      RangeInv s → RangeInv s' := by
  intro remaining
  induction remaining with
  | zero => intro i s s' h hr; simp only [childLoop] at h; cases h; exact hr
  | succ k ih =>
    intro i s s' h hr
    obtain ⟨process, childPid, _, _, ⟨hcount, s1, h1, h2⟩ | ⟨_, h2⟩⟩ :=
      childLoop_cases recurse pid k i s s' h
    · exact ih _ _ _ h2 (hrec _ _ _ h1 hr (hr.keys childPid hcount))
    · exact ih _ _ _ h2 hr

theorem terminate_range :
    ∀ (fuel : Nat) (s : SimOS) (pid : Int) (s' : SimOS),
      s.terminateProcessAndDescendants fuel pid = some s' →
      RangeInv s → InRange s pid → RangeInv s' := by
  intro fuel
  induction fuel with
  | zero => intro s pid s' h; simp [SimOS.terminateProcessAndDescendants] at h
  | succ f ih =>
    intro s pid s' h hr hpid
    obtain ⟨s1, process, h1, _, rfl⟩ := terminate_cases f s pid s' h
    apply finishTermination_range
    exact childLoop_range _ ih pid _ _ _ _ h1 (range_mapIndex s pid hr hpid)

theorem SimExit_range (s s' : SimOS) (fuel : Nat) (h : s.SimExit fuel = some s')
    (hr : RangeInv s) : RangeInv s' := by
  rcases SimExit_cases fuel s s' h with ⟨_, rfl⟩ | ⟨hg, s1, h1, h2⟩
  · exact hr
  · have hc : s.cpuPid_ ≠ NO_PROCESS := fun e => hg (Or.inl e)
    exact scheduleCPU_range _ _ h2 (terminate_range _ _ _ _ h1 hr (hr.cpu hc))

/-- What `std::find_if` of `SimWait` does to the map and what it finds: new entries
are value-initialised entries of visited children, old entries stay, and the child
found is a registered zombie. -/
theorem findZombie_spec :
    ∀ (cs : List Int) (i0 : Nat) (m : Int → Option Process),
      (∀ k p, (findZombie m cs i0).1 k = some p →
        m k = some p ∨ (p = zeroProcess ∧ k ∈ cs ∧ m k = none)) ∧
      (∀ k p, m k = some p → (findZombie m cs i0).1 k = some p) ∧
      (∀ i, (findZombie m cs i0).2 = some i → i0 ≤ i ∧
        ∃ z pz, cs[i - i0]? = some z ∧ m z = some pz ∧ pz.isZombie = true) := by
  intro cs
  induction cs with
  | nil =>
    intro i0 m
    refine ⟨fun k p h => Or.inl h, fun k p h => h, ?_⟩
    intro i h
    simp [findZombie] at h
  | cons c cs ih =>
    intro i0 m
    have hidx : ∀ k p, mapIndex m c k = some p →
        m k = some p ∨ (p = zeroProcess ∧ k = c ∧ m k = none) := by
      intro k p hk
      rw [mapIndex_apply] at hk
      split at hk
      · next e =>
        subst e
        simp only [Option.some.injEq] at hk
        subst hk
        unfold mapGet
        cases hm : m k with
        | none => right; simp
        | some p0 => left; simp
      · exact Or.inl hk
    have hkeep : ∀ k p, m k = some p → mapIndex m c k = some p := by
      intro k p hk
      rw [mapIndex_apply]
      split
      · next e => subst e; simp [mapGet, hk]
      · exact hk
    simp only [findZombie]
    split
    · next hz =>
      refine ⟨?_, hkeep, ?_⟩
      · intro k p hk
        rcases hidx k p hk with h1 | ⟨h1, h2, h3⟩
        · exact Or.inl h1
        · exact Or.inr ⟨h1, by simp [h2], h3⟩
      · intro i hi
        simp only [Option.some.injEq] at hi
        subst hi
        refine ⟨le_refl _, c, mapGet (mapIndex m c) c, by simp, ?_, hz⟩
        have hc : mapIndex m c c = some (mapGet (mapIndex m c) c) := by
          simp [mapIndex_apply, mapGet]
        rcases hidx c _ hc with h1 | ⟨h1, _, _⟩
        · exact h1
        · rw [h1] at hz; simp [zeroProcess] at hz
    · next hz =>
      obtain ⟨h1, h2, h3⟩ := ih (i0 + 1) (mapIndex m c)
      refine ⟨?_, ?_, ?_⟩
      · intro k p hk
        rcases h1 k p hk with h4 | ⟨h4, h5, h6⟩
        · rcases hidx k p h4 with h7 | ⟨h7, h8, h9⟩
          · exact Or.inl h7
          · exact Or.inr ⟨h7, by simp [h8], h9⟩
        · right
          refine ⟨h4, by simp [h5], ?_⟩
          cases hm : m k with
          | none => rfl
          | some p0 => rw [hkeep k p0 hm] at h6; cases h6
      · intro k p hk
        exact h2 k p (hkeep k p hk)
      · intro i hi
        obtain ⟨h4, z, pz, h5, h6, h7⟩ := h3 i hi
        refine ⟨by omega, z, pz, ?_, ?_, h7⟩
        · have e : i - i0 = (i - (i0 + 1)) + 1 := by omega
          rw [e]
          simpa using h5
        · rcases hidx z pz h6 with h8 | ⟨h8, _, _⟩
          · exact h8
          · rw [h8] at h7; simp [zeroProcess] at h7

theorem waitScan_range (s : SimOS) (hr : RangeInv s) (hc : s.cpuPid_ ≠ NO_PROCESS) :
    RangeInv { s with processes_ := s.waitScan.1 } := by
  have h0 := range_mapIndex s s.cpuPid_ hr (hr.cpu hc)
  obtain ⟨h1, _, _⟩ := findZombie_spec
    (mapGet (mapIndex s.processes_ s.cpuPid_) s.cpuPid_).children.elems 0
    (mapIndex s.processes_ s.cpuPid_)
  have hcpu : mapIndex s.processes_ s.cpuPid_ s.cpuPid_ =
      some (mapGet (mapIndex s.processes_ s.cpuPid_) s.cpuPid_) := by
    simp [mapIndex_apply, mapGet]
  apply range_procs s _ hr
  · intro k hk
    obtain ⟨p, hp⟩ := Option.isSome_iff_exists.1 hk
    rcases h1 k p hp with h2 | ⟨_, h2, _⟩
    · exact h0.keys k (by simp [h2])
    · exact h0.children _ _ hcpu k h2
  · intro k p hp c hcm
    rcases h1 k p hp with h2 | ⟨h2, _, _⟩
    · exact h0.children k p h2 c hcm
    · rw [h2] at hcm; simp [zeroProcess, PidVector.empty] at hcm

theorem SimWait_range (s s' : SimOS) (h : s.SimWait = some s') (hr : RangeInv s) :
    RangeInv s' := by
  rcases SimWait_cases s s' h with ⟨_, rfl⟩ | ⟨hg, ⟨i, z, _, _, rfl⟩ | ⟨_, hs⟩⟩
  · exact hr
  · have hc : s.cpuPid_ ≠ NO_PROCESS := fun e => hg (Or.inl e)
    have h1 := range_mapErase _ z (waitScan_range s hr hc)
    exact range_mapModify _ s.cpuPid_
      (fun p => { p with children := p.children.eraseAt i }) h1
      (fun p c hcm => Or.inl (mem_eraseAt _ _ _ hcm))
  · have hc : s.cpuPid_ ≠ NO_PROCESS := fun e => hg (Or.inl e)
    apply scheduleCPU_range _ _ hs
    have h1 := waitScan_range s hr hc
    exact range_queue _ NO_PROCESS s.readyQueue_ h1 (fun hne => absurd rfl hne) h1.ready

/-! ## Disk jobs -/

theorem getElem?_modifyNth {α : Type} (f : α → α) :
    ∀ (l : List α) (i k : Nat),
      (modifyNth f l i)[k]? = if k = i then (l[k]?).map f else l[k]? := by
  intro l
  induction l with
  | nil => intro i k; simp [modifyNth]
  | cons x xs ih =>
    intro i k
    cases i with
    | zero =>
      cases k with
      | zero => simp [modifyNth]
      | succ k => simp [modifyNth]
    | succ i =>
      cases k with
      | zero => simp [modifyNth]
      | succ k => simp [modifyNth, ih]

theorem range_disk (s : SimOS) (a : Int → Option FileReadRequest)
    (dq : List (List FileReadRequest)) (hr : RangeInv s)
    (hp : ∀ x, PendingPid { s with activeDiskJobs_ := a, diskQueues_ := dq } x →
      InRange s x) :
    RangeInv { s with activeDiskJobs_ := a, diskQueues_ := dq } :=
  { next := hr.next, keys := hr.keys, cpu := hr.cpu, ready := hr.ready,
    children := hr.children, pending := hp }

/-- Requesters after a request has become the active job of disk `d`. -/
theorem pending_setActive (s t : SimOS) (d : Int) (req : FileReadRequest) (x : Int)
    (h : PendingPid t x) (ha : t.activeDiskJobs_ = mapSet s.activeDiskJobs_ d req)
    (hq : t.diskQueues_ = s.diskQueues_) : PendingPid s x ∨ x = req.PID := by
  rcases h with ⟨d', job, hj, hx⟩ | ⟨i, q, job, hi, hj, hx⟩
  · rw [ha, mapSet_apply] at hj
    split at hj
    · simp only [Option.some.injEq] at hj
      right; rw [← hx, ← hj]
    · exact Or.inl (Or.inl ⟨d', job, hj, hx⟩)
  · rw [hq] at hi
    exact Or.inl (Or.inr ⟨i, q, job, hi, hj, hx⟩)

/-- Requesters after a request has been appended to the queue of a disk. -/
theorem pending_enqueue (s t : SimOS) (n : Nat) (req : FileReadRequest) (x : Int)
    (h : PendingPid t x) (ha : t.activeDiskJobs_ = s.activeDiskJobs_)
    (hq : t.diskQueues_ = modifyNth (fun q => q ++ [req]) s.diskQueues_ n) :
    PendingPid s x ∨ x = req.PID := by
  rcases h with ⟨d', job, hj, hx⟩ | ⟨i, q, job, hi, hj, hx⟩
  · rw [ha] at hj
    exact Or.inl (Or.inl ⟨d', job, hj, hx⟩)
  · rw [hq, getElem?_modifyNth] at hi
    split at hi
    · cases hq0 : s.diskQueues_[i]? with
      | none => rw [hq0] at hi; cases hi
      | some q0 =>
        rw [hq0] at hi
        simp only [Option.map_some', Option.some.injEq] at hi
        subst hi
        rcases List.mem_append.1 hj with h1 | h1
        · exact Or.inl (Or.inr ⟨i, q0, job, hq0, h1, hx⟩)
        · simp only [List.mem_singleton] at h1
          right; rw [← hx, h1]
    · exact Or.inl (Or.inr ⟨i, q, job, hi, hj, hx⟩)

/-- Requesters after the active job of disk `d` has been cleared and the next job
started. -/
theorem pending_startNext (s : SimOS) (d : Int) (x : Int)
    (h : PendingPid
      (SimOS.startNextJob { s with activeDiskJobs_ := mapErase s.activeDiskJobs_ d } d) x) :
    PendingPid s x := by
  unfold SimOS.startNextJob at h
  split at h
  · next front tail hf =>
    simp only at hf
    rcases h with ⟨d', job, hj, hx⟩ | ⟨i, q, job, hi, hj, hx⟩
    · simp only [mapSet_apply, mapErase_apply] at hj
      split at hj
      · simp only [Option.some.injEq] at hj
        subst hj
        exact Or.inr ⟨d.toNat, front :: tail, front, hf, by simp, hx⟩
      · exact Or.inl ⟨d', job, hj, hx⟩
    · simp only [getElem?_modifyNth] at hi
      split at hi
      · next e =>
        subst e
        rw [hf] at hi
        simp only [Option.map_some', List.drop_succ_cons, List.drop_zero,
          Option.some.injEq] at hi
        subst hi
        exact Or.inr ⟨d.toNat, front :: tail, job, hf, List.mem_cons_of_mem _ hj, hx⟩
      · exact Or.inr ⟨i, q, job, hi, hj, hx⟩
  · rcases h with ⟨d', job, hj, hx⟩ | ⟨i, q, job, hi, hj, hx⟩
    · simp only [mapErase_apply] at hj
      split at hj
      · cases hj
      · exact Or.inl ⟨d', job, hj, hx⟩
    · exact Or.inr ⟨i, q, job, hi, hj, hx⟩

theorem startNextJob_fields (s : SimOS) (d : Int) :
    (s.startNextJob d).nextPid_ = s.nextPid_ ∧ (s.startNextJob d).cpuPid_ = s.cpuPid_ ∧
    (s.startNextJob d).processes_ = s.processes_ ∧
    (s.startNextJob d).readyQueue_ = s.readyQueue_ := by
  unfold SimOS.startNextJob
  split <;> exact ⟨rfl, rfl, rfl, rfl⟩

theorem startNextJob_range (s : SimOS) (d : Int) (hr : RangeInv s) :
    RangeInv (SimOS.startNextJob
      { s with activeDiskJobs_ := mapErase s.activeDiskJobs_ d } d) := by
  obtain ⟨e1, e2, e3, e4⟩ := startNextJob_fields
    { s with activeDiskJobs_ := mapErase s.activeDiskJobs_ d } d
  have hin : ∀ k, InRange s k → InRange (SimOS.startNextJob
      { s with activeDiskJobs_ := mapErase s.activeDiskJobs_ d } d) k := by
    intro k hk
    unfold InRange
    rw [e1]
    exact hk
  exact
    { next := by rw [e1]; exact hr.next
      keys := fun k hk => hin k (hr.keys k (by rw [e3] at hk; exact hk))
      cpu := fun hc => by rw [e2] at hc ⊢; exact hin _ (hr.cpu hc)
      ready := fun r hq => hin r (hr.ready r (by rw [e4] at hq; exact hq))
      children := fun k p hp c hc => hin c (hr.children k p (by rw [e3] at hp; exact hp) c hc)
      pending := fun x hx => hin x (hr.pending x (pending_startNext s d x hx)) }

theorem DiskReadRequest_range (s s' : SimOS) (diskNumber : Int) (fileName : String)
    (h : s.DiskReadRequest diskNumber fileName = some s') (hr : RangeInv s) : RangeInv s' := by
  rcases DiskReadRequest_cases s s' diskNumber fileName h with
    ⟨_, rfl⟩ | ⟨hg, ⟨_, hs⟩ | ⟨_, hs⟩⟩
  · exact hr
  · have hc : s.cpuPid_ ≠ NO_PROCESS := fun e => hg (Or.inl e)
    apply scheduleCPU_range _ _ hs
    have h1 := range_disk s (mapSet s.activeDiskJobs_ diskNumber ⟨s.cpuPid_, fileName⟩)
      s.diskQueues_ hr (fun x hx => by
        rcases pending_setActive s _ diskNumber ⟨s.cpuPid_, fileName⟩ x hx rfl rfl with h2 | h2
        · exact hr.pending x h2
        · rw [h2]; exact hr.cpu hc)
    exact range_queue _ NO_PROCESS s.readyQueue_ h1 (fun hne => absurd rfl hne) h1.ready
  · have hc : s.cpuPid_ ≠ NO_PROCESS := fun e => hg (Or.inl e)
    apply scheduleCPU_range _ _ hs
    have h1 := range_disk s s.activeDiskJobs_
      (modifyNth (fun q => q ++ [⟨s.cpuPid_, fileName⟩]) s.diskQueues_ diskNumber.toNat)
      hr (fun x hx => by
        rcases pending_enqueue s _ diskNumber.toNat ⟨s.cpuPid_, fileName⟩ x hx rfl rfl
          with h2 | h2
        · exact hr.pending x h2
        · rw [h2]; exact hr.cpu hc)
    exact range_queue _ NO_PROCESS s.readyQueue_ h1 (fun hne => absurd rfl hne) h1.ready

theorem DiskJobCompleted_range (s s' : SimOS) (diskNumber : Int)
    (h : s.DiskJobCompleted diskNumber = some s') (hr : RangeInv s) : RangeInv s' := by
  rcases DiskJobCompleted_cases s s' diskNumber h with
    ⟨_, rfl⟩ | ⟨_, rfl⟩ | ⟨job, _, hj, ⟨_, hs⟩ | rfl⟩
  · exact hr
  · exact hr
  · apply scheduleCPU_range _ _ hs
    have h1 := startNextJob_range s diskNumber hr
    have hjob : InRange s job.PID := hr.pending _ (Or.inl ⟨diskNumber, job, hj, rfl⟩)
    obtain ⟨e1, _, _, _⟩ := startNextJob_fields
      { s with activeDiskJobs_ := mapErase s.activeDiskJobs_ diskNumber } diskNumber
    exact range_queue _ _ (addPid _ job.PID) h1 h1.cpu (fun x hx => by
      rcases (mem_addPid _ _ _).1 hx with h2 | h2
      · exact h1.ready x h2
      · rw [h2]; unfold InRange; rw [e1]; exact hjob)
  · exact startNextJob_range s diskNumber hr

theorem construct_range (numberOfDisks amountOfRAM sizeOfOS : Nat) :
    RangeInv (SimOS.construct numberOfDisks amountOfRAM sizeOfOS) := by
  refine
    { next := by simp [SimOS.construct]
      keys := ?_, cpu := ?_, ready := ?_, children := ?_, pending := ?_ }
  · intro k hk
    simp only [SimOS.construct, mapSet_apply] at hk
    split at hk
    · next e => subst e; exact ⟨le_refl _, by simp [SimOS.construct]⟩
    · cases hk
  · intro hc; exact absurd rfl hc
  · intro r hq; simp [SimOS.construct] at hq
  · intro k p hp c hc
    simp only [SimOS.construct, mapSet_apply] at hp
    split at hp
    · simp only [Option.some.injEq] at hp
      subst hp
      simp [PidVector.empty] at hc
    · cases hp
  · intro x hx
    rcases hx with ⟨d, job, hj, _⟩ | ⟨i, q, job, hi, hj, _⟩
    · simp [SimOS.construct] at hj
    · simp only [SimOS.construct] at hi
      have hq : q ∈ List.replicate numberOfDisks ([] : List FileReadRequest) :=
        List.getElem?_mem hi
      rw [List.mem_replicate] at hq
      rw [hq.2] at hj
      simp at hj

/-- Every identifier stored in a reachable state has been handed out. -/
theorem reachable_range (numberOfDisks amountOfRAM sizeOfOS : Nat) (s : SimOS)
    (h : Reachable (SimOS.construct numberOfDisks amountOfRAM sizeOfOS) s) : RangeInv s := by
  induction h with
  | start => exact construct_range _ _ _
  | newProcess s s' size priority r _ hstep ih => exact NewProcess_range _ _ _ _ _ hstep ih
  | simFork s s' r _ hstep ih => exact SimFork_range _ _ _ hstep ih
  | simExit s s' fuel _ hstep ih => exact SimExit_range _ _ _ hstep ih
  | simWait s s' _ hstep ih => exact SimWait_range _ _ hstep ih
  | diskReadRequest s s' d f _ hstep ih => exact DiskReadRequest_range _ _ _ _ hstep ih
  | diskJobCompleted s s' d _ hstep ih => exact DiskJobCompleted_range _ _ _ hstep ih

/-! ## A process is in one place only -/

theorem pending_congr (s t : SimOS) (hd : t.diskQueues_ = s.diskQueues_)
    (ha : t.activeDiskJobs_ = s.activeDiskJobs_) (x : Int) :
    PendingPid t x ↔ PendingPid s x := by
  unfold PendingPid
  rw [hd, ha]

theorem excl_congr (s t : SimOS) (h : ExclInv s) (hc : t.cpuPid_ = s.cpuPid_)
    (hq : t.readyQueue_ = s.readyQueue_) (hd : t.diskQueues_ = s.diskQueues_)
    (ha : t.activeDiskJobs_ = s.activeDiskJobs_) : ExclInv t where
  ready_nodup := by rw [hq]; exact h.ready_nodup
  cpu_not_ready := by rw [hq, hc]; exact h.cpu_not_ready
  pending_idle := by
    intro x hx
    rw [hq, hc]
    exact h.pending_idle x ((pending_congr s t hd ha x).1 hx)
  active_active := by rw [ha]; exact h.active_active
  active_queued := by rw [ha, hd]; exact h.active_queued
  queue_nodup := by rw [hd]; exact h.queue_nodup
  queue_disjoint := by rw [hd]; exact h.queue_disjoint

theorem excl_queue (s : SimOS) (c : Int) (q : List Int) (h : ExclInv s) (hq : q.Nodup)
    (hc : c ≠ NO_PROCESS → c ∉ q) (hp : ∀ x, PendingPid s x → x ≠ c ∧ x ∉ q) :
    ExclInv { s with cpuPid_ := c, readyQueue_ := q } where
  ready_nodup := hq
  cpu_not_ready := hc
  pending_idle := fun x hx => ⟨(h.pending_idle x hx).1, hp x hx⟩
  active_active := h.active_active
  active_queued := h.active_queued
  queue_nodup := h.queue_nodup
  queue_disjoint := h.queue_disjoint

theorem nodup_addPid (q : List Int) (pid : Int) (h : q.Nodup) : (addPid q pid).Nodup := by
  unfold addPid
  split
  · exact h
  · next hn =>
    rw [List.nodup_append]
    refine ⟨h, by simp, ?_⟩
    intro a ha hb
    simp only [List.mem_singleton] at hb
    subst hb
    exact hn ha

theorem nodup_removePid (q : List Int) (pid : Int) (h : q.Nodup) : (removePid q pid).Nodup :=
  h.filter _

theorem scheduleCPU_excl (s s' : SimOS) (h : s.scheduleCPU = some s') (he : ExclInv s) :
    ExclInv s' := by
  rcases scheduleCPU_cases s s' h with ⟨_, rfl⟩ |
    ⟨first, rest, hp, hq, hmax, ⟨hc, rfl⟩ | ⟨hc, _, rfl⟩ | ⟨hc, _, rfl⟩⟩
  · exact excl_queue s NO_PROCESS s.readyQueue_ he he.ready_nodup
      (fun hne => absurd rfl hne)
      (fun x hx => ⟨(he.pending_idle x hx).1, (he.pending_idle x hx).2.2⟩)
  · have hmem : hp ∈ s.readyQueue_ := by
      rw [hq]; exact (maxElementFrom_spec _ _ _ _ hmax).1
    exact excl_queue s hp (removePid s.readyQueue_ hp) he
      (nodup_removePid _ _ he.ready_nodup)
      (fun _ hm => ((mem_removePid _ _ _).1 hm).2 rfl)
      (fun x hx => ⟨fun e => (he.pending_idle x hx).2.2 (e ▸ hmem),
        fun hm => (he.pending_idle x hx).2.2 ((mem_removePid _ _ _).1 hm).1⟩)
  · have hmem : hp ∈ s.readyQueue_ := by
      rw [hq]; exact (maxElementFrom_spec _ _ _ _ hmax).1
    exact excl_congr _ _
      (excl_queue s hp (removePid (addPid s.readyQueue_ s.cpuPid_) hp) he
        (nodup_removePid _ _ (nodup_addPid _ _ he.ready_nodup))
        (fun _ hm => ((mem_removePid _ _ _).1 hm).2 rfl)
        (fun x hx => ⟨fun e => (he.pending_idle x hx).2.2 (e ▸ hmem), fun hm => by
          rcases (mem_addPid _ _ _).1 ((mem_removePid _ _ _).1 hm).1 with h1 | h1
          · exact (he.pending_idle x hx).2.2 h1
          · exact (he.pending_idle x hx).2.1 h1⟩)) rfl rfl rfl rfl
  · exact excl_congr s _ he rfl rfl rfl rfl

theorem excl_newcomer (s t : SimOS) (he : ExclInv s) (hr : RangeInv s)
    (hc : t.cpuPid_ = s.cpuPid_) (hq : t.readyQueue_ = addPid s.readyQueue_ s.nextPid_)
    (hd : t.diskQueues_ = s.diskQueues_) (ha : t.activeDiskJobs_ = s.activeDiskJobs_) :
    ExclInv t := by
  have hfresh : ∀ k, InRange s k → k ≠ s.nextPid_ := by
    intro k hk e
    have := hk.2
    omega
  refine excl_congr
    { s with cpuPid_ := s.cpuPid_, readyQueue_ := addPid s.readyQueue_ s.nextPid_ }
    t ?_ hc hq hd ha
  apply excl_queue s _ _ he (nodup_addPid _ _ he.ready_nodup)
  · intro hne hm
    rcases (mem_addPid _ _ _).1 hm with h1 | h1
    · exact he.cpu_not_ready hne h1
    · exact hfresh _ (hr.cpu hne) h1
  · intro x hx
    refine ⟨(he.pending_idle x hx).2.1, ?_⟩
    intro hm
    rcases (mem_addPid _ _ _).1 hm with h1 | h1
    · exact (he.pending_idle x hx).2.2 h1
    · exact hfresh _ (hr.pending x hx) h1

theorem NewProcess_excl (s s' : SimOS) (size : Nat) (priority : Int) (r : Bool)
    (h : s.NewProcess size priority = some (r, s')) (he : ExclInv s) (hr : RangeInv s) :
    ExclInv s' := by
  rcases NewProcess_cases s size priority r s' h with ⟨_, _, rfl⟩ | ⟨_, _, hs⟩
  · exact excl_congr s _ he rfl rfl rfl rfl
  · exact scheduleCPU_excl _ _ hs (excl_newcomer s _ he hr rfl rfl rfl rfl)

theorem SimFork_excl (s s' : SimOS) (r : Bool) (h : s.SimFork = some (r, s'))
    (he : ExclInv s) (hr : RangeInv s) : ExclInv s' := by
  rcases SimFork_cases s r s' h with ⟨_, _, rfl⟩ | ⟨hg, ⟨_, _, rfl⟩ | ⟨_, _, hs⟩⟩
  · exact he
  · exact excl_congr s _ he rfl rfl rfl rfl
  · exact scheduleCPU_excl _ _ hs (excl_newcomer s _ he hr rfl rfl rfl rfl)

theorem shrinks_refl (s : SimOS) : Shrinks s s :=
  ⟨Or.inl rfl, List.Sublist.refl _, rfl, rfl, rfl⟩

theorem shrinks_trans (s t u : SimOS) (h1 : Shrinks s t) (h2 : Shrinks t u) : Shrinks s u := by
  obtain ⟨a1, a2, a3, a4, a5⟩ := h1
  obtain ⟨b1, b2, b3, b4, b5⟩ := h2
  refine ⟨?_, b2.trans a2, b3.trans a3, b4.trans a4, b5.trans a5⟩
  rcases b1 with b1 | b1
  · rw [b1]; exact a1
  · exact Or.inr b1

theorem shrinks_excl (s t : SimOS) (h : Shrinks s t) (he : ExclInv s) : ExclInv t := by
  obtain ⟨hc, hq, _, hd, ha⟩ := h
  refine excl_congr { s with cpuPid_ := t.cpuPid_, readyQueue_ := t.readyQueue_ } t
    ?_ rfl rfl hd ha
  apply excl_queue s _ _ he (he.ready_nodup.sublist hq)
  · intro hne hm
    rcases hc with hc | hc
    · rw [hc] at hne hm
      exact he.cpu_not_ready hne (hq.subset hm)
    · exact hne hc
  · intro x hx
    refine ⟨?_, fun hm => (he.pending_idle x hx).2.2 (hq.subset hm)⟩
    rcases hc with hc | hc
    · rw [hc]; exact (he.pending_idle x hx).2.1
    · rw [hc]; exact (he.pending_idle x hx).1

theorem leaveCpuOrQueue_shrinks (s : SimOS) (pid : Int) : Shrinks s (s.leaveCpuOrQueue pid) := by
  unfold SimOS.leaveCpuOrQueue
  split
  · exact ⟨Or.inr rfl, List.Sublist.refl _, rfl, rfl, rfl⟩
  · exact ⟨Or.inl rfl, List.filter_sublist _, rfl, rfl, rfl⟩

theorem finishTermination_shrinks (s : SimOS) (pid : Int) (process : Process) :
    Shrinks s (finishTermination s pid process) := by
  unfold finishTermination
  simp only
  split
  · exact shrinks_trans s _ _ ⟨Or.inl rfl, List.Sublist.refl _, rfl, rfl, rfl⟩
      (leaveCpuOrQueue_shrinks _ pid)
  · exact shrinks_trans s _ _ ⟨Or.inl rfl, List.Sublist.refl _, rfl, rfl, rfl⟩
      (leaveCpuOrQueue_shrinks _ pid)

theorem childLoop_shrinks (recurse : SimOS → Int → Option SimOS)
    (hrec : ∀ s pid s', recurse s pid = some s' → Shrinks s s') (pid : Int) :
    ∀ (remaining i : Nat) (s s' : SimOS), childLoop recurse pid remaining i s = some s' →
      Shrinks s s' := by
  intro remaining
  induction remaining with
  | zero => intro i s s' h; simp only [childLoop] at h; cases h; exact shrinks_refl s
  | succ k ih =>
    intro i s s' h
    obtain ⟨process, childPid, _, _, ⟨_, s1, h1, h2⟩ | ⟨_, h2⟩⟩ :=
      childLoop_cases recurse pid k i s s' h
    · exact shrinks_trans _ _ _ (hrec _ _ _ h1) (ih _ _ _ h2)
    · exact ih _ _ _ h2

theorem terminate_shrinks :
    ∀ (fuel : Nat) (s : SimOS) (pid : Int) (s' : SimOS),
      s.terminateProcessAndDescendants fuel pid = some s' → Shrinks s s' := by
  intro fuel
  induction fuel with
  | zero => intro s pid s' h; simp [SimOS.terminateProcessAndDescendants] at h
  | succ f ih =>
    intro s pid s' h
    obtain ⟨s1, process, h1, _, rfl⟩ := terminate_cases f s pid s' h
    have h2 := childLoop_shrinks _ ih pid _ _ _ _ h1
    exact shrinks_trans s _ _
      (shrinks_trans s _ _ ⟨Or.inl rfl, List.Sublist.refl _, rfl, rfl, rfl⟩ h2)
      (finishTermination_shrinks s1 pid process)

theorem SimExit_excl (s s' : SimOS) (fuel : Nat) (h : s.SimExit fuel = some s')
    (he : ExclInv s) : ExclInv s' := by
  rcases SimExit_cases fuel s s' h with ⟨_, rfl⟩ | ⟨_, s1, h1, h2⟩
  · exact he
  · exact scheduleCPU_excl _ _ h2 (shrinks_excl s s1 (terminate_shrinks _ _ _ _ h1) he)

theorem SimWait_excl (s s' : SimOS) (h : s.SimWait = some s') (he : ExclInv s) :
    ExclInv s' := by
  rcases SimWait_cases s s' h with ⟨_, rfl⟩ | ⟨hg, ⟨i, z, _, _, rfl⟩ | ⟨_, hs⟩⟩
  · exact he
  · exact excl_congr s _ he rfl rfl rfl rfl
  · apply scheduleCPU_excl _ _ hs
    exact shrinks_excl s _ ⟨Or.inr rfl, List.Sublist.refl _, rfl, rfl, rfl⟩ he

theorem startNextJob_disk (s : SimOS) (d : Int) :
    (∃ front tail, s.diskQueues_[d.toNat]? = some (front :: tail) ∧
      (s.startNextJob d).activeDiskJobs_ = mapSet s.activeDiskJobs_ d front ∧
      (s.startNextJob d).diskQueues_ = modifyNth (fun q => q.drop 1) s.diskQueues_ d.toNat) ∨
    ((s.startNextJob d).activeDiskJobs_ = s.activeDiskJobs_ ∧
      (s.startNextJob d).diskQueues_ = s.diskQueues_) := by
  unfold SimOS.startNextJob
  split
  · next front tail hf => exact Or.inl ⟨front, tail, hf, rfl, rfl⟩
  · exact Or.inr ⟨rfl, rfl⟩

/-- Clearing the active job of disk `d` and starting the next one keeps every
process in one place, and the requester of the cleared job is left without a job. -/
theorem startNextJob_excl (s : SimOS) (d : Int) (job : FileReadRequest) (he : ExclInv s)
    (hj : s.activeDiskJobs_ d = some job) :
    ExclInv (SimOS.startNextJob
      { s with activeDiskJobs_ := mapErase s.activeDiskJobs_ d } d) ∧
    ¬ PendingPid (SimOS.startNextJob
      { s with activeDiskJobs_ := mapErase s.activeDiskJobs_ d } d) job.PID := by
  obtain ⟨_, e2, _, e4⟩ := startNextJob_fields
    { s with activeDiskJobs_ := mapErase s.activeDiskJobs_ d } d
  rcases startNextJob_disk { s with activeDiskJobs_ := mapErase s.activeDiskJobs_ d } d with
    ⟨front, tail, hf, ha, hq⟩ | ⟨ha, hq⟩
  · simp only at hf ha hq
    have hact : ∀ d' j', (mapSet (mapErase s.activeDiskJobs_ d) d front) d' = some j' →
        (d' = d ∧ j' = front) ∨ (d' ≠ d ∧ s.activeDiskJobs_ d' = some j') := by
      intro d' j' h
      simp only [mapSet_apply, mapErase_apply] at h
      split at h
      · next e => simp only [Option.some.injEq] at h; exact Or.inl ⟨e, h.symm⟩
      · next e => exact Or.inr ⟨e, h⟩
    have hque : ∀ i q, (modifyNth (fun q => q.drop 1) s.diskQueues_ d.toNat)[i]? = some q →
        (i = d.toNat ∧ q = tail) ∨ (i ≠ d.toNat ∧ s.diskQueues_[i]? = some q) := by
      intro i q h
      rw [getElem?_modifyNth] at h
      split at h
      · next e =>
        subst e
        rw [hf] at h
        simp only [Option.map_some', List.drop_succ_cons, List.drop_zero,
          Option.some.injEq] at h
        exact Or.inl ⟨rfl, h.symm⟩
      · next e => exact Or.inr ⟨e, h⟩
    have hnd := he.queue_nodup _ _ hf
    simp only [List.map_cons, List.nodup_cons, List.mem_map, not_exists, not_and] at hnd
    constructor
    · refine
        { ready_nodup := by rw [e4]; exact he.ready_nodup
          cpu_not_ready := by rw [e2, e4]; exact he.cpu_not_ready
          pending_idle := ?_, active_active := ?_, active_queued := ?_,
          queue_nodup := ?_, queue_disjoint := ?_ }
      · intro x hx
        rw [e2, e4]
        exact he.pending_idle x (pending_startNext s d x hx)
      · intro d1 d2 j1 j2 h1 h2 hpid
        rw [ha] at h1 h2
        rcases hact d1 j1 h1 with ⟨a1, b1⟩ | ⟨a1, b1⟩ <;>
          rcases hact d2 j2 h2 with ⟨a2, b2⟩ | ⟨a2, b2⟩
        · rw [a1, a2]
        · subst b1
          exact absurd hpid (he.active_queued d2 j2 d.toNat _ j1 b2 hf (by simp))
        · subst b2
          exact absurd hpid.symm (he.active_queued d1 j1 d.toNat _ j2 b1 hf (by simp))
        · exact he.active_active d1 d2 j1 j2 b1 b2 hpid
      · intro d1 j1 i q j' h1 hi hjq
        rw [ha] at h1
        rw [hq] at hi
        rcases hact d1 j1 h1 with ⟨a1, b1⟩ | ⟨a1, b1⟩ <;>
          rcases hque i q hi with ⟨a2, b2⟩ | ⟨a2, b2⟩
        · subst b1 b2
          intro e
          exact hnd.1 j' hjq e
        · subst b1
          exact he.queue_disjoint i d.toNat q _ j' j1 b2 hf a2 hjq (by simp)
        · subst b2
          exact he.active_queued d1 j1 d.toNat _ j' b1 hf (List.mem_cons_of_mem _ hjq)
        · exact he.active_queued d1 j1 i q j' b1 b2 hjq
      · intro i q hi
        rw [hq] at hi
        rcases hque i q hi with ⟨_, b2⟩ | ⟨_, b2⟩
        · subst b2
          have := he.queue_nodup _ _ hf
          simp only [List.map_cons, List.nodup_cons] at this
          exact this.2
        · exact he.queue_nodup i q b2
      · intro i i' q q' j j' hi hi' hne hjq hjq'
        rw [hq] at hi hi'
        rcases hque i q hi with ⟨a1, b1⟩ | ⟨a1, b1⟩ <;>
          rcases hque i' q' hi' with ⟨a2, b2⟩ | ⟨a2, b2⟩
        · exact absurd (a1.trans a2.symm) hne
        · subst b1
          exact he.queue_disjoint i i' _ q' j j' (a1 ▸ hf) b2 hne
            (List.mem_cons_of_mem _ hjq) hjq'
        · subst b2
          exact he.queue_disjoint i i' q _ j j' b1 (a2 ▸ hf) hne hjq
            (List.mem_cons_of_mem _ hjq')
        · exact he.queue_disjoint i i' q q' j j' b1 b2 hne hjq hjq'
    · rintro (⟨d', j', h1, hx⟩ | ⟨i, q, j', hi, hjq, hx⟩)
      · rw [ha] at h1
        rcases hact d' j' h1 with ⟨_, b1⟩ | ⟨a1, b1⟩
        · subst b1
          exact he.active_queued d job d.toNat _ j' hj hf (by simp) hx
        · exact a1 (he.active_active d' d j' job b1 hj hx)
      · rw [hq] at hi
        rcases hque i q hi with ⟨_, b2⟩ | ⟨_, b2⟩
        · subst b2
          exact he.active_queued d job d.toNat _ j' hj hf (List.mem_cons_of_mem _ hjq) hx
        · exact he.active_queued d job i q j' hj b2 hjq hx
  · simp only at ha hq
    have hact : ∀ d' j', (mapErase s.activeDiskJobs_ d) d' = some j' →
        d' ≠ d ∧ s.activeDiskJobs_ d' = some j' := by
      intro d' j' h
      simp only [mapErase_apply] at h
      split at h
      · cases h
      · next e => exact ⟨e, h⟩
    constructor
    · refine
        { ready_nodup := by rw [e4]; exact he.ready_nodup
          cpu_not_ready := by rw [e2, e4]; exact he.cpu_not_ready
          pending_idle := ?_, active_active := ?_, active_queued := ?_,
          queue_nodup := by rw [hq]; exact he.queue_nodup
          queue_disjoint := by rw [hq]; exact he.queue_disjoint }
      · intro x hx
        rw [e2, e4]
        exact he.pending_idle x (pending_startNext s d x hx)
      · intro d1 d2 j1 j2 h1 h2 hpid
        rw [ha] at h1 h2
        exact he.active_active d1 d2 j1 j2 (hact d1 j1 h1).2 (hact d2 j2 h2).2 hpid
      · intro d1 j1 i q j' h1 hi hjq
        rw [ha] at h1
        rw [hq] at hi
        exact he.active_queued d1 j1 i q j' (hact d1 j1 h1).2 hi hjq
    · rintro (⟨d', j', h1, hx⟩ | ⟨i, q, j', hi, hjq, hx⟩)
      · rw [ha] at h1
        obtain ⟨a1, b1⟩ := hact d' j' h1
        exact a1 (he.active_active d' d j' job b1 hj hx)
      · rw [hq] at hi
        exact he.active_queued d job i q j' hj hi hjq hx

theorem DiskJobCompleted_excl (s s' : SimOS) (diskNumber : Int)
    (h : s.DiskJobCompleted diskNumber = some s') (he : ExclInv s) : ExclInv s' := by
  rcases DiskJobCompleted_cases s s' diskNumber h with
    ⟨_, rfl⟩ | ⟨_, rfl⟩ | ⟨job, _, hj, ⟨_, hs⟩ | rfl⟩
  · exact he
  · exact he
  · apply scheduleCPU_excl _ _ hs
    obtain ⟨h1, h2⟩ := startNextJob_excl s diskNumber job he hj
    obtain ⟨_, e2, _, e4⟩ := startNextJob_fields
      { s with activeDiskJobs_ := mapErase s.activeDiskJobs_ diskNumber } diskNumber
    have hjp := he.pending_idle job.PID (Or.inl ⟨diskNumber, job, hj, rfl⟩)
    refine excl_congr _ _
      (excl_queue _ (SimOS.startNextJob
          { s with activeDiskJobs_ := mapErase s.activeDiskJobs_ diskNumber }
          diskNumber).cpuPid_
        (addPid (SimOS.startNextJob
          { s with activeDiskJobs_ := mapErase s.activeDiskJobs_ diskNumber }
          diskNumber).readyQueue_ job.PID) h1 (nodup_addPid _ _ h1.ready_nodup) ?_ ?_)
      rfl rfl rfl rfl
    · intro hne hm
      rcases (mem_addPid _ _ _).1 hm with h3 | h3
      · exact h1.cpu_not_ready hne h3
      · rw [e2] at h3
        exact hjp.2.1 h3.symm
    · intro x hx
      refine ⟨(h1.pending_idle x hx).2.1, ?_⟩
      intro hm
      rcases (mem_addPid _ _ _).1 hm with h3 | h3
      · exact (h1.pending_idle x hx).2.2 h3
      · rw [h3] at hx
        exact h2 hx
  · exact (startNextJob_excl s diskNumber job he hj).1

theorem DiskReadRequest_excl (s s' : SimOS) (diskNumber : Int) (fileName : String)
    (h : s.DiskReadRequest diskNumber fileName = some s') (he : ExclInv s) : ExclInv s' := by
  rcases DiskReadRequest_cases s s' diskNumber fileName h with
    ⟨_, rfl⟩ | ⟨hg, ⟨hnone, hs⟩ | ⟨_, hs⟩⟩
  · exact he
  · have hc : s.cpuPid_ ≠ NO_PROCESS := fun e => hg (Or.inl e)
    apply scheduleCPU_excl _ _ hs
    have hpend : ∀ x, PendingPid
        { s with activeDiskJobs_ := mapSet s.activeDiskJobs_ diskNumber ⟨s.cpuPid_, fileName⟩,
                 cpuPid_ := NO_PROCESS } x → PendingPid s x ∨ x = s.cpuPid_ :=
      fun x hx => pending_setActive s _ diskNumber ⟨s.cpuPid_, fileName⟩ x hx rfl rfl
    have hact : ∀ d' j', (mapSet s.activeDiskJobs_ diskNumber
        (⟨s.cpuPid_, fileName⟩ : FileReadRequest)) d' = some j' →
        (d' = diskNumber ∧ j'.PID = s.cpuPid_) ∨
        (d' ≠ diskNumber ∧ s.activeDiskJobs_ d' = some j') := by
      intro d' j' h1
      simp only [mapSet_apply] at h1
      split at h1
      · next e =>
        simp only [Option.some.injEq] at h1
        exact Or.inl ⟨e, by rw [← h1]⟩
      · next e => exact Or.inr ⟨e, h1⟩
    refine
      { ready_nodup := he.ready_nodup
        cpu_not_ready := fun hne => absurd rfl hne
        pending_idle := ?_, active_active := ?_, active_queued := ?_,
        queue_nodup := he.queue_nodup, queue_disjoint := he.queue_disjoint }
    · intro x hx
      rcases hpend x hx with h1 | h1
      · exact ⟨(he.pending_idle x h1).1, (he.pending_idle x h1).1, (he.pending_idle x h1).2.2⟩
      · rw [h1]; exact ⟨hc, hc, he.cpu_not_ready hc⟩
    · intro d1 d2 j1 j2 h1 h2 hpid
      rcases hact d1 j1 h1 with ⟨a1, b1⟩ | ⟨a1, b1⟩ <;>
        rcases hact d2 j2 h2 with ⟨a2, b2⟩ | ⟨a2, b2⟩
      · rw [a1, a2]
      · exact absurd (hpid.symm.trans b1)
          (he.pending_idle _ (Or.inl ⟨d2, j2, b2, rfl⟩)).2.1
      · exact absurd (hpid.trans b2)
          (he.pending_idle _ (Or.inl ⟨d1, j1, b1, rfl⟩)).2.1
      · exact he.active_active d1 d2 j1 j2 b1 b2 hpid
    · intro d1 j1 i q j' h1 hi hjq
      rcases hact d1 j1 h1 with ⟨_, b1⟩ | ⟨_, b1⟩
      · rw [b1]
        exact (he.pending_idle _ (Or.inr ⟨i, q, j', hi, hjq, rfl⟩)).2.1
      · exact he.active_queued d1 j1 i q j' b1 hi hjq
  · have hc : s.cpuPid_ ≠ NO_PROCESS := fun e => hg (Or.inl e)
    apply scheduleCPU_excl _ _ hs
    have hpend : ∀ x, PendingPid
        { s with diskQueues_ := modifyNth (fun q => q ++ [⟨s.cpuPid_, fileName⟩])
                    s.diskQueues_ diskNumber.toNat,
                 cpuPid_ := NO_PROCESS } x → PendingPid s x ∨ x = s.cpuPid_ :=
      fun x hx => pending_enqueue s _ diskNumber.toNat ⟨s.cpuPid_, fileName⟩ x hx rfl rfl
    have hque : ∀ i q, (modifyNth (fun q => q ++ [(⟨s.cpuPid_, fileName⟩ : FileReadRequest)])
        s.diskQueues_ diskNumber.toNat)[i]? = some q →
        (∃ q0, s.diskQueues_[i]? = some q0 ∧ i = diskNumber.toNat ∧
          q = q0 ++ [⟨s.cpuPid_, fileName⟩]) ∨
        (i ≠ diskNumber.toNat ∧ s.diskQueues_[i]? = some q) := by
      intro i q h1
      rw [getElem?_modifyNth] at h1
      split at h1
      · next e =>
        cases hq0 : s.diskQueues_[i]? with
        | none => rw [hq0] at h1; cases h1
        | some q0 =>
          rw [hq0] at h1
          simp only [Option.map_some', Option.some.injEq] at h1
          exact Or.inl ⟨q0, rfl, e, h1.symm⟩
      · next e => exact Or.inr ⟨e, h1⟩
    have hold : ∀ (i : Nat) (q0 : List FileReadRequest) (j : FileReadRequest),
        s.diskQueues_[i]? = some q0 → j ∈ q0 → j.PID ≠ s.cpuPid_ :=
      fun i q0 j hi hjq => (he.pending_idle _ (Or.inr ⟨i, q0, j, hi, hjq, rfl⟩)).2.1
    refine
      { ready_nodup := he.ready_nodup
        cpu_not_ready := fun hne => absurd rfl hne
        pending_idle := ?_, active_active := he.active_active, active_queued := ?_,
        queue_nodup := ?_, queue_disjoint := ?_ }
    · intro x hx
      rcases hpend x hx with h1 | h1
      · exact ⟨(he.pending_idle x h1).1, (he.pending_idle x h1).1, (he.pending_idle x h1).2.2⟩
      · rw [h1]; exact ⟨hc, hc, he.cpu_not_ready hc⟩
    · intro d1 j1 i q j' h1 hi hjq
      rcases hque i q hi with ⟨q0, hq0, _, rfl⟩ | ⟨_, b2⟩
      · rcases List.mem_append.1 hjq with h2 | h2
        · exact he.active_queued d1 j1 i q0 j' h1 hq0 h2
        · simp only [List.mem_singleton] at h2
          subst h2
          exact fun e => (he.pending_idle _ (Or.inl ⟨d1, j1, h1, rfl⟩)).2.1 e.symm
      · exact he.active_queued d1 j1 i q j' h1 b2 hjq
    · intro i q hi
      rcases hque i q hi with ⟨q0, hq0, _, rfl⟩ | ⟨_, b2⟩
      · rw [List.map_append, List.nodup_append]
        refine ⟨he.queue_nodup i q0 hq0, by simp, ?_⟩
        intro a ha hb
        simp only [List.map_cons, List.map_nil, List.mem_singleton] at hb
        simp only [List.mem_map] at ha
        obtain ⟨j, hjq, hja⟩ := ha
        exact hold i q0 j hq0 hjq (hja.trans hb)
      · exact he.queue_nodup i q b2
    · intro i i' q q' j j' hi hi' hne hjq hjq'
      rcases hque i q hi with ⟨q0, hq0, a1, rfl⟩ | ⟨a1, b1⟩ <;>
        rcases hque i' q' hi' with ⟨q0', hq0', a2, rfl⟩ | ⟨a2, b2⟩
      · exact absurd (a1.trans a2.symm) hne
      · rcases List.mem_append.1 hjq with h2 | h2
        · exact he.queue_disjoint i i' q0 q' j j' hq0 b2 hne h2 hjq'
        · simp only [List.mem_singleton] at h2
          subst h2
          exact fun e => hold i' q' j' b2 hjq' e.symm
      · rcases List.mem_append.1 hjq' with h2 | h2
        · exact he.queue_disjoint i i' q q0' j j' b1 hq0' hne hjq h2
        · simp only [List.mem_singleton] at h2
          subst h2
          exact hold i q j b1 hjq
      · exact he.queue_disjoint i i' q q' j j' b1 b2 hne hjq hjq'

theorem construct_excl (numberOfDisks amountOfRAM sizeOfOS : Nat) :
    ExclInv (SimOS.construct numberOfDisks amountOfRAM sizeOfOS) := by
  have hq : ∀ (i : Nat) (q : List FileReadRequest),
      (SimOS.construct numberOfDisks amountOfRAM sizeOfOS).diskQueues_[i]? = some q →
      q = [] := by
    intro i q hi
    simp only [SimOS.construct] at hi
    have := List.getElem?_mem hi
    rw [List.mem_replicate] at this
    exact this.2
  refine
    { ready_nodup := by simp [SimOS.construct]
      cpu_not_ready := fun hne => absurd rfl hne
      pending_idle := ?_, active_active := ?_, active_queued := ?_,
      queue_nodup := ?_, queue_disjoint := ?_ }
  · intro x hx
    rcases hx with ⟨d, job, hj, _⟩ | ⟨i, q, job, hi, hj, _⟩
    · simp [SimOS.construct] at hj
    · rw [hq i q hi] at hj; simp at hj
  · intro d d' j j' h1; simp [SimOS.construct] at h1
  · intro d j i q j' h1; simp [SimOS.construct] at h1
  · intro i q hi; rw [hq i q hi]; simp
  · intro i i' q q' j j' hi _ _ hj; rw [hq i q hi] at hj; simp at hj

/-- In a reachable state every process is in one place only. -/
theorem reachable_excl (numberOfDisks amountOfRAM sizeOfOS : Nat) (s : SimOS)
    (h : Reachable (SimOS.construct numberOfDisks amountOfRAM sizeOfOS) s) : ExclInv s := by
  induction h with
  | start => exact construct_excl _ _ _
  | newProcess s s' size priority r hreach hstep ih =>
    exact NewProcess_excl _ _ _ _ _ hstep ih (reachable_range _ _ _ _ hreach)
  | simFork s s' r hreach hstep ih =>
    exact SimFork_excl _ _ _ hstep ih (reachable_range _ _ _ _ hreach)
  | simExit s s' fuel _ hstep ih => exact SimExit_excl _ _ _ hstep ih
  | simWait s s' _ hstep ih => exact SimWait_excl _ _ hstep ih
  | diskReadRequest s s' d f _ hstep ih => exact DiskReadRequest_excl _ _ _ _ hstep ih
  | diskJobCompleted s s' d _ hstep ih => exact DiskJobCompleted_excl _ _ _ hstep ih

/-! ## The CPU and the ready queue hold live processes -/

theorem mapGet_mapIndex (m : Int → Option Process) (k x : Int) :
    mapGet (mapIndex m k) x = mapGet m x := by
  unfold mapGet
  rw [mapIndex_apply]
  split
  · next e => subst e; simp [mapGet]
  · rfl

theorem alive_map (m m' : Int → Option Process) (c : Int) (q : List Int)
    (hm : ∀ k, (k = c ∨ k ∈ q) → ∀ p, m k = some p → p.isZombie = false →
      ∃ p', m' k = some p' ∧ p'.isZombie = false)
    (h : Alive m c q) : Alive m' c q := by
  constructor
  · intro hc
    obtain ⟨p, hp, hz⟩ := h.1 hc
    exact hm c (Or.inl rfl) p hp hz
  · intro r hr
    obtain ⟨p, hp, hz⟩ := h.2 r hr
    exact hm r (Or.inr hr) p hp hz

theorem alive_sub (m : Int → Option Process) (c c' : Int) (q q' : List Int)
    (hc : c' = c ∨ c' = NO_PROCESS) (hq : ∀ r ∈ q', r ∈ q) (h : Alive m c q) :
    Alive m c' q' := by
  constructor
  · intro hne
    rcases hc with hc | hc
    · rw [hc] at hne ⊢; exact h.1 hne
    · exact absurd hc hne
  · intro r hr
    exact h.2 r (hq r hr)

theorem alive_add (m : Int → Option Process) (c x : Int) (q : List Int)
    (hx : ∃ p, m x = some p ∧ p.isZombie = false) (h : Alive m c q) :
    Alive m c (addPid q x) := by
  refine ⟨h.1, ?_⟩
  intro r hr
  rcases (mem_addPid _ _ _).1 hr with h1 | h1
  · exact h.2 r h1
  · rw [h1]; exact hx

theorem alive_mapIndex (m : Int → Option Process) (k c : Int) (q : List Int)
    (h : Alive m c q) : Alive (mapIndex m k) c q := by
  apply alive_map m _ c q _ h
  intro x _ p hp hz
  refine ⟨p, ?_, hz⟩
  rw [mapIndex_apply]
  split
  · next e => subst e; simp [mapGet, hp]
  · exact hp

theorem alive_mapSet (m : Int → Option Process) (k c : Int) (q : List Int) (v : Process)
    (hv : v.isZombie = false) (h : Alive m c q) : Alive (mapSet m k v) c q := by
  apply alive_map m _ c q _ h
  intro x _ p hp hz
  rw [mapSet_apply]
  split
  · exact ⟨v, rfl, hv⟩
  · exact ⟨p, hp, hz⟩

theorem alive_mapModify (m : Int → Option Process) (k c : Int) (q : List Int)
    (f : Process → Process) (hf : ∀ p, (f p).isZombie = p.isZombie) (h : Alive m c q) :
    Alive (mapModify m k f) c q := by
  apply alive_map m _ c q _ h
  intro x _ p hp hz
  rw [mapModify_apply]
  split
  · next e =>
    subst e
    rw [hp]
    exact ⟨f p, rfl, by rw [hf, hz]⟩
  · exact ⟨p, hp, hz⟩

theorem prio_map (m m' : Int → Option Process) (c : Int) (q : List Int)
    (hm : ∀ k, (k = c ∨ k ∈ q) → (mapGet m' k).priority = (mapGet m k).priority)
    (h : Prio m c q) : Prio m' c q := by
  intro hc r hr
  rw [hm r (Or.inr hr), hm c (Or.inl rfl)]
  exact h hc r hr

/-- After `scheduleCPU` the CPU and the ready queue hold live processes, and the
process on the CPU has the highest priority among them. -/
theorem scheduleCPU_sched (s s' : SimOS) (h : s.scheduleCPU = some s')
    (ha : Alive s.processes_ s.cpuPid_ s.readyQueue_) : SchedInv s' := by
  rcases scheduleCPU_cases s s' h with ⟨_, rfl⟩ |
    ⟨first, rest, hp, hq, hmax, hcase⟩
  · exact ⟨alive_sub _ _ _ _ _ (Or.inr rfl) (fun r hr => hr) ha, fun hne => absurd rfl hne⟩
  · obtain ⟨hmem, _, _, hle⟩ := maxElementFrom_spec _ _ _ _ hmax
    rw [← hq] at hmem hle
    have hreg : (s.processes_ hp).isSome = true := by
      obtain ⟨p, hp', _⟩ := ha.2 hp hmem
      simp [hp']
    rcases hcase with ⟨hc, rfl⟩ | ⟨hc, hlt, rfl⟩ | ⟨hc, hge, rfl⟩
    · constructor
      · exact ⟨fun _ => ha.2 hp hmem, fun r hr => ha.2 r ((mem_removePid _ _ _).1 hr).1⟩
      · intro _ r hr
        exact hle r ((mem_removePid _ _ _).1 hr).1
    · have hcreg : (s.processes_ s.cpuPid_).isSome = true := by
        obtain ⟨p, hp', _⟩ := ha.1 hc
        simp [hp']
      have e : mapIndex (mapIndex s.processes_ hp) s.cpuPid_ = s.processes_ := by
        rw [mapIndex_of_isSome _ hp hreg, mapIndex_of_isSome _ _ hcreg]
      rw [e] at hlt ⊢
      constructor
      · refine ⟨fun _ => ha.2 hp hmem, ?_⟩
        intro r hr
        rcases (mem_addPid _ _ _).1 ((mem_removePid _ _ _).1 hr).1 with h1 | h1
        · exact ha.2 r h1
        · rw [h1]; exact ha.1 hc
      · intro _ r hr
        rcases (mem_addPid _ _ _).1 ((mem_removePid _ _ _).1 hr).1 with h1 | h1
        · exact hle r h1
        · rw [h1]; exact le_of_lt hlt
    · have hcreg : (s.processes_ s.cpuPid_).isSome = true := by
        obtain ⟨p, hp', _⟩ := ha.1 hc
        simp [hp']
      have e : mapIndex (mapIndex s.processes_ hp) s.cpuPid_ = s.processes_ := by
        rw [mapIndex_of_isSome _ hp hreg, mapIndex_of_isSome _ _ hcreg]
      rw [e] at hge ⊢
      constructor
      · exact ha
      · intro _ r hr
        have := hle r hr
        show (mapGet s.processes_ r).priority ≤ (mapGet s.processes_ s.cpuPid_).priority
        omega

/-- The call `scheduleCPU` returns normally when the ready queue holds registered processes. -/
theorem scheduleCPU_isSome (s : SimOS)
    (h : ∀ r ∈ s.readyQueue_, (s.processes_ r).isSome = true) :
    s.scheduleCPU.isSome = true := by
  unfold SimOS.scheduleCPU
  split
  · rfl
  · next first rest hq =>
    have hm := maxElementFrom_isSome s.processes_ rest first (by rw [← hq]; exact h)
    obtain ⟨hp, hhp⟩ := Option.isSome_iff_exists.1 hm
    rw [hhp]
    simp only
    split
    · rfl
    · split <;> rfl

theorem NewProcess_sched (s s' : SimOS) (size : Nat) (priority : Int) (r : Bool)
    (h : s.NewProcess size priority = some (r, s')) (hs : SchedInv s) : SchedInv s' := by
  rcases NewProcess_cases s size priority r s' h with ⟨_, _, rfl⟩ | ⟨_, _, hsch⟩
  · exact ⟨hs.alive, hs.prio⟩
  · apply scheduleCPU_sched _ _ hsch
    apply alive_add _ _ _ _
      ⟨{ s.newProcessRecord size priority with
          memory := (s.newAlloc size priority).2.2.memory },
        by simp [mapSet_apply], rfl⟩
    exact alive_mapSet _ _ _ _ _ rfl hs.alive

theorem SimFork_sched (s s' : SimOS) (r : Bool) (h : s.SimFork = some (r, s'))
    (hs : SchedInv s) : SchedInv s' := by
  rcases SimFork_cases s r s' h with ⟨_, _, rfl⟩ | ⟨hg, ⟨_, _, rfl⟩ | ⟨_, _, hsch⟩⟩
  · exact hs
  · exact ⟨alive_mapIndex _ _ _ _ hs.alive,
      prio_map _ _ _ _ (fun k _ => by rw [mapGet_mapIndex]) hs.prio⟩
  · apply scheduleCPU_sched _ _ hsch
    have h1 := alive_mapSet _ s.nextPid_ _ _
      { s.childRecord with memory := s.forkAlloc.2.2.memory } rfl
      (alive_mapIndex _ s.cpuPid_ _ _ hs.alive)
    have h2 := alive_mapModify _ s.cpuPid_ _ _
      (fun p => { p with children := p.children.push_back s.nextPid_ }) (fun _ => rfl) h1
    apply alive_add _ _ _ _ _ h2
    simp only [mapModify_apply, mapSet_apply]
    split
    · next e =>
      simp only [e, if_true, Option.map_some']
      exact ⟨_, rfl, rfl⟩
    · simp only [if_true]
      exact ⟨_, rfl, rfl⟩

theorem shrinks_apart (s t : SimOS) (h : Shrinks s t) (ha : Apart s) : Apart t := by
  obtain ⟨hc, hq, _, _, _⟩ := h
  constructor
  · intro hm
    rcases hc with hc | hc
    · rw [hc] at hm; exact ha.1 (hq.subset hm)
    · rw [hc] at hm; exact ha.2 (hq.subset hm)
  · intro hm
    exact ha.2 (hq.subset hm)

theorem apart_of_inv (s : SimOS) (hr : RangeInv s) (he : ExclInv s) : Apart s := by
  have hno : NO_PROCESS ∉ s.readyQueue_ := by
    intro hm
    have := (hr.ready _ hm).1
    simp [NO_PROCESS] at this
  refine ⟨?_, hno⟩
  by_cases hc : s.cpuPid_ = NO_PROCESS
  · rw [hc]; exact hno
  · exact he.cpu_not_ready hc

theorem leaveCpuOrQueue_alive (t : SimOS) (m : Int → Option Process) (pid : Int)
    (hm : ∀ k, k ≠ pid → ∀ p, m k = some p → p.isZombie = false →
      ∃ p', t.processes_ k = some p' ∧ p'.isZombie = false)
    (hc : t.cpuPid_ ∉ t.readyQueue_) (ha : Alive m t.cpuPid_ t.readyQueue_) :
    Alive (t.leaveCpuOrQueue pid).processes_ (t.leaveCpuOrQueue pid).cpuPid_
      (t.leaveCpuOrQueue pid).readyQueue_ := by
  unfold SimOS.leaveCpuOrQueue
  split
  · next e =>
    refine ⟨fun hne => absurd rfl hne, ?_⟩
    intro r hr
    obtain ⟨p, hp, hz⟩ := ha.2 r hr
    have hne : r ≠ pid := by
      intro e2
      rw [e2, ← e] at hr
      exact hc hr
    exact hm r hne p hp hz
  · next e =>
    constructor
    · intro hne
      obtain ⟨p, hp, hz⟩ := ha.1 hne
      exact hm _ e p hp hz
    · intro r hr
      obtain ⟨h1, h2⟩ := (mem_removePid _ _ _).1 hr
      obtain ⟨p, hp, hz⟩ := ha.2 r h1
      exact hm r h2 p hp hz

theorem finishTermination_alive (s : SimOS) (pid : Int) (process : Process)
    (hc : s.cpuPid_ ∉ s.readyQueue_) (ha : Alive s.processes_ s.cpuPid_ s.readyQueue_) :
    Alive (finishTermination s pid process).processes_
      (finishTermination s pid process).cpuPid_
      (finishTermination s pid process).readyQueue_ := by
  unfold finishTermination
  simp only
  split
  · have hm : ∀ k, k ≠ pid → ∀ p, s.processes_ k = some p → p.isZombie = false →
        ∃ p', mapModify (mapModify s.processes_ process.parentPid
          (fun parent => { parent with children := parent.children.eraseValue pid })) pid
          (fun p => { p with isZombie := true }) k = some p' ∧ p'.isZombie = false := by
      intro k hk p hp hz
      simp only [mapModify_apply, if_neg hk]
      split
      · next e =>
        subst e
        rw [hp]
        exact ⟨_, rfl, hz⟩
      · exact ⟨p, hp, hz⟩
    exact leaveCpuOrQueue_alive _ s.processes_ pid hm hc ha
  · have hm : ∀ k, k ≠ pid → ∀ p, s.processes_ k = some p → p.isZombie = false →
        ∃ p', mapErase s.processes_ pid k = some p' ∧ p'.isZombie = false := by
      intro k hk p hp hz
      simp only [mapErase_apply, if_neg hk]
      exact ⟨p, hp, hz⟩
    exact leaveCpuOrQueue_alive _ s.processes_ pid hm hc ha

theorem childLoop_alive (recurse : SimOS → Int → Option SimOS)
    (hshr : ∀ s pid s', recurse s pid = some s' → Shrinks s s')
    (hrec : ∀ s pid s', recurse s pid = some s' → Apart s →
      Alive s.processes_ s.cpuPid_ s.readyQueue_ →
      Alive s'.processes_ s'.cpuPid_ s'.readyQueue_) (pid : Int) :
    ∀ (remaining i : Nat) (s s' : SimOS), childLoop recurse pid remaining i s = some s' →
      Apart s → Alive s.processes_ s.cpuPid_ s.readyQueue_ →
      Alive s'.processes_ s'.cpuPid_ s'.readyQueue_ := by
  intro remaining
  induction remaining with
  | zero => intro i s s' h _ ha; simp only [childLoop] at h; cases h; exact ha
  | succ k ih =>
    intro i s s' h hap ha
    obtain ⟨process, childPid, _, _, ⟨_, s1, h1, h2⟩ | ⟨_, h2⟩⟩ :=
      childLoop_cases recurse pid k i s s' h
    · exact ih _ _ _ h2 (shrinks_apart _ _ (hshr _ _ _ h1) hap) (hrec _ _ _ h1 hap ha)
    · exact ih _ _ _ h2 hap ha

theorem terminate_alive :
    ∀ (fuel : Nat) (s : SimOS) (pid : Int) (s' : SimOS),
      s.terminateProcessAndDescendants fuel pid = some s' → Apart s →
      Alive s.processes_ s.cpuPid_ s.readyQueue_ →
      Alive s'.processes_ s'.cpuPid_ s'.readyQueue_ := by
  intro fuel
  induction fuel with
  | zero => intro s pid s' h; simp [SimOS.terminateProcessAndDescendants] at h
  | succ f ih =>
    intro s pid s' h hap ha
    obtain ⟨s1, process, h1, _, rfl⟩ := terminate_cases f s pid s' h
    have hap0 : Apart { s with processes_ := mapIndex s.processes_ pid } := hap
    have hshr := childLoop_shrinks _ (terminate_shrinks f) pid _ _ _ _ h1
    have hap1 := shrinks_apart _ _ hshr hap0
    apply finishTermination_alive s1 pid process hap1.1
    exact childLoop_alive _ (terminate_shrinks f) ih pid _ _ _ _ h1 hap0
      (alive_mapIndex _ _ _ _ ha)

theorem SimExit_sched (s s' : SimOS) (fuel : Nat) (h : s.SimExit fuel = some s')
    (hap : Apart s) (hs : SchedInv s) : SchedInv s' := by
  rcases SimExit_cases fuel s s' h with ⟨_, rfl⟩ | ⟨_, s1, h1, h2⟩
  · exact hs
  · exact scheduleCPU_sched _ _ h2 (terminate_alive _ _ _ _ h1 hap hs.alive)

theorem waitScan_keep (s : SimOS) (k : Int) (p : Process) (h : s.processes_ k = some p) :
    s.waitScan.1 k = some p := by
  obtain ⟨_, h2, _⟩ := findZombie_spec
    (mapGet (mapIndex s.processes_ s.cpuPid_) s.cpuPid_).children.elems 0
    (mapIndex s.processes_ s.cpuPid_)
  apply h2
  rw [mapIndex_apply]
  split
  · next e => subst e; simp [mapGet, h]
  · exact h

/-- The map after the search of `SimWait` gives every identifier the entry that
`processes_[...]` designated before. -/
theorem mapGet_waitScan (s : SimOS) (k : Int) :
    mapGet s.waitScan.1 k = mapGet s.processes_ k := by
  obtain ⟨h1, _, _⟩ := findZombie_spec
    (mapGet (mapIndex s.processes_ s.cpuPid_) s.cpuPid_).children.elems 0
    (mapIndex s.processes_ s.cpuPid_)
  cases hk : s.processes_ k with
  | some p =>
    unfold mapGet
    rw [waitScan_keep s k p hk, hk]
  | none =>
    unfold mapGet
    rw [hk]
    cases hw : s.waitScan.1 k with
    | none => rfl
    | some p =>
      simp only [Option.getD_some, Option.getD_none]
      rcases h1 k p hw with h2 | ⟨h2, _, _⟩
      · rw [mapIndex_apply] at h2
        split at h2
        · next e =>
          simp only [Option.some.injEq] at h2
          rw [← h2]
          simp [mapGet, ← e, hk]
        · rw [hk] at h2; cases h2
      · exact h2

theorem SimWait_sched (s s' : SimOS) (h : s.SimWait = some s') (hs : SchedInv s) :
    SchedInv s' := by
  rcases SimWait_cases s s' h with ⟨_, rfl⟩ | ⟨hg, ⟨i, z, hi, hz, rfl⟩ | ⟨_, hsch⟩⟩
  · exact hs
  · have hc : s.cpuPid_ ≠ NO_PROCESS := fun e => hg (Or.inl e)
    obtain ⟨_, _, h3⟩ := findZombie_spec
      (mapGet (mapIndex s.processes_ s.cpuPid_) s.cpuPid_).children.elems 0
      (mapIndex s.processes_ s.cpuPid_)
    obtain ⟨_, z', pz, hz', hpz, hzomb⟩ := h3 i hi
    simp only [Nat.sub_zero] at hz'
    rw [hz] at hz'
    simp only [Option.some.injEq] at hz'
    subst hz'
    have hzc : z ≠ s.cpuPid_ := by
      intro e
      obtain ⟨p, hp, hpz0⟩ := hs.alive.1 hc
      rw [e, mapIndex_apply, if_pos rfl, mapGet_of_eq _ _ _ hp] at hpz
      simp only [Option.some.injEq] at hpz
      rw [← hpz, hpz0] at hzomb
      cases hzomb
    have hmz : s.processes_ z = some pz := by
      rw [mapIndex_apply, if_neg hzc] at hpz
      exact hpz
    have hkeep : ∀ k, (k = s.cpuPid_ ∨ k ∈ s.readyQueue_) → ∀ p, s.processes_ k = some p →
        p.isZombie = false →
        k ≠ z ∧ ∃ p', mapModify (mapErase s.waitScan.1 z) s.cpuPid_
          (fun p => { p with children := p.children.eraseAt i }) k = some p' ∧
          p'.isZombie = false ∧ p'.priority = p.priority := by
      intro k _ p hp hzf
      have hkz : k ≠ z := by
        intro e
        subst e
        rw [hmz] at hp
        simp only [Option.some.injEq] at hp
        subst hp
        rw [hzomb] at hzf
        cases hzf
      refine ⟨hkz, ?_⟩
      have hw := waitScan_keep s k p hp
      have he : mapErase s.waitScan.1 z k = some p := by
        rw [mapErase_apply, if_neg hkz]; exact hw
      rw [mapModify_apply]
      split
      · next e =>
        rw [← e, he]
        exact ⟨_, rfl, hzf, rfl⟩
      · exact ⟨p, he, hzf, rfl⟩
    constructor
    · apply alive_map _ _ _ _ _ hs.alive
      intro k hk p hp hzf
      obtain ⟨_, p', h1, h2, _⟩ := hkeep k hk p hp hzf
      exact ⟨p', h1, h2⟩
    · apply prio_map _ _ _ _ _ hs.prio
      intro k hk
      have hal : ∃ p, s.processes_ k = some p ∧ p.isZombie = false := by
        rcases hk with hk | hk
        · rw [hk]; exact hs.alive.1 hc
        · exact hs.alive.2 k hk
      obtain ⟨p, hp, hzf⟩ := hal
      obtain ⟨_, p', h1, _, h3⟩ := hkeep k hk p hp hzf
      simp only [mapGet]
      show ((mapModify (mapErase s.waitScan.1 z) s.cpuPid_
        (fun p => { p with children := p.children.eraseAt i }) k).getD zeroProcess).priority
        = ((s.processes_ k).getD zeroProcess).priority
      rw [h1, hp]
      exact h3
  · apply scheduleCPU_sched _ _ hsch
    apply alive_sub _ s.cpuPid_ _ s.readyQueue_ _ (Or.inr rfl) (fun r hr => hr)
    apply alive_map _ _ _ _ _ hs.alive
    intro k _ p hp hzf
    exact ⟨p, waitScan_keep s k p hp, hzf⟩

theorem DiskReadRequest_sched (s s' : SimOS) (diskNumber : Int) (fileName : String)
    (h : s.DiskReadRequest diskNumber fileName = some s') (hs : SchedInv s) : SchedInv s' := by
  rcases DiskReadRequest_cases s s' diskNumber fileName h with
    ⟨_, rfl⟩ | ⟨_, ⟨_, hsch⟩ | ⟨_, hsch⟩⟩
  · exact hs
  · apply scheduleCPU_sched _ _ hsch
    exact alive_sub _ s.cpuPid_ _ s.readyQueue_ _ (Or.inr rfl) (fun r hr => hr) hs.alive
  · apply scheduleCPU_sched _ _ hsch
    exact alive_sub _ s.cpuPid_ _ s.readyQueue_ _ (Or.inr rfl) (fun r hr => hr) hs.alive

theorem DiskJobCompleted_sched (s s' : SimOS) (diskNumber : Int)
    (h : s.DiskJobCompleted diskNumber = some s') (hs : SchedInv s) : SchedInv s' := by
  rcases DiskJobCompleted_cases s s' diskNumber h with
    ⟨_, rfl⟩ | ⟨_, rfl⟩ | ⟨job, _, hj, ⟨⟨p, hp, hz⟩, hsch⟩ | rfl⟩
  · exact hs
  · exact hs
  · apply scheduleCPU_sched _ _ hsch
    obtain ⟨_, e2, e3, e4⟩ := startNextJob_fields
      { s with activeDiskJobs_ := mapErase s.activeDiskJobs_ diskNumber } diskNumber
    show Alive (SimOS.startNextJob _ diskNumber).processes_
      (SimOS.startNextJob _ diskNumber).cpuPid_
      (addPid (SimOS.startNextJob _ diskNumber).readyQueue_ job.PID)
    rw [e2, e3, e4]
    exact alive_add _ _ _ _ ⟨p, hp, hz⟩ hs.alive
  · obtain ⟨_, e2, e3, e4⟩ := startNextJob_fields
      { s with activeDiskJobs_ := mapErase s.activeDiskJobs_ diskNumber } diskNumber
    constructor
    · rw [e2, e3, e4]; exact hs.alive
    · rw [e2, e3, e4]; exact hs.prio

theorem construct_sched (numberOfDisks amountOfRAM sizeOfOS : Nat) :
    SchedInv (SimOS.construct numberOfDisks amountOfRAM sizeOfOS) :=
  ⟨⟨fun hne => absurd rfl hne, fun r hr => by simp [SimOS.construct] at hr⟩,
    fun hne => absurd rfl hne⟩

/-- In a reachable state the CPU and the ready queue hold registered processes that
are not zombies, and the process on the CPU has the highest priority among them. -/
theorem reachable_sched (numberOfDisks amountOfRAM sizeOfOS : Nat) (s : SimOS)
    (h : Reachable (SimOS.construct numberOfDisks amountOfRAM sizeOfOS) s) : SchedInv s := by
  induction h with
  | start => exact construct_sched _ _ _
  | newProcess s s' size priority r _ hstep ih => exact NewProcess_sched _ _ _ _ _ hstep ih
  | simFork s s' r _ hstep ih => exact SimFork_sched _ _ _ hstep ih
  | simExit s s' fuel hreach hstep ih =>
    exact SimExit_sched _ _ _ hstep
      (apart_of_inv s (reachable_range _ _ _ _ hreach) (reachable_excl _ _ _ _ hreach)) ih
  | simWait s s' _ hstep ih => exact SimWait_sched _ _ hstep ih
  | diskReadRequest s s' d f _ hstep ih => exact DiskReadRequest_sched _ _ _ _ hstep ih
  | diskJobCompleted s s' d _ hstep ih => exact DiskJobCompleted_sched _ _ _ hstep ih

/-! ## Child vectors hold larger identifiers -/

theorem storage_mapIndex (m : Int → Option Process) (k x : Int) :
    storage (mapIndex m k) x = storage m x := by
  unfold storage
  rw [mapIndex_apply]
  by_cases e : x = k
  · subst e
    rw [if_pos rfl]
    unfold mapGet
    cases hm : m x with
    | none => simp [zeroProcess, PidVector.empty]
    | some p => simp
  · rw [if_neg e]

theorem storage_mapSet (m : Int → Option Process) (k x : Int) (v : Process) :
    storage (mapSet m k v) x =
      if x = k then v.children.elems ++ v.children.vacated else storage m x := by
  unfold storage
  rw [mapSet_apply]
  by_cases e : x = k
  · simp [e]
  · simp [e]

theorem storage_mapErase (m : Int → Option Process) (k x : Int) :
    storage (mapErase m k) x = if x = k then [] else storage m x := by
  unfold storage
  rw [mapErase_apply]
  by_cases e : x = k
  · simp [e]
  · simp [e]

theorem storage_mapModify (m : Int → Option Process) (k x : Int) (f : Process → Process) :
    storage (mapModify m k f) x =
      if x = k then
        match m k with
        | some p => (f p).children.elems ++ (f p).children.vacated
        | none => []
      else storage m x := by
  unfold storage
  rw [mapModify_apply]
  by_cases e : x = k
  · rw [if_pos e, if_pos e]
    cases hm : m k with
    | none => simp
    | some p => simp
  · rw [if_neg e, if_neg e]

theorem isSome_mapModify (m : Int → Option Process) (k x : Int) (f : Process → Process) :
    (mapModify m k f x).isSome = (m x).isSome := by
  rw [mapModify_apply]
  by_cases e : x = k
  · subst e
    rw [if_pos rfl]
    cases hm : m x <;> simp
  · rw [if_neg e]

theorem storage_of_some (m : Int → Option Process) (k : Int) (p : Process)
    (h : m k = some p) : storage m k = p.children.elems ++ p.children.vacated := by
  unfold storage
  rw [h]

theorem eraseAt_storage_mem (v : PidVector) (i : Nat) (c : Int)
    (h : c ∈ (v.eraseAt i).elems ++ (v.eraseAt i).vacated) : c ∈ v.elems ++ v.vacated := by
  unfold PidVector.eraseAt at h
  split at h
  · exact h
  · next z hz =>
    split at h
    · simp only [List.mem_append, List.mem_cons] at h ⊢
      rcases h with h1 | h1 | h1
      · exact Or.inl (List.mem_of_mem_eraseIdx h1)
      · rw [h1]; exact Or.inl (List.mem_of_getLast?_eq_some hz)
      · exact Or.inr h1
    · exact h

theorem eraseAt_storage_length (v : PidVector) (i : Nat) :
    ((v.eraseAt i).elems ++ (v.eraseAt i).vacated).length = (v.elems ++ v.vacated).length := by
  unfold PidVector.eraseAt
  split
  · rfl
  · split
    · next hlt =>
      simp only [List.length_append, List.length_cons, List.length_eraseIdx, if_pos hlt]
      omega
    · rfl

theorem eraseValue_storage_mem (v : PidVector) (x c : Int)
    (h : c ∈ (v.eraseValue x).elems ++ (v.eraseValue x).vacated) :
    c ∈ v.elems ++ v.vacated := by
  unfold PidVector.eraseValue at h
  split at h
  · exact h
  · exact eraseAt_storage_mem v _ c h

theorem eraseValue_storage_length (v : PidVector) (x : Int) :
    ((v.eraseValue x).elems ++ (v.eraseValue x).vacated).length =
      (v.elems ++ v.vacated).length := by
  unfold PidVector.eraseValue
  split
  · rfl
  · exact eraseAt_storage_length v _

theorem push_back_storage_mem (v : PidVector) (x c : Int)
    (h : c ∈ (v.push_back x).elems ++ (v.push_back x).vacated) :
    c ∈ v.elems ++ v.vacated ∨ c = x := by
  simp only [PidVector.push_back, List.mem_append, List.mem_singleton] at h ⊢
  rcases h with (h1 | h1) | h1
  · exact Or.inl (Or.inl h1)
  · exact Or.inr h1
  · exact Or.inl (Or.inr (List.mem_of_mem_drop h1))

/-- The invariant carries over to a map whose storages hold old values or larger
identifiers. -/
theorem tree_of_storage (m m' : Int → Option Process)
    (h : ∀ k, ∀ c ∈ storage m' k, c ∈ storage m k ∨ k < c) (ht : TreeInv m) :
    TreeInv m' := by
  intro k c hc
  rcases h k c hc with h1 | h1
  · exact ht k c h1
  · exact h1

theorem tree_mapIndex (m : Int → Option Process) (k : Int) (ht : TreeInv m) :
    TreeInv (mapIndex m k) :=
  tree_of_storage m _ (fun x c hc => Or.inl (by rw [storage_mapIndex] at hc; exact hc)) ht

theorem tree_mapSet (m : Int → Option Process) (k : Int) (v : Process)
    (hv : ∀ c ∈ v.children.elems ++ v.children.vacated, k < c) (ht : TreeInv m) :
    TreeInv (mapSet m k v) := by
  apply tree_of_storage m _ _ ht
  intro x c hc
  rw [storage_mapSet] at hc
  split at hc
  · next e => right; rw [e]; exact hv c hc
  · exact Or.inl hc

theorem tree_mapErase (m : Int → Option Process) (k : Int) (ht : TreeInv m) :
    TreeInv (mapErase m k) := by
  apply tree_of_storage m _ _ ht
  intro x c hc
  rw [storage_mapErase] at hc
  split at hc
  · simp at hc
  · exact Or.inl hc

theorem tree_mapModify (m : Int → Option Process) (k : Int) (f : Process → Process)
    (hf : ∀ p, ∀ c ∈ (f p).children.elems ++ (f p).children.vacated,
      c ∈ p.children.elems ++ p.children.vacated ∨ k < c)
    (ht : TreeInv m) : TreeInv (mapModify m k f) := by
  apply tree_of_storage m _ _ ht
  intro x c hc
  rw [storage_mapModify] at hc
  split at hc
  · next e =>
    subst e
    cases hm : m x with
    | none => rw [hm] at hc; simp at hc
    | some p =>
      rw [hm] at hc
      simp only at hc
      rcases hf p c hc with h1 | h1
      · left; rw [storage_of_some m x p hm]; exact h1
      · exact Or.inr h1
  · exact Or.inl hc

theorem length_mapModify (m : Int → Option Process) (k x : Int) (f : Process → Process)
    (hf : ∀ p, ((f p).children.elems ++ (f p).children.vacated).length =
      (p.children.elems ++ p.children.vacated).length) :
    (storage (mapModify m k f) x).length = (storage m x).length := by
  rw [storage_mapModify]
  split
  · next e =>
    subst e
    cases hm : m x with
    | none => simp [storage, hm]
    | some p =>
      rw [storage_of_some m x p hm]
      exact hf p
  · rfl

theorem sameBelow_refl (c : Int) (m : Int → Option Process) : SameBelow c m m :=
  fun _ _ => ⟨rfl, rfl⟩

theorem sameBelow_trans (c : Int) (m1 m2 m3 : Int → Option Process)
    (h1 : SameBelow c m1 m2) (h2 : SameBelow c m2 m3) : SameBelow c m1 m3 := by
  intro k hk
  obtain ⟨a1, b1⟩ := h1 k hk
  obtain ⟨a2, b2⟩ := h2 k hk
  exact ⟨a2.trans a1, b2.trans b1⟩

theorem sameBelow_mono (c d : Int) (m m' : Int → Option Process) (hcd : c ≤ d)
    (h : SameBelow d m m') : SameBelow c m m' :=
  fun k hk => h k (lt_of_lt_of_le hk hcd)

theorem sameBelow_mapIndex (c : Int) (m : Int → Option Process) :
    SameBelow c m (mapIndex m c) := by
  intro k hk
  refine ⟨?_, by rw [storage_mapIndex]⟩
  rw [mapIndex_apply, if_neg (ne_of_lt hk)]

theorem leaveCpuOrQueue_processes (s : SimOS) (pid : Int) :
    (s.leaveCpuOrQueue pid).processes_ = s.processes_ := by
  unfold SimOS.leaveCpuOrQueue
  split <;> rfl

theorem finishTermination_tree (s : SimOS) (pid : Int) (process : Process)
    (ht : TreeInv s.processes_) :
    TreeInv (finishTermination s pid process).processes_ ∧
    SameBelow pid s.processes_ (finishTermination s pid process).processes_ := by
  unfold finishTermination
  simp only
  split
  · rw [leaveCpuOrQueue_processes]
    show TreeInv (mapModify (mapModify s.processes_ process.parentPid
        (fun parent => { parent with children := parent.children.eraseValue pid })) pid
        (fun p => { p with isZombie := true })) ∧
      SameBelow pid s.processes_ (mapModify (mapModify s.processes_ process.parentPid
        (fun parent => { parent with children := parent.children.eraseValue pid })) pid
        (fun p => { p with isZombie := true }))
    constructor
    · apply tree_mapModify _ pid (fun p => { p with isZombie := true })
        (fun p c hc => Or.inl hc)
      exact tree_mapModify _ process.parentPid
        (fun parent => { parent with children := parent.children.eraseValue pid })
        (fun p c hc => Or.inl (eraseValue_storage_mem _ _ _ hc)) ht
    · intro k _
      constructor
      · rw [isSome_mapModify, isSome_mapModify]
      · rw [length_mapModify _ pid k (fun p => { p with isZombie := true }) (fun p => rfl),
          length_mapModify _ process.parentPid k
            (fun parent => { parent with children := parent.children.eraseValue pid })
            (fun p => eraseValue_storage_length _ _)]
  · rw [leaveCpuOrQueue_processes]
    constructor
    · exact tree_mapErase _ pid ht
    · intro k hk
      show (mapErase s.processes_ pid k).isSome = (s.processes_ k).isSome ∧
        (storage (mapErase s.processes_ pid) k).length = (storage s.processes_ k).length
      rw [storage_mapErase, mapErase_apply, if_neg (ne_of_lt hk), if_neg (ne_of_lt hk)]
      exact ⟨rfl, rfl⟩

theorem slot_mem (m : Int → Option Process) (pid : Int) (process : Process) (i : Nat)
    (c : Int) (hp : m pid = some process) (hc : process.children.slot i = some c) :
    c ∈ storage m pid := by
  rw [storage_of_some m pid process hp]
  exact List.getElem?_mem hc

theorem childLoop_tree (recurse : SimOS → Int → Option SimOS)
    (hrec : ∀ s d s', recurse s d = some s' → TreeInv s.processes_ →
      TreeInv s'.processes_ ∧ SameBelow d s.processes_ s'.processes_)
    (pid : Int) :
    ∀ (remaining i : Nat) (s s' : SimOS), childLoop recurse pid remaining i s = some s' →
      TreeInv s.processes_ →
      TreeInv s'.processes_ ∧ SameBelow (pid + 1) s.processes_ s'.processes_ := by
  intro remaining
  induction remaining with
  | zero =>
    intro i s s' h ht
    simp only [childLoop] at h
    cases h
    exact ⟨ht, sameBelow_refl _ _⟩
  | succ n ih =>
    intro i s s' h ht
    obtain ⟨process, childPid, hp, hc, ⟨_, s1, h1, h2⟩ | ⟨_, h2⟩⟩ :=
      childLoop_cases recurse pid n i s s' h
    · obtain ⟨ht1, hb1⟩ := hrec _ _ _ h1 ht
      obtain ⟨ht2, hb2⟩ := ih _ _ _ h2 ht1
      have hlt : pid < childPid := ht pid childPid (slot_mem _ _ _ _ _ hp hc)
      exact ⟨ht2, sameBelow_trans _ _ _ _
        (sameBelow_mono _ _ _ _ (by omega) hb1) hb2⟩
    · exact ih _ _ _ h2 ht

/-- The call `terminateProcessAndDescendants` keeps the ordering of the process tree and
leaves the registrations and child-vector sizes of smaller identifiers as they are. -/
theorem terminate_tree :
    ∀ (fuel : Nat) (s : SimOS) (pid : Int) (s' : SimOS),
      s.terminateProcessAndDescendants fuel pid = some s' → TreeInv s.processes_ →
      TreeInv s'.processes_ ∧ SameBelow pid s.processes_ s'.processes_ := by
  intro fuel
  induction fuel with
  | zero => intro s pid s' h; simp [SimOS.terminateProcessAndDescendants] at h
  | succ f ih =>
    intro s pid s' h ht
    obtain ⟨s1, process, h1, _, rfl⟩ := terminate_cases f s pid s' h
    have ht0 : TreeInv (mapIndex s.processes_ pid) := tree_mapIndex _ _ ht
    obtain ⟨ht1, hb1⟩ := childLoop_tree _ ih pid _ _ _ _ h1 ht0
    obtain ⟨ht2, hb2⟩ := finishTermination_tree s1 pid process ht1
    refine ⟨ht2, ?_⟩
    exact sameBelow_trans _ _ _ _ (sameBelow_mapIndex pid s.processes_)
      (sameBelow_trans _ _ _ _ (sameBelow_mono _ _ _ _ (by omega) hb1) hb2)

/-! ## The process tree in reachable states -/

theorem scheduleCPU_storage (s s' : SimOS) (h : s.scheduleCPU = some s') (k : Int) :
    storage s'.processes_ k = storage s.processes_ k := by
  rcases scheduleCPU_cases s s' h with ⟨_, rfl⟩ |
    ⟨first, rest, hp, _, _, ⟨_, rfl⟩ | ⟨_, _, rfl⟩ | ⟨_, _, rfl⟩⟩
  · rfl
  · rfl
  · show storage (mapIndex (mapIndex s.processes_ hp) s.cpuPid_) k = storage s.processes_ k
    rw [storage_mapIndex, storage_mapIndex]
  · show storage (mapIndex (mapIndex s.processes_ hp) s.cpuPid_) k = storage s.processes_ k
    rw [storage_mapIndex, storage_mapIndex]

theorem scheduleCPU_tree (s s' : SimOS) (h : s.scheduleCPU = some s')
    (ht : TreeInv s.processes_) : TreeInv s'.processes_ :=
  tree_of_storage _ _
    (fun k c hc => Or.inl (by rw [scheduleCPU_storage s s' h k] at hc; exact hc)) ht

theorem NewProcess_tree (s s' : SimOS) (size : Nat) (priority : Int) (r : Bool)
    (h : s.NewProcess size priority = some (r, s')) (ht : TreeInv s.processes_) :
    TreeInv s'.processes_ := by
  rcases NewProcess_cases s size priority r s' h with ⟨_, _, rfl⟩ | ⟨_, _, hs⟩
  · exact ht
  · apply scheduleCPU_tree _ _ hs
    exact tree_mapSet _ s.nextPid_ _
      (by intro c hc; simp [SimOS.newProcessRecord, PidVector.empty] at hc) ht

theorem SimFork_tree (s s' : SimOS) (r : Bool) (h : s.SimFork = some (r, s'))
    (hr : RangeInv s) (ht : TreeInv s.processes_) : TreeInv s'.processes_ := by
  rcases SimFork_cases s r s' h with ⟨_, _, rfl⟩ | ⟨hg, ⟨_, _, rfl⟩ | ⟨_, _, hs⟩⟩
  · exact ht
  · exact tree_mapIndex _ _ ht
  · have hc : s.cpuPid_ ≠ NO_PROCESS := fun e => hg (Or.inl e)
    apply scheduleCPU_tree _ _ hs
    apply tree_mapModify _ s.cpuPid_
      (fun p => { p with children := p.children.push_back s.nextPid_ })
    · intro p c hcm
      rcases push_back_storage_mem _ _ _ hcm with h1 | h1
      · exact Or.inl h1
      · right; rw [h1]; exact (hr.cpu hc).2
    · exact tree_mapSet _ s.nextPid_ _
        (by intro c hcm; simp [SimOS.childRecord, PidVector.empty] at hcm)
        (tree_mapIndex _ _ ht)

theorem SimExit_tree (s s' : SimOS) (fuel : Nat) (h : s.SimExit fuel = some s')
    (ht : TreeInv s.processes_) : TreeInv s'.processes_ := by
  rcases SimExit_cases fuel s s' h with ⟨_, rfl⟩ | ⟨_, s1, h1, h2⟩
  · exact ht
  · exact scheduleCPU_tree _ _ h2 (terminate_tree _ _ _ _ h1 ht).1

theorem waitScan_tree (s : SimOS) (ht : TreeInv s.processes_) : TreeInv s.waitScan.1 := by
  obtain ⟨h1, _, _⟩ := findZombie_spec
    (mapGet (mapIndex s.processes_ s.cpuPid_) s.cpuPid_).children.elems 0
    (mapIndex s.processes_ s.cpuPid_)
  apply tree_of_storage s.processes_ _ _ ht
  intro k c hc
  left
  cases hw : s.waitScan.1 k with
  | none => simp [storage, hw] at hc
  | some p =>
    rw [storage_of_some _ k p hw] at hc
    rcases h1 k p hw with h2 | ⟨h2, _, _⟩
    · rw [← storage_mapIndex s.processes_ s.cpuPid_ k, storage_of_some _ k p h2]
      exact hc
    · rw [h2] at hc
      simp [zeroProcess, PidVector.empty] at hc

theorem SimWait_tree (s s' : SimOS) (h : s.SimWait = some s') (ht : TreeInv s.processes_) :
    TreeInv s'.processes_ := by
  rcases SimWait_cases s s' h with ⟨_, rfl⟩ | ⟨_, ⟨i, z, _, _, rfl⟩ | ⟨_, hs⟩⟩
  · exact ht
  · exact tree_mapModify _ s.cpuPid_ (fun p => { p with children := p.children.eraseAt i })
      (fun p c hc => Or.inl (eraseAt_storage_mem _ _ _ hc))
      (tree_mapErase _ z (waitScan_tree s ht))
  · exact scheduleCPU_tree _ _ hs (waitScan_tree s ht)

theorem DiskReadRequest_tree (s s' : SimOS) (diskNumber : Int) (fileName : String)
    (h : s.DiskReadRequest diskNumber fileName = some s') (ht : TreeInv s.processes_) :
    TreeInv s'.processes_ := by
  rcases DiskReadRequest_cases s s' diskNumber fileName h with
    ⟨_, rfl⟩ | ⟨_, ⟨_, hsch⟩ | ⟨_, hsch⟩⟩
  · exact ht
  · exact scheduleCPU_tree _ _ hsch ht
  · exact scheduleCPU_tree _ _ hsch ht

theorem DiskJobCompleted_tree (s s' : SimOS) (diskNumber : Int)
    (h : s.DiskJobCompleted diskNumber = some s') (ht : TreeInv s.processes_) :
    TreeInv s'.processes_ := by
  have e := (startNextJob_fields
    { s with activeDiskJobs_ := mapErase s.activeDiskJobs_ diskNumber } diskNumber).2.2.1
  rcases DiskJobCompleted_cases s s' diskNumber h with
    ⟨_, rfl⟩ | ⟨_, rfl⟩ | ⟨job, _, _, ⟨_, hsch⟩ | rfl⟩
  · exact ht
  · exact ht
  · apply scheduleCPU_tree _ _ hsch
    show TreeInv (SimOS.startNextJob _ diskNumber).processes_
    rw [e]
    exact ht
  · rw [e]
    exact ht

theorem construct_tree (numberOfDisks amountOfRAM sizeOfOS : Nat) :
    TreeInv (SimOS.construct numberOfDisks amountOfRAM sizeOfOS).processes_ := by
  intro k c hc
  simp only [SimOS.construct, storage_mapSet] at hc
  split at hc
  · simp [PidVector.empty] at hc
  · simp [storage] at hc

/-- In a reachable state every child vector holds identifiers larger than the
identifier of its owner. -/
theorem reachable_tree (numberOfDisks amountOfRAM sizeOfOS : Nat) (s : SimOS)
    (h : Reachable (SimOS.construct numberOfDisks amountOfRAM sizeOfOS) s) :
    TreeInv s.processes_ := by
  induction h with
  | start => exact construct_tree _ _ _
  | newProcess s s' size priority r _ hstep ih => exact NewProcess_tree _ _ _ _ _ hstep ih
  | simFork s s' r hreach hstep ih =>
    exact SimFork_tree _ _ _ hstep (reachable_range _ _ _ _ hreach) ih
  | simExit s s' fuel _ hstep ih => exact SimExit_tree _ _ _ hstep ih
  | simWait s s' _ hstep ih => exact SimWait_tree _ _ hstep ih
  | diskReadRequest s s' d f _ hstep ih => exact DiskReadRequest_tree _ _ _ _ hstep ih
  | diskJobCompleted s s' d _ hstep ih => exact DiskJobCompleted_tree _ _ _ hstep ih

/-! ## The public operations return normally -/

theorem childLoop_returns (recurse : SimOS → Int → Option SimOS) (pid N : Int)
    (hret : ∀ t d, RangeInv t → TreeInv t.processes_ → (t.processes_ d).isSome = true →
      pid < d → t.nextPid_ = N → (recurse t d).isSome = true)
    (hpres : ∀ t d t', recurse t d = some t' → RangeInv t → InRange t d →
      TreeInv t.processes_ →
      RangeInv t' ∧ TreeInv t'.processes_ ∧ SameBelow d t.processes_ t'.processes_ ∧
      t'.nextPid_ = t.nextPid_) :
    ∀ (remaining i : Nat) (t : SimOS), RangeInv t → TreeInv t.processes_ →
      (t.processes_ pid).isSome = true →
      i + remaining ≤ (storage t.processes_ pid).length → t.nextPid_ = N →
      (childLoop recurse pid remaining i t).isSome = true := by
  intro remaining
  induction remaining with
  | zero => intro i t _ _ _ _ _; rfl
  | succ n ih =>
    intro i t hr ht hreg hlen hN
    obtain ⟨process, hp⟩ := Option.isSome_iff_exists.1 hreg
    rw [storage_of_some _ pid process hp] at hlen
    have hi : i < (process.children.elems ++ process.children.vacated).length := by omega
    have hslot : process.children.slot i =
        some ((process.children.elems ++ process.children.vacated)[i]) := by
      unfold PidVector.slot
      exact List.getElem?_eq_getElem hi
    have hlt : pid < (process.children.elems ++ process.children.vacated)[i] :=
      ht pid _ (slot_mem _ _ _ _ _ hp hslot)
    simp only [childLoop, hp, hslot]
    split
    · next hcount =>
      have hd : (t.processes_ ((process.children.elems ++ process.children.vacated)[i])).isSome
          = true := hcount
      obtain ⟨t1, h1⟩ := Option.isSome_iff_exists.1 (hret t _ hr ht hd hlt hN)
      obtain ⟨hr1, ht1, hb1, hn1⟩ := hpres t _ t1 h1 hr (hr.keys _ hd) ht
      obtain ⟨e1, e2⟩ := hb1 pid hlt
      rw [h1]
      simp only [Option.some_bind]
      apply ih (i + 1) t1 hr1 ht1 (by rw [e1]; exact hreg) _ (by rw [hn1]; exact hN)
      rw [e2, storage_of_some _ pid process hp]
      omega
    · apply ih (i + 1) t hr ht hreg _ hN
      rw [storage_of_some _ pid process hp]
      omega

/-- The call `terminateProcessAndDescendants` of a registered process returns normally
when the recursion depth is at least the distance from its identifier to the identifier
counter. -/
theorem terminate_returns :
    ∀ (fuel : Nat) (s : SimOS) (pid : Int), RangeInv s → TreeInv s.processes_ →
      (s.processes_ pid).isSome = true → s.nextPid_ ≤ pid + (fuel : Int) →
      (s.terminateProcessAndDescendants fuel pid).isSome = true := by
  intro fuel
  induction fuel with
  | zero =>
    intro s pid hr _ hreg hf
    have := (hr.keys pid hreg).2
    simp only [Nat.cast_zero, add_zero] at hf
    omega
  | succ f ih =>
    intro s pid hr ht hreg hf
    have e0 : mapIndex s.processes_ pid = s.processes_ := mapIndex_of_isSome _ _ hreg
    obtain ⟨process, hp⟩ := Option.isSome_iff_exists.1 hreg
    have hret : ∀ t d, RangeInv t → TreeInv t.processes_ → (t.processes_ d).isSome = true →
        pid < d → t.nextPid_ = s.nextPid_ →
        (SimOS.terminateProcessAndDescendants f t d).isSome = true := by
      intro t d hrt htt hd hlt hN
      apply ih t d hrt htt hd
      rw [hN]
      push_cast at hf
      omega
    have hpres : ∀ t d t', SimOS.terminateProcessAndDescendants f t d = some t' →
        RangeInv t → InRange t d → TreeInv t.processes_ →
        RangeInv t' ∧ TreeInv t'.processes_ ∧ SameBelow d t.processes_ t'.processes_ ∧
        t'.nextPid_ = t.nextPid_ := by
      intro t d t' h hrt hd htt
      obtain ⟨h1, h2⟩ := terminate_tree f t d t' h htt
      exact ⟨terminate_range f t d t' h hrt hd, h1, h2, (terminate_shrinks f t d t' h).2.2.1⟩
    have hloop := childLoop_returns _ pid s.nextPid_ hret hpres
      (mapGet (mapIndex s.processes_ pid) pid).children.elems.length 0
      { s with processes_ := mapIndex s.processes_ pid }
      (range_mapIndex s pid hr (hr.keys pid hreg)) (tree_mapIndex _ _ ht)
      (by show (mapIndex s.processes_ pid pid).isSome = true; rw [e0]; exact hreg)
      (by
        show 0 + (mapGet (mapIndex s.processes_ pid) pid).children.elems.length ≤
          (storage (mapIndex s.processes_ pid) pid).length
        rw [e0, storage_of_some _ pid process hp, mapGet_of_eq _ pid process hp]
        simp)
      rfl
    obtain ⟨s1, h1⟩ := Option.isSome_iff_exists.1 hloop
    obtain ⟨_, hb⟩ := childLoop_tree _ (terminate_tree f) pid _ _ _ _ h1
      (tree_mapIndex _ _ ht)
    have hreg1 : (s1.processes_ pid).isSome = true := by
      rw [(hb pid (by omega)).1]
      show (mapIndex s.processes_ pid pid).isSome = true
      rw [e0]
      exact hreg
    obtain ⟨process1, hp1⟩ := Option.isSome_iff_exists.1 hreg1
    simp only [SimOS.terminateProcessAndDescendants, h1, hp1]
    rfl

theorem ready_registered (m : Int → Option Process) (c : Int) (q : List Int)
    (h : Alive m c q) : ∀ r ∈ q, (m r).isSome = true := by
  intro r hr
  obtain ⟨p, hp, _⟩ := h.2 r hr
  simp [hp]

theorem NewProcess_returns (s : SimOS) (size : Nat) (priority : Int) (hs : SchedInv s) :
    (s.NewProcess size priority).isSome = true := by
  unfold SimOS.NewProcess
  simp only
  rcases allocateMemory_eq { s with nextPid_ := s.nextPid_ + 1 }
      (s.newProcessRecord size priority) with ⟨_, e⟩ | ⟨_, e⟩
  · rw [e]
    rfl
  · rw [e]
    simp only [Option.isSome_map']
    apply scheduleCPU_isSome
    intro r hr
    simp only [SimOS.addToReadyQueue] at hr ⊢
    simp only [mapSet_apply]
    split
    · rfl
    · rcases (mem_addPid _ _ _).1 hr with h1 | h1
      · exact ready_registered _ _ _ hs.alive r h1
      · next hne => exact absurd h1 hne

theorem SimFork_returns (s : SimOS) (hs : SchedInv s) : s.SimFork.isSome = true := by
  unfold SimOS.SimFork
  split
  · rfl
  · simp only
    rcases allocateMemory_eq
        { s with processes_ := mapIndex s.processes_ s.cpuPid_, nextPid_ := s.nextPid_ + 1 }
        s.childRecord with ⟨_, e⟩ | ⟨_, e⟩
    · rw [e]
      rfl
    · rw [e]
      simp only [Option.isSome_map']
      apply scheduleCPU_isSome
      intro r hr
      simp only [SimOS.addToReadyQueue] at hr ⊢
      rw [isSome_mapModify, mapSet_apply]
      split
      · rfl
      · next hne =>
        rcases (mem_addPid _ _ _).1 hr with h1 | h1
        · exact ready_registered _ _ _ (alive_mapIndex _ s.cpuPid_ _ _ hs.alive) r h1
        · exact absurd h1 hne

theorem SimExit_returns (s : SimOS) (hr : RangeInv s) (he : ExclInv s) (hs : SchedInv s)
    (ht : TreeInv s.processes_) : (s.SimExit s.nextPid_.toNat).isSome = true := by
  unfold SimOS.SimExit
  split
  · rfl
  · next hg =>
    have hc : s.cpuPid_ ≠ NO_PROCESS := fun e => hg (Or.inl e)
    have hreg : (s.processes_ s.cpuPid_).isSome = true := by
      obtain ⟨p, hp, _⟩ := hs.alive.1 hc
      simp [hp]
    have hfuel : s.nextPid_ ≤ s.cpuPid_ + (s.nextPid_.toNat : Int) := by
      have h1 := (hr.cpu hc).1
      have h2 := hr.next
      rw [Int.toNat_of_nonneg (by omega)]
      omega
    obtain ⟨s1, h1⟩ := Option.isSome_iff_exists.1
      (terminate_returns _ s s.cpuPid_ hr ht hreg hfuel)
    rw [h1]
    simp only [Option.some_bind]
    apply scheduleCPU_isSome
    exact ready_registered _ _ _
      (terminate_alive _ _ _ _ h1 (apart_of_inv s hr he) hs.alive)

theorem SimWait_returns (s : SimOS) (hs : SchedInv s) :
    s.SimWait.isSome = true := by
  unfold SimOS.SimWait
  split
  · rfl
  · next hg =>
    have hc : s.cpuPid_ ≠ NO_PROCESS := fun e => hg (Or.inl e)
    obtain ⟨_, h2, h3⟩ := findZombie_spec
      (mapGet (mapIndex s.processes_ s.cpuPid_) s.cpuPid_).children.elems 0
      (mapIndex s.processes_ s.cpuPid_)
    simp only
    split
    · next m1 i heq =>
      obtain ⟨_, z, pz, hz, _, _⟩ := h3 i (by rw [heq])
      simp only [Nat.sub_zero] at hz
      rw [hz]
      rfl
    · next m1 heq =>
      apply scheduleCPU_isSome
      intro r hr
      obtain ⟨p, hp, _⟩ := (alive_mapIndex _ s.cpuPid_ _ _ hs.alive).2 r hr
      have := h2 r p hp
      rw [heq] at this
      show (m1 r).isSome = true
      simp only at this
      rw [this]
      rfl

theorem DiskReadRequest_returns (s : SimOS) (diskNumber : Int) (fileName : String)
    (hs : SchedInv s) : (s.DiskReadRequest diskNumber fileName).isSome = true := by
  unfold SimOS.DiskReadRequest
  split
  · rfl
  · simp only
    apply scheduleCPU_isSome
    intro r hr
    split at hr
    · split
      · exact ready_registered _ _ _ hs.alive r hr
      · exact ready_registered _ _ _ hs.alive r hr
    · split
      · exact ready_registered _ _ _ hs.alive r hr
      · exact ready_registered _ _ _ hs.alive r hr

theorem DiskJobCompleted_returns (s : SimOS) (diskNumber : Int) (hs : SchedInv s) :
    (s.DiskJobCompleted diskNumber).isSome = true := by
  unfold SimOS.DiskJobCompleted
  split
  · rfl
  · split
    · rfl
    · next job hj =>
      obtain ⟨_, _, e3, e4⟩ := startNextJob_fields
        { s with activeDiskJobs_ := mapErase s.activeDiskJobs_ diskNumber } diskNumber
      simp only
      split
      · next p hp =>
        split
        · apply scheduleCPU_isSome
          intro r hr
          simp only [SimOS.addToReadyQueue] at hr ⊢
          rw [e4] at hr
          rcases (mem_addPid _ _ _).1 hr with h1 | h1
          · rw [e3]
            exact ready_registered _ _ _ hs.alive r h1
          · rw [h1, hp]
            rfl
        · rfl
      · rfl

/-- Every public operation that changes the simulator returns normally in every
reachable state. -/
theorem reachable_returns (numberOfDisks amountOfRAM sizeOfOS : Nat) (s : SimOS)
    (h : Reachable (SimOS.construct numberOfDisks amountOfRAM sizeOfOS) s) :
    ReturnsNormally s := by
  have hr := reachable_range _ _ _ _ h
  have he := reachable_excl _ _ _ _ h
  have hs := reachable_sched _ _ _ _ h
  have ht := reachable_tree _ _ _ _ h
  exact ⟨fun size priority => NewProcess_returns s size priority hs, SimFork_returns s hs,
    SimExit_returns s hr he hs ht, SimWait_returns s hs,
    fun d f => DiskReadRequest_returns s d f hs, fun d => DiskJobCompleted_returns s d hs⟩

/-! ## The choice of `scheduleCPU` is the first entry of highest priority -/

theorem maxElementFrom_first (m : Int → Option Process) :
    ∀ (rest : List Int) (a hp : Int), maxElementFrom m a rest = some hp →
      ∃ X Y, a :: rest = X ++ hp :: Y ∧
        (∀ r ∈ X, (mapGet m r).priority < (mapGet m hp).priority) ∧
        (∀ r ∈ a :: rest, (mapGet m r).priority ≤ (mapGet m hp).priority) := by
  intro rest
  induction rest with
  | nil =>
    intro a hp h
    simp only [maxElementFrom, Option.some.injEq] at h
    subst h
    exact ⟨[], [], rfl, by simp, by simp⟩
  | cons x rest ih =>
    intro a hp h
    simp only [maxElementFrom] at h
    split at h
    · next pl px hl hx =>
      have gl : mapGet m a = pl := mapGet_of_eq m a pl hl
      have gx : mapGet m x = px := mapGet_of_eq m x px hx
      split at h
      · next hlt =>
        obtain ⟨X, Y, e, h1, h2⟩ := ih x hp h
        have hxp := h2 x (by simp)
        have hap : (mapGet m a).priority < (mapGet m hp).priority := by
          rw [gl]; rw [gx] at hxp; omega
        refine ⟨a :: X, Y, by rw [e]; rfl, ?_, ?_⟩
        · intro r hr
          simp only [List.mem_cons] at hr
          rcases hr with rfl | hr
          · exact hap
          · exact h1 r hr
        · intro r hr
          simp only [List.mem_cons] at hr
          rcases hr with rfl | hr
          · exact le_of_lt hap
          · exact h2 r (by simp only [List.mem_cons]; exact hr)
      · next hge =>
        obtain ⟨X, Y, e, h1, h2⟩ := ih a hp h
        have hxa : (mapGet m x).priority ≤ (mapGet m a).priority := by
          rw [gl, gx]; omega
        have hap := h2 a (by simp)
        cases X with
        | nil =>
          simp only [List.nil_append, List.cons.injEq] at e
          obtain ⟨e1, e2⟩ := e
          subst e1
          refine ⟨[], x :: rest, rfl, by simp, ?_⟩
          intro r hr
          simp only [List.mem_cons] at hr
          rcases hr with rfl | rfl | hr
          · exact le_refl _
          · exact hxa
          · exact h2 r (by simp only [List.mem_cons]; exact Or.inr hr)
        | cons y X' =>
          simp only [List.cons_append, List.cons.injEq] at e
          obtain ⟨e1, e2⟩ := e
          subst e1
          have hlt := h1 a (by simp)
          refine ⟨a :: x :: X', Y, by rw [e2]; rfl, ?_, ?_⟩
          · intro r hr
            simp only [List.mem_cons] at hr
            rcases hr with rfl | rfl | hr
            · exact hlt
            · exact lt_of_le_of_lt hxa hlt
            · exact h1 r (by simp only [List.mem_cons]; exact Or.inr hr)
          · intro r hr
            simp only [List.mem_cons] at hr
            rcases hr with rfl | rfl | hr
            · exact hap
            · exact le_trans hxa hap
            · exact h2 r (by simp only [List.mem_cons]; exact Or.inr hr)
    · cases h

/-- The call `scheduleCPU` changes nothing but the CPU occupant and the ready queue when
the occupant and the ready processes are registered. -/
theorem scheduleCPU_frame (s s' : SimOS) (h : s.scheduleCPU = some s')
    (hreg : ∀ r ∈ s.readyQueue_, (s.processes_ r).isSome = true)
    (hcpu : s.cpuPid_ ≠ NO_PROCESS → (s.processes_ s.cpuPid_).isSome = true) :
    s' = { s with cpuPid_ := s'.cpuPid_, readyQueue_ := s'.readyQueue_ } := by
  rcases scheduleCPU_cases s s' h with ⟨_, rfl⟩ |
    ⟨first, rest, hp, hq, hmax, ⟨_, rfl⟩ | ⟨hc, _, rfl⟩ | ⟨hc, _, rfl⟩⟩
  · rfl
  · rfl
  · have hmem : hp ∈ s.readyQueue_ := by
      rw [hq]; exact (maxElementFrom_spec _ _ _ _ hmax).1
    simp only
    rw [mapIndex_of_isSome _ hp (hreg hp hmem), mapIndex_of_isSome _ _ (hcpu hc)]
  · have hmem : hp ∈ s.readyQueue_ := by
      rw [hq]; exact (maxElementFrom_spec _ _ _ _ hmax).1
    simp only
    rw [mapIndex_of_isSome _ hp (hreg hp hmem), mapIndex_of_isSome _ _ (hcpu hc)]

/-! ## The OS process stays out of scheduling; the CPU is not idle with ready work -/

theorem scheduleCPU_os (s s' : SimOS) (h : s.scheduleCPU = some s') (ho : OsInv s) :
    OsInv s' ∧ WorkConserving s' := by
  have hpend : ∀ t : SimOS, t.diskQueues_ = s.diskQueues_ →
      t.activeDiskJobs_ = s.activeDiskJobs_ →
      ∀ x, PendingPid t x → x ≠ 1 ∧ x ≠ NO_PROCESS :=
    fun t hd ha x hx => ho.pending x ((pending_congr s t hd ha x).1 hx)
  rcases scheduleCPU_cases s s' h with ⟨hq, rfl⟩ |
    ⟨first, rest, hp, hq, hmax, hcase⟩
  · exact ⟨⟨ho.next, by simp [NO_PROCESS], ho.ready, ho.sentinel, ho.pending⟩, fun _ => hq⟩
  · have hmem : hp ∈ s.readyQueue_ := by
      rw [hq]; exact (maxElementFrom_spec _ _ _ _ hmax).1
    have hp1 : hp ≠ 1 := fun e => ho.ready (e ▸ hmem)
    have hpn : hp ≠ NO_PROCESS := fun e => ho.sentinel (e ▸ hmem)
    rcases hcase with ⟨hc, rfl⟩ | ⟨hc, _, rfl⟩ | ⟨hc, _, rfl⟩
    · refine ⟨⟨ho.next, hp1, ?_, ?_, hpend _ rfl rfl⟩, fun e => absurd e hpn⟩
      · exact fun hm => ho.ready ((mem_removePid _ _ _).1 hm).1
      · exact fun hm => ho.sentinel ((mem_removePid _ _ _).1 hm).1
    · refine ⟨⟨ho.next, hp1, ?_, ?_, hpend _ rfl rfl⟩, fun e => absurd e hpn⟩
      · intro hm
        rcases (mem_addPid _ _ _).1 ((mem_removePid _ _ _).1 hm).1 with h1 | h1
        · exact ho.ready h1
        · exact ho.cpu h1.symm
      · intro hm
        rcases (mem_addPid _ _ _).1 ((mem_removePid _ _ _).1 hm).1 with h1 | h1
        · exact ho.sentinel h1
        · exact hc h1.symm
    · exact ⟨⟨ho.next, ho.cpu, ho.ready, ho.sentinel, hpend _ rfl rfl⟩,
        fun e => absurd e hc⟩

theorem os_enqueue (s : SimOS) (k : Int) (ho : OsInv s) (h1 : k ≠ 1) (hn : k ≠ NO_PROCESS) :
    (1 : Int) ∉ addPid s.readyQueue_ k ∧ NO_PROCESS ∉ addPid s.readyQueue_ k := by
  constructor
  · intro hm
    rcases (mem_addPid _ _ _).1 hm with h2 | h2
    · exact ho.ready h2
    · exact h1 h2.symm
  · intro hm
    rcases (mem_addPid _ _ _).1 hm with h2 | h2
    · exact ho.sentinel h2
    · exact hn h2.symm

theorem NewProcess_os (s s' : SimOS) (size : Nat) (priority : Int) (r : Bool)
    (h : s.NewProcess size priority = some (r, s')) (ho : OsInv s)
    (hw : WorkConserving s) : OsInv s' ∧ WorkConserving s' := by
  have hnext := ho.next
  rcases NewProcess_cases s size priority r s' h with ⟨_, _, rfl⟩ | ⟨_, _, hs⟩
  · exact ⟨⟨by show 2 ≤ s.nextPid_ + 1; omega, ho.cpu, ho.ready, ho.sentinel, ho.pending⟩, hw⟩
  · apply scheduleCPU_os _ _ hs
    obtain ⟨h1, h2⟩ := os_enqueue s s.nextPid_ ho (by omega) (by simp only [NO_PROCESS]; omega)
    exact ⟨by show 2 ≤ s.nextPid_ + 1; omega, ho.cpu, h1, h2, ho.pending⟩

theorem SimFork_os (s s' : SimOS) (r : Bool) (h : s.SimFork = some (r, s'))
    (ho : OsInv s) (hw : WorkConserving s) : OsInv s' ∧ WorkConserving s' := by
  have hnext := ho.next
  rcases SimFork_cases s r s' h with ⟨_, _, rfl⟩ | ⟨_, ⟨_, _, rfl⟩ | ⟨_, _, hs⟩⟩
  · exact ⟨ho, hw⟩
  · exact ⟨⟨by show 2 ≤ s.nextPid_ + 1; omega, ho.cpu, ho.ready, ho.sentinel, ho.pending⟩, hw⟩
  · apply scheduleCPU_os _ _ hs
    obtain ⟨h1, h2⟩ := os_enqueue s s.nextPid_ ho (by omega) (by simp only [NO_PROCESS]; omega)
    exact ⟨by show 2 ≤ s.nextPid_ + 1; omega, ho.cpu, h1, h2, ho.pending⟩

theorem shrinks_os (s t : SimOS) (h : Shrinks s t) (ho : OsInv s) : OsInv t := by
  obtain ⟨hc, hq, hn, hd, ha⟩ := h
  refine ⟨by rw [hn]; exact ho.next, ?_, fun hm => ho.ready (hq.subset hm),
    fun hm => ho.sentinel (hq.subset hm),
    fun x hx => ho.pending x ((pending_congr s t hd ha x).1 hx)⟩
  rcases hc with hc | hc
  · rw [hc]; exact ho.cpu
  · rw [hc]; simp [NO_PROCESS]

theorem SimExit_os (s s' : SimOS) (fuel : Nat) (h : s.SimExit fuel = some s')
    (ho : OsInv s) (hw : WorkConserving s) : OsInv s' ∧ WorkConserving s' := by
  rcases SimExit_cases fuel s s' h with ⟨_, rfl⟩ | ⟨_, s1, h1, h2⟩
  · exact ⟨ho, hw⟩
  · exact scheduleCPU_os _ _ h2 (shrinks_os s s1 (terminate_shrinks _ _ _ _ h1) ho)

theorem SimWait_os (s s' : SimOS) (h : s.SimWait = some s') (ho : OsInv s)
    (hw : WorkConserving s) : OsInv s' ∧ WorkConserving s' := by
  rcases SimWait_cases s s' h with ⟨_, rfl⟩ | ⟨_, ⟨i, z, _, _, rfl⟩ | ⟨_, hs⟩⟩
  · exact ⟨ho, hw⟩
  · exact ⟨⟨ho.next, ho.cpu, ho.ready, ho.sentinel, ho.pending⟩, hw⟩
  · apply scheduleCPU_os _ _ hs
    exact ⟨ho.next, by simp [NO_PROCESS], ho.ready, ho.sentinel, ho.pending⟩

theorem DiskReadRequest_os (s s' : SimOS) (diskNumber : Int) (fileName : String)
    (h : s.DiskReadRequest diskNumber fileName = some s') (ho : OsInv s)
    (hw : WorkConserving s) : OsInv s' ∧ WorkConserving s' := by
  rcases DiskReadRequest_cases s s' diskNumber fileName h with
    ⟨_, rfl⟩ | ⟨hg, ⟨_, hs⟩ | ⟨_, hs⟩⟩
  · exact ⟨ho, hw⟩
  · have hc : s.cpuPid_ ≠ NO_PROCESS := fun e => hg (Or.inl e)
    have hc1 : s.cpuPid_ ≠ 1 := fun e => hg (Or.inr (Or.inl e))
    apply scheduleCPU_os _ _ hs
    refine ⟨ho.next, by simp [NO_PROCESS], ho.ready, ho.sentinel, ?_⟩
    intro x hx
    rcases pending_setActive s _ diskNumber ⟨s.cpuPid_, fileName⟩ x hx rfl rfl with h2 | h2
    · exact ho.pending x h2
    · rw [h2]; exact ⟨hc1, hc⟩
  · have hc : s.cpuPid_ ≠ NO_PROCESS := fun e => hg (Or.inl e)
    have hc1 : s.cpuPid_ ≠ 1 := fun e => hg (Or.inr (Or.inl e))
    apply scheduleCPU_os _ _ hs
    refine ⟨ho.next, by simp [NO_PROCESS], ho.ready, ho.sentinel, ?_⟩
    intro x hx
    rcases pending_enqueue s _ diskNumber.toNat ⟨s.cpuPid_, fileName⟩ x hx rfl rfl
      with h2 | h2
    · exact ho.pending x h2
    · rw [h2]; exact ⟨hc1, hc⟩

theorem startNextJob_os (s : SimOS) (d : Int) (ho : OsInv s) :
    OsInv (SimOS.startNextJob { s with activeDiskJobs_ := mapErase s.activeDiskJobs_ d } d) := by
  obtain ⟨e1, e2, _, e4⟩ := startNextJob_fields
    { s with activeDiskJobs_ := mapErase s.activeDiskJobs_ d } d
  exact ⟨by rw [e1]; exact ho.next, by rw [e2]; exact ho.cpu, by rw [e4]; exact ho.ready,
    by rw [e4]; exact ho.sentinel, fun x hx => ho.pending x (pending_startNext s d x hx)⟩

theorem DiskJobCompleted_os (s s' : SimOS) (diskNumber : Int)
    (h : s.DiskJobCompleted diskNumber = some s') (ho : OsInv s)
    (hw : WorkConserving s) : OsInv s' ∧ WorkConserving s' := by
  obtain ⟨_, e2, _, e4⟩ := startNextJob_fields
    { s with activeDiskJobs_ := mapErase s.activeDiskJobs_ diskNumber } diskNumber
  rcases DiskJobCompleted_cases s s' diskNumber h with
    ⟨_, rfl⟩ | ⟨_, rfl⟩ | ⟨job, _, hj, ⟨_, hs⟩ | rfl⟩
  · exact ⟨ho, hw⟩
  · exact ⟨ho, hw⟩
  · apply scheduleCPU_os _ _ hs
    have h1 := startNextJob_os s diskNumber ho
    obtain ⟨hj1, hjn⟩ := ho.pending job.PID (Or.inl ⟨diskNumber, job, hj, rfl⟩)
    obtain ⟨h2, h3⟩ := os_enqueue _ job.PID h1 hj1 hjn
    exact ⟨h1.next, h1.cpu, h2, h3, h1.pending⟩
  · refine ⟨startNextJob_os s diskNumber ho, ?_⟩
    unfold WorkConserving
    rw [e2, e4]
    exact hw

theorem construct_os (numberOfDisks amountOfRAM sizeOfOS : Nat) :
    OsInv (SimOS.construct numberOfDisks amountOfRAM sizeOfOS) ∧
    WorkConserving (SimOS.construct numberOfDisks amountOfRAM sizeOfOS) := by
  refine ⟨⟨by simp [SimOS.construct], by simp [SimOS.construct, NO_PROCESS],
    by simp [SimOS.construct], by simp [SimOS.construct], ?_⟩, fun _ => rfl⟩
  intro x hx
  rcases hx with ⟨d, job, hj, _⟩ | ⟨i, q, job, hi, hj, _⟩
  · simp [SimOS.construct] at hj
  · simp only [SimOS.construct] at hi
    have hq : q ∈ List.replicate numberOfDisks ([] : List FileReadRequest) :=
      List.getElem?_mem hi
    rw [List.mem_replicate] at hq
    rw [hq.2] at hj
    simp at hj

/-- In a reachable state the OS process is neither on the CPU nor in the ready queue nor
waiting for a disk, and an idle CPU comes with an empty ready queue. -/
theorem reachable_os (numberOfDisks amountOfRAM sizeOfOS : Nat) (s : SimOS)
    (h : Reachable (SimOS.construct numberOfDisks amountOfRAM sizeOfOS) s) :
    OsInv s ∧ WorkConserving s := by
  induction h with
  | start => exact construct_os _ _ _
  | newProcess s s' size priority r _ hstep ih => exact NewProcess_os _ _ _ _ _ hstep ih.1 ih.2
  | simFork s s' r _ hstep ih => exact SimFork_os _ _ _ hstep ih.1 ih.2
  | simExit s s' fuel _ hstep ih => exact SimExit_os _ _ _ hstep ih.1 ih.2
  | simWait s s' _ hstep ih => exact SimWait_os _ _ hstep ih.1 ih.2
  | diskReadRequest s s' d f _ hstep ih => exact DiskReadRequest_os _ _ _ _ hstep ih.1 ih.2
  | diskJobCompleted s s' d _ hstep ih => exact DiskJobCompleted_os _ _ _ hstep ih.1 ih.2

/-! ## The disks -/

theorem scheduleCPU_disks (s s' : SimOS) (h : s.scheduleCPU = some s') :
    s'.diskQueues_ = s.diskQueues_ ∧ s'.activeDiskJobs_ = s.activeDiskJobs_ := by
  rcases scheduleCPU_cases s s' h with ⟨_, rfl⟩ |
    ⟨first, rest, hp, _, _, ⟨_, rfl⟩ | ⟨_, _, rfl⟩ | ⟨_, _, rfl⟩⟩ <;> exact ⟨rfl, rfl⟩

/-- The calls `NewProcess`, `SimFork`, `SimExit` and `SimWait` leave the disks alone. -/
theorem step_disks (s s' : SimOS) (c : Call) (h : s.step c = some s')
    (hc : (∀ d f, c ≠ Call.diskReadRequest d f) ∧ ∀ d, c ≠ Call.diskJobCompleted d) :
    s'.diskQueues_ = s.diskQueues_ ∧ s'.activeDiskJobs_ = s.activeDiskJobs_ := by
  cases c with
  | newProcess size priority =>
    simp only [SimOS.step, Option.map_eq_some'] at h
    obtain ⟨⟨r, s1⟩, h1, e⟩ := h
    simp only at e
    subst e
    rcases NewProcess_cases s size priority r s1 h1 with ⟨_, _, rfl⟩ | ⟨_, _, hs⟩
    · exact ⟨rfl, rfl⟩
    · have hd := scheduleCPU_disks _ _ hs
      exact hd
  | simFork =>
    simp only [SimOS.step, Option.map_eq_some'] at h
    obtain ⟨⟨r, s1⟩, h1, e⟩ := h
    simp only at e
    subst e
    rcases SimFork_cases s r s1 h1 with ⟨_, _, rfl⟩ | ⟨_, ⟨_, _, rfl⟩ | ⟨_, _, hs⟩⟩
    · exact ⟨rfl, rfl⟩
    · exact ⟨rfl, rfl⟩
    · have hd := scheduleCPU_disks _ _ hs
      exact hd
  | simExit fuel =>
    rcases SimExit_cases fuel s s' h with ⟨_, rfl⟩ | ⟨_, s1, h1, h2⟩
    · exact ⟨rfl, rfl⟩
    · obtain ⟨_, _, _, e1, e2⟩ := terminate_shrinks _ _ _ _ h1
      obtain ⟨e3, e4⟩ := scheduleCPU_disks _ _ h2
      exact ⟨e3.trans e1, e4.trans e2⟩
  | simWait =>
    rcases SimWait_cases s s' h with ⟨_, rfl⟩ | ⟨_, ⟨i, z, _, _, rfl⟩ | ⟨_, hs⟩⟩
    · exact ⟨rfl, rfl⟩
    · exact ⟨rfl, rfl⟩
    · have hd := scheduleCPU_disks _ _ hs
      exact hd
  | diskReadRequest d f => exact absurd rfl (hc.1 d f)
  | diskJobCompleted d => exact absurd rfl (hc.2 d)

theorem diskLine_congr (s t : SimOS) (d : Int) (hq : t.diskQueues_ = s.diskQueues_)
    (ha : t.activeDiskJobs_ = s.activeDiskJobs_) : t.diskLine d = s.diskLine d := by
  unfold SimOS.diskLine
  rw [hq, ha]

theorem diskIdle_congr (s t : SimOS) (hq : t.diskQueues_ = s.diskQueues_)
    (ha : t.activeDiskJobs_ = s.activeDiskJobs_) (h : DiskIdle s) : DiskIdle t := by
  unfold DiskIdle
  rw [hq, ha]
  exact h

/-- The disks after an accepted `DiskReadRequest`. -/
theorem DiskReadRequest_disks (s s' : SimOS) (diskNumber : Int) (fileName : String)
    (h : s.DiskReadRequest diskNumber fileName = some s')
    (hg : ¬ (s.cpuPid_ = NO_PROCESS ∨ s.cpuPid_ = 1 ∨ diskNumber < 0 ∨
        (s.diskQueues_.length : Int) ≤ diskNumber)) :
    (s.activeDiskJobs_ diskNumber = none ∧
      s'.activeDiskJobs_ = mapSet s.activeDiskJobs_ diskNumber ⟨s.cpuPid_, fileName⟩ ∧
      s'.diskQueues_ = s.diskQueues_) ∨
    ((s.activeDiskJobs_ diskNumber).isSome = true ∧
      s'.activeDiskJobs_ = s.activeDiskJobs_ ∧
      s'.diskQueues_ = modifyNth (fun q => q ++ [⟨s.cpuPid_, fileName⟩]) s.diskQueues_
        diskNumber.toNat) := by
  rcases DiskReadRequest_cases s s' diskNumber fileName h with
    ⟨hg', _⟩ | ⟨_, ⟨hn, hs⟩ | ⟨hn, hs⟩⟩
  · exact absurd hg' hg
  · obtain ⟨e1, e2⟩ := scheduleCPU_disks _ _ hs
    exact Or.inl ⟨hn, e2, e1⟩
  · obtain ⟨e1, e2⟩ := scheduleCPU_disks _ _ hs
    exact Or.inr ⟨hn, e2, e1⟩

/-- The disks after `DiskJobCompleted` on a disk with an active job. -/
theorem DiskJobCompleted_disks (s s' : SimOS) (diskNumber : Int) (job : FileReadRequest)
    (h : s.DiskJobCompleted diskNumber = some s')
    (hg : ¬ (diskNumber < 0 ∨ (s.diskQueues_.length : Int) ≤ diskNumber))
    (hj : s.activeDiskJobs_ diskNumber = some job) :
    s'.diskQueues_ = (SimOS.startNextJob
      { s with activeDiskJobs_ := mapErase s.activeDiskJobs_ diskNumber }
      diskNumber).diskQueues_ ∧
    s'.activeDiskJobs_ = (SimOS.startNextJob
      { s with activeDiskJobs_ := mapErase s.activeDiskJobs_ diskNumber }
      diskNumber).activeDiskJobs_ := by
  rcases DiskJobCompleted_cases s s' diskNumber h with
    ⟨hg', _⟩ | ⟨hn, _⟩ | ⟨job', _, _, ⟨_, hs⟩ | rfl⟩
  · exact absurd hg' hg
  · rw [hn] at hj; cases hj
  · have hd := scheduleCPU_disks _ _ hs
    exact hd
  · exact ⟨rfl, rfl⟩

theorem startNextJob_line (s : SimOS) (d : Int) (job : FileReadRequest)
    (hj : s.activeDiskJobs_ d = some job) :
    (SimOS.startNextJob { s with activeDiskJobs_ := mapErase s.activeDiskJobs_ d } d).diskLine d
      = (s.diskLine d).tail := by
  unfold SimOS.diskLine SimOS.startNextJob
  rw [hj]
  simp only [Option.toList_some, List.singleton_append, List.tail_cons,
    List.getD_eq_getElem?_getD]
  split
  · next front rest hf =>
    simp only [mapSet_apply, if_true, Option.toList_some, getElem?_modifyNth, hf,
      Option.map_some', List.drop_succ_cons, List.drop_zero, Option.getD_some,
      List.singleton_append]
  · simp only [mapErase_apply, if_true, Option.toList_none, List.nil_append]

theorem startNextJob_other (s : SimOS) (d d' : Int) (hd : 0 ≤ d) (hd' : 0 ≤ d')
    (hne : d' ≠ d) :
    (SimOS.startNextJob { s with activeDiskJobs_ := mapErase s.activeDiskJobs_ d }
      d).activeDiskJobs_ d' = s.activeDiskJobs_ d' ∧
    (SimOS.startNextJob { s with activeDiskJobs_ := mapErase s.activeDiskJobs_ d }
      d).diskQueues_[d'.toNat]? = s.diskQueues_[d'.toNat]? := by
  have hnat : d'.toNat ≠ d.toNat := by omega
  unfold SimOS.startNextJob
  split
  · constructor
    · simp only [mapSet_apply, mapErase_apply, if_neg hne]
    · simp only [getElem?_modifyNth, if_neg hnat]
  · constructor
    · simp only [mapErase_apply, if_neg hne]
    · rfl

theorem startNextJob_idle (s : SimOS) (d : Int) (hd : 0 ≤ d) (h : DiskIdle s) :
    DiskIdle (SimOS.startNextJob
      { s with activeDiskJobs_ := mapErase s.activeDiskJobs_ d } d) := by
  intro d' q hd' ha hq
  by_cases hne : d' = d
  · subst hne
    unfold SimOS.startNextJob at ha hq
    split at ha
    · simp [mapSet_apply] at ha
    · next hno =>
      simp only at hno hq
      cases q with
      | nil => rfl
      | cons front rest => exact absurd hq (hno front rest)
  · obtain ⟨e1, e2⟩ := startNextJob_other s d d' hd hd' hne
    rw [e1] at ha
    rw [e2] at hq
    exact h d' q hd' ha hq

theorem DiskReadRequest_idle (s s' : SimOS) (diskNumber : Int) (fileName : String)
    (h : s.DiskReadRequest diskNumber fileName = some s') (hi : DiskIdle s) :
    DiskIdle s' := by
  by_cases hg : s.cpuPid_ = NO_PROCESS ∨ s.cpuPid_ = 1 ∨ diskNumber < 0 ∨
      (s.diskQueues_.length : Int) ≤ diskNumber
  · rcases DiskReadRequest_cases s s' diskNumber fileName h with ⟨_, rfl⟩ | ⟨hg', _⟩
    · exact hi
    · exact absurd hg hg'
  · have hd : 0 ≤ diskNumber := by
      by_contra hlt
      exact hg (Or.inr (Or.inr (Or.inl (by omega))))
    rcases DiskReadRequest_disks s s' diskNumber fileName h hg with
      ⟨_, ea, eq⟩ | ⟨hsome, ea, eq⟩
    · intro d' q hd' ha hq
      rw [ea, mapSet_apply] at ha
      split at ha
      · cases ha
      · rw [eq] at hq
        exact hi d' q hd' ha hq
    · intro d' q hd' ha hq
      rw [ea] at ha
      rw [eq, getElem?_modifyNth] at hq
      split at hq
      · next e =>
        have : d' = diskNumber := by omega
        rw [this] at ha
        rw [ha] at hsome
        cases hsome
      · exact hi d' q hd' ha hq

theorem DiskJobCompleted_idle (s s' : SimOS) (diskNumber : Int)
    (h : s.DiskJobCompleted diskNumber = some s') (hi : DiskIdle s) : DiskIdle s' := by
  by_cases hg : diskNumber < 0 ∨ (s.diskQueues_.length : Int) ≤ diskNumber
  · rcases DiskJobCompleted_cases s s' diskNumber h with ⟨_, rfl⟩ | ⟨_, rfl⟩ | ⟨_, hg', _⟩
    · exact hi
    · exact hi
    · exact absurd hg hg'
  · have hd : 0 ≤ diskNumber := by
      by_contra hlt
      exact hg (Or.inl (by omega))
    cases hj : s.activeDiskJobs_ diskNumber with
    | none =>
      rcases DiskJobCompleted_cases s s' diskNumber h with ⟨_, rfl⟩ | ⟨_, rfl⟩ | ⟨job, _, hj', _⟩
      · exact hi
      · exact hi
      · rw [hj] at hj'; cases hj'
    | some job =>
      obtain ⟨e1, e2⟩ := DiskJobCompleted_disks s s' diskNumber job h hg hj
      exact diskIdle_congr _ s' e1 e2 (startNextJob_idle s diskNumber hd hi)

theorem construct_idle (numberOfDisks amountOfRAM sizeOfOS : Nat) :
    DiskIdle (SimOS.construct numberOfDisks amountOfRAM sizeOfOS) := by
  intro d q _ _ hq
  simp only [SimOS.construct] at hq
  have hm : q ∈ List.replicate numberOfDisks ([] : List FileReadRequest) :=
    List.getElem?_mem hq
  rw [List.mem_replicate] at hm
  exact hm.2

theorem construct_disks (numberOfDisks amountOfRAM sizeOfOS : Nat) :
    (SimOS.construct numberOfDisks amountOfRAM sizeOfOS).diskQueues_.length = numberOfDisks := by
  simp [SimOS.construct]

theorem modifyNth_length {α : Type} (f : α → α) :
    ∀ (l : List α) (i : Nat), (modifyNth f l i).length = l.length := by
  intro l
  induction l with
  | nil => intro i; rfl
  | cons x xs ih =>
    intro i
    cases i with
    | zero => rfl
    | succ i => simp [modifyNth, ih]

/-- In a reachable state a disk without active job has an empty queue, and the number
of disks is the one given to the constructor. -/
theorem reachable_idle (numberOfDisks amountOfRAM sizeOfOS : Nat) (s : SimOS)
    (h : Reachable (SimOS.construct numberOfDisks amountOfRAM sizeOfOS) s) :
    DiskIdle s ∧ s.diskQueues_.length = numberOfDisks := by
  have hother : ∀ (t t' : SimOS) (c : Call), t.step c = some t' →
      ((∀ d f, c ≠ Call.diskReadRequest d f) ∧ ∀ d, c ≠ Call.diskJobCompleted d) →
      DiskIdle t ∧ t.diskQueues_.length = numberOfDisks →
      DiskIdle t' ∧ t'.diskQueues_.length = numberOfDisks := by
    intro t t' c hstep hc ih
    obtain ⟨e1, e2⟩ := step_disks t t' c hstep hc
    exact ⟨diskIdle_congr t t' e1 e2 ih.1, by rw [e1]; exact ih.2⟩
  induction h with
  | start => exact ⟨construct_idle _ _ _, construct_disks _ _ _⟩
  | newProcess s s' size priority r _ hstep ih =>
    exact hother s s' (Call.newProcess size priority)
      (by simp only [SimOS.step, hstep]; rfl)
      ⟨fun _ _ e => (by cases e), fun _ e => (by cases e)⟩ ih
  | simFork s s' r _ hstep ih =>
    exact hother s s' Call.simFork (by simp only [SimOS.step, hstep]; rfl)
      ⟨fun _ _ e => (by cases e), fun _ e => (by cases e)⟩ ih
  | simExit s s' fuel _ hstep ih =>
    exact hother s s' (Call.simExit fuel) hstep
      ⟨fun _ _ e => (by cases e), fun _ e => (by cases e)⟩ ih
  | simWait s s' _ hstep ih =>
    exact hother s s' Call.simWait hstep
      ⟨fun _ _ e => (by cases e), fun _ e => (by cases e)⟩ ih
  | diskReadRequest s s' d f _ hstep ih =>
    refine ⟨DiskReadRequest_idle _ _ _ _ hstep ih.1, ?_⟩
    by_cases hg : s.cpuPid_ = NO_PROCESS ∨ s.cpuPid_ = 1 ∨ d < 0 ∨
        (s.diskQueues_.length : Int) ≤ d
    · rcases DiskReadRequest_cases s s' d f hstep with ⟨_, rfl⟩ | ⟨hg', _⟩
      · exact ih.2
      · exact absurd hg hg'
    · rcases DiskReadRequest_disks s s' d f hstep hg with ⟨_, _, eq⟩ | ⟨_, _, eq⟩
      · rw [eq]; exact ih.2
      · rw [eq, modifyNth_length]; exact ih.2
  | diskJobCompleted s s' d _ hstep ih =>
    refine ⟨DiskJobCompleted_idle _ _ _ hstep ih.1, ?_⟩
    rcases DiskJobCompleted_cases s s' d hstep with
      ⟨_, rfl⟩ | ⟨_, rfl⟩ | ⟨job, hg, hj, _⟩
    · exact ih.2
    · exact ih.2
    · obtain ⟨e1, _⟩ := DiskJobCompleted_disks s s' d job hstep hg hj
      rw [e1]
      unfold SimOS.startNextJob
      split
      · simp only [modifyNth_length]; exact ih.2
      · exact ih.2

theorem diskLine_eq (s t : SimOS) (d : Int)
    (ha : t.activeDiskJobs_ d = s.activeDiskJobs_ d)
    (hq : t.diskQueues_[d.toNat]? = s.diskQueues_[d.toNat]?) :
    t.diskLine d = s.diskLine d := by
  unfold SimOS.diskLine
  rw [ha, List.getD_eq_getElem?_getD, List.getD_eq_getElem?_getD, hq]

/-- The line of disk `d` after an accepted `DiskReadRequest` on another disk. -/
theorem DiskReadRequest_other (s s' : SimOS) (d d' : Int) (fileName : String)
    (h : s.DiskReadRequest d' fileName = some s') (hd : 0 ≤ d) (hne : d' ≠ d) :
    s'.diskLine d = s.diskLine d := by
  by_cases hg : s.cpuPid_ = NO_PROCESS ∨ s.cpuPid_ = 1 ∨ d' < 0 ∨
      (s.diskQueues_.length : Int) ≤ d'
  · rcases DiskReadRequest_cases s s' d' fileName h with ⟨_, rfl⟩ | ⟨hg', _⟩
    · rfl
    · exact absurd hg hg'
  · have hd' : 0 ≤ d' := by
      by_contra hlt
      exact hg (Or.inr (Or.inr (Or.inl (by omega))))
    have hnat : d.toNat ≠ d'.toNat := by omega
    rcases DiskReadRequest_disks s s' d' fileName h hg with ⟨_, ea, eq⟩ | ⟨_, ea, eq⟩
    · apply diskLine_eq
      · rw [ea, mapSet_apply, if_neg (Ne.symm hne)]
      · rw [eq]
    · apply diskLine_eq
      · rw [ea]
      · rw [eq, getElem?_modifyNth, if_neg hnat]

/-- The line of disk `d` after `DiskJobCompleted` on another disk. -/
theorem DiskJobCompleted_other (s s' : SimOS) (d d' : Int)
    (h : s.DiskJobCompleted d' = some s') (hd : 0 ≤ d) (hne : d' ≠ d) :
    s'.diskLine d = s.diskLine d := by
  rcases DiskJobCompleted_cases s s' d' h with ⟨_, rfl⟩ | ⟨_, rfl⟩ | ⟨job, hg, hj, _⟩
  · rfl
  · rfl
  · have hd' : 0 ≤ d' := by
      by_contra hlt
      exact hg (Or.inl (by omega))
    obtain ⟨e1, e2⟩ := DiskJobCompleted_disks s s' d' job h hg hj
    obtain ⟨e3, e4⟩ := startNextJob_other s d' d hd' hd (Ne.symm hne)
    apply diskLine_eq
    · rw [e2, e3]
    · rw [e1, e4]

/-- A `DiskReadRequest` made with an idle CPU or with the OS process on it changes
nothing. -/
theorem DiskReadRequest_rejected (s : SimOS) (d : Int) (fileName : String)
    (hc : s.cpuPid_ = NO_PROCESS ∨ s.cpuPid_ = 1) : s.DiskReadRequest d fileName = some s := by
  unfold SimOS.DiskReadRequest
  rw [if_pos]
  rcases hc with hc | hc
  · exact Or.inl hc
  · exact Or.inr (Or.inl hc)

theorem diskBusyExample_reachable :
    Reachable (SimOS.construct 1 10000 1000) diskBusyExample :=
  reachable_run_getD (SimOS.construct 1 10000 1000)
    [Call.newProcess 2000 3, Call.newProcess 500 1, Call.diskReadRequest 0 "a"]

theorem zombieRequesterExample_reachable :
    Reachable (SimOS.construct 2 10000 1000) zombieRequesterExample :=
  reachable_run_getD (SimOS.construct 2 10000 1000)
    [Call.newProcess 100 5, Call.simFork, Call.diskReadRequest 0 "a",
      Call.diskReadRequest 1 "b", Call.diskJobCompleted 0, Call.simExit 2]

/-- The call `DiskJobCompleted` on a disk whose active job was requested by a registered
process that is not a zombie. -/
theorem DiskJobCompleted_of_live (s : SimOS) (diskNumber : Int) (job : FileReadRequest)
    (p : Process) (hg : ¬ (diskNumber < 0 ∨ (s.diskQueues_.length : Int) ≤ diskNumber))
    (hj : s.activeDiskJobs_ diskNumber = some job) (hp : s.processes_ job.PID = some p)
    (hz : p.isZombie = false) :
    s.DiskJobCompleted diskNumber =
      SimOS.scheduleCPU (SimOS.addToReadyQueue (SimOS.startNextJob
        { s with activeDiskJobs_ := mapErase s.activeDiskJobs_ diskNumber } diskNumber)
        job.PID) := by
  have e3 := (startNextJob_fields
    { s with activeDiskJobs_ := mapErase s.activeDiskJobs_ diskNumber } diskNumber).2.2.1
  unfold SimOS.DiskJobCompleted
  rw [if_neg hg, hj]
  simp only
  rw [e3]
  simp only [hp, hz, if_true]

/-- The call `DiskJobCompleted` on a disk whose active job was requested by a process
that is a zombie by now. -/
theorem DiskJobCompleted_of_zombie (s : SimOS) (diskNumber : Int) (job : FileReadRequest)
    (p : Process) (hg : ¬ (diskNumber < 0 ∨ (s.diskQueues_.length : Int) ≤ diskNumber))
    (hj : s.activeDiskJobs_ diskNumber = some job) (hp : s.processes_ job.PID = some p)
    (hz : p.isZombie = true) :
    s.DiskJobCompleted diskNumber =
      some (SimOS.startNextJob
        { s with activeDiskJobs_ := mapErase s.activeDiskJobs_ diskNumber } diskNumber) := by
  have e3 := (startNextJob_fields
    { s with activeDiskJobs_ := mapErase s.activeDiskJobs_ diskNumber } diskNumber).2.2.1
  unfold SimOS.DiskJobCompleted
  rw [if_neg hg, hj]
  simp only
  rw [e3]
  simp only [hp, hz]
  rfl

/-! ## What `terminateProcessAndDescendants` does to the registry -/

theorem fades_refl (m : Int → Option Process) : Fades m m :=
  ⟨fun _ p' h => ⟨p', h, rfl, rfl, rfl, rfl, rfl, fun hz => hz⟩, fun _ _ h => h⟩

theorem fades_trans (m1 m2 m3 : Int → Option Process) (h12 : Fades m1 m2)
    (h23 : Fades m2 m3) : Fades m1 m3 := by
  constructor
  · intro k p3 h3
    obtain ⟨p2, h2, a1, a2, a3, a4, a5, a6⟩ := h23.1 k p3 h3
    obtain ⟨p1, h1, b1, b2, b3, b4, b5, b6⟩ := h12.1 k p2 h2
    exact ⟨p1, h1, a1.trans b1, a2.trans b2, a3.trans b3, a4.trans b4, a5.trans b5,
      fun hz => a6 (b6 hz)⟩
  · intro k c hc
    exact h12.2 k c (h23.2 k c hc)

theorem fades_mapModify (m : Int → Option Process) (k : Int) (f : Process → Process)
    (hf : ∀ p, (f p).pid = p.pid ∧ (f p).priority = p.priority ∧
      (f p).memorySize = p.memorySize ∧ (f p).parentPid = p.parentPid ∧
      (f p).memory = p.memory ∧ (p.isZombie = true → (f p).isZombie = true) ∧
      ∀ c ∈ (f p).children.elems ++ (f p).children.vacated,
        c ∈ p.children.elems ++ p.children.vacated) :
    Fades m (mapModify m k f) := by
  constructor
  · intro x p' hp'
    rw [mapModify_apply] at hp'
    split at hp'
    · next e =>
      subst e
      cases hm : m x with
      | none => rw [hm] at hp'; cases hp'
      | some p =>
        rw [hm] at hp'
        simp only [Option.map_some', Option.some.injEq] at hp'
        subst hp'
        obtain ⟨a1, a2, a3, a4, a5, a6, _⟩ := hf p
        exact ⟨p, rfl, a1, a2, a3, a4, a5, a6⟩
    · exact ⟨p', hp', rfl, rfl, rfl, rfl, rfl, fun hz => hz⟩
  · intro x c hc
    rw [storage_mapModify] at hc
    split at hc
    · next e =>
      subst e
      cases hm : m x with
      | none => rw [hm] at hc; simp at hc
      | some p =>
        rw [hm] at hc
        rw [storage_of_some m x p hm]
        exact (hf p).2.2.2.2.2.2 c hc
    · exact hc

theorem fades_mapErase (m : Int → Option Process) (k : Int) : Fades m (mapErase m k) := by
  constructor
  · intro x p' hp'
    rw [mapErase_apply] at hp'
    split at hp'
    · cases hp'
    · exact ⟨p', hp', rfl, rfl, rfl, rfl, rfl, fun hz => hz⟩
  · intro x c hc
    rw [storage_mapErase] at hc
    split at hc
    · simp at hc
    · exact hc

theorem fades_isSome (m m' : Int → Option Process) (h : Fades m m') (k : Int)
    (hk : (m' k).isSome = true) : (m k).isSome = true := by
  obtain ⟨p', hp'⟩ := Option.isSome_iff_exists.1 hk
  obtain ⟨p, hp, _⟩ := h.1 k p' hp'
  simp [hp]

theorem parentInv_fades (m m' : Int → Option Process) (h : Fades m m')
    (hp : ParentInv m) : ParentInv m' := by
  intro k c hc pc hpc
  obtain ⟨p, hp0, _, _, _, a4, _⟩ := h.1 c pc hpc
  rw [a4]
  exact hp k c (h.2 k c hc) p hp0

theorem finishTermination_processes (s : SimOS) (pid : Int) (process : Process) :
    (finishTermination s pid process).processes_ =
      if hasParent s.processes_ process = true then
        mapModify (mapModify s.processes_ process.parentPid
          (fun parent => { parent with children := parent.children.eraseValue pid })) pid
          (fun p => { p with isZombie := true })
      else mapErase s.processes_ pid := by
  unfold finishTermination hasParent
  simp only
  split
  · rw [leaveCpuOrQueue_processes]
  · rw [leaveCpuOrQueue_processes]
    rfl

theorem leaveCpuOrQueue_blocks (s : SimOS) (pid : Int) :
    (s.leaveCpuOrQueue pid).memoryBlocks_ = s.memoryBlocks_ := by
  unfold SimOS.leaveCpuOrQueue
  split <;> rfl

theorem finishTermination_blocks (s : SimOS) (pid : Int) (process : Process) :
    (finishTermination s pid process).memoryBlocks_ =
      if hasParent s.processes_ process = true then s.memoryBlocks_
      else deallocateScan pid [] s.memoryBlocks_ := by
  unfold finishTermination hasParent
  simp only
  split
  · rw [leaveCpuOrQueue_blocks]
  · rw [leaveCpuOrQueue_blocks]
    rfl

theorem finishTermination_fades (s : SimOS) (pid : Int) (process : Process) :
    Fades s.processes_ (finishTermination s pid process).processes_ := by
  rw [finishTermination_processes]
  split
  · apply fades_trans _ _ _
      (fades_mapModify s.processes_ process.parentPid
        (fun parent => { parent with children := parent.children.eraseValue pid })
        (fun p => ⟨rfl, rfl, rfl, rfl, rfl, fun hz => hz,
          fun c hc => eraseValue_storage_mem _ _ _ hc⟩))
    exact fades_mapModify _ pid (fun p => { p with isZombie := true })
      (fun p => ⟨rfl, rfl, rfl, rfl, rfl, fun _ => rfl, fun c hc => hc⟩)
  · exact fades_mapErase _ _

theorem childLoop_fades (recurse : SimOS → Int → Option SimOS)
    (hrec : ∀ s d s', recurse s d = some s' → (s.processes_ d).isSome = true →
      Fades s.processes_ s'.processes_)
    (pid : Int) :
    ∀ (remaining i : Nat) (s s' : SimOS), childLoop recurse pid remaining i s = some s' →
      Fades s.processes_ s'.processes_ := by
  intro remaining
  induction remaining with
  | zero =>
    intro i s s' h
    simp only [childLoop] at h
    cases h
    exact fades_refl _
  | succ n ih =>
    intro i s s' h
    obtain ⟨process, childPid, _, _, ⟨hcount, s1, h1, h2⟩ | ⟨_, h2⟩⟩ :=
      childLoop_cases recurse pid n i s s' h
    · exact fades_trans _ _ _ (hrec _ _ _ h1 hcount) (ih _ _ _ h2)
    · exact ih _ _ _ h2

/-- The call `terminateProcessAndDescendants` of a registered process only removes records,
sets zombie flags and takes identifiers out of child lists. -/
theorem terminate_fades :
    ∀ (fuel : Nat) (s : SimOS) (pid : Int) (s' : SimOS),
      s.terminateProcessAndDescendants fuel pid = some s' →
      (s.processes_ pid).isSome = true → Fades s.processes_ s'.processes_ := by
  intro fuel
  induction fuel with
  | zero => intro s pid s' h; simp [SimOS.terminateProcessAndDescendants] at h
  | succ f ih =>
    intro s pid s' h hreg
    obtain ⟨s1, process, h1, _, rfl⟩ := terminate_cases f s pid s' h
    have h2 := childLoop_fades _ ih pid _ _ _ _ h1
    have e0 : mapIndex s.processes_ pid = s.processes_ := mapIndex_of_isSome _ _ hreg
    have h3 : Fades s.processes_ s1.processes_ := by
      have h4 : Fades (mapIndex s.processes_ pid) s1.processes_ := h2
      rw [e0] at h4
      exact h4
    exact fades_trans _ _ _ h3 (finishTermination_fades s1 pid process)

/-! ## Child lists along `terminateProcessAndDescendants` -/

theorem findIndex_spec (x : Int) :
    ∀ (l : List Int) (i0 : Nat),
      (findIndex x l i0 = none → x ∉ l) ∧
      (∀ j, findIndex x l i0 = some j → i0 ≤ j ∧ l[j - i0]? = some x) := by
  intro l
  induction l with
  | nil =>
    intro i0
    exact ⟨fun _ => (by simp), fun j h => (by simp [findIndex] at h)⟩
  | cons y ys ih =>
    intro i0
    simp only [findIndex]
    split
    · next e =>
      refine ⟨fun h => (by cases h), ?_⟩
      intro j h
      simp only [Option.some.injEq] at h
      subst h
      simp [e]
    · next e =>
      obtain ⟨h1, h2⟩ := ih (i0 + 1)
      constructor
      · intro h
        simp only [List.mem_cons, not_or]
        exact ⟨fun e2 => e e2.symm, h1 h⟩
      · intro j h
        obtain ⟨h3, h4⟩ := h2 j h
        refine ⟨by omega, ?_⟩
        have e2 : j - i0 = (j - (i0 + 1)) + 1 := by omega
        rw [e2]
        simpa using h4

theorem nodup_eraseAt (v : PidVector) (i : Nat) (h : v.elems.Nodup) :
    (v.eraseAt i).elems.Nodup := by
  unfold PidVector.eraseAt
  split
  · exact h
  · split
    · exact h.sublist (List.eraseIdx_sublist _ _)
    · exact h

theorem nodup_eraseValue (v : PidVector) (x : Int) (h : v.elems.Nodup) :
    (v.eraseValue x).elems.Nodup := by
  unfold PidVector.eraseValue
  split
  · exact h
  · exact nodup_eraseAt v _ h

/-- After `erase(find(x))` a vector without repetitions does not hold `x`. -/
theorem not_mem_eraseValue (v : PidVector) (x : Int) (h : v.elems.Nodup) :
    x ∉ (v.eraseValue x).elems := by
  unfold PidVector.eraseValue
  obtain ⟨h1, h2⟩ := findIndex_spec x v.elems 0
  split
  · next hn => exact h1 hn
  · next j hj =>
    obtain ⟨_, hget⟩ := h2 j hj
    simp only [Nat.sub_zero] at hget
    have hsplit := split_at v.elems j x hget
    have hlen : j < v.elems.length := by
      by_contra hge
      rw [List.getElem?_eq_none (by omega)] at hget
      cases hget
    unfold PidVector.eraseAt
    cases hl : v.elems.getLast? with
    | none =>
      rw [List.getLast?_eq_none_iff] at hl
      rw [hl] at hlen
      simp at hlen
    | some z =>
      simp only [if_pos hlen]
      rw [List.eraseIdx_eq_take_drop_succ]
      rw [hsplit] at h
      have hnd := List.nodup_append.1 h
      intro hm
      rcases List.mem_append.1 hm with hm1 | hm1
      · exact hnd.2.2 hm1 (by simp)
      · exact (List.nodup_cons.1 hnd.2.1).1 hm1

theorem mem_storage_of_elems (m : Int → Option Process) (k : Int) (p : Process) (c : Int)
    (hp : m k = some p) (hc : c ∈ p.children.elems) : c ∈ storage m k := by
  rw [storage_of_some m k p hp]
  exact List.mem_append_left _ hc

theorem hasParent_true (m : Int → Option Process) (p : Process)
    (h : hasParent m p = true) :
    p.parentPid ≠ NO_PROCESS ∧ (m p.parentPid).isSome = true := by
  unfold hasParent mapCount at h
  simpa using h

theorem hasParent_of (m : Int → Option Process) (p : Process)
    (h1 : p.parentPid ≠ NO_PROCESS) (h2 : (m p.parentPid).isSome = true) :
    hasParent m p = true := by
  unfold hasParent mapCount
  simp [h1, h2]

theorem finishTermination_child (s : SimOS) (pid : Int) (process : Process)
    (hc : ChildInv s.processes_) (hpa : ParentInv s.processes_)
    (hp : s.processes_ pid = some process) (hno : s.processes_ NO_PROCESS = none) :
    ChildInv (finishTermination s pid process).processes_ := by
  rw [finishTermination_processes]
  split
  · next hpar =>
    have hrec : ∀ k p2, mapModify (mapModify s.processes_ process.parentPid
        (fun parent => { parent with children := parent.children.eraseValue pid })) pid
        (fun p => { p with isZombie := true }) k = some p2 →
        ∃ p, s.processes_ k = some p ∧
          p2.children.elems = (if k = process.parentPid then
            (p.children.eraseValue pid).elems else p.children.elems) ∧
          (k ≠ pid → p2.isZombie = p.isZombie) := by
      intro k p2 h2
      simp only [mapModify_apply] at h2
      cases hk : s.processes_ k with
      | none =>
        exfalso
        by_cases e1 : k = pid
        · subst e1
          by_cases e2 : k = process.parentPid
          · rw [if_pos rfl, if_pos e2, ← e2, hk] at h2
            cases h2
          · rw [if_pos rfl, if_neg e2, hk] at h2
            cases h2
        · by_cases e2 : k = process.parentPid
          · rw [if_neg e1, if_pos e2, ← e2, hk] at h2
            cases h2
          · rw [if_neg e1, if_neg e2, hk] at h2
            cases h2
      | some p =>
        refine ⟨p, rfl, ?_⟩
        by_cases e1 : k = pid
        · subst e1
          by_cases e2 : k = process.parentPid
          · rw [if_pos rfl, if_pos e2, ← e2, hk] at h2
            simp only [Option.map_some', Option.some.injEq] at h2
            subst h2
            exact ⟨by rw [if_pos e2], fun hne => absurd rfl hne⟩
          · rw [if_pos rfl, if_neg e2, hk] at h2
            simp only [Option.map_some', Option.some.injEq] at h2
            subst h2
            exact ⟨by rw [if_neg e2], fun hne => absurd rfl hne⟩
        · by_cases e2 : k = process.parentPid
          · rw [if_neg e1, if_pos e2, ← e2, hk] at h2
            simp only [Option.map_some', Option.some.injEq] at h2
            subst h2
            exact ⟨by rw [if_pos e2], fun _ => rfl⟩
          · rw [if_neg e1, if_neg e2, hk] at h2
            simp only [Option.some.injEq] at h2
            subst h2
            exact ⟨by rw [if_neg e2], fun _ => rfl⟩
    intro k p2 h2
    obtain ⟨p, hk, hel, _⟩ := hrec k p2 h2
    obtain ⟨hnd, hch⟩ := hc k p hk
    have hsub : ∀ c ∈ p2.children.elems, c ∈ p.children.elems := by
      intro c hcm
      rw [hel] at hcm
      split at hcm
      · exact mem_eraseValue _ _ _ hcm
      · exact hcm
    constructor
    · rw [hel]
      split
      · exact nodup_eraseValue _ _ hnd
      · exact hnd
    · intro c hcm
      have hcm0 := hsub c hcm
      obtain ⟨pc, hpc, hzc⟩ := hch c hcm0
      have hne : c ≠ pid := by
        intro e
        subst e
        have hpar2 := hpa k c (mem_storage_of_elems _ k p c hk hcm0) process hp
        rw [hel, if_pos hpar2.symm] at hcm
        exact not_mem_eraseValue _ _ hnd hcm
      have hsome : (mapModify (mapModify s.processes_ process.parentPid
          (fun parent => { parent with children := parent.children.eraseValue pid })) pid
          (fun p => { p with isZombie := true }) c).isSome = true := by
        rw [isSome_mapModify, isSome_mapModify, hpc]
        rfl
      obtain ⟨pc2, hpc2⟩ := Option.isSome_iff_exists.1 hsome
      obtain ⟨pc', hpc', _, hz'⟩ := hrec c pc2 hpc2
      rw [hpc] at hpc'
      simp only [Option.some.injEq] at hpc'
      subst hpc'
      exact ⟨pc2, hpc2, by rw [hz' hne]; exact hzc⟩
  · next hpar =>
    intro k p2 h2
    rw [mapErase_apply] at h2
    split at h2
    · cases h2
    · next hkne =>
      obtain ⟨hnd, hch⟩ := hc k p2 h2
      refine ⟨hnd, ?_⟩
      intro c hcm
      obtain ⟨pc, hpc, hzc⟩ := hch c hcm
      have hne : c ≠ pid := by
        intro e
        subst e
        have hpar2 := hpa k c (mem_storage_of_elems _ k p2 c h2 hcm) process hp
        apply hpar
        apply hasParent_of
        · rw [hpar2]
          intro e2
          rw [e2, hno] at h2
          cases h2
        · rw [hpar2, h2]
          rfl
      exact ⟨pc, by rw [mapErase_apply, if_neg hne]; exact hpc, hzc⟩

theorem childLoop_child (recurse : SimOS → Int → Option SimOS)
    (hfade : ∀ s d s', recurse s d = some s' → (s.processes_ d).isSome = true →
      Fades s.processes_ s'.processes_)
    (hrec : ∀ s d s', recurse s d = some s' → (s.processes_ d).isSome = true →
      ChildInv s.processes_ → ParentInv s.processes_ → s.processes_ NO_PROCESS = none →
      ChildInv s'.processes_)
    (pid : Int) :
    ∀ (remaining i : Nat) (s s' : SimOS), childLoop recurse pid remaining i s = some s' →
      ChildInv s.processes_ → ParentInv s.processes_ → s.processes_ NO_PROCESS = none →
      ChildInv s'.processes_ := by
  intro remaining
  induction remaining with
  | zero =>
    intro i s s' h hc _ _
    simp only [childLoop] at h
    cases h
    exact hc
  | succ n ih =>
    intro i s s' h hc hpa hno
    obtain ⟨process, childPid, _, _, ⟨hcount, s1, h1, h2⟩ | ⟨_, h2⟩⟩ :=
      childLoop_cases recurse pid n i s s' h
    · have hf := hfade _ _ _ h1 hcount
      have hno1 : s1.processes_ NO_PROCESS = none := by
        cases hn : s1.processes_ NO_PROCESS with
        | none => rfl
        | some p =>
          have := fades_isSome _ _ hf NO_PROCESS (by simp [hn])
          rw [hno] at this
          cases this
      exact ih _ _ _ h2 (hrec _ _ _ h1 hcount hc hpa hno) (parentInv_fades _ _ hf hpa) hno1
    · exact ih _ _ _ h2 hc hpa hno

theorem fades_none (m m' : Int → Option Process) (h : Fades m m') (k : Int)
    (hk : m k = none) : m' k = none := by
  cases hn : m' k with
  | none => rfl
  | some p =>
    have := fades_isSome _ _ h k (by simp [hn])
    rw [hk] at this
    cases this

/-- The call `terminateProcessAndDescendants` of a registered process keeps the child lists
free of repetitions, of unregistered identifiers and of zombies. -/
theorem terminate_child :
    ∀ (fuel : Nat) (s : SimOS) (pid : Int) (s' : SimOS),
      s.terminateProcessAndDescendants fuel pid = some s' →
      (s.processes_ pid).isSome = true →
      ChildInv s.processes_ → ParentInv s.processes_ → s.processes_ NO_PROCESS = none →
      ChildInv s'.processes_ := by
  intro fuel
  induction fuel with
  | zero => intro s pid s' h; simp [SimOS.terminateProcessAndDescendants] at h
  | succ f ih =>
    intro s pid s' h hreg hc hpa hno
    obtain ⟨s1, process, h1, hp1, rfl⟩ := terminate_cases f s pid s' h
    have e0 : mapIndex s.processes_ pid = s.processes_ := mapIndex_of_isSome _ _ hreg
    have hf : Fades s.processes_ s1.processes_ := by
      have h4 : Fades (mapIndex s.processes_ pid) s1.processes_ :=
        childLoop_fades _ (terminate_fades f) pid _ _ _ _ h1
      rw [e0] at h4
      exact h4
    have hc1 : ChildInv s1.processes_ := by
      refine childLoop_child _ (terminate_fades f) ih pid _ _ _ _ h1 ?_ ?_ ?_
      · show ChildInv (mapIndex s.processes_ pid)
        rw [e0]; exact hc
      · show ParentInv (mapIndex s.processes_ pid)
        rw [e0]; exact hpa
      · show mapIndex s.processes_ pid NO_PROCESS = none
        rw [e0]; exact hno
    exact finishTermination_child s1 pid process hc1 (parentInv_fades _ _ hf hpa) hp1
      (fades_none _ _ hf _ hno)

/-! ## What `terminateProcessAndDescendants` does to the memory -/

theorem childLoop_keep (recurse : SimOS → Int → Option SimOS)
    (hfade : ∀ s d s', recurse s d = some s' → (s.processes_ d).isSome = true →
      Fades s.processes_ s'.processes_)
    (hrec : ∀ s d s' pd, recurse s d = some s' → s.processes_ d = some pd →
      ParentInv s.processes_ → s.processes_ NO_PROCESS = none →
      hasParent s.processes_ pd = true →
      s'.memoryBlocks_ = s.memoryBlocks_ ∧
      ∀ k, (s'.processes_ k).isSome = (s.processes_ k).isSome)
    (pid : Int) :
    ∀ (remaining i : Nat) (s s' : SimOS), childLoop recurse pid remaining i s = some s' →
      ParentInv s.processes_ → s.processes_ NO_PROCESS = none →
      s'.memoryBlocks_ = s.memoryBlocks_ ∧
      ∀ k, (s'.processes_ k).isSome = (s.processes_ k).isSome := by
  intro remaining
  induction remaining with
  | zero =>
    intro i s s' h _ _
    simp only [childLoop] at h
    cases h
    exact ⟨rfl, fun _ => rfl⟩
  | succ n ih =>
    intro i s s' h hpa hno
    obtain ⟨process, childPid, hp, hslot, ⟨hcount, s1, h1, h2⟩ | ⟨_, h2⟩⟩ :=
      childLoop_cases recurse pid n i s s' h
    · obtain ⟨pd, hpd⟩ := Option.isSome_iff_exists.1 hcount
      have hpar : pd.parentPid = pid := hpa pid childPid (slot_mem _ _ _ _ _ hp hslot) pd hpd
      have hpidne : pid ≠ NO_PROCESS := by
        intro e
        rw [e, hno] at hp
        cases hp
      have hhas : hasParent s.processes_ pd = true :=
        hasParent_of _ _ (by rw [hpar]; exact hpidne) (by rw [hpar, hp]; rfl)
      obtain ⟨e1, e2⟩ := hrec _ _ _ pd h1 hpd hpa hno hhas
      have hf := hfade _ _ _ h1 hcount
      obtain ⟨e3, e4⟩ := ih _ _ _ h2 (parentInv_fades _ _ hf hpa) (fades_none _ _ hf _ hno)
      exact ⟨e3.trans e1, fun k => (e4 k).trans (e2 k)⟩
    · exact ih _ _ _ h2 hpa hno

/-- The call `terminateProcessAndDescendants` of a registered process: when the process has
a registered parent, the block list and the set of registered identifiers stay as they
are and the process is a zombie afterwards; otherwise its block is deallocated and its
record, and no other, is erased. -/
theorem terminate_effect :
    ∀ (fuel : Nat) (s : SimOS) (pid : Int) (s' : SimOS) (p : Process),
      s.terminateProcessAndDescendants fuel pid = some s' → s.processes_ pid = some p →
      ParentInv s.processes_ → s.processes_ NO_PROCESS = none →
      s'.memoryBlocks_ =
        (if hasParent s.processes_ p = true then s.memoryBlocks_
          else deallocateScan pid [] s.memoryBlocks_) ∧
      (∀ k, (s'.processes_ k).isSome =
        (if hasParent s.processes_ p = true then (s.processes_ k).isSome
          else (decide (k ≠ pid) && (s.processes_ k).isSome))) ∧
      (hasParent s.processes_ p = true →
        ∃ p', s'.processes_ pid = some p' ∧ p'.isZombie = true) := by
  intro fuel
  induction fuel with
  | zero => intro s pid s' p h; simp [SimOS.terminateProcessAndDescendants] at h
  | succ f ih =>
    intro s pid s' p h hp hpa hno
    have hreg : (s.processes_ pid).isSome = true := by rw [hp]; rfl
    obtain ⟨s1, process, h1, hp1, rfl⟩ := terminate_cases f s pid s' h
    have e0 : mapIndex s.processes_ pid = s.processes_ := mapIndex_of_isSome _ _ hreg
    have hf : Fades s.processes_ s1.processes_ := by
      have h4 : Fades (mapIndex s.processes_ pid) s1.processes_ :=
        childLoop_fades _ (terminate_fades f) pid _ _ _ _ h1
      rw [e0] at h4
      exact h4
    have hrec : ∀ t d t' pd, SimOS.terminateProcessAndDescendants f t d = some t' →
        t.processes_ d = some pd → ParentInv t.processes_ → t.processes_ NO_PROCESS = none →
        hasParent t.processes_ pd = true →
        t'.memoryBlocks_ = t.memoryBlocks_ ∧
        ∀ k, (t'.processes_ k).isSome = (t.processes_ k).isSome := by
      intro t d t' pd ht hpd htpa htno hhas
      obtain ⟨a1, a2, _⟩ := ih t d t' pd ht hpd htpa htno
      rw [if_pos hhas] at a1
      refine ⟨a1, fun k => ?_⟩
      rw [a2 k, if_pos hhas]
    obtain ⟨b1, b2⟩ := childLoop_keep _ (terminate_fades f) hrec pid _ _ _ _ h1
      (by show ParentInv (mapIndex s.processes_ pid); rw [e0]; exact hpa)
      (by show mapIndex s.processes_ pid NO_PROCESS = none; rw [e0]; exact hno)
    have b1' : s1.memoryBlocks_ = s.memoryBlocks_ := b1
    have b2' : ∀ k, (s1.processes_ k).isSome = (s.processes_ k).isSome := by
      intro k
      have := b2 k
      simp only [e0] at this
      exact this
    obtain ⟨p0, hp0, _, _, _, hpar, _, _⟩ := hf.1 pid process hp1
    rw [hp] at hp0
    simp only [Option.some.injEq] at hp0
    subst hp0
    have hsame : hasParent s1.processes_ process = hasParent s.processes_ p := by
      unfold hasParent mapCount
      rw [hpar, b2']
    rw [finishTermination_blocks, finishTermination_processes, hsame, b1']
    refine ⟨rfl, ?_, ?_⟩
    · intro k
      split
      · rw [isSome_mapModify, isSome_mapModify]
        exact b2' k
      · rw [mapErase_apply]
        by_cases e : k = pid
        · simp [e]
        · simp [e, b2' k]
    · intro hhas
      rw [if_pos hhas]
      have hsome : (mapModify s1.processes_ process.parentPid
          (fun parent => { parent with children := parent.children.eraseValue pid })
          pid).isSome = true := by
        rw [isSome_mapModify, hp1]
        rfl
      obtain ⟨q, hq⟩ := Option.isSome_iff_exists.1 hsome
      refine ⟨{ q with isZombie := true }, ?_, rfl⟩
      rw [mapModify_apply, if_pos rfl, hq]
      rfl

/-! ## The registry and the block list after each public operation -/

theorem scheduleCPU_same (s s' : SimOS) (h : s.scheduleCPU = some s')
    (ha : Alive s.processes_ s.cpuPid_ s.readyQueue_) :
    s'.processes_ = s.processes_ ∧ s'.nextPid_ = s.nextPid_ ∧
    s'.memoryBlocks_ = s.memoryBlocks_ := by
  have hfr := scheduleCPU_frame s s' h (ready_registered _ _ _ ha) (fun hc => by
    obtain ⟨p, hp, _⟩ := ha.1 hc
    simp [hp])
  rw [hfr]
  exact ⟨rfl, rfl, rfl⟩

theorem findZombie_none :
    ∀ (cs : List Int) (i : Nat) (m : Int → Option Process),
      (∀ c ∈ cs, ∃ pc, m c = some pc ∧ pc.isZombie = false) →
      findZombie m cs i = (m, none) := by
  intro cs
  induction cs with
  | nil => intro i m _; rfl
  | cons c cs ih =>
    intro i m h
    obtain ⟨pc, hpc, hz⟩ := h c (by simp)
    have e : mapIndex m c = m := mapIndex_of_isSome _ _ (by rw [hpc]; rfl)
    simp only [findZombie, e, mapGet_of_eq _ _ _ hpc, hz]
    exact ih (i + 1) m (fun x hx => h x (by simp [hx]))

/-- With child lists that hold registered processes that are not zombies, the search of
`SimWait` finds nothing and leaves the registry as it is. -/
theorem waitScan_idle (s : SimOS) (hc : ChildInv s.processes_)
    (hcpu : (s.processes_ s.cpuPid_).isSome = true) : s.waitScan = (s.processes_, none) := by
  unfold SimOS.waitScan
  rw [mapIndex_of_isSome _ _ hcpu]
  obtain ⟨p, hp⟩ := Option.isSome_iff_exists.1 hcpu
  rw [mapGet_of_eq _ _ _ hp]
  exact findZombie_none _ _ _ (hc _ p hp).2

theorem NewProcess_effect (s s' : SimOS) (size : Nat) (priority : Int) (r : Bool)
    (h : s.NewProcess size priority = some (r, s')) (hs : SchedInv s) :
    s'.nextPid_ = s.nextPid_ + 1 ∧
    ((r = false ∧ (s.newAlloc size priority).1 = false ∧
        s'.processes_ = s.processes_ ∧ s'.memoryBlocks_ = s.memoryBlocks_) ∨
      (r = true ∧ (s.newAlloc size priority).1 = true ∧
        s'.processes_ = mapSet s.processes_ s.nextPid_
          { s.newProcessRecord size priority with
            memory := (s.newAlloc size priority).2.2.memory } ∧
        s'.memoryBlocks_ = (s.newAlloc size priority).2.1.memoryBlocks_)) := by
  rcases NewProcess_cases s size priority r s' h with ⟨e1, e2, rfl⟩ | ⟨e1, e2, hsch⟩
  · exact ⟨rfl, Or.inl ⟨e2, e1, rfl, rfl⟩⟩
  · have ha : Alive (mapSet s.processes_ s.nextPid_
        { s.newProcessRecord size priority with
          memory := (s.newAlloc size priority).2.2.memory })
        s.cpuPid_ (addPid s.readyQueue_ s.nextPid_) := by
      apply alive_add _ _ _ _
        ⟨{ s.newProcessRecord size priority with
            memory := (s.newAlloc size priority).2.2.memory },
          by simp [mapSet_apply], rfl⟩
      exact alive_mapSet _ _ _ _ _ rfl hs.alive
    obtain ⟨a1, a2, a3⟩ := scheduleCPU_same _ s' hsch ha
    exact ⟨a2, Or.inr ⟨e2, e1, a1, a3⟩⟩

theorem SimFork_effect (s s' : SimOS) (r : Bool) (h : s.SimFork = some (r, s'))
    (hs : SchedInv s) :
    ((s.cpuPid_ = NO_PROCESS ∨ s.cpuPid_ = 1) ∧ r = false ∧ s' = s) ∨
    (¬ (s.cpuPid_ = NO_PROCESS ∨ s.cpuPid_ = 1) ∧ s'.nextPid_ = s.nextPid_ + 1 ∧
      ((r = false ∧ s.forkAlloc.1 = false ∧
          s'.processes_ = s.processes_ ∧ s'.memoryBlocks_ = s.memoryBlocks_) ∨
        (r = true ∧ s.forkAlloc.1 = true ∧
          s'.processes_ = mapModify
            (mapSet s.processes_ s.nextPid_
              { s.childRecord with memory := s.forkAlloc.2.2.memory })
            s.cpuPid_ (fun p => { p with children := p.children.push_back s.nextPid_ }) ∧
          s'.memoryBlocks_ = s.forkAlloc.2.1.memoryBlocks_))) := by
  rcases SimFork_cases s r s' h with ⟨hg, e, rfl⟩ | ⟨hg, ⟨e1, e2, rfl⟩ | ⟨e1, e2, hsch⟩⟩
  · exact Or.inl ⟨hg, e, rfl⟩
  · have hc : s.cpuPid_ ≠ NO_PROCESS := fun e => hg (Or.inl e)
    obtain ⟨p, hp, _⟩ := hs.alive.1 hc
    have e0 : mapIndex s.processes_ s.cpuPid_ = s.processes_ :=
      mapIndex_of_isSome _ _ (by rw [hp]; rfl)
    exact Or.inr ⟨hg, rfl, Or.inl ⟨e2, e1, e0, rfl⟩⟩
  · have hc : s.cpuPid_ ≠ NO_PROCESS := fun e => hg (Or.inl e)
    obtain ⟨p, hp, _⟩ := hs.alive.1 hc
    have e0 : mapIndex s.processes_ s.cpuPid_ = s.processes_ :=
      mapIndex_of_isSome _ _ (by rw [hp]; rfl)
    rw [e0] at hsch
    have h1 := alive_mapSet _ s.nextPid_ _ _
      { s.childRecord with memory := s.forkAlloc.2.2.memory } rfl hs.alive
    have h2 := alive_mapModify _ s.cpuPid_ _ _
      (fun p => { p with children := p.children.push_back s.nextPid_ }) (fun _ => rfl) h1
    have ha : Alive (mapModify
        (mapSet s.processes_ s.nextPid_
          { s.childRecord with memory := s.forkAlloc.2.2.memory })
        s.cpuPid_ (fun p => { p with children := p.children.push_back s.nextPid_ }))
        s.cpuPid_ (addPid s.readyQueue_ s.nextPid_) := by
      apply alive_add _ _ _ _ _ h2
      simp only [mapModify_apply, mapSet_apply]
      split
      · next e =>
        simp only [e, if_true, Option.map_some']
        exact ⟨_, rfl, rfl⟩
      · simp only [if_true]
        exact ⟨_, rfl, rfl⟩
    obtain ⟨a1, a2, a3⟩ := scheduleCPU_same _ s' hsch ha
    exact Or.inr ⟨hg, a2, Or.inr ⟨e2, e1, a1, a3⟩⟩

theorem SimExit_effect (s s' : SimOS) (fuel : Nat) (h : s.SimExit fuel = some s')
    (hr : RangeInv s) (he : ExclInv s) (hs : SchedInv s) :
    ((s.cpuPid_ = NO_PROCESS ∨ s.cpuPid_ = 1) ∧ s' = s) ∨
    (¬ (s.cpuPid_ = NO_PROCESS ∨ s.cpuPid_ = 1) ∧
      ∃ s1, s.terminateProcessAndDescendants fuel s.cpuPid_ = some s1 ∧
        s1.scheduleCPU = some s' ∧
        s'.processes_ = s1.processes_ ∧ s'.memoryBlocks_ = s1.memoryBlocks_ ∧
        s'.nextPid_ = s.nextPid_) := by
  rcases SimExit_cases fuel s s' h with ⟨hg, rfl⟩ | ⟨hg, s1, h1, h2⟩
  · exact Or.inl ⟨hg, rfl⟩
  · have ha := terminate_alive _ _ _ _ h1 (apart_of_inv s hr he) hs.alive
    obtain ⟨a1, a2, a3⟩ := scheduleCPU_same _ s' h2 ha
    exact Or.inr ⟨hg, s1, h1, h2, a1, a3, a2.trans (terminate_shrinks _ _ _ _ h1).2.2.1⟩

theorem SimWait_effect (s s' : SimOS) (h : s.SimWait = some s') (hs : SchedInv s)
    (hc : ChildInv s.processes_) :
    ((s.cpuPid_ = NO_PROCESS ∨ s.cpuPid_ = 1) ∧ s' = s) ∨
    (¬ (s.cpuPid_ = NO_PROCESS ∨ s.cpuPid_ = 1) ∧
      SimOS.scheduleCPU { s with cpuPid_ := NO_PROCESS } = some s' ∧
      s'.processes_ = s.processes_ ∧ s'.memoryBlocks_ = s.memoryBlocks_ ∧
      s'.nextPid_ = s.nextPid_) := by
  rcases SimWait_cases s s' h with ⟨hg, rfl⟩ | ⟨hg, ⟨i, z, hi, _, _⟩ | ⟨_, hsch⟩⟩
  · exact Or.inl ⟨hg, rfl⟩
  · exfalso
    have hcne : s.cpuPid_ ≠ NO_PROCESS := fun e => hg (Or.inl e)
    obtain ⟨p, hp, _⟩ := hs.alive.1 hcne
    rw [waitScan_idle s hc (by rw [hp]; rfl)] at hi
    cases hi
  · have hcne : s.cpuPid_ ≠ NO_PROCESS := fun e => hg (Or.inl e)
    obtain ⟨p, hp, _⟩ := hs.alive.1 hcne
    rw [waitScan_idle s hc (by rw [hp]; rfl)] at hsch
    have ha : Alive s.processes_ NO_PROCESS s.readyQueue_ :=
      alive_sub _ s.cpuPid_ _ s.readyQueue_ _ (Or.inr rfl) (fun r hr => hr) hs.alive
    have hsch' : SimOS.scheduleCPU { s with cpuPid_ := NO_PROCESS } = some s' := hsch
    obtain ⟨a1, a2, a3⟩ := scheduleCPU_same _ s' hsch' ha
    exact Or.inr ⟨hg, hsch', a1, a3, a2⟩

theorem DiskReadRequest_effect (s s' : SimOS) (diskNumber : Int) (fileName : String)
    (h : s.DiskReadRequest diskNumber fileName = some s') (hs : SchedInv s) :
    s'.processes_ = s.processes_ ∧ s'.memoryBlocks_ = s.memoryBlocks_ ∧
    s'.nextPid_ = s.nextPid_ := by
  have ha : Alive s.processes_ NO_PROCESS s.readyQueue_ :=
    alive_sub _ s.cpuPid_ _ s.readyQueue_ _ (Or.inr rfl) (fun r hr => hr) hs.alive
  rcases DiskReadRequest_cases s s' diskNumber fileName h with
    ⟨_, rfl⟩ | ⟨_, ⟨_, hsch⟩ | ⟨_, hsch⟩⟩
  · exact ⟨rfl, rfl, rfl⟩
  · obtain ⟨a1, a2, a3⟩ := scheduleCPU_same _ s' hsch ha
    exact ⟨a1, a3, a2⟩
  · obtain ⟨a1, a2, a3⟩ := scheduleCPU_same _ s' hsch ha
    exact ⟨a1, a3, a2⟩

theorem startNextJob_blocks (s : SimOS) (d : Int) :
    (s.startNextJob d).memoryBlocks_ = s.memoryBlocks_ := by
  unfold SimOS.startNextJob
  split <;> rfl

theorem DiskJobCompleted_effect (s s' : SimOS) (diskNumber : Int)
    (h : s.DiskJobCompleted diskNumber = some s') (hs : SchedInv s) :
    s'.processes_ = s.processes_ ∧ s'.memoryBlocks_ = s.memoryBlocks_ ∧
    s'.nextPid_ = s.nextPid_ := by
  obtain ⟨e1, e2, e3, e4⟩ := startNextJob_fields
    { s with activeDiskJobs_ := mapErase s.activeDiskJobs_ diskNumber } diskNumber
  have e5 := startNextJob_blocks
    { s with activeDiskJobs_ := mapErase s.activeDiskJobs_ diskNumber } diskNumber
  rcases DiskJobCompleted_cases s s' diskNumber h with
    ⟨_, rfl⟩ | ⟨_, rfl⟩ | ⟨job, _, hj, ⟨⟨p, hp, hz⟩, hsch⟩ | rfl⟩
  · exact ⟨rfl, rfl, rfl⟩
  · exact ⟨rfl, rfl, rfl⟩
  · have ha : Alive (SimOS.startNextJob
        { s with activeDiskJobs_ := mapErase s.activeDiskJobs_ diskNumber }
        diskNumber).processes_
        (SimOS.startNextJob
          { s with activeDiskJobs_ := mapErase s.activeDiskJobs_ diskNumber }
          diskNumber).cpuPid_
        (addPid (SimOS.startNextJob
          { s with activeDiskJobs_ := mapErase s.activeDiskJobs_ diskNumber }
          diskNumber).readyQueue_ job.PID) := by
      rw [e2, e3, e4]
      exact alive_add _ _ _ _ ⟨p, hp, hz⟩ hs.alive
    obtain ⟨a1, a2, a3⟩ := scheduleCPU_same _ s' hsch ha
    exact ⟨a1.trans e3, a3.trans e5, a2.trans e1⟩
  · exact ⟨e3, e5, e1⟩

/-! ## The process tree in reachable states: child lists and parents -/

theorem family_same (s s' : SimOS) (hm : s'.processes_ = s.processes_)
    (hn : s.nextPid_ ≤ s'.nextPid_) (hf : FamilyInv s) : FamilyInv s' := by
  refine ⟨by rw [hm]; exact hf.child, by rw [hm]; exact hf.parent, ?_⟩
  intro k c hc
  rw [hm] at hc
  exact lt_of_lt_of_le (hf.bound k c hc) hn

theorem range_unregistered (s : SimOS) (hr : RangeInv s) :
    s.processes_ s.nextPid_ = none ∧ s.processes_ NO_PROCESS = none := by
  constructor
  · cases hn : s.processes_ s.nextPid_ with
    | none => rfl
    | some p =>
      have := (hr.keys s.nextPid_ (by simp [hn])).2
      omega
  · cases hn : s.processes_ NO_PROCESS with
    | none => rfl
    | some p =>
      have := (hr.keys NO_PROCESS (by simp [hn])).1
      simp [NO_PROCESS] at this

/-- The invariants of the process tree after a new record without children has been
registered under the identifier `nextPid_`. -/
theorem family_register (s s' : SimOS) (v : Process)
    (hm : s'.processes_ = mapSet s.processes_ s.nextPid_ v)
    (hn : s'.nextPid_ = s.nextPid_ + 1) (hv : v.children = PidVector.empty)
    (hr : RangeInv s) (hf : FamilyInv s) : FamilyInv s' := by
  obtain ⟨hfresh, _⟩ := range_unregistered s hr
  have hold : ∀ c pc, s.processes_ c = some pc → s'.processes_ c = some pc := by
    intro c pc hpc
    rw [hm, mapSet_apply]
    split
    · next e => rw [e, hfresh] at hpc; cases hpc
    · exact hpc
  have hstor : ∀ k, ∀ c ∈ storage s'.processes_ k, c ∈ storage s.processes_ k := by
    intro k c hc
    rw [hm, storage_mapSet] at hc
    split at hc
    · rw [hv] at hc; simp [PidVector.empty] at hc
    · exact hc
  refine ⟨?_, ?_, ?_⟩
  · intro k p hp
    rw [hm, mapSet_apply] at hp
    split at hp
    · simp only [Option.some.injEq] at hp
      subst hp
      rw [hv]
      exact ⟨by simp [PidVector.empty], fun c hc => by simp [PidVector.empty] at hc⟩
    · obtain ⟨h1, h2⟩ := hf.child k p hp
      refine ⟨h1, fun c hc => ?_⟩
      obtain ⟨pc, hpc, hzc⟩ := h2 c hc
      exact ⟨pc, hold c pc hpc, hzc⟩
  · intro k c hc pc hpc
    have hc0 := hstor k c hc
    have hlt := hf.bound k c hc0
    rw [hm, mapSet_apply, if_neg (ne_of_lt hlt)] at hpc
    exact hf.parent k c hc0 pc hpc
  · intro k c hc
    have := hf.bound k c (hstor k c hc)
    rw [hn]
    omega

/-- The invariants of the process tree after `SimFork` has registered the child and
appended it to the child list of the process on the CPU. -/
theorem family_fork (s s' : SimOS) (v : Process)
    (hm : s'.processes_ = mapModify (mapSet s.processes_ s.nextPid_ v) s.cpuPid_
      (fun p => { p with children := p.children.push_back s.nextPid_ }))
    (hn : s'.nextPid_ = s.nextPid_ + 1) (hv : v.children = PidVector.empty)
    (hz : v.isZombie = false) (hvp : v.parentPid = s.cpuPid_)
    (hcpu : (s.processes_ s.cpuPid_).isSome = true)
    (hr : RangeInv s) (hf : FamilyInv s) : FamilyInv s' := by
  obtain ⟨hfresh, _⟩ := range_unregistered s hr
  have hne : s.cpuPid_ ≠ s.nextPid_ := by
    intro e
    rw [e, hfresh] at hcpu
    cases hcpu
  have hlook : ∀ k p', s'.processes_ k = some p' →
      (k = s.nextPid_ ∧ p' = v) ∨
      (k ≠ s.nextPid_ ∧ ∃ p, s.processes_ k = some p ∧ p'.parentPid = p.parentPid ∧
        p'.isZombie = p.isZombie ∧
        p'.children = (if k = s.cpuPid_ then p.children.push_back s.nextPid_
          else p.children)) := by
    intro k p' hp'
    rw [hm, mapModify_apply, mapSet_apply, if_neg hne] at hp'
    by_cases e1 : k = s.cpuPid_
    · rw [if_pos e1] at hp'
      obtain ⟨p, hp⟩ := Option.isSome_iff_exists.1 hcpu
      rw [hp] at hp'
      simp only [Option.map_some', Option.some.injEq] at hp'
      subst hp'
      exact Or.inr ⟨by rw [e1]; exact hne, p, by rw [e1]; exact hp, rfl, rfl,
        by rw [if_pos e1]⟩
    · rw [if_neg e1, mapSet_apply] at hp'
      split at hp'
      · next e2 =>
        simp only [Option.some.injEq] at hp'
        exact Or.inl ⟨e2, hp'.symm⟩
      · next e2 => exact Or.inr ⟨e2, p', hp', rfl, rfl, by rw [if_neg e1]⟩
  have hkeep : ∀ c pc, s.processes_ c = some pc →
      ∃ pc', s'.processes_ c = some pc' ∧ pc'.isZombie = pc.isZombie := by
    intro c pc hpc
    have hcne : c ≠ s.nextPid_ := by
      intro e
      rw [e, hfresh] at hpc
      cases hpc
    rw [hm, mapModify_apply, mapSet_apply, if_neg hne]
    split
    · next e =>
      rw [e] at hpc
      rw [hpc]
      exact ⟨_, rfl, rfl⟩
    · rw [mapSet_apply, if_neg hcne]
      exact ⟨pc, hpc, rfl⟩
  have hnew : s'.processes_ s.nextPid_ = some v := by
    rw [hm, mapModify_apply, if_neg (Ne.symm hne), mapSet_apply, if_pos rfl]
  have hstor : ∀ k, ∀ c ∈ storage s'.processes_ k,
      c ∈ storage s.processes_ k ∨ (c = s.nextPid_ ∧ k = s.cpuPid_) := by
    intro k c hc
    cases hk : s'.processes_ k with
    | none => simp [storage, hk] at hc
    | some p' =>
      rw [storage_of_some _ k p' hk] at hc
      rcases hlook k p' hk with ⟨_, e2⟩ | ⟨_, p, hp, _, _, hch⟩
      · rw [e2, hv] at hc
        simp [PidVector.empty] at hc
      · rw [hch] at hc
        rw [storage_of_some _ k p hp]
        split at hc
        · next e =>
          rcases push_back_storage_mem _ _ _ hc with h1 | h1
          · exact Or.inl h1
          · exact Or.inr ⟨h1, e⟩
        · exact Or.inl hc
  refine ⟨?_, ?_, ?_⟩
  · intro k p' hp'
    rcases hlook k p' hp' with ⟨_, e2⟩ | ⟨_, p, hp, _, _, hch⟩
    · rw [e2, hv]
      exact ⟨by simp [PidVector.empty], fun c hc => by simp [PidVector.empty] at hc⟩
    · obtain ⟨h1, h2⟩ := hf.child k p hp
      rw [hch]
      split
      · next e =>
        constructor
        · simp only [PidVector.push_back]
          rw [List.nodup_append]
          refine ⟨h1, by simp, ?_⟩
          intro a ha hb
          simp only [List.mem_singleton] at hb
          rw [hb] at ha
          have := hf.bound k _ (mem_storage_of_elems _ k p _ hp ha)
          omega
        · intro c hc
          simp only [PidVector.push_back, List.mem_append, List.mem_singleton] at hc
          rcases hc with hc | hc
          · obtain ⟨pc, hpc, hzc⟩ := h2 c hc
            obtain ⟨pc', hpc', hz'⟩ := hkeep c pc hpc
            exact ⟨pc', hpc', by rw [hz']; exact hzc⟩
          · rw [hc]
            exact ⟨v, hnew, hz⟩
      · refine ⟨h1, fun c hc => ?_⟩
        obtain ⟨pc, hpc, hzc⟩ := h2 c hc
        obtain ⟨pc', hpc', hz'⟩ := hkeep c pc hpc
        exact ⟨pc', hpc', by rw [hz']; exact hzc⟩
  · intro k c hc pc' hpc'
    rcases hstor k c hc with h1 | ⟨h1, h2⟩
    · have hlt := hf.bound k c h1
      rcases hlook c pc' hpc' with ⟨e1, _⟩ | ⟨_, pc, hpc, hpar, _, _⟩
      · omega
      · rw [hpar]
        exact hf.parent k c h1 pc hpc
    · rw [h1, hnew] at hpc'
      simp only [Option.some.injEq] at hpc'
      rw [← hpc', hvp, h2]
  · intro k c hc
    rw [hn]
    rcases hstor k c hc with h1 | ⟨h1, _⟩
    · have := hf.bound k c h1
      omega
    · omega

theorem NewProcess_family (s s' : SimOS) (size : Nat) (priority : Int) (r : Bool)
    (h : s.NewProcess size priority = some (r, s')) (hr : RangeInv s) (hs : SchedInv s)
    (hf : FamilyInv s) : FamilyInv s' := by
  obtain ⟨hn, ⟨_, _, hm, _⟩ | ⟨_, _, hm, _⟩⟩ := NewProcess_effect s s' size priority r h hs
  · exact family_same s s' hm (by rw [hn]; omega) hf
  · exact family_register s s' _ hm hn rfl hr hf

theorem SimFork_family (s s' : SimOS) (r : Bool) (h : s.SimFork = some (r, s'))
    (hr : RangeInv s) (hs : SchedInv s) (hf : FamilyInv s) : FamilyInv s' := by
  rcases SimFork_effect s s' r h hs with ⟨_, _, rfl⟩ |
    ⟨hg, hn, ⟨_, _, hm, _⟩ | ⟨_, _, hm, _⟩⟩
  · exact hf
  · exact family_same s s' hm (by rw [hn]; omega) hf
  · have hc : s.cpuPid_ ≠ NO_PROCESS := fun e => hg (Or.inl e)
    obtain ⟨p, hp, _⟩ := hs.alive.1 hc
    exact family_fork s s' _ hm hn rfl rfl rfl (by rw [hp]; rfl) hr hf

theorem SimExit_family (s s' : SimOS) (fuel : Nat) (h : s.SimExit fuel = some s')
    (hr : RangeInv s) (he : ExclInv s) (hs : SchedInv s) (hf : FamilyInv s) :
    FamilyInv s' := by
  rcases SimExit_effect s s' fuel h hr he hs with ⟨_, rfl⟩ |
    ⟨hg, s1, h1, _, hm, _, hn⟩
  · exact hf
  · have hc : s.cpuPid_ ≠ NO_PROCESS := fun e => hg (Or.inl e)
    obtain ⟨p, hp, _⟩ := hs.alive.1 hc
    have hreg : (s.processes_ s.cpuPid_).isSome = true := by rw [hp]; rfl
    have hfd := terminate_fades _ _ _ _ h1 hreg
    refine ⟨?_, ?_, ?_⟩
    · rw [hm]
      exact terminate_child _ _ _ _ h1 hreg hf.child hf.parent (range_unregistered s hr).2
    · rw [hm]
      exact parentInv_fades _ _ hfd hf.parent
    · intro k c hc
      rw [hm] at hc
      rw [hn]
      exact hf.bound k c (hfd.2 k c hc)

theorem construct_family (numberOfDisks amountOfRAM sizeOfOS : Nat) :
    FamilyInv (SimOS.construct numberOfDisks amountOfRAM sizeOfOS) := by
  have hst : ∀ k, storage (SimOS.construct numberOfDisks amountOfRAM sizeOfOS).processes_ k
      = [] := by
    intro k
    simp only [SimOS.construct, storage_mapSet]
    split
    · simp [PidVector.empty]
    · simp [storage]
  refine ⟨?_, ?_, ?_⟩
  · intro k p hp
    simp only [SimOS.construct, mapSet_apply] at hp
    split at hp
    · simp only [Option.some.injEq] at hp
      subst hp
      exact ⟨by simp [PidVector.empty], fun c hc => by simp [PidVector.empty] at hc⟩
    · cases hp
  · intro k c hc
    rw [hst] at hc
    simp at hc
  · intro k c hc
    rw [hst] at hc
    simp at hc

/-- In a reachable state every child list is free of repetitions and holds registered
processes that are not zombies and have the owner of the list as their parent. -/
theorem reachable_family (numberOfDisks amountOfRAM sizeOfOS : Nat) (s : SimOS)
    (h : Reachable (SimOS.construct numberOfDisks amountOfRAM sizeOfOS) s) :
    FamilyInv s := by
  induction h with
  | start => exact construct_family _ _ _
  | newProcess s s' size priority r hreach hstep ih =>
    exact NewProcess_family _ _ _ _ _ hstep (reachable_range _ _ _ _ hreach)
      (reachable_sched _ _ _ _ hreach) ih
  | simFork s s' r hreach hstep ih =>
    exact SimFork_family _ _ _ hstep (reachable_range _ _ _ _ hreach)
      (reachable_sched _ _ _ _ hreach) ih
  | simExit s s' fuel hreach hstep ih =>
    exact SimExit_family _ _ _ hstep (reachable_range _ _ _ _ hreach)
      (reachable_excl _ _ _ _ hreach) (reachable_sched _ _ _ _ hreach) ih
  | simWait s s' hreach hstep ih =>
    rcases SimWait_effect s s' hstep (reachable_sched _ _ _ _ hreach) ih.child with
      ⟨_, rfl⟩ | ⟨_, _, hm, _, hn⟩
    · exact ih
    · exact family_same s s' hm (by rw [hn]) ih
  | diskReadRequest s s' d f hreach hstep ih =>
    obtain ⟨hm, _, hn⟩ := DiskReadRequest_effect s s' d f hstep (reachable_sched _ _ _ _ hreach)
    exact family_same s s' hm (by rw [hn]) ih
  | diskJobCompleted s s' d hreach hstep ih =>
    obtain ⟨hm, _, hn⟩ := DiskJobCompleted_effect s s' d hstep (reachable_sched _ _ _ _ hreach)
    exact family_same s s' hm (by rw [hn]) ih

/-! ## The occupied blocks -/

theorem occupied_append (X Y : List MemoryBlock) :
    occupied (X ++ Y) = occupied X ++ occupied Y := by
  simp [occupied, List.filter_append]

theorem occupied_cons_free (b : MemoryBlock) (Y : List MemoryBlock) (h : b.isFree = true) :
    occupied (b :: Y) = occupied Y := by
  simp [occupied, List.filter_cons, h]

theorem occupied_cons_used (b : MemoryBlock) (Y : List MemoryBlock) (h : b.isFree = false) :
    occupied (b :: Y) = b :: occupied Y := by
  simp [occupied, List.filter_cons, h]

theorem GetMemory_eq (s : SimOS) :
    s.GetMemory = (occupied s.memoryBlocks_).map (fun b => ⟨b.start, b.size, b.pid⟩) := rfl

theorem mergeBackward_occupied :
    ∀ (before : List MemoryBlock) (cur : MemoryBlock), cur.isFree = true →
      occupied (mergeBackward before cur).1.reverse = occupied before.reverse ∧
      (mergeBackward before cur).2.isFree = true := by
  intro before
  induction before with
  | nil => intro cur h; exact ⟨rfl, h⟩
  | cons p before ih =>
    intro cur h
    simp only [mergeBackward]
    split
    · next hp =>
      obtain ⟨h1, h2⟩ := ih { p with size := addU64 p.size cur.size } hp
      refine ⟨?_, h2⟩
      rw [h1, List.reverse_cons, occupied_append, occupied_cons_free p [] hp]
      simp [occupied]
    · exact ⟨rfl, h⟩

theorem mergeForward_occupied :
    ∀ (rest : List MemoryBlock) (cur : MemoryBlock), cur.isFree = true →
      occupied (mergeForward cur rest).2 = occupied rest ∧
      (mergeForward cur rest).1.isFree = true := by
  intro rest
  induction rest with
  | nil => intro cur h; exact ⟨rfl, h⟩
  | cons n rest ih =>
    intro cur h
    simp only [mergeForward]
    split
    · next hn =>
      obtain ⟨h1, h2⟩ := ih { cur with size := addU64 cur.size n.size } h
      exact ⟨by rw [h1, occupied_cons_free n rest hn], h2⟩
    · exact ⟨rfl, h⟩

theorem deallocateScan_occupied (pid : Int) :
    ∀ (rest before : List MemoryBlock),
      occupied (deallocateScan pid before rest) =
        occupied before.reverse ++ dropOwner pid (occupied rest) := by
  intro rest
  induction rest with
  | nil => intro before; simp [deallocateScan, occupied, dropOwner]
  | cons b rest ih =>
    intro before
    simp only [deallocateScan]
    split
    · next hb =>
      obtain ⟨h1, h2⟩ := mergeBackward_occupied before
        { b with isFree := true, pid := NO_PROCESS } rfl
      obtain ⟨h3, h4⟩ := mergeForward_occupied rest
        (mergeBackward before { b with isFree := true, pid := NO_PROCESS }).2 h2
      rw [occupied_append, occupied_cons_free _ _ h4, h3, h1,
        occupied_cons_used b rest hb.1]
      simp only [dropOwner, if_pos hb.2]
    · next hb =>
      rw [ih (b :: before), List.reverse_cons, occupied_append]
      by_cases hf : b.isFree = false
      · have hp : b.pid ≠ pid := fun e => hb ⟨hf, e⟩
        rw [occupied_cons_used b [] hf, occupied_cons_used b rest hf]
        simp only [dropOwner, if_neg hp]
        simp [occupied]
      · have hf' : b.isFree = true := by simpa using hf
        rw [occupied_cons_free b [] hf', occupied_cons_free b rest hf']
        simp [occupied]

/-- The occupied blocks after `deallocateMemory(pid)` are the occupied blocks before it
without the first of them that `pid` owns. -/
theorem deallocate_occupied (pid : Int) (bl : List MemoryBlock) :
    occupied (deallocateScan pid [] bl) = dropOwner pid (occupied bl) := by
  rw [deallocateScan_occupied]
  simp [occupied]

theorem dropOwner_sublist (pid : Int) :
    ∀ l : List MemoryBlock, (dropOwner pid l).Sublist l := by
  intro l
  induction l with
  | nil => exact List.Sublist.refl _
  | cons b bs ih =>
    simp only [dropOwner]
    split
    · exact List.sublist_cons_self b bs
    · exact ih.cons₂ b

theorem mem_dropOwner (pid : Int) (b : MemoryBlock) (hb : b.pid ≠ pid) :
    ∀ l : List MemoryBlock, b ∈ l → b ∈ dropOwner pid l := by
  intro l
  induction l with
  | nil => intro h; cases h
  | cons c cs ih =>
    intro h
    simp only [dropOwner]
    split
    · next e =>
      rcases List.mem_cons.1 h with h1 | h1
      · rw [h1] at hb; exact absurd e hb
      · exact h1
    · rcases List.mem_cons.1 h with h1 | h1
      · rw [h1]; exact List.mem_cons_self _ _
      · exact List.mem_cons_of_mem _ (ih h1)

/-- The occupied blocks after a successful `allocateMemory`: either the block of the
process has been put between occupied blocks that were there before, and the record of
the process names it, or the occupied blocks are the same as before. -/
theorem allocate_occupied (s : SimOS) (process : Process)
    (h : (s.allocateMemory process).1 = true) :
    ∃ X Y a, occupied s.memoryBlocks_ = X ++ Y ∧
      (s.allocateMemory process).2.2.memory = ⟨a, process.memorySize, process.pid⟩ ∧
      (occupied (s.allocateMemory process).2.1.memoryBlocks_ =
          X ++ ⟨a, process.memorySize, false, process.pid⟩ :: Y ∨
        occupied (s.allocateMemory process).2.1.memoryBlocks_ = X ++ Y) := by
  rcases allocateMemory_cases s process with
    ⟨e, _⟩ | ⟨X, b, Y, hbl, hf, _, _, _, _, bl, cap, e, hcase⟩
  · rw [e] at h; cases h
  · refine ⟨occupied X, occupied Y, b.start, ?_, ?_, ?_⟩
    · rw [hbl, occupied_append, occupied_cons_free b Y hf]
    · rw [e]
    · rw [e]
      simp only
      rcases hcase with ⟨_, _, rfl, _⟩ | ⟨_, _, rfl, _⟩ | ⟨_, rfl, _⟩
      · left
        rw [occupied_append, occupied_cons_used _ _ rfl, occupied_cons_free _ _ rfl]
      · right
        rw [occupied_append, occupied_cons_free _ _ hf, occupied_cons_free _ _ rfl]
      · left
        rw [occupied_append, occupied_cons_used _ _ rfl]

/-! ## The occupied blocks and their owners -/

theorem block_same (s s' : SimOS) (hm : s'.processes_ = s.processes_)
    (hbl : s'.memoryBlocks_ = s.memoryBlocks_) (hn : s.nextPid_ ≤ s'.nextPid_)
    (hb : BlockInv s) : BlockInv s' := by
  refine ⟨by rw [hbl]; exact hb.nodup, ?_, by rw [hm, hbl]; exact hb.names,
    by rw [hm]; exact hb.pids⟩
  intro b hbm
  rw [hbl] at hbm
  exact lt_of_lt_of_le (hb.bound b hbm) hn

/-- The block invariant after an allocation for the new identifier `nextPid_` and the
registration of its record: either a block of the new identifier has been placed among
the occupied blocks, or the occupied blocks are as before. -/
theorem block_alloc (s s' : SimOS) (X Y : List MemoryBlock) (a size : Nat)
    (hocc : occupied s.memoryBlocks_ = X ++ Y)
    (hocc' : occupied s'.memoryBlocks_ = X ++ ⟨a, size, false, s.nextPid_⟩ :: Y ∨
      occupied s'.memoryBlocks_ = X ++ Y)
    (hn : s'.nextPid_ = s.nextPid_ + 1)
    (hfresh : s.processes_ s.nextPid_ = none)
    (hlook : ∀ k p', s'.processes_ k = some p' →
      (k = s.nextPid_ ∧ p'.memory = ⟨a, size, s.nextPid_⟩) ∨
      (∃ p, s.processes_ k = some p ∧ p'.memory = p.memory))
    (hb : BlockInv s) : BlockInv s' := by
  have hold : ∀ b ∈ occupied s.memoryBlocks_, ∀ p', s'.processes_ b.pid = some p' →
      p'.memory = ⟨b.start, b.size, b.pid⟩ := by
    intro b hbm p' hp'
    rcases hlook _ p' hp' with ⟨e1, _⟩ | ⟨p, hp, e2⟩
    · have := hb.bound b hbm
      omega
    · rw [e2]
      exact hb.names b hbm p hp
  have hpids : ∀ k p', s'.processes_ k = some p' → p'.memory.PID = k := by
    intro k p' hp'
    rcases hlook k p' hp' with ⟨e1, e2⟩ | ⟨p, hp, e2⟩
    · rw [e2, e1]
    · rw [e2]
      exact hb.pids k p hp
  rcases hocc' with hocc' | hocc'
  · refine ⟨?_, ?_, ?_, hpids⟩
    · rw [hocc', List.map_append, List.map_cons]
      rw [List.nodup_middle, List.nodup_cons]
      have hnd := hb.nodup
      rw [hocc, List.map_append] at hnd
      refine ⟨?_, hnd⟩
      intro hm
      rw [← List.map_append, List.mem_map] at hm
      obtain ⟨b, hbm, hbp⟩ := hm
      have := hb.bound b (by rw [hocc]; exact hbm)
      simp only at hbp
      omega
    · intro b hbm
      rw [hocc'] at hbm
      rw [hn]
      simp only [List.mem_append, List.mem_cons] at hbm
      rcases hbm with h1 | h1 | h1
      · have := hb.bound b (by rw [hocc]; exact List.mem_append_left _ h1)
        omega
      · rw [h1]
        show s.nextPid_ < s.nextPid_ + 1
        omega
      · have := hb.bound b (by rw [hocc]; exact List.mem_append_right _ h1)
        omega
    · intro b hbm p' hp'
      rw [hocc'] at hbm
      simp only [List.mem_append, List.mem_cons] at hbm
      rcases hbm with h1 | h1 | h1
      · exact hold b (by rw [hocc]; exact List.mem_append_left _ h1) p' hp'
      · subst h1
        rcases hlook _ p' hp' with ⟨_, e2⟩ | ⟨p, hp, _⟩
        · exact e2
        · have hp2 : s.processes_ s.nextPid_ = some p := hp
          rw [hfresh] at hp2
          cases hp2
      · exact hold b (by rw [hocc]; exact List.mem_append_right _ h1) p' hp'
  · refine ⟨by rw [hocc', ← hocc]; exact hb.nodup, ?_, ?_, hpids⟩
    · intro b hbm
      rw [hocc', ← hocc] at hbm
      have := hb.bound b hbm
      omega
    · intro b hbm p' hp'
      rw [hocc', ← hocc] at hbm
      exact hold b hbm p' hp'

theorem NewProcess_blocks (s s' : SimOS) (size : Nat) (priority : Int) (r : Bool)
    (h : s.NewProcess size priority = some (r, s')) (hr : RangeInv s) (hs : SchedInv s)
    (hb : BlockInv s) : BlockInv s' := by
  obtain ⟨hn, ⟨_, _, hm, hbl⟩ | ⟨_, hal, hm, hbl⟩⟩ :=
    NewProcess_effect s s' size priority r h hs
  · exact block_same s s' hm hbl (by rw [hn]; omega) hb
  · obtain ⟨X, Y, a, h1, h3, h2⟩ := allocate_occupied
      { s with nextPid_ := s.nextPid_ + 1 } (s.newProcessRecord size priority) hal
    refine block_alloc s s' X Y a size h1 (by rw [hbl]; exact h2) hn
      (range_unregistered s hr).1 ?_ hb
    intro k p' hp'
    rw [hm, mapSet_apply] at hp'
    split at hp'
    · next e =>
      simp only [Option.some.injEq] at hp'
      subst hp'
      exact Or.inl ⟨e, h3⟩
    · exact Or.inr ⟨p', hp', rfl⟩

theorem SimFork_blocks (s s' : SimOS) (r : Bool) (h : s.SimFork = some (r, s'))
    (hr : RangeInv s) (hs : SchedInv s) (hb : BlockInv s) : BlockInv s' := by
  rcases SimFork_effect s s' r h hs with ⟨_, _, rfl⟩ |
    ⟨hg, hn, ⟨_, _, hm, hbl⟩ | ⟨_, hal, hm, hbl⟩⟩
  · exact hb
  · exact block_same s s' hm hbl (by rw [hn]; omega) hb
  · obtain ⟨X, Y, a, h1, h3, h2⟩ := allocate_occupied
      { s with processes_ := mapIndex s.processes_ s.cpuPid_, nextPid_ := s.nextPid_ + 1 }
      s.childRecord hal
    refine block_alloc s s' X Y a s.childRecord.memorySize h1 (by rw [hbl]; exact h2) hn
      (range_unregistered s hr).1 ?_ hb
    intro k p' hp'
    rw [hm, mapModify_apply] at hp'
    have hnew : ∀ q, mapSet s.processes_ s.nextPid_
        { s.childRecord with memory := s.forkAlloc.2.2.memory } k = some q →
        (k = s.nextPid_ ∧ q.memory = ⟨a, s.childRecord.memorySize, s.nextPid_⟩) ∨
        (∃ p, s.processes_ k = some p ∧ q.memory = p.memory) := by
      intro q hq
      rw [mapSet_apply] at hq
      split at hq
      · next e =>
        simp only [Option.some.injEq] at hq
        subst hq
        exact Or.inl ⟨e, h3⟩
      · exact Or.inr ⟨q, hq, rfl⟩
    split at hp'
    · next e =>
      cases hq : mapSet s.processes_ s.nextPid_
          { s.childRecord with memory := s.forkAlloc.2.2.memory } s.cpuPid_ with
      | none => rw [hq] at hp'; cases hp'
      | some q =>
        rw [hq] at hp'
        simp only [Option.map_some', Option.some.injEq] at hp'
        subst hp'
        rw [← e] at hq
        exact hnew q hq
    · exact hnew p' hp'

theorem SimExit_blocks (s s' : SimOS) (fuel : Nat) (h : s.SimExit fuel = some s')
    (hr : RangeInv s) (he : ExclInv s) (hs : SchedInv s) (hf : FamilyInv s)
    (hb : BlockInv s) : BlockInv s' := by
  rcases SimExit_effect s s' fuel h hr he hs with ⟨_, rfl⟩ |
    ⟨hg, s1, h1, _, hm, hbl, hn⟩
  · exact hb
  · have hc : s.cpuPid_ ≠ NO_PROCESS := fun e => hg (Or.inl e)
    obtain ⟨p, hp, _⟩ := hs.alive.1 hc
    have hreg : (s.processes_ s.cpuPid_).isSome = true := by rw [hp]; rfl
    have hfd := terminate_fades _ _ _ _ h1 hreg
    obtain ⟨e1, e2, _⟩ := terminate_effect _ _ _ _ p h1 hp hf.parent
      (range_unregistered s hr).2
    have hsub : ∀ b ∈ occupied s'.memoryBlocks_, b ∈ occupied s.memoryBlocks_ := by
      intro b hbm
      rw [hbl, e1] at hbm
      split at hbm
      · exact hbm
      · rw [deallocate_occupied] at hbm
        exact (dropOwner_sublist _ _).subset hbm
    refine ⟨?_, ?_, ?_, ?_⟩
    · rw [hbl, e1]
      split
      · exact hb.nodup
      · rw [deallocate_occupied]
        exact hb.nodup.sublist ((dropOwner_sublist _ _).map _)
    · intro b hbm
      rw [hn]
      exact hb.bound b (hsub b hbm)
    · intro b hbm p' hp'
      rw [hm] at hp'
      obtain ⟨p0, hp0, _, _, _, _, hmem, _⟩ := hfd.1 _ p' hp'
      rw [hmem]
      exact hb.names b (hsub b hbm) p0 hp0
    · intro k p' hp'
      rw [hm] at hp'
      obtain ⟨p0, hp0, _, _, _, _, hmem, _⟩ := hfd.1 _ p' hp'
      rw [hmem]
      exact hb.pids k p0 hp0

theorem construct_blocks (numberOfDisks amountOfRAM sizeOfOS : Nat) :
    BlockInv (SimOS.construct numberOfDisks amountOfRAM sizeOfOS) := by
  have hocc : occupied (SimOS.construct numberOfDisks amountOfRAM sizeOfOS).memoryBlocks_ =
      [⟨0, sizeOfOS, false, 1⟩] := by
    simp only [SimOS.construct]
    split <;> simp [occupied]
  refine ⟨?_, ?_, ?_, ?_⟩
  · rw [hocc]; simp
  · intro b hb
    rw [hocc] at hb
    simp only [List.mem_singleton] at hb
    rw [hb]
    show (1 : Int) < 2
    omega
  · intro b hb p hp
    rw [hocc] at hb
    simp only [List.mem_singleton] at hb
    subst hb
    simp only [SimOS.construct, mapSet_apply, if_pos, Option.some.injEq] at hp
    rw [← hp]
  · intro k p hp
    simp only [SimOS.construct, mapSet_apply] at hp
    split at hp
    · next e =>
      simp only [Option.some.injEq] at hp
      rw [← hp, e]
    · cases hp

/-- In a reachable state the occupied blocks have distinct owners, and an occupied block
whose owner is registered is the region that the record of the owner names. -/
theorem reachable_blocks (numberOfDisks amountOfRAM sizeOfOS : Nat) (s : SimOS)
    (h : Reachable (SimOS.construct numberOfDisks amountOfRAM sizeOfOS) s) :
    BlockInv s := by
  induction h with
  | start => exact construct_blocks _ _ _
  | newProcess s s' size priority r hreach hstep ih =>
    exact NewProcess_blocks _ _ _ _ _ hstep (reachable_range _ _ _ _ hreach)
      (reachable_sched _ _ _ _ hreach) ih
  | simFork s s' r hreach hstep ih =>
    exact SimFork_blocks _ _ _ hstep (reachable_range _ _ _ _ hreach)
      (reachable_sched _ _ _ _ hreach) ih
  | simExit s s' fuel hreach hstep ih =>
    exact SimExit_blocks _ _ _ hstep (reachable_range _ _ _ _ hreach)
      (reachable_excl _ _ _ _ hreach) (reachable_sched _ _ _ _ hreach)
      (reachable_family _ _ _ _ hreach) ih
  | simWait s s' hreach hstep ih =>
    rcases SimWait_effect s s' hstep (reachable_sched _ _ _ _ hreach)
      (reachable_family _ _ _ _ hreach).child with ⟨_, rfl⟩ | ⟨_, _, hm, hbl, hn⟩
    · exact ih
    · exact block_same s s' hm hbl (by rw [hn]) ih
  | diskReadRequest s s' d f hreach hstep ih =>
    obtain ⟨hm, hbl, hn⟩ :=
      DiskReadRequest_effect s s' d f hstep (reachable_sched _ _ _ _ hreach)
    exact block_same s s' hm hbl (by rw [hn]) ih
  | diskJobCompleted s s' d hreach hstep ih =>
    obtain ⟨hm, hbl, hn⟩ :=
      DiskJobCompleted_effect s s' d hstep (reachable_sched _ _ _ _ hreach)
    exact block_same s s' hm hbl (by rw [hn]) ih

/-- With distinct owners, dropping the first block of an owner drops every block of that
owner. -/
theorem dropOwner_filter (pid : Int) :
    ∀ l : List MemoryBlock, (l.map (fun b => b.pid)).Nodup →
      dropOwner pid l = l.filter (fun b => decide (b.pid ≠ pid)) := by
  intro l
  induction l with
  | nil => intro _; rfl
  | cons b bs ih =>
    intro hnd
    rw [List.map_cons, List.nodup_cons] at hnd
    by_cases hb : b.pid = pid
    · have hall : ∀ x ∈ bs, decide (x.pid ≠ pid) = true := by
        intro x hx
        simp only [ne_eq, decide_eq_true_eq]
        intro e
        exact hnd.1 (List.mem_map.2 ⟨x, hx, by rw [e, hb]⟩)
      simp only [dropOwner, if_pos hb, List.filter_cons, ne_eq, hb, not_true_eq_false,
        decide_False, Bool.false_eq_true, if_false]
      exact (List.filter_eq_self.2 hall).symm
    · have e : (b :: bs).filter (fun b => decide (b.pid ≠ pid)) =
          b :: bs.filter (fun b => decide (b.pid ≠ pid)) := by
        simp [List.filter_cons, hb]
      rw [e, ← ih hnd.2]
      simp only [dropOwner, if_neg hb]

/-- With distinct owners, at most one block has a given owner. -/
theorem owner_once (pid : Int) :
    ∀ l : List MemoryBlock, (l.map (fun b => b.pid)).Nodup →
      (l.filter (fun b => decide (b.pid = pid))).length ≤ 1 := by
  intro l
  induction l with
  | nil => intro _; simp
  | cons b bs ih =>
    intro hnd
    rw [List.map_cons, List.nodup_cons] at hnd
    by_cases hb : b.pid = pid
    · have hnone : bs.filter (fun b => decide (b.pid = pid)) = [] := by
        rw [List.filter_eq_nil_iff]
        intro x hx
        simp only [decide_eq_true_eq]
        intro e
        exact hnd.1 (List.mem_map.2 ⟨x, hx, by rw [e, hb]⟩)
      have e : (b :: bs).filter (fun b => decide (b.pid = pid)) =
          b :: bs.filter (fun b => decide (b.pid = pid)) := by
        simp [List.filter_cons, hb]
      rw [e, hnone]
      simp
    · have e : (b :: bs).filter (fun b => decide (b.pid = pid)) =
          bs.filter (fun b => decide (b.pid = pid)) := by
        simp [List.filter_cons, hb]
      rw [e]
      exact ih hnd.2

theorem parentOnCpuExample_reachable :
    Reachable (SimOS.construct 1 100 10) parentOnCpuExample :=
  reachable_run_getD (SimOS.construct 1 100 10) [Call.newProcess 10 1, Call.simFork]

theorem childOnCpuExample_reachable :
    Reachable (SimOS.construct 1 100 10) childOnCpuExample :=
  reachable_run_getD (SimOS.construct 1 100 10)
    [Call.newProcess 10 1, Call.simFork, Call.simWait]

theorem ownerOnCpuExample_reachable :
    Reachable (SimOS.construct 1 100 10) ownerOnCpuExample :=
  reachable_run_getD (SimOS.construct 1 100 10) [Call.newProcess 10 1, Call.newProcess 10 5]

/-! ## Claims on the memory allocator -/

/-- C1 (memory partition invariant), evaluated on `SimOS(1, 10000, 1000)` followed by
`NewProcess(2000, 3)`, where it does not hold.  The constructor leaves the vector of
blocks full, with the OS block and the free block `[1000, 10000)`.  The call returns
`true`.  Its insert of the remainder `[3000, 10000)` moves the storage, the assignments
through `worstFitIt` are lost, and the block list is afterwards the OS block, the free
block `[1000, 10000)` and the free block `[3000, 10000)`: the third block does not start
where the second one ends, and the sizes add up to 17000, not to 10000. -/
theorem partition_lost_by_split :
    (1000 : Nat) ≤ 10000 ∧
    (SimOS.construct 1 10000 1000).memoryBlocks_ =
      [⟨0, 1000, false, 1⟩, ⟨1000, 9000, true, NO_PROCESS⟩] ∧
    (SimOS.construct 1 10000 1000).blocksCapacity_ = 2 ∧
    ((SimOS.construct 1 10000 1000).NewProcess 2000 3).map
        (fun r => (r.1, r.2.memoryBlocks_)) =
      some (true, [⟨0, 1000, false, 1⟩, ⟨1000, 9000, true, NO_PROCESS⟩,
        ⟨3000, 7000, true, NO_PROCESS⟩]) ∧
    ¬ List.Chain' (fun a b => b.start = a.start + a.size)
      (stateAfter 1 10000 1000 [Call.newProcess 2000 3]).memoryBlocks_ ∧
    ((stateAfter 1 10000 1000 [Call.newProcess 2000 3]).memoryBlocks_.map
      (fun b => b.size)).sum = 17000 := by
  have hl : (stateAfter 1 10000 1000 [Call.newProcess 2000 3]).memoryBlocks_ =
      [⟨0, 1000, false, 1⟩, ⟨1000, 9000, true, NO_PROCESS⟩,
        ⟨3000, 7000, true, NO_PROCESS⟩] := by decide
  refine ⟨by decide, by decide, by decide, by decide, ?_, by decide⟩
  rw [hl]
  intro hc
  simp at hc

/-- C7 (full coalescing), evaluated on `SimOS(1, 10000, 1000)` followed by
`NewProcess(2000, 3)`, where its first half does not hold.  The insert of the remainder
moves the storage of the full vector and the assignments through `worstFitIt` are lost:
the chosen block `[1000, 10000)` stays free in front of the free remainder
`[3000, 10000)`, two adjacent free blocks in a state reached without any deallocation.
The second half of the claim holds: for every block list without two adjacent free
blocks `deallocateMemory` yields a block list without two adjacent free blocks. -/
theorem coalescing_lost_by_split :
    ((SimOS.construct 1 10000 1000).NewProcess 2000 3).map
        (fun r => (r.1, r.2.memoryBlocks_)) =
      some (true, [⟨0, 1000, false, 1⟩, ⟨1000, 9000, true, NO_PROCESS⟩,
        ⟨3000, 7000, true, NO_PROCESS⟩]) ∧
    ¬ List.Chain' NotBothFree
      (stateAfter 1 10000 1000 [Call.newProcess 2000 3]).memoryBlocks_ ∧
    (∀ (s : SimOS) (pid : Int), List.Chain' NotBothFree s.memoryBlocks_ →
      List.Chain' NotBothFree (s.deallocateMemory pid).memoryBlocks_) := by
  have hl : (stateAfter 1 10000 1000 [Call.newProcess 2000 3]).memoryBlocks_ =
      [⟨0, 1000, false, 1⟩, ⟨1000, 9000, true, NO_PROCESS⟩,
        ⟨3000, 7000, true, NO_PROCESS⟩] := by decide
  refine ⟨by decide, ?_, ?_⟩
  · rw [hl]
    intro hc
    simp [NotBothFree] at hc
  intro s pid h
  exact deallocateScan_noAdjacentFree pid s.memoryBlocks_ [] (by simpa using h)

/-! ## Claims on admission and the ready queue -/

theorem NewProcess_of_fail (s : SimOS) (size : Nat) (priority : Int)
    (h : (s.newAlloc size priority).1 = false) :
    s.NewProcess size priority = some (false, { s with nextPid_ := s.nextPid_ + 1 }) := by
  unfold SimOS.newAlloc at h
  unfold SimOS.NewProcess
  simp only
  rcases allocateMemory_eq { s with nextPid_ := s.nextPid_ + 1 }
      (s.newProcessRecord size priority) with ⟨_, e⟩ | ⟨e1, _⟩
  · rw [e]
  · rw [h] at e1; cases e1

theorem NewProcess_of_success (s : SimOS) (size : Nat) (priority : Int)
    (h : (s.newAlloc size priority).1 = true) :
    s.NewProcess size priority =
      (SimOS.scheduleCPU
        { s with
          nextPid_ := s.nextPid_ + 1,
          memoryBlocks_ := (s.newAlloc size priority).2.1.memoryBlocks_,
          blocksCapacity_ := (s.newAlloc size priority).2.1.blocksCapacity_,
          processes_ := mapSet s.processes_ s.nextPid_
            { s.newProcessRecord size priority with
              memory := (s.newAlloc size priority).2.2.memory },
          readyQueue_ := addPid s.readyQueue_ s.nextPid_ }).map (fun s4 => (true, s4)) := by
  unfold SimOS.newAlloc at h ⊢
  unfold SimOS.NewProcess
  simp only
  rcases allocateMemory_eq { s with nextPid_ := s.nextPid_ + 1 }
      (s.newProcessRecord size priority) with ⟨e1, _⟩ | ⟨_, e⟩
  · rw [h] at e1; cases e1
  · rw [e]
    rfl

/-- C2 (CPU and ready queue are exclusive).  In every state that public operations
lead to from a constructed simulator, the ready queue contains no identifier twice
and does not contain the identifier on the CPU.  Every public operation returns
normally in such a state, so the states meant are those after every finite sequence
of calls. -/
theorem ready_queue_exclusive (numberOfDisks amountOfRAM sizeOfOS : Nat) (s : SimOS)
    (h : Reachable (SimOS.construct numberOfDisks amountOfRAM sizeOfOS) s) :
    s.readyQueue_.Nodup ∧ s.cpuPid_ ∉ s.readyQueue_ ∧ ReturnsNormally s :=
  ⟨(reachable_excl _ _ _ s h).ready_nodup,
    (apart_of_inv s (reachable_range _ _ _ s h) (reachable_excl _ _ _ s h)).1,
    reachable_returns _ _ _ s h⟩

/-- Witness of C2: the state after two processes were created, the second one
preempting the first, and the second one went through a disk read. -/
theorem ready_queue_exclusive_witness :
    ((SimOS.construct 1 10000 1000).run [Call.newProcess 2000 3, Call.newProcess 500 5,
      Call.diskReadRequest 0 "a", Call.diskJobCompleted 0]).map
      (fun s => (s.cpuPid_, s.readyQueue_)) = some (3, [2]) ∧
    Reachable (SimOS.construct 1 10000 1000)
      (stateAfter 1 10000 1000 [Call.newProcess 2000 3, Call.newProcess 500 5,
        Call.diskReadRequest 0 "a", Call.diskJobCompleted 0]) ∧
    (stateAfter 1 10000 1000 [Call.newProcess 2000 3, Call.newProcess 500 5,
        Call.diskReadRequest 0 "a", Call.diskJobCompleted 0]).readyQueue_.Nodup ∧
    (stateAfter 1 10000 1000 [Call.newProcess 2000 3, Call.newProcess 500 5,
        Call.diskReadRequest 0 "a", Call.diskJobCompleted 0]).cpuPid_ ∉
      (stateAfter 1 10000 1000 [Call.newProcess 2000 3, Call.newProcess 500 5,
        Call.diskReadRequest 0 "a", Call.diskJobCompleted 0]).readyQueue_ ∧
    ReturnsNormally (stateAfter 1 10000 1000 [Call.newProcess 2000 3, Call.newProcess 500 5,
      Call.diskReadRequest 0 "a", Call.diskJobCompleted 0]) :=
  ⟨by decide, reachable_run_getD _ _,
    ready_queue_exclusive 1 10000 1000 _ (reachable_run_getD _ _)⟩

/-- C4 (allocation fails exactly when nothing fits), at a state where it does not
hold.  The block list `[0, 5)` OS, `[5, 5)` free, `[5, 10)` process 3 holds a free
block of size 0, which is at least the requested size 0, and `allocateMemory` returns
`false` for a request of size 0.  The calls `NewProcess(0, 1)`, `NewProcess(0, 9)`,
`NewProcess(5, 1)`, `NewProcess(5, 1)`, `SimExit()` on `SimOS(1, 10, 5)` lead to a block
list of this kind: the second call, made with spare capacity in the vector, gives
process 3 a block of size 0 at address 5, the next two calls fill the two free blocks
of size 5, and the exit of process 3 frees its block between occupied blocks.
`NewProcess(0, 1)` returns `false` after them. -/
theorem zero_size_request_rejected :
    (∃ b ∈ zeroBlockExample.memoryBlocks_,
      b.isFree = true ∧ (requestExample 4 0).memorySize ≤ b.size) ∧
    (zeroBlockExample.allocateMemory (requestExample 4 0)).1 = false ∧
    ((SimOS.construct 1 10 5).run
        [Call.newProcess 0 1, Call.newProcess 0 9, Call.newProcess 5 1,
          Call.newProcess 5 1, Call.simExit 2]).map
      (fun s => (s.memoryBlocks_, (s.NewProcess 0 1).map (fun r => r.1))) =
    some ([⟨0, 5, false, 1⟩, ⟨5, 0, true, NO_PROCESS⟩, ⟨5, 5, false, 4⟩,
      ⟨5, 5, false, 5⟩], some false) := by
  refine ⟨by decide, by decide, by decide⟩

/-- C5 as the code has it.  When `NewProcess` returns `false`, and when `SimFork`
returns `false` with a registered process other than the OS process on the CPU, the
state after the call is the state before it with the identifier counter advanced by
one: block list, registry, CPU occupant, ready queue and disks are the same. -/
theorem failed_allocation_state (s s' : SimOS) (size : Nat) (priority : Int) :
    (s.NewProcess size priority = some (false, s') →
      s' = { s with nextPid_ := s.nextPid_ + 1 }) ∧
    (s.SimFork = some (false, s') → s.cpuPid_ ≠ NO_PROCESS → s.cpuPid_ ≠ 1 →
      (s.processes_ s.cpuPid_).isSome = true →
      s' = { s with nextPid_ := s.nextPid_ + 1 }) := by
  constructor
  · intro h
    rcases NewProcess_cases s size priority false s' h with ⟨_, _, e⟩ | ⟨_, e, _⟩
    · exact e
    · cases e
  · intro h h1 h2 hreg
    rcases SimFork_cases s false s' h with ⟨hg, _, _⟩ | ⟨_, ⟨_, _, e⟩ | ⟨_, e, _⟩⟩
    · rcases hg with hg | hg
      · exact absurd hg h1
      · exact absurd hg h2
    · rw [e, mapIndex_of_isSome _ _ hreg]
    · cases e

/-- Witness of C5: a request of 100 units on `SimOS(1, 10, 5)`, and a fork by a
process of 5 units that has taken the whole free block. -/
theorem failed_allocation_state_witness :
    ((SimOS.construct 1 10 5).NewProcess 100 1 =
        some (false, { SimOS.construct 1 10 5 with nextPid_ := 3 }) ∧
      ({ SimOS.construct 1 10 5 with nextPid_ := 3 } : SimOS) =
        { SimOS.construct 1 10 5 with nextPid_ := (SimOS.construct 1 10 5).nextPid_ + 1 }) ∧
    ((stateAfter 1 10 5 [Call.newProcess 5 1]).SimFork =
        some (false, { stateAfter 1 10 5 [Call.newProcess 5 1] with nextPid_ := 4 }) ∧
      (stateAfter 1 10 5 [Call.newProcess 5 1]).cpuPid_ ≠ NO_PROCESS ∧
      (stateAfter 1 10 5 [Call.newProcess 5 1]).cpuPid_ ≠ 1 ∧
      ((stateAfter 1 10 5 [Call.newProcess 5 1]).processes_
        (stateAfter 1 10 5 [Call.newProcess 5 1]).cpuPid_).isSome = true ∧
      ({ stateAfter 1 10 5 [Call.newProcess 5 1] with nextPid_ := 4 } : SimOS) =
        { stateAfter 1 10 5 [Call.newProcess 5 1] with
          nextPid_ := (stateAfter 1 10 5 [Call.newProcess 5 1]).nextPid_ + 1 }) :=
  ⟨⟨rfl, (failed_allocation_state (SimOS.construct 1 10 5)
      { SimOS.construct 1 10 5 with nextPid_ := 3 } 100 1).1 rfl⟩,
    ⟨rfl, by decide, by decide, by decide,
      (failed_allocation_state (stateAfter 1 10 5 [Call.newProcess 5 1])
        { stateAfter 1 10 5 [Call.newProcess 5 1] with nextPid_ := 4 } 0 0).2 rfl
        (by decide) (by decide) (by decide)⟩⟩

/-- C5 as stated fails: on `SimOS(1, 10, 5)` the call `NewProcess(100, 1)` returns
`false` and leaves the identifier counter at 3 instead of 2, and a following
`NewProcess(1, 1)` creates process 3, where it creates process 2 without the failed
call.  Moreover, in a state whose CPU holds an identifier that is not registered, a
`SimFork` that fails for lack of memory registers that identifier. -/
theorem failed_create_consumes_identifier :
    (SimOS.construct 1 10 5).nextPid_ = 2 ∧
    ((SimOS.construct 1 10 5).NewProcess 100 1).map (fun r => (r.1, r.2.nextPid_)) =
      some (false, 3) ∧
    ((SimOS.construct 1 10 5).run [Call.newProcess 100 1, Call.newProcess 1 1]).map
      (fun s => s.GetCPU) = some 3 ∧
    ((SimOS.construct 1 10 5).run [Call.newProcess 1 1]).map (fun s => s.GetCPU) = some 2 ∧
    (strayCpuExample.processes_ 7).isSome = false ∧
    strayCpuExample.SimFork.map (fun r => (r.1, (r.2.processes_ 7).isSome)) =
      some (false, true) := by
  decide

/-- C6 (a rejected create is invisible to the memory view).  When the requested size
exceeds the size of every free block, `NewProcess` returns `false` and the block
list, the CPU occupant and the ready queue are the same before and after. -/
theorem rejected_create_frame (s : SimOS) (size : Nat) (priority : Int)
    (h : ∀ b ∈ s.memoryBlocks_, b.isFree = true → b.size < size) :
    ∃ s', s.NewProcess size priority = some (false, s') ∧
      s'.memoryBlocks_ = s.memoryBlocks_ ∧ s'.cpuPid_ = s.cpuPid_ ∧
      s'.readyQueue_ = s.readyQueue_ := by
  have hfail : (s.newAlloc size priority).1 = false := by
    unfold SimOS.newAlloc
    rcases allocateMemory_cases { s with nextPid_ := s.nextPid_ + 1 }
        (s.newProcessRecord size priority) with ⟨e, _⟩ | ⟨X, b, Y, hbl, hf, hfit, _, _, _, _⟩
    · rw [e]
    · have hb := h b (by
        show b ∈ ({ s with nextPid_ := s.nextPid_ + 1 } : SimOS).memoryBlocks_
        rw [hbl]; simp) hf
      have : (s.newProcessRecord size priority).memorySize = size := rfl
      omega
  exact ⟨_, NewProcess_of_fail s size priority hfail, rfl, rfl, rfl⟩

/-- Witness of C6: a request of 9 units when the free blocks have sizes 5, 8 and 8. -/
theorem rejected_create_frame_witness :
    (∀ b ∈ fragmentedExample.memoryBlocks_, b.isFree = true → b.size < 9) ∧
    ∃ s', fragmentedExample.NewProcess 9 1 = some (false, s') ∧
      s'.memoryBlocks_ = fragmentedExample.memoryBlocks_ ∧
      s'.cpuPid_ = fragmentedExample.cpuPid_ ∧
      s'.readyQueue_ = fragmentedExample.readyQueue_ :=
  ⟨by decide, rejected_create_frame fragmentedExample 9 1 (by decide)⟩

/-! ## Claims on `scheduleCPU` -/

theorem mapIndex_keep (m : Int → Option Process) (k x : Int) (p : Process)
    (h : m x = some p) : mapIndex m k x = some p := by
  rw [mapIndex_apply]
  split
  · next e => subst e; simp [mapGet, h]
  · exact h

theorem mapIndex_isSome (m : Int → Option Process) (k : Int) :
    (mapIndex m k k).isSome = true := by
  simp [mapIndex_apply]

theorem mapGet_mapSet (m : Int → Option Process) (k x : Int) (v : Process) :
    mapGet (mapSet m k v) x = if x = k then v else mapGet m x := by
  unfold mapGet
  rw [mapSet_apply]
  split <;> rfl

/-- C8 (priority preemption on admission).  In a reachable state with a process on
the CPU, when the allocation made by `NewProcess(size, q)` succeeds, the call returns
`true` and registers a new process with priority `q` under the identifier
`nextPid_`.  If `q` exceeds the priority of the occupant, the new process is on the
CPU afterwards and the previous occupant is in the ready queue; otherwise the
occupant is the same and the new process is in the ready queue. -/
theorem priority_preemption_on_admission (numberOfDisks amountOfRAM sizeOfOS : Nat)
    (s : SimOS) (size : Nat) (q : Int)
    (h : Reachable (SimOS.construct numberOfDisks amountOfRAM sizeOfOS) s)
    (hcpu : s.cpuPid_ ≠ NO_PROCESS) (halloc : (s.newAlloc size q).1 = true) :
    ∃ s', s.NewProcess size q = some (true, s') ∧
      (s.processes_ s.cpuPid_).isSome = true ∧ s.processes_ s.nextPid_ = none ∧
      (∃ pb, s'.processes_ s.nextPid_ = some pb ∧ pb.priority = q) ∧
      ((mapGet s.processes_ s.cpuPid_).priority < q →
        s'.cpuPid_ = s.nextPid_ ∧ s.cpuPid_ ∈ s'.readyQueue_) ∧
      (q ≤ (mapGet s.processes_ s.cpuPid_).priority →
        s'.cpuPid_ = s.cpuPid_ ∧ s.nextPid_ ∈ s'.readyQueue_) := by
  have hr := reachable_range _ _ _ s h
  have hs := reachable_sched _ _ _ s h
  have hA : s.cpuPid_ ≠ s.nextPid_ := by
    intro e
    have := (hr.cpu hcpu).2
    omega
  have hnone : s.processes_ s.nextPid_ = none := by
    cases hn : s.processes_ s.nextPid_ with
    | none => rfl
    | some p =>
      have := (hr.keys s.nextPid_ (by simp [hn])).2
      omega
  have hAreg : (s.processes_ s.cpuPid_).isSome = true := by
    obtain ⟨p, hp, _⟩ := hs.alive.1 hcpu
    simp [hp]
  have hrec : mapSet s.processes_ s.nextPid_
      { s.newProcessRecord size q with memory := (s.newAlloc size q).2.2.memory }
      s.nextPid_ = some
      { s.newProcessRecord size q with memory := (s.newAlloc size q).2.2.memory } := by
    simp [mapSet_apply]
  have halive : Alive
      (mapSet s.processes_ s.nextPid_
        { s.newProcessRecord size q with memory := (s.newAlloc size q).2.2.memory })
      s.cpuPid_ (addPid s.readyQueue_ s.nextPid_) :=
    alive_add _ _ _ _ ⟨_, hrec, rfl⟩ (alive_mapSet _ _ _ _ _ rfl hs.alive)
  have hsome := scheduleCPU_isSome
    { s with
      nextPid_ := s.nextPid_ + 1,
      memoryBlocks_ := (s.newAlloc size q).2.1.memoryBlocks_,
      blocksCapacity_ := (s.newAlloc size q).2.1.blocksCapacity_,
      processes_ := mapSet s.processes_ s.nextPid_
        { s.newProcessRecord size q with memory := (s.newAlloc size q).2.2.memory },
      readyQueue_ := addPid s.readyQueue_ s.nextPid_ }
    (fun r hrm => by
      obtain ⟨p, hp, _⟩ := halive.2 r hrm
      simp [hp])
  obtain ⟨s', hs'⟩ := Option.isSome_iff_exists.1 hsome
  have hnew : s.nextPid_ ∈ addPid s.readyQueue_ s.nextPid_ :=
    (mem_addPid _ _ _).2 (Or.inr rfl)
  have hPnew : (mapGet (mapSet s.processes_ s.nextPid_
      { s.newProcessRecord size q with memory := (s.newAlloc size q).2.2.memory })
      s.nextPid_).priority = q := by
    rw [mapGet_mapSet, if_pos rfl]; rfl
  have hPold : ∀ x, x ≠ s.nextPid_ → mapGet (mapSet s.processes_ s.nextPid_
      { s.newProcessRecord size q with memory := (s.newAlloc size q).2.2.memory }) x
        = mapGet s.processes_ x := by
    intro x hx
    rw [mapGet_mapSet, if_neg hx]
  have hPready : ∀ r ∈ addPid s.readyQueue_ s.nextPid_, r ≠ s.nextPid_ →
      (mapGet (mapSet s.processes_ s.nextPid_
        { s.newProcessRecord size q with memory := (s.newAlloc size q).2.2.memory })
        r).priority ≤ (mapGet s.processes_ s.cpuPid_).priority := by
    intro r hrm hne
    rw [hPold r hne]
    rcases (mem_addPid _ _ _).1 hrm with h1 | h1
    · exact hs.prio hcpu r h1
    · exact absurd h1 hne
  refine ⟨s', by rw [NewProcess_of_success s size q halloc, hs']; rfl, hAreg, hnone, ?_⟩
  rcases scheduleCPU_cases _ s' hs' with ⟨hq, _⟩ |
    ⟨first, rest, hp, hq, hmax, ⟨hc, _⟩ | ⟨_, hlt, rfl⟩ | ⟨_, hge, rfl⟩⟩
  · simp only at hq
    rw [hq] at hnew
    simp at hnew
  · exact absurd hc hcpu
  · obtain ⟨hmem, _, _, _⟩ := maxElementFrom_spec _ _ _ _ hmax
    simp only at hq hlt hmem
    rw [← hq] at hmem
    simp only [mapGet_mapIndex] at hlt
    rw [hPold _ hA] at hlt
    have hhp : hp = s.nextPid_ := by
      by_contra hne
      exact absurd (lt_of_lt_of_le hlt (hPready hp hmem hne)) (lt_irrefl _)
    subst hhp
    rw [hPnew] at hlt
    refine ⟨⟨_, mapIndex_keep _ _ _ _ (mapIndex_keep _ _ _ _ hrec), rfl⟩, ?_, ?_⟩
    · intro _
      refine ⟨rfl, ?_⟩
      exact (mem_removePid _ _ _).2 ⟨(mem_addPid _ _ _).2 (Or.inr rfl), hA⟩
    · intro hle
      exact absurd (lt_of_lt_of_le hlt hle) (lt_irrefl _)
  · obtain ⟨hmem, _, _, hmaxle⟩ := maxElementFrom_spec _ _ _ _ hmax
    simp only at hq hge hmem hmaxle
    rw [← hq] at hmem hmaxle
    simp only [mapGet_mapIndex] at hge
    rw [hPold _ hA] at hge
    have h1 := hmaxle s.nextPid_ hnew
    rw [hPnew] at h1
    refine ⟨⟨_, mapIndex_keep _ _ _ _ (mapIndex_keep _ _ _ _ hrec), rfl⟩, ?_, ?_⟩
    · intro hlt
      exact absurd (lt_of_lt_of_le hlt h1) hge
    · intro _
      exact ⟨rfl, hnew⟩

/-- Witness of C8: `NewProcess(500, 5)` after `NewProcess(2000, 3)` on
`SimOS(1, 10000, 1000)`. -/
theorem priority_preemption_on_admission_witness :
    ((SimOS.construct 1 10000 1000).run [Call.newProcess 2000 3]).map
      (fun s => (s.cpuPid_, s.readyQueue_, s.nextPid_)) = some (2, [], 3) ∧
    Reachable (SimOS.construct 1 10000 1000)
      (stateAfter 1 10000 1000 [Call.newProcess 2000 3]) ∧
    (stateAfter 1 10000 1000 [Call.newProcess 2000 3]).cpuPid_ ≠ NO_PROCESS ∧
    ((stateAfter 1 10000 1000 [Call.newProcess 2000 3]).newAlloc 500 5).1 = true ∧
    ∃ s', (stateAfter 1 10000 1000 [Call.newProcess 2000 3]).NewProcess 500 5
        = some (true, s') ∧
      ((stateAfter 1 10000 1000 [Call.newProcess 2000 3]).processes_
        (stateAfter 1 10000 1000 [Call.newProcess 2000 3]).cpuPid_).isSome = true ∧
      (stateAfter 1 10000 1000 [Call.newProcess 2000 3]).processes_
        (stateAfter 1 10000 1000 [Call.newProcess 2000 3]).nextPid_ = none ∧
      (∃ pb, s'.processes_ (stateAfter 1 10000 1000 [Call.newProcess 2000 3]).nextPid_
        = some pb ∧ pb.priority = 5) ∧
      ((mapGet (stateAfter 1 10000 1000 [Call.newProcess 2000 3]).processes_
          (stateAfter 1 10000 1000 [Call.newProcess 2000 3]).cpuPid_).priority < 5 →
        s'.cpuPid_ = (stateAfter 1 10000 1000 [Call.newProcess 2000 3]).nextPid_ ∧
        (stateAfter 1 10000 1000 [Call.newProcess 2000 3]).cpuPid_ ∈ s'.readyQueue_) ∧
      (5 ≤ (mapGet (stateAfter 1 10000 1000 [Call.newProcess 2000 3]).processes_
          (stateAfter 1 10000 1000 [Call.newProcess 2000 3]).cpuPid_).priority →
        s'.cpuPid_ = (stateAfter 1 10000 1000 [Call.newProcess 2000 3]).cpuPid_ ∧
        (stateAfter 1 10000 1000 [Call.newProcess 2000 3]).nextPid_ ∈ s'.readyQueue_) :=
  ⟨by decide, reachable_run_getD _ _, by decide, by decide,
    priority_preemption_on_admission 1 10000 1000
      (stateAfter 1 10000 1000 [Call.newProcess 2000 3]) 500 5
      (reachable_run_getD _ _) (by decide) (by decide)⟩

/-- The call `scheduleCPU` changes nothing when a registered process is on the CPU and the
ready queue holds registered processes of no higher priority. -/
theorem scheduleCPU_stay (t : SimOS) (hc : t.cpuPid_ ≠ NO_PROCESS)
    (hq : t.readyQueue_ ≠ [])
    (hcreg : (t.processes_ t.cpuPid_).isSome = true)
    (hreg : ∀ r ∈ t.readyQueue_, (t.processes_ r).isSome = true)
    (hle : ∀ r ∈ t.readyQueue_,
      (mapGet t.processes_ r).priority ≤ (mapGet t.processes_ t.cpuPid_).priority) :
    t.scheduleCPU = some t := by
  obtain ⟨s', hs'⟩ := Option.isSome_iff_exists.1 (scheduleCPU_isSome t hreg)
  rw [hs']
  rcases scheduleCPU_cases t s' hs' with ⟨he, _⟩ |
    ⟨first, rest, hp, hfr, hmax, ⟨h0, _⟩ | ⟨_, hlt, _⟩ | ⟨_, _, rfl⟩⟩
  · exact absurd he hq
  · exact absurd h0 hc
  · obtain ⟨hmem, _, _, _⟩ := maxElementFrom_spec _ _ _ _ hmax
    rw [← hfr] at hmem
    simp only [mapGet_mapIndex] at hlt
    exact absurd (lt_of_lt_of_le hlt (hle hp hmem)) (lt_irrefl _)
  · obtain ⟨hmem, _, _, _⟩ := maxElementFrom_spec _ _ _ _ hmax
    rw [← hfr] at hmem
    rw [mapIndex_of_isSome _ hp (hreg hp hmem), mapIndex_of_isSome _ _ hcreg]

/-- C9 as the code has it.  Let `scheduleCPU` return normally on a state whose ready
queue does not hold `NO_PROCESS`.  If the ready queue is non-empty afterwards, a
second application changes nothing; if it is empty afterwards, a second application
makes the CPU idle. -/
theorem reschedule_twice (s s1 : SimOS) (h : s.scheduleCPU = some s1)
    (hno : NO_PROCESS ∉ s.readyQueue_) :
    (s1.readyQueue_ ≠ [] → s1.scheduleCPU = some s1) ∧
    (s1.readyQueue_ = [] → s1.scheduleCPU = some { s1 with cpuPid_ := NO_PROCESS }) := by
  constructor
  · intro hne
    rcases scheduleCPU_cases s s1 h with ⟨he, rfl⟩ |
      ⟨first, rest, hp, hfr, hmax, hcase⟩
    · exact absurd he hne
    · obtain ⟨hmem, hall, _, hmaxle⟩ := maxElementFrom_spec _ _ _ _ hmax
      rw [← hfr] at hmem hmaxle
      have hpno : hp ≠ NO_PROCESS := fun e => hno (e ▸ hmem)
      have hother : ∀ r ∈ s.readyQueue_, r ≠ hp → (s.processes_ r).isSome = true := by
        intro r hr hrne
        have hrest : rest ≠ [] := by
          intro e
          rw [hfr, e] at hr hmem
          simp only [List.mem_singleton] at hr hmem
          exact hrne (hr.trans hmem.symm)
        exact hall hrest r (by rw [← hfr]; exact hr)
      rcases hcase with ⟨_, rfl⟩ | ⟨hc, hlt, rfl⟩ | ⟨hc, hge, rfl⟩
      · have hx : ∃ x, x ∈ removePid s.readyQueue_ hp := by
          cases hl : removePid s.readyQueue_ hp with
          | nil => exact absurd hl hne
          | cons x xs => exact ⟨x, by simp⟩
        obtain ⟨x, hx⟩ := hx
        obtain ⟨hx1, hx2⟩ := (mem_removePid _ _ _).1 hx
        have hrest : rest ≠ [] := by
          intro e
          rw [hfr, e] at hx1 hmem
          simp only [List.mem_singleton] at hx1 hmem
          exact hx2 (hx1.trans hmem.symm)
        refine scheduleCPU_stay _ hpno hne ?_ ?_ ?_
        · exact hall hrest hp (by rw [← hfr]; exact hmem)
        · intro r hr
          obtain ⟨h1, h2⟩ := (mem_removePid _ _ _).1 hr
          exact hother r h1 h2
        · intro r hr
          exact hmaxle r ((mem_removePid _ _ _).1 hr).1
      · simp only [mapGet_mapIndex] at hlt
        refine scheduleCPU_stay _ hpno hne ?_ ?_ ?_
        · show (mapIndex (mapIndex s.processes_ hp) s.cpuPid_ hp).isSome = true
          obtain ⟨p, hp'⟩ := Option.isSome_iff_exists.1 (mapIndex_isSome s.processes_ hp)
          rw [mapIndex_keep _ _ _ _ hp']
          rfl
        · intro r hr
          show (mapIndex (mapIndex s.processes_ hp) s.cpuPid_ r).isSome = true
          obtain ⟨h1, h2⟩ := (mem_removePid _ _ _).1 hr
          rcases (mem_addPid _ _ _).1 h1 with h3 | h3
          · obtain ⟨p, hp'⟩ := Option.isSome_iff_exists.1 (hother r h3 h2)
            rw [mapIndex_keep _ _ _ _ (mapIndex_keep _ _ _ _ hp')]
            rfl
          · rw [h3]
            exact mapIndex_isSome _ _
        · intro r hr
          show (mapGet (mapIndex (mapIndex s.processes_ hp) s.cpuPid_) r).priority ≤
            (mapGet (mapIndex (mapIndex s.processes_ hp) s.cpuPid_) hp).priority
          simp only [mapGet_mapIndex]
          obtain ⟨h1, _⟩ := (mem_removePid _ _ _).1 hr
          rcases (mem_addPid _ _ _).1 h1 with h3 | h3
          · exact hmaxle r h3
          · rw [h3]; exact le_of_lt hlt
      · simp only [mapGet_mapIndex] at hge
        refine scheduleCPU_stay _ ?_ hne ?_ ?_ ?_
        · exact hc
        · exact mapIndex_isSome _ _
        · intro r hr
          show (mapIndex (mapIndex s.processes_ hp) s.cpuPid_ r).isSome = true
          by_cases e : r = hp
          · obtain ⟨p, hp'⟩ := Option.isSome_iff_exists.1 (mapIndex_isSome s.processes_ hp)
            rw [e, mapIndex_keep _ _ _ _ hp']
            rfl
          · obtain ⟨p, hp'⟩ := Option.isSome_iff_exists.1 (hother r hr e)
            rw [mapIndex_keep _ _ _ _ (mapIndex_keep _ _ _ _ hp')]
            rfl
        · intro r hr
          show (mapGet (mapIndex (mapIndex s.processes_ hp) s.cpuPid_) r).priority ≤
            (mapGet (mapIndex (mapIndex s.processes_ hp) s.cpuPid_) s.cpuPid_).priority
          simp only [mapGet_mapIndex]
          exact le_trans (hmaxle r hr) (not_lt.1 hge)
  · intro he
    unfold SimOS.scheduleCPU
    rw [he]

/-- Witness of C9 as the code has it: the state after `NewProcess(2000, 3)` and
`NewProcess(500, 1)` on `SimOS(1, 10000, 1000)`, where process 3 is ready and
process 2 is on the CPU. -/
theorem reschedule_twice_witness :
    (stateAfter 1 10000 1000 [Call.newProcess 2000 3, Call.newProcess 500 1]).scheduleCPU =
      some (stateAfter 1 10000 1000 [Call.newProcess 2000 3, Call.newProcess 500 1]) ∧
    NO_PROCESS ∉
      (stateAfter 1 10000 1000 [Call.newProcess 2000 3, Call.newProcess 500 1]).readyQueue_ ∧
    (stateAfter 1 10000 1000 [Call.newProcess 2000 3, Call.newProcess 500 1]).readyQueue_
      ≠ [] ∧
    (stateAfter 1 10000 1000 [Call.newProcess 2000 3, Call.newProcess 500 1]).scheduleCPU =
      some (stateAfter 1 10000 1000 [Call.newProcess 2000 3, Call.newProcess 500 1]) :=
  ⟨rfl, by decide, by decide,
    (reschedule_twice
      (stateAfter 1 10000 1000 [Call.newProcess 2000 3, Call.newProcess 500 1])
      (stateAfter 1 10000 1000 [Call.newProcess 2000 3, Call.newProcess 500 1])
      rfl (by decide)).1 (by decide)⟩

/-- C9 as stated fails: in the state in which `NewProcess(2000, 3)` calls
`scheduleCPU`, one application puts process 2 on the CPU and empties the ready
queue, and a second application makes the CPU idle.  Moreover, when the ready queue
holds `NO_PROCESS` as its first entry of highest priority, one application leaves the
CPU with the value `NO_PROCESS` and the second application gives it to process 5. -/
theorem reschedule_not_idempotent :
    admittedExample.scheduleCPU.map (fun s => (s.cpuPid_, s.readyQueue_)) = some (2, []) ∧
    (admittedExample.scheduleCPU.bind SimOS.scheduleCPU).map
      (fun s => (s.cpuPid_, s.readyQueue_)) = some (NO_PROCESS, []) ∧
    sentinelQueueExample.scheduleCPU.map (fun s => (s.cpuPid_, s.readyQueue_)) =
      some (NO_PROCESS, [5]) ∧
    (sentinelQueueExample.scheduleCPU.bind SimOS.scheduleCPU).map
      (fun s => (s.cpuPid_, s.readyQueue_)) = some (5, []) := by
  decide

/-! ## The cascade of `SimExit` -/

/-- C10 (exit cascades over the whole subtree), at a state where it does not hold.
On `SimOS(1, 100, 10)`, after `NewProcess(10, 1)` and three calls of `SimFork`,
process 2 is on the CPU with the child list `[3, 4, 5]`.  After `SimExit()` the
children 3 and 5 are zombies, but child 4 is registered, is not a zombie and is on
the CPU. -/
theorem exit_skips_second_child :
    ((SimOS.construct 1 100 10).run
        [Call.newProcess 10 1, Call.simFork, Call.simFork, Call.simFork]).map
      (fun s => (s.cpuPid_, (s.processes_ 2).map (fun p => p.children.elems))) =
      some (2, some [3, 4, 5]) ∧
    ((SimOS.construct 1 100 10).run
        [Call.newProcess 10 1, Call.simFork, Call.simFork, Call.simFork,
          Call.simExit 2]).map
      (fun s => (s.cpuPid_, s.readyQueue_)) = some (4, []) ∧
    ((SimOS.construct 1 100 10).run
        [Call.newProcess 10 1, Call.simFork, Call.simFork, Call.simFork,
          Call.simExit 2]).map
      (fun s => ((s.processes_ 2).isSome, (s.processes_ 3).map (fun p => p.isZombie))) =
      some (false, some true) ∧
    ((SimOS.construct 1 100 10).run
        [Call.newProcess 10 1, Call.simFork, Call.simFork, Call.simFork,
          Call.simExit 2]).map
      (fun s => ((s.processes_ 4).map (fun p => p.isZombie),
        (s.processes_ 5).map (fun p => p.isZombie))) =
      some (some false, some true) := by
  decide

/-! ## The result of a fork -/

/-- The state that a successful fork returns: the rescheduling at its end changes
nothing. -/
theorem SimFork_result (s : SimOS) (p : Process) (hr : RangeInv s) (he : ExclInv s)
    (hs : SchedInv s) (hc : s.cpuPid_ ≠ NO_PROCESS) (hc1 : s.cpuPid_ ≠ 1)
    (hp : s.processes_ s.cpuPid_ = some p) (hal : s.forkAlloc.1 = true)
    (hret : s.SimFork.isSome = true) :
    s.SimFork = some (true,
      { s with
        nextPid_ := s.nextPid_ + 1,
        memoryBlocks_ := s.forkAlloc.2.1.memoryBlocks_,
        blocksCapacity_ := s.forkAlloc.2.1.blocksCapacity_,
        processes_ := mapModify
          (mapSet s.processes_ s.nextPid_
            { s.childRecord with memory := s.forkAlloc.2.2.memory })
          s.cpuPid_ (fun p => { p with children := p.children.push_back s.nextPid_ }),
        readyQueue_ := s.readyQueue_ ++ [s.nextPid_] }) := by
  have hreg : (s.processes_ s.cpuPid_).isSome = true := by rw [hp]; rfl
  have hidx : mapIndex s.processes_ s.cpuPid_ = s.processes_ := mapIndex_of_isSome _ _ hreg
  have hcn : s.cpuPid_ ≠ s.nextPid_ := by
    have := (hr.cpu hc).2
    omega
  have hnq : s.nextPid_ ∉ s.readyQueue_ := by
    intro hm
    have := (hr.ready _ hm).2
    omega
  have hadd : addPid s.readyQueue_ s.nextPid_ = s.readyQueue_ ++ [s.nextPid_] := by
    unfold addPid
    rw [if_neg hnq]
  have hgetc : mapGet (mapModify
      (mapSet s.processes_ s.nextPid_
        { s.childRecord with memory := s.forkAlloc.2.2.memory })
      s.cpuPid_ (fun p => { p with children := p.children.push_back s.nextPid_ }))
      s.cpuPid_ = { p with children := p.children.push_back s.nextPid_ } := by
    apply mapGet_of_eq
    rw [mapModify_apply, if_pos rfl, mapSet_apply, if_neg hcn, hp]
    rfl
  have hchild : s.childRecord.priority = p.priority := by
    unfold SimOS.childRecord
    simp only
    rw [hidx, mapGet_of_eq _ _ _ hp]
  have hstay := scheduleCPU_stay
    { s with
      nextPid_ := s.nextPid_ + 1,
      memoryBlocks_ := s.forkAlloc.2.1.memoryBlocks_,
      blocksCapacity_ := s.forkAlloc.2.1.blocksCapacity_,
      processes_ := mapModify
        (mapSet s.processes_ s.nextPid_
          { s.childRecord with memory := s.forkAlloc.2.2.memory })
        s.cpuPid_ (fun p => { p with children := p.children.push_back s.nextPid_ }),
      readyQueue_ := s.readyQueue_ ++ [s.nextPid_] }
    hc (by simp)
    (by
      show (mapModify _ _ _ s.cpuPid_).isSome = true
      rw [mapModify_apply, if_pos rfl, mapSet_apply, if_neg hcn, hp]
      rfl)
    (by
      intro r hrm
      show (mapModify _ _ _ r).isSome = true
      rw [mapModify_apply, mapSet_apply, mapSet_apply, if_neg hcn, hp]
      split
      · rfl
      · split
        · rfl
        · rcases List.mem_append.1 hrm with hrm | hrm
          · obtain ⟨pr, hpr, _⟩ := hs.alive.2 r hrm
            rw [hpr]; rfl
          · simp only [List.mem_singleton] at hrm
            contradiction)
    (by
      intro r hrm
      show (mapGet (mapModify _ _ _) r).priority ≤ (mapGet (mapModify _ _ _) s.cpuPid_).priority
      rw [hgetc]
      show _ ≤ p.priority
      rcases List.mem_append.1 hrm with hrm | hrm
      · have hrc : r ≠ s.cpuPid_ := fun e => he.cpu_not_ready hc (e ▸ hrm)
        have hrn : r ≠ s.nextPid_ := fun e => hnq (e ▸ hrm)
        have : mapGet (mapModify
            (mapSet s.processes_ s.nextPid_
              { s.childRecord with memory := s.forkAlloc.2.2.memory })
            s.cpuPid_ (fun p => { p with children := p.children.push_back s.nextPid_ })) r
            = mapGet s.processes_ r := by
          unfold mapGet
          rw [mapModify_apply, if_neg hrc, mapSet_apply, if_neg hrn]
        rw [this]
        have := hs.prio hc r hrm
        rw [mapGet_of_eq _ _ _ hp] at this
        exact this
      · simp only [List.mem_singleton] at hrm
        subst hrm
        have : mapGet (mapModify
            (mapSet s.processes_ s.nextPid_
              { s.childRecord with memory := s.forkAlloc.2.2.memory })
            s.cpuPid_ (fun p => { p with children := p.children.push_back s.nextPid_ }))
            s.nextPid_ = { s.childRecord with memory := s.forkAlloc.2.2.memory } := by
          apply mapGet_of_eq
          rw [mapModify_apply, if_neg (Ne.symm hcn), mapSet_apply, if_pos rfl]
        rw [this]
        show s.childRecord.priority ≤ p.priority
        rw [hchild])
  obtain ⟨res, hfork⟩ := Option.isSome_iff_exists.1 hret
  rw [hfork]
  cases res with
  | mk r s' =>
    rcases SimFork_cases s r s' hfork with ⟨hg, _⟩ | ⟨_, ⟨hf, _⟩ | ⟨_, hrt, hsch⟩⟩
    · rcases hg with hg | hg
      · exact absurd hg hc
      · exact absurd hg hc1
    · rw [hal] at hf
      cases hf
    · rw [hidx, hadd, hstay] at hsch
      simp only [Option.some.injEq] at hsch
      rw [hrt, ← hsch]

/-! ## The two branches of `SimWait` -/

theorem findZombie_found : ∀ (X : List Int) (z : Int) (Y : List Int) (i : Nat)
    (m : Int → Option Process) (pz : Process),
    (∀ c ∈ X, ∃ pc, m c = some pc ∧ pc.isZombie = false) →
    m z = some pz → pz.isZombie = true →
    findZombie m (X ++ z :: Y) i = (m, some (i + X.length)) := by
  intro X
  induction X with
  | nil =>
    intro z Y i m pz _ hz hzz
    have hidx : mapIndex m z = m := mapIndex_of_isSome _ _ (by rw [hz]; rfl)
    simp only [List.nil_append, findZombie, hidx, mapGet_of_eq _ _ _ hz, hzz, if_true,
      List.length_nil, Nat.add_zero]
  | cons x X ih =>
    intro z Y i m pz hX hz hzz
    obtain ⟨px, hx, hxz⟩ := hX x (List.mem_cons_self _ _)
    have hidx : mapIndex m x = m := mapIndex_of_isSome _ _ (by rw [hx]; rfl)
    simp only [List.cons_append, findZombie, hidx, mapGet_of_eq _ _ _ hx, hxz,
      Bool.false_eq_true, if_false]
    have e := ih z Y (i + 1) m pz (fun c hc => hX c (List.mem_cons_of_mem _ hc)) hz hzz
    have e2 : i + 1 + X.length = i + (x :: X).length := by
      rw [List.length_cons]; omega
    rw [e2] at e
    exact e

theorem findZombie_clear : ∀ (cs : List Int) (i : Nat) (m : Int → Option Process),
    (∀ c ∈ cs, ∀ pc, m c = some pc → pc.isZombie = false) →
    (findZombie m cs i).2 = none := by
  intro cs
  induction cs with
  | nil => intro i m _; rfl
  | cons c cs ih =>
    intro i m h
    have hz : (mapGet (mapIndex m c) c).isZombie = false := by
      rw [mapGet_mapIndex]
      cases hc : m c with
      | none => simp [mapGet, hc, zeroProcess]
      | some pc =>
        rw [mapGet_of_eq _ _ _ hc]
        exact h c (List.mem_cons_self _ _) pc hc
    simp only [findZombie, hz, Bool.false_eq_true, if_false]
    apply ih
    intro c' hc' pc hpc
    rw [mapIndex_apply] at hpc
    split at hpc
    · simp only [Option.some.injEq] at hpc
      rw [← hpc, ← mapGet_mapIndex m c c]
      exact hz
    · exact h c' (List.mem_cons_of_mem _ hc') pc hpc

theorem eraseAt_elems (v : PidVector) (X Y : List Int) (z : Int) (h : v.elems = X ++ z :: Y) :
    (v.eraseAt X.length).elems = X ++ Y := by
  unfold PidVector.eraseAt
  cases hl : v.elems.getLast? with
  | none =>
    rw [List.getLast?_eq_none_iff] at hl
    rw [hl] at h
    simp at h
  | some w =>
    have hlt : X.length < v.elems.length := by rw [h]; simp
    simp only [if_pos hlt]
    rw [h, List.eraseIdx_append_of_length_le (le_refl _), Nat.sub_self]
    rfl

theorem SimWait_eq_block (s : SimOS) (hg : ¬ (s.cpuPid_ = NO_PROCESS ∨ s.cpuPid_ = 1))
    (h : s.waitScan.2 = none) :
    s.SimWait =
      SimOS.scheduleCPU { s with processes_ := s.waitScan.1, cpuPid_ := NO_PROCESS } := by
  unfold SimOS.SimWait
  rw [if_neg hg]
  unfold SimOS.waitScan at h ⊢
  simp only
  split
  · next m1 i e =>
    rw [e] at h
    cases h
  · next m1 e =>
    rw [e]

theorem SimWait_eq_reap (s : SimOS) (hg : ¬ (s.cpuPid_ = NO_PROCESS ∨ s.cpuPid_ = 1))
    (i : Nat) (z : Int) (h : s.waitScan.2 = some i)
    (hz : (mapGet (mapIndex s.processes_ s.cpuPid_) s.cpuPid_).children.elems[i]? = some z) :
    s.SimWait = some { s with
      processes_ := mapModify (mapErase s.waitScan.1 z) s.cpuPid_
        (fun p => { p with children := p.children.eraseAt i }) } := by
  unfold SimOS.SimWait
  rw [if_neg hg]
  unfold SimOS.waitScan at h ⊢
  simp only
  split
  · next m1 j e =>
    rw [e] at h
    simp only [Option.some.injEq] at h
    subst h
    rw [hz, e]
  · next m1 e =>
    rw [e] at h
    cases h

/-- The outcome of `SimWait` in a state whose CPU holds a registered process other than
the OS process, when the identifiers of its child list are registered and are not its
own, it is not in the ready queue, and the identifiers of the ready queue are
registered. -/
theorem waitOutcome_of (s : SimOS) (p : Process)
    (hc : s.cpuPid_ ≠ NO_PROCESS) (hc1 : s.cpuPid_ ≠ 1)
    (hp : s.processes_ s.cpuPid_ = some p)
    (hkids : ∀ c ∈ p.children.elems, (s.processes_ c).isSome = true)
    (hself : s.cpuPid_ ∉ p.children.elems)
    (hnq : s.cpuPid_ ∉ s.readyQueue_)
    (hq : ∀ r ∈ s.readyQueue_, (s.processes_ r).isSome = true) :
    WaitOutcome s p := by
  have hg : ¬ (s.cpuPid_ = NO_PROCESS ∨ s.cpuPid_ = 1) := by
    rintro (e | e)
    · exact hc e
    · exact hc1 e
  have hreg : (s.processes_ s.cpuPid_).isSome = true := by rw [hp]; rfl
  have hidx : mapIndex s.processes_ s.cpuPid_ = s.processes_ := mapIndex_of_isSome _ _ hreg
  have hch : (mapGet (mapIndex s.processes_ s.cpuPid_) s.cpuPid_).children = p.children := by
    rw [hidx, mapGet_of_eq _ _ _ hp]
  constructor
  · intro X z Y pz hsplit hX0 hz hzz
    have hne : z ≠ s.cpuPid_ := by
      intro e
      apply hself
      rw [← e, hsplit]
      simp
    have hX : ∀ c ∈ X, ∃ pc, s.processes_ c = some pc ∧ pc.isZombie = false := by
      intro c hcX
      have hcm : c ∈ p.children.elems := by rw [hsplit]; simp [hcX]
      obtain ⟨pc, hpc⟩ := Option.isSome_iff_exists.1 (hkids c hcm)
      exact ⟨pc, hpc, hX0 c hcX pc hpc⟩
    have hscan : s.waitScan = (s.processes_, some X.length) := by
      unfold SimOS.waitScan
      rw [hch, hidx, hsplit, findZombie_found X z Y 0 s.processes_ pz hX hz hzz,
        Nat.zero_add]
    have hget : (mapGet (mapIndex s.processes_ s.cpuPid_) s.cpuPid_).children.elems[X.length]?
        = some z := by
      rw [hch, hsplit, List.getElem?_append_right (le_refl _), Nat.sub_self]
      simp
    have hwait := SimWait_eq_reap s hg X.length z (by rw [hscan]) hget
    rw [hscan] at hwait
    refine ⟨_, hwait, ?_, ?_, eraseAt_elems _ X Y z hsplit, ?_⟩
    · rw [mapModify_apply, if_neg hne, mapErase_apply, if_pos rfl]
    · have e : mapErase s.processes_ z s.cpuPid_ = some p := by
        rw [mapErase_apply, if_neg (Ne.symm hne)]
        exact hp
      rw [mapModify_apply, if_pos rfl, e]
      rfl
    · intro k hkz hkc
      rw [mapModify_apply, if_neg hkc, mapErase_apply, if_neg hkz]
  · intro hnz
    have hscan : s.waitScan.2 = none := by
      unfold SimOS.waitScan
      rw [hch, hidx]
      exact findZombie_clear _ _ _ hnz
    have hq' : ∀ r ∈ s.readyQueue_, (s.waitScan.1 r).isSome = true := by
      intro r hr
      obtain ⟨pr, hpr⟩ := Option.isSome_iff_exists.1 (hq r hr)
      rw [waitScan_keep s r pr hpr]
      rfl
    obtain ⟨s', hs'⟩ := Option.isSome_iff_exists.1 (scheduleCPU_isSome
      { s with processes_ := s.waitScan.1, cpuPid_ := NO_PROCESS } hq')
    refine ⟨s', by rw [SimWait_eq_block s hg hscan]; exact hs', ?_⟩
    rcases scheduleCPU_cases _ s' hs' with ⟨he, rfl⟩ |
      ⟨first, rest, hp', hqe, hmax, ⟨_, rfl⟩ | ⟨hc', _, _⟩ | ⟨hc', _, _⟩⟩
    · have he' : s.readyQueue_ = [] := he
      refine ⟨Ne.symm hc, hnq, fun _ => ⟨rfl, he'⟩, fun hne => absurd he' hne⟩
    · have hqe' : s.readyQueue_ = first :: rest := hqe
      obtain ⟨X, Y, hsplit, hlt, hle⟩ := maxElementFrom_first _ _ _ _ hmax
      have hmem : hp' ∈ s.readyQueue_ := by
        rw [hqe', hsplit]
        simp
      refine ⟨?_, ?_, ?_, ?_⟩
      · intro e
        exact hnq (by rw [← e]; exact hmem)
      · exact fun hm2 => hnq ((mem_removePid _ _ _).1 hm2).1
      · intro he
        rw [he] at hqe'
        cases hqe'
      · intro _
        refine ⟨X, hp', Y, by rw [hqe', hsplit], ?_, ?_, rfl, rfl⟩
        · intro r hr
          have := hlt r hr
          rw [mapGet_waitScan, mapGet_waitScan] at this
          exact this
        · intro r hr
          rw [hqe'] at hr
          have := hle r hr
          rw [mapGet_waitScan, mapGet_waitScan] at this
          exact this
    · exact absurd rfl hc'
    · exact absurd rfl hc'

/-! ## Rejected operations and the worked example -/

/-- C15 (rejected operations are no-ops).  For every state: when no process holds the
CPU, `SimFork` returns `false` and `SimFork`, `SimExit`, `SimWait` and
`DiskReadRequest` leave the state as it is; `DiskReadRequest` and `DiskJobCompleted`
with a disk number below 0 or not below the number of disks leave the state as it
is; `DiskJobCompleted` on a disk without active job leaves the state as it is. -/
theorem rejected_operations_noop (s : SimOS) (fuel : Nat) (diskNumber : Int)
    (fileName : String) :
    (s.cpuPid_ = NO_PROCESS →
      s.SimFork = some (false, s) ∧ s.SimExit fuel = some s ∧ s.SimWait = some s ∧
      s.DiskReadRequest diskNumber fileName = some s) ∧
    ((diskNumber < 0 ∨ (s.diskQueues_.length : Int) ≤ diskNumber) →
      s.DiskReadRequest diskNumber fileName = some s ∧
      s.DiskJobCompleted diskNumber = some s) ∧
    (s.activeDiskJobs_ diskNumber = none → s.DiskJobCompleted diskNumber = some s) := by
  refine ⟨?_, ?_, ?_⟩
  · intro hc
    refine ⟨?_, ?_, ?_, ?_⟩
    · unfold SimOS.SimFork
      rw [if_pos (Or.inl hc)]
    · unfold SimOS.SimExit
      rw [if_pos (Or.inl hc)]
    · unfold SimOS.SimWait
      rw [if_pos (Or.inl hc)]
    · unfold SimOS.DiskReadRequest
      rw [if_pos (Or.inl hc)]
  · intro hd
    constructor
    · unfold SimOS.DiskReadRequest
      rw [if_pos (Or.inr (Or.inr hd))]
    · unfold SimOS.DiskJobCompleted
      rw [if_pos hd]
  · intro ha
    unfold SimOS.DiskJobCompleted
    split
    · rfl
    · rw [ha]

/-- Witness of C15: the simulator `SimOS(2, 10, 5)` right after construction, with the
disk number 7 for the rejected calls and the idle disk 0 for the completion. -/
theorem rejected_operations_noop_witness :
    (SimOS.construct 2 10 5).cpuPid_ = NO_PROCESS ∧
    ((7 : Int) < 0 ∨ (((SimOS.construct 2 10 5).diskQueues_.length : Nat) : Int) ≤ 7) ∧
    (SimOS.construct 2 10 5).activeDiskJobs_ 0 = none ∧
    ((SimOS.construct 2 10 5).SimFork = some (false, SimOS.construct 2 10 5) ∧
      (SimOS.construct 2 10 5).SimExit 3 = some (SimOS.construct 2 10 5) ∧
      (SimOS.construct 2 10 5).SimWait = some (SimOS.construct 2 10 5) ∧
      (SimOS.construct 2 10 5).DiskReadRequest 7 "a" = some (SimOS.construct 2 10 5)) ∧
    ((SimOS.construct 2 10 5).DiskReadRequest 7 "a" = some (SimOS.construct 2 10 5) ∧
      (SimOS.construct 2 10 5).DiskJobCompleted 7 = some (SimOS.construct 2 10 5)) ∧
    (SimOS.construct 2 10 5).DiskJobCompleted 0 = some (SimOS.construct 2 10 5) :=
  ⟨rfl, by decide, rfl,
    (rejected_operations_noop (SimOS.construct 2 10 5) 3 7 "a").1 rfl,
    (rejected_operations_noop (SimOS.construct 2 10 5) 3 7 "a").2.1 (by decide),
    (rejected_operations_noop (SimOS.construct 2 10 5) 3 0 "a").2.2 rfl⟩

/-- C17 (end-to-end example), evaluated.  On `SimOS(1, 10000, 1000)`:
`NewProcess(2000, 3)` returns `true`, then the CPU holds 2 and the ready queue is empty,
but the only occupied region is `(0, 1000, 1)`: the insert of the remainder has moved
the storage of the full vector, and no block has been given to process 2.
`NewProcess(500, 1)` returns `true`, then the CPU still holds 2 and the ready queue is
`[3]`, but process 3 occupies address 1000, not 3000: the block `[1000, 10000)` was
still free and the largest.  After `SimExit()` the CPU holds 3, the ready queue is
empty and process 2 is not registered, and the occupied regions are `(0, 1000, 1)` and
`(1000, 500, 3)`.  The result of `SimExit` is the same for every recursion depth from
1 on. -/
theorem end_to_end_run :
    ((SimOS.construct 1 10000 1000).NewProcess 2000 3).map
        (fun r => (r.1, r.2.GetCPU, r.2.GetReadyQueue, r.2.GetMemory)) =
      some (true, 2, [], [⟨0, 1000, 1⟩]) ∧
    ((stateAfter 1 10000 1000 [Call.newProcess 2000 3]).NewProcess 500 1).map
        (fun r => (r.1, r.2.GetCPU, r.2.GetReadyQueue, r.2.GetMemory)) =
      some (true, 2, [3], [⟨0, 1000, 1⟩, ⟨1000, 500, 3⟩]) ∧
    ((stateAfter 1 10000 1000 [Call.newProcess 2000 3, Call.newProcess 500 1]).processes_
        3).map (fun p => p.memory) = some ⟨1000, 500, 3⟩ ∧
    ((stateAfter 1 10000 1000 [Call.newProcess 2000 3, Call.newProcess 500 1]).SimExit 1).map
        (fun s => (s.GetCPU, s.GetReadyQueue, (s.processes_ 2).isSome, s.GetMemory)) =
      some (3, [], false, [⟨0, 1000, 1⟩, ⟨1000, 500, 3⟩]) ∧
    (∀ extra : Nat,
      (stateAfter 1 10000 1000 [Call.newProcess 2000 3, Call.newProcess 500 1]).SimExit
          (1 + extra) =
        (stateAfter 1 10000 1000 [Call.newProcess 2000 3, Call.newProcess 500 1]).SimExit 1) ∧
    ((SimOS.construct 1 10000 1000).run
        [Call.newProcess 2000 3, Call.newProcess 500 1, Call.simExit 1]).map
        (fun s => (s.GetCPU, s.GetReadyQueue, s.GetMemory)) =
      some (3, [], [⟨0, 1000, 1⟩, ⟨1000, 500, 3⟩]) := by
  refine ⟨by decide, by decide, by decide, by decide, ?_, by decide⟩
  intro extra
  have hsome : ((stateAfter 1 10000 1000
      [Call.newProcess 2000 3, Call.newProcess 500 1]).SimExit 1).isSome = true := by decide
  obtain ⟨s3, h3⟩ := Option.isSome_iff_exists.1 hsome
  rw [h3]
  exact SimExit_mono 1 extra _ _ h3

/-! ## The postcondition of `scheduleCPU` -/

/-- C18 (reschedule postcondition and tie-break).  Let the identifiers of the ready
queue and the CPU occupant be registered.  On an empty ready queue `scheduleCPU` makes
the CPU idle.  Otherwise the ready queue is `X ++ h :: Y` where `h` has the highest
priority of the ready queue and every entry of `X` has a lower one, and: on an idle CPU
`h` becomes the occupant and leaves the ready queue; when the priority of `h` exceeds
that of the occupant, `h` becomes the occupant and leaves the ready queue, and the
previous occupant is appended at its tail; when the priority of `h` does not exceed
that of the occupant, nothing changes.  The order of the remaining entries is kept, and
nothing but the CPU occupant and the ready queue changes.  The occupant is appended
when the ready queue does not hold it already, which is so wherever a public operation
calls `scheduleCPU`: the occupant is never in the ready queue there.  For completeness
the statement also gives the result when the ready queue holds the occupant. -/
theorem reschedule_postcondition (s : SimOS)
    (hreg : ∀ r ∈ s.readyQueue_, (s.processes_ r).isSome = true)
    (hcpu : s.cpuPid_ ≠ NO_PROCESS → (s.processes_ s.cpuPid_).isSome = true) :
    (s.readyQueue_ = [] → s.scheduleCPU = some { s with cpuPid_ := NO_PROCESS }) ∧
    (s.readyQueue_ ≠ [] →
      ∃ X h Y, s.readyQueue_ = X ++ h :: Y ∧
        (∀ r ∈ X, (mapGet s.processes_ r).priority < (mapGet s.processes_ h).priority) ∧
        (∀ r ∈ s.readyQueue_,
          (mapGet s.processes_ r).priority ≤ (mapGet s.processes_ h).priority) ∧
        (s.cpuPid_ = NO_PROCESS →
          s.scheduleCPU = some { s with
            cpuPid_ := h,
            readyQueue_ := s.readyQueue_.filter (fun x => decide (x ≠ h)) }) ∧
        (s.cpuPid_ ≠ NO_PROCESS →
          (mapGet s.processes_ s.cpuPid_).priority < (mapGet s.processes_ h).priority →
          s.cpuPid_ ∉ s.readyQueue_ →
          s.scheduleCPU = some { s with
            cpuPid_ := h,
            readyQueue_ := s.readyQueue_.filter (fun x => decide (x ≠ h)) ++ [s.cpuPid_] }) ∧
        (s.cpuPid_ ≠ NO_PROCESS →
          (mapGet s.processes_ s.cpuPid_).priority < (mapGet s.processes_ h).priority →
          s.cpuPid_ ∈ s.readyQueue_ →
          s.scheduleCPU = some { s with
            cpuPid_ := h,
            readyQueue_ := s.readyQueue_.filter (fun x => decide (x ≠ h)) }) ∧
        (s.cpuPid_ ≠ NO_PROCESS →
          (mapGet s.processes_ h).priority ≤ (mapGet s.processes_ s.cpuPid_).priority →
          s.scheduleCPU = some s)) := by
  constructor
  · intro he
    unfold SimOS.scheduleCPU
    rw [he]
  · intro hne
    obtain ⟨s', hs'⟩ := Option.isSome_iff_exists.1 (scheduleCPU_isSome s hreg)
    have hfr := scheduleCPU_frame s s' hs' hreg hcpu
    rcases scheduleCPU_cases s s' hs' with ⟨he, _⟩ |
      ⟨first, rest, hp, hq, hmax, hcase⟩
    · exact absurd he hne
    · obtain ⟨X, Y, e, h1, h2⟩ := maxElementFrom_first _ _ _ _ hmax
      rw [← hq] at e h2
      have hmem : hp ∈ s.readyQueue_ := by rw [e]; simp
      have hpreg := hreg hp hmem
      refine ⟨X, hp, Y, e, h1, h2, ?_, ?_, ?_, ?_⟩
      · intro hc
        rcases hcase with ⟨_, rfl⟩ | ⟨hc', _, _⟩ | ⟨hc', _, _⟩
        · rw [hs']; rfl
        · exact absurd hc hc'
        · exact absurd hc hc'
      · intro hc hlt hnot
        rcases hcase with ⟨hc', _⟩ | ⟨_, _, e2⟩ | ⟨_, hge, _⟩
        · exact absurd hc' hc
        · rw [hs', hfr, e2]
          simp only [removePid, addPid, if_neg hnot, List.filter_append]
          have hne2 : s.cpuPid_ ≠ hp := fun e3 => hnot (e3 ▸ hmem)
          simp [hne2]
        · rw [mapIndex_of_isSome _ hp hpreg, mapIndex_of_isSome _ _ (hcpu hc)] at hge
          exact absurd hlt hge
      · intro hc hlt hin
        rcases hcase with ⟨hc', _⟩ | ⟨_, _, e2⟩ | ⟨_, hge, _⟩
        · exact absurd hc' hc
        · rw [hs', hfr, e2]
          simp only [removePid, addPid, if_pos hin]
        · rw [mapIndex_of_isSome _ hp hpreg, mapIndex_of_isSome _ _ (hcpu hc)] at hge
          exact absurd hlt hge
      · intro hc hle
        rcases hcase with ⟨hc', _⟩ | ⟨_, hlt, _⟩ | ⟨_, _, e2⟩
        · exact absurd hc' hc
        · rw [mapIndex_of_isSome _ hp hpreg, mapIndex_of_isSome _ _ (hcpu hc)] at hlt
          exact absurd hlt (not_lt.2 hle)
        · rw [hs', e2, mapIndex_of_isSome _ hp hpreg, mapIndex_of_isSome _ _ (hcpu hc)]

/-- Witness of C18: the state in which `NewProcess(10, 5)` calls `scheduleCPU` after
`NewProcess(10, 1)` and `NewProcess(10, 0)` on `SimOS(1, 100, 10)`.  Process 2 of
priority 1 is on the CPU and the ready queue `[3, 4]` holds process 3 of priority 0 and
process 4 of priority 5; afterwards process 4 is on the CPU and the ready queue is
`[3, 2]`. -/
theorem reschedule_postcondition_witness :
    (stateAfter 1 100 10 [Call.newProcess 10 1, Call.newProcess 10 0]).NewProcess 10 5 =
      preemptExample.scheduleCPU.map (fun s4 => (true, s4)) ∧
    preemptExample.cpuPid_ = 2 ∧ preemptExample.readyQueue_ = [3, 4] ∧
    (∀ r ∈ preemptExample.readyQueue_, (preemptExample.processes_ r).isSome = true) ∧
    (preemptExample.cpuPid_ ≠ NO_PROCESS →
      (preemptExample.processes_ preemptExample.cpuPid_).isSome = true) ∧
    preemptExample.scheduleCPU.map (fun s => (s.cpuPid_, s.readyQueue_)) = some (4, [3, 2]) ∧
    (preemptExample.readyQueue_ ≠ [] →
      ∃ X h Y, preemptExample.readyQueue_ = X ++ h :: Y ∧
        (∀ r ∈ X, (mapGet preemptExample.processes_ r).priority <
          (mapGet preemptExample.processes_ h).priority) ∧
        (∀ r ∈ preemptExample.readyQueue_,
          (mapGet preemptExample.processes_ r).priority ≤
            (mapGet preemptExample.processes_ h).priority) ∧
        (preemptExample.cpuPid_ = NO_PROCESS →
          preemptExample.scheduleCPU = some { preemptExample with
            cpuPid_ := h,
            readyQueue_ := preemptExample.readyQueue_.filter (fun x => decide (x ≠ h)) }) ∧
        (preemptExample.cpuPid_ ≠ NO_PROCESS →
          (mapGet preemptExample.processes_ preemptExample.cpuPid_).priority <
            (mapGet preemptExample.processes_ h).priority →
          preemptExample.cpuPid_ ∉ preemptExample.readyQueue_ →
          preemptExample.scheduleCPU = some { preemptExample with
            cpuPid_ := h,
            readyQueue_ := preemptExample.readyQueue_.filter (fun x => decide (x ≠ h)) ++
              [preemptExample.cpuPid_] }) ∧
        (preemptExample.cpuPid_ ≠ NO_PROCESS →
          (mapGet preemptExample.processes_ preemptExample.cpuPid_).priority <
            (mapGet preemptExample.processes_ h).priority →
          preemptExample.cpuPid_ ∈ preemptExample.readyQueue_ →
          preemptExample.scheduleCPU = some { preemptExample with
            cpuPid_ := h,
            readyQueue_ := preemptExample.readyQueue_.filter (fun x => decide (x ≠ h)) }) ∧
        (preemptExample.cpuPid_ ≠ NO_PROCESS →
          (mapGet preemptExample.processes_ h).priority ≤
            (mapGet preemptExample.processes_ preemptExample.cpuPid_).priority →
          preemptExample.scheduleCPU = some preemptExample)) :=
  ⟨NewProcess_of_success _ 10 5 (by decide), by decide, by decide, by decide, by decide,
    by decide, (reschedule_postcondition preemptExample (by decide) (by decide)).2⟩

/-! ## The CPU is never idle with ready work -/

/-- C20 (work-conserving, priority-maximal CPU).  In every state that public
operations lead to from a constructed simulator: if the ready queue is not empty the
CPU is occupied; the occupant is not the OS process; the occupant and every
identifier of the ready queue are registered and not zombies; and no process of the
ready queue has a higher priority than the occupant.  Every public operation returns
normally in such a state. -/
theorem work_conserving_cpu (numberOfDisks amountOfRAM sizeOfOS : Nat) (s : SimOS)
    (h : Reachable (SimOS.construct numberOfDisks amountOfRAM sizeOfOS) s) :
    (s.readyQueue_ ≠ [] → s.cpuPid_ ≠ NO_PROCESS) ∧
    s.cpuPid_ ≠ 1 ∧
    (s.cpuPid_ ≠ NO_PROCESS →
      ∃ pc, s.processes_ s.cpuPid_ = some pc ∧ pc.isZombie = false) ∧
    (∀ r ∈ s.readyQueue_, ∃ pc pr, s.processes_ s.cpuPid_ = some pc ∧
      s.processes_ r = some pr ∧ pc.isZombie = false ∧ pr.isZombie = false ∧
      pr.priority ≤ pc.priority) ∧
    ReturnsNormally s := by
  obtain ⟨ho, hw⟩ := reachable_os _ _ _ s h
  have hs := reachable_sched _ _ _ s h
  have hbusy : s.readyQueue_ ≠ [] → s.cpuPid_ ≠ NO_PROCESS := fun hne hc => hne (hw hc)
  refine ⟨hbusy, ho.cpu, hs.alive.1, ?_, reachable_returns _ _ _ s h⟩
  intro r hr
  have hc : s.cpuPid_ ≠ NO_PROCESS := hbusy (List.ne_nil_of_mem hr)
  obtain ⟨pc, hpc, hzc⟩ := hs.alive.1 hc
  obtain ⟨pr, hpr, hzr⟩ := hs.alive.2 r hr
  have hle := hs.prio hc r hr
  rw [mapGet_of_eq _ _ _ hpc, mapGet_of_eq _ _ _ hpr] at hle
  exact ⟨pc, pr, hpc, hpr, hzc, hzr, hle⟩

/-- Witness of C20: the state after `NewProcess(2000, 3)` and `NewProcess(500, 1)` on
`SimOS(1, 10000, 1000)`, where process 2 is on the CPU and process 3 is ready. -/
theorem work_conserving_cpu_witness :
    ((SimOS.construct 1 10000 1000).run
      [Call.newProcess 2000 3, Call.newProcess 500 1]).map
      (fun s => (s.cpuPid_, s.readyQueue_)) = some (2, [3]) ∧
    Reachable (SimOS.construct 1 10000 1000)
      (stateAfter 1 10000 1000 [Call.newProcess 2000 3, Call.newProcess 500 1]) ∧
    ((stateAfter 1 10000 1000 [Call.newProcess 2000 3, Call.newProcess 500 1]).readyQueue_
        ≠ [] →
      (stateAfter 1 10000 1000 [Call.newProcess 2000 3, Call.newProcess 500 1]).cpuPid_
        ≠ NO_PROCESS) ∧
    (stateAfter 1 10000 1000 [Call.newProcess 2000 3, Call.newProcess 500 1]).cpuPid_ ≠ 1 ∧
    (∀ r ∈ (stateAfter 1 10000 1000
        [Call.newProcess 2000 3, Call.newProcess 500 1]).readyQueue_,
      ∃ pc pr,
        (stateAfter 1 10000 1000 [Call.newProcess 2000 3, Call.newProcess 500 1]).processes_
          (stateAfter 1 10000 1000 [Call.newProcess 2000 3, Call.newProcess 500 1]).cpuPid_
          = some pc ∧
        (stateAfter 1 10000 1000 [Call.newProcess 2000 3, Call.newProcess 500 1]).processes_ r
          = some pr ∧
        pc.isZombie = false ∧ pr.isZombie = false ∧ pr.priority ≤ pc.priority) :=
  have w := work_conserving_cpu 1 10000 1000
    (stateAfter 1 10000 1000 [Call.newProcess 2000 3, Call.newProcess 500 1])
    (reachable_run_getD _ _)
  ⟨by decide, reachable_run_getD _ _, w.1, w.2.1, w.2.2.2.1⟩

/-! ## Service in the order of the requests -/

/-- C13 (per-device FIFO service).  Let `d` be a disk of a reachable state and let the
line of `d` be its active job, when there is one, followed by its queue.  The active
job is the head of the line.  A `DiskReadRequest(d, name)` made with a process other
than the OS process on the CPU returns and appends the request of that process to the
line, and the process is afterwards neither on the CPU nor in the ready queue; made
with an idle CPU or the OS process on it, the call changes nothing.
`DiskJobCompleted(d)` returns and turns the line into its tail.  Every other call,
and every call for another disk, leaves the line of `d` as it is.  So the requests made
to `d` become active and are completed in the order in which they were made. -/
theorem disk_fifo_service (numberOfDisks amountOfRAM sizeOfOS : Nat) (s : SimOS) (d : Int)
    (h : Reachable (SimOS.construct numberOfDisks amountOfRAM sizeOfOS) s)
    (hd0 : 0 ≤ d) (hd1 : d < (numberOfDisks : Int)) :
    s.activeDiskJobs_ d = (s.diskLine d).head? ∧
    (∀ fileName, s.cpuPid_ ≠ NO_PROCESS → s.cpuPid_ ≠ 1 →
      ∃ s', s.DiskReadRequest d fileName = some s' ∧
        s'.diskLine d = s.diskLine d ++ [⟨s.cpuPid_, fileName⟩] ∧
        s'.cpuPid_ ≠ s.cpuPid_ ∧ s.cpuPid_ ∉ s'.readyQueue_) ∧
    (∀ fileName, s.cpuPid_ = NO_PROCESS ∨ s.cpuPid_ = 1 →
      s.DiskReadRequest d fileName = some s) ∧
    (∃ s', s.DiskJobCompleted d = some s' ∧ s'.diskLine d = (s.diskLine d).tail) ∧
    (∀ (c : Call) (s' : SimOS), s.step c = some s' →
      (∀ fileName, c ≠ Call.diskReadRequest d fileName) → c ≠ Call.diskJobCompleted d →
      s'.diskLine d = s.diskLine d) := by
  obtain ⟨hi, hlen⟩ := reachable_idle _ _ _ s h
  have hret := reachable_returns _ _ _ s h
  have hvalid : ¬ (d < 0 ∨ (s.diskQueues_.length : Int) ≤ d) := by
    rw [hlen]; omega
  have hlt : d.toNat < s.diskQueues_.length := by omega
  obtain ⟨q, hq⟩ : ∃ q, s.diskQueues_[d.toNat]? = some q :=
    ⟨s.diskQueues_[d.toNat], List.getElem?_eq_getElem hlt⟩
  have hline : s.diskLine d = (s.activeDiskJobs_ d).toList ++ q := by
    unfold SimOS.diskLine
    rw [List.getD_eq_getElem?_getD, hq]
    rfl
  refine ⟨?_, ?_, ?_, ?_, ?_⟩
  · rw [hline]
    cases ha : s.activeDiskJobs_ d with
    | none =>
      rw [hi d q hd0 ha hq]
      rfl
    | some job => rfl
  · intro fileName hc hc1
    obtain ⟨s', hs'⟩ := Option.isSome_iff_exists.1 (hret.2.2.2.2.1 d fileName)
    have hg : ¬ (s.cpuPid_ = NO_PROCESS ∨ s.cpuPid_ = 1 ∨ d < 0 ∨
        (s.diskQueues_.length : Int) ≤ d) := by
      rintro (e | e | e)
      · exact hc e
      · exact hc1 e
      · exact hvalid e
    have hreach' : Reachable (SimOS.construct numberOfDisks amountOfRAM sizeOfOS) s' :=
      Reachable.diskReadRequest s s' d fileName h hs'
    have hpend : PendingPid s' s.cpuPid_ → s'.cpuPid_ ≠ s.cpuPid_ ∧
        s.cpuPid_ ∉ s'.readyQueue_ := by
      intro hp
      obtain ⟨_, h2, h3⟩ := (reachable_excl _ _ _ s' hreach').pending_idle _ hp
      exact ⟨Ne.symm h2, h3⟩
    rcases DiskReadRequest_disks s s' d fileName hs' hg with ⟨hn, ea, eq⟩ | ⟨hsome, ea, eq⟩
    · refine ⟨s', hs', ?_, ?_⟩
      · rw [hline, hn, hi d q hd0 hn hq]
        unfold SimOS.diskLine
        rw [ea, eq, List.getD_eq_getElem?_getD, hq, hi d q hd0 hn hq]
        simp [mapSet_apply]
      · apply hpend
        exact Or.inl ⟨d, ⟨s.cpuPid_, fileName⟩, by rw [ea]; simp [mapSet_apply], rfl⟩
    · refine ⟨s', hs', ?_, ?_⟩
      · rw [hline]
        unfold SimOS.diskLine
        rw [ea, eq, List.getD_eq_getElem?_getD, getElem?_modifyNth, if_pos rfl, hq]
        simp
      · apply hpend
        refine Or.inr ⟨d.toNat, q ++ [⟨s.cpuPid_, fileName⟩], ⟨s.cpuPid_, fileName⟩, ?_,
          by simp, rfl⟩
        rw [eq, getElem?_modifyNth, if_pos rfl, hq]
        rfl
  · intro fileName hc
    exact DiskReadRequest_rejected s d fileName hc
  · obtain ⟨s', hs'⟩ := Option.isSome_iff_exists.1 (hret.2.2.2.2.2 d)
    refine ⟨s', hs', ?_⟩
    cases ha : s.activeDiskJobs_ d with
    | none =>
      rcases DiskJobCompleted_cases s s' d hs' with ⟨_, rfl⟩ | ⟨_, rfl⟩ | ⟨job, _, hj, _⟩
      · rw [hline, ha, hi d q hd0 ha hq]; rfl
      · rw [hline, ha, hi d q hd0 ha hq]; rfl
      · rw [ha] at hj; cases hj
    | some job =>
      obtain ⟨e1, e2⟩ := DiskJobCompleted_disks s s' d job hs' hvalid ha
      rw [diskLine_congr _ s' d e1 e2]
      exact startNextJob_line s d job ha
  · intro c s' hstep hc1 hc2
    cases c with
    | diskReadRequest d' f =>
      have hne : d' ≠ d := by
        intro e
        exact hc1 f (by rw [e])
      exact DiskReadRequest_other s s' d d' f hstep hd0 hne
    | diskJobCompleted d' =>
      have hne : d' ≠ d := by
        intro e
        exact hc2 (by rw [e])
      exact DiskJobCompleted_other s s' d d' hstep hd0 hne
    | newProcess size priority =>
      obtain ⟨e1, e2⟩ := step_disks s s' _ hstep
        ⟨fun _ _ e => (by cases e), fun _ e => (by cases e)⟩
      exact diskLine_congr s s' d e1 e2
    | simFork =>
      obtain ⟨e1, e2⟩ := step_disks s s' _ hstep
        ⟨fun _ _ e => (by cases e), fun _ e => (by cases e)⟩
      exact diskLine_congr s s' d e1 e2
    | simExit fuel =>
      obtain ⟨e1, e2⟩ := step_disks s s' _ hstep
        ⟨fun _ _ e => (by cases e), fun _ e => (by cases e)⟩
      exact diskLine_congr s s' d e1 e2
    | simWait =>
      obtain ⟨e1, e2⟩ := step_disks s s' _ hstep
        ⟨fun _ _ e => (by cases e), fun _ e => (by cases e)⟩
      exact diskLine_congr s s' d e1 e2

/-- Witness of C13: disk 0 of `SimOS(1, 10000, 1000)` after `NewProcess(2000, 3)`,
`NewProcess(500, 1)` and `DiskReadRequest(0, "a")`.  The line is the request of process
2; a request of process 3 for the file `b` makes it the requests of 2 and 3, and a
completion after that leaves the request of process 3. -/
theorem disk_fifo_service_witness :
    Reachable (SimOS.construct 1 10000 1000) diskBusyExample ∧
    (0 : Int) ≤ 0 ∧ (0 : Int) < ((1 : Nat) : Int) ∧
    (diskBusyExample.cpuPid_, diskBusyExample.diskLine 0) = (3, [⟨2, "a"⟩]) ∧
    (diskBusyExample.run [Call.diskReadRequest 0 "b"]).map (fun s => s.diskLine 0) =
      some [⟨2, "a"⟩, ⟨3, "b"⟩] ∧
    (diskBusyExample.run [Call.diskReadRequest 0 "b", Call.diskJobCompleted 0]).map
      (fun s => (s.diskLine 0, s.GetDisk 0)) = some ([⟨3, "b"⟩], ⟨3, "b"⟩) ∧
    diskBusyExample.activeDiskJobs_ 0 = (diskBusyExample.diskLine 0).head? ∧
    (∀ fileName, diskBusyExample.cpuPid_ ≠ NO_PROCESS → diskBusyExample.cpuPid_ ≠ 1 →
      ∃ s', diskBusyExample.DiskReadRequest 0 fileName = some s' ∧
        s'.diskLine 0 = diskBusyExample.diskLine 0 ++ [⟨diskBusyExample.cpuPid_, fileName⟩] ∧
        s'.cpuPid_ ≠ diskBusyExample.cpuPid_ ∧ diskBusyExample.cpuPid_ ∉ s'.readyQueue_) ∧
    (∃ s', diskBusyExample.DiskJobCompleted 0 = some s' ∧
      s'.diskLine 0 = (diskBusyExample.diskLine 0).tail) :=
  have w := disk_fifo_service 1 10000 1000 diskBusyExample 0 diskBusyExample_reachable
    (by decide) (by decide)
  ⟨diskBusyExample_reachable, by decide, by decide, by decide, by decide, by decide,
    w.1, w.2.1, w.2.2.2.1⟩

/-! ## The requester of a completed disk job -/

/-- C14 (disk completion readies the requester unless it is a zombie).  In a reachable
state let disk `diskNumber` have the active job `job`.  Then `DiskJobCompleted` returns.
If the requester is registered and not a zombie, it is afterwards on the CPU or in the
ready queue, and it is on the CPU exactly when the CPU was idle or held a process of
lower priority.  If the requester is a zombie, it is afterwards neither on the CPU nor
in the ready queue, and the CPU occupant and the ready queue are the same as before. -/
theorem disk_completion_readies (numberOfDisks amountOfRAM sizeOfOS : Nat) (s : SimOS)
    (diskNumber : Int) (job : FileReadRequest)
    (h : Reachable (SimOS.construct numberOfDisks amountOfRAM sizeOfOS) s)
    (hd0 : 0 ≤ diskNumber) (hd1 : diskNumber < (numberOfDisks : Int))
    (hj : s.activeDiskJobs_ diskNumber = some job) :
    ∃ s', s.DiskJobCompleted diskNumber = some s' ∧
      (∀ p, s.processes_ job.PID = some p → p.isZombie = false →
        (s'.cpuPid_ = job.PID ∨ job.PID ∈ s'.readyQueue_) ∧
        (s'.cpuPid_ = job.PID ↔
          (s.cpuPid_ = NO_PROCESS ∨
            ∃ pc, s.processes_ s.cpuPid_ = some pc ∧ pc.priority < p.priority))) ∧
      (∀ p, s.processes_ job.PID = some p → p.isZombie = true →
        s'.cpuPid_ ≠ job.PID ∧ job.PID ∉ s'.readyQueue_ ∧
        s'.cpuPid_ = s.cpuPid_ ∧ s'.readyQueue_ = s.readyQueue_) := by
  have hret := reachable_returns _ _ _ s h
  have he := reachable_excl _ _ _ s h
  have hs := reachable_sched _ _ _ s h
  obtain ⟨ho, hw⟩ := reachable_os _ _ _ s h
  have hg : ¬ (diskNumber < 0 ∨ (s.diskQueues_.length : Int) ≤ diskNumber) := by
    rw [(reachable_idle _ _ _ s h).2]; omega
  obtain ⟨s', hs'⟩ := Option.isSome_iff_exists.1 (hret.2.2.2.2.2 diskNumber)
  have hpend : PendingPid s job.PID := Or.inl ⟨diskNumber, job, hj, rfl⟩
  obtain ⟨hRn, hRc, hRq⟩ := he.pending_idle _ hpend
  obtain ⟨_, e2, e3, e4⟩ := startNextJob_fields
    { s with activeDiskJobs_ := mapErase s.activeDiskJobs_ diskNumber } diskNumber
  refine ⟨s', hs', ?_, ?_⟩
  · intro p hp hz
    rw [DiskJobCompleted_of_live s diskNumber job p hg hj hp hz] at hs'
    have hgetR : mapGet s.processes_ job.PID = p := mapGet_of_eq _ _ _ hp
    have hRin : job.PID ∈ addPid s.readyQueue_ job.PID := (mem_addPid _ _ _).2 (Or.inr rfl)
    rcases scheduleCPU_cases _ s' hs' with ⟨hq, _⟩ |
      ⟨first, rest, hpk, hq, hmax, hcase⟩
    · exfalso
      simp only [SimOS.addToReadyQueue, e4] at hq
      rw [hq] at hRin
      simp at hRin
    · obtain ⟨hmem, _, _, hle⟩ := maxElementFrom_spec _ _ _ _ hmax
      rw [← hq] at hmem hle
      simp only [SimOS.addToReadyQueue, e3, e4] at hmem hle
      have hRle := hle job.PID hRin
      rw [hgetR] at hRle
      rcases hcase with ⟨hc, e⟩ | ⟨hc, hlt, e⟩ | ⟨hc, hge, e⟩
      · simp only [SimOS.addToReadyQueue, e2] at hc
        have hq0 := hw hc
        rw [hq0] at hmem
        simp only [addPid, List.not_mem_nil, if_false, List.nil_append,
          List.mem_singleton] at hmem
        have hcpu : s'.cpuPid_ = job.PID := by rw [e]; exact hmem
        exact ⟨Or.inl hcpu, fun _ => Or.inl hc, fun _ => hcpu⟩
      · simp only [SimOS.addToReadyQueue, e2, e3] at hc hlt
        simp only [mapGet_mapIndex] at hlt
        obtain ⟨pc, hpc, _⟩ := hs.alive.1 hc
        have hgetc : mapGet s.processes_ s.cpuPid_ = pc := mapGet_of_eq _ _ _ hpc
        have hpkR : hpk = job.PID := by
          rcases (mem_addPid _ _ _).1 hmem with h1 | h1
          · have := hs.prio hc hpk h1
            omega
          · exact h1
        rw [hpkR, hgetR, hgetc] at hlt
        have hcpu : s'.cpuPid_ = job.PID := by rw [e]; exact hpkR
        exact ⟨Or.inl hcpu, fun _ => Or.inr ⟨pc, hpc, hlt⟩, fun _ => hcpu⟩
      · simp only [SimOS.addToReadyQueue, e2, e3] at hc hge
        simp only [mapGet_mapIndex] at hge
        obtain ⟨pc, hpc, _⟩ := hs.alive.1 hc
        have hgetc : mapGet s.processes_ s.cpuPid_ = pc := mapGet_of_eq _ _ _ hpc
        rw [hgetc] at hge
        have hcpu : s'.cpuPid_ = s.cpuPid_ := by rw [e]; exact e2
        have hque : s'.readyQueue_ = addPid s.readyQueue_ job.PID := by
          rw [e]; simp only [SimOS.addToReadyQueue, e4]
        refine ⟨Or.inr (by rw [hque]; exact hRin), ?_, ?_⟩
        · intro e5
          exact absurd (e5.symm.trans hcpu) hRc
        · rintro (e5 | ⟨pc', hpc', hlt'⟩)
          · exact absurd e5 hc
          · rw [hpc] at hpc'
            simp only [Option.some.injEq] at hpc'
            subst hpc'
            omega
  · intro p hp hz
    rw [DiskJobCompleted_of_zombie s diskNumber job p hg hj hp hz] at hs'
    simp only [Option.some.injEq] at hs'
    subst hs'
    rw [e2, e4]
    exact ⟨Ne.symm hRc, hRq, rfl, rfl⟩

/-- Witness of C14: disk 0 of the state in which process 2 of priority 3 waits for it
while process 3 of priority 1 is on the CPU (the completion puts process 2 on the CPU),
and disk 1 of the state in which its requester, process 3, is a zombie (the completion
leaves the idle CPU and the empty ready queue as they are). -/
theorem disk_completion_readies_witness :
    (Reachable (SimOS.construct 1 10000 1000) diskBusyExample ∧
      diskBusyExample.activeDiskJobs_ 0 = some ⟨2, "a"⟩ ∧
      (diskBusyExample.DiskJobCompleted 0).map (fun s => (s.cpuPid_, s.readyQueue_)) =
        some (2, [3]) ∧
      ∃ s', diskBusyExample.DiskJobCompleted 0 = some s' ∧
        (∀ p, diskBusyExample.processes_ 2 = some p → p.isZombie = false →
          (s'.cpuPid_ = 2 ∨ (2 : Int) ∈ s'.readyQueue_) ∧
          (s'.cpuPid_ = 2 ↔
            (diskBusyExample.cpuPid_ = NO_PROCESS ∨
              ∃ pc, diskBusyExample.processes_ diskBusyExample.cpuPid_ = some pc ∧
                pc.priority < p.priority))) ∧
        (∀ p, diskBusyExample.processes_ 2 = some p → p.isZombie = true →
          s'.cpuPid_ ≠ 2 ∧ (2 : Int) ∉ s'.readyQueue_ ∧
          s'.cpuPid_ = diskBusyExample.cpuPid_ ∧
          s'.readyQueue_ = diskBusyExample.readyQueue_)) ∧
    (Reachable (SimOS.construct 2 10000 1000) zombieRequesterExample ∧
      zombieRequesterExample.activeDiskJobs_ 1 = some ⟨3, "b"⟩ ∧
      (zombieRequesterExample.processes_ 3).map (fun p => p.isZombie) = some true ∧
      (zombieRequesterExample.DiskJobCompleted 1).map (fun s => (s.cpuPid_, s.readyQueue_)) =
        some (NO_PROCESS, []) ∧
      ∃ s', zombieRequesterExample.DiskJobCompleted 1 = some s' ∧
        (∀ p, zombieRequesterExample.processes_ 3 = some p → p.isZombie = false →
          (s'.cpuPid_ = 3 ∨ (3 : Int) ∈ s'.readyQueue_) ∧
          (s'.cpuPid_ = 3 ↔
            (zombieRequesterExample.cpuPid_ = NO_PROCESS ∨
              ∃ pc, zombieRequesterExample.processes_ zombieRequesterExample.cpuPid_
                  = some pc ∧ pc.priority < p.priority))) ∧
        (∀ p, zombieRequesterExample.processes_ 3 = some p → p.isZombie = true →
          s'.cpuPid_ ≠ 3 ∧ (3 : Int) ∉ s'.readyQueue_ ∧
          s'.cpuPid_ = zombieRequesterExample.cpuPid_ ∧
          s'.readyQueue_ = zombieRequesterExample.readyQueue_)) :=
  ⟨⟨diskBusyExample_reachable, by decide, by decide,
      disk_completion_readies 1 10000 1000 diskBusyExample 0 ⟨2, "a"⟩
        diskBusyExample_reachable (by decide) (by decide) (by decide)⟩,
    ⟨zombieRequesterExample_reachable, by decide, by decide, by decide,
      disk_completion_readies 2 10000 1000 zombieRequesterExample 1 ⟨3, "b"⟩
        zombieRequesterExample_reachable (by decide) (by decide) (by decide)⟩⟩

/-! ## Zombies and `SimWait` -/

/-- C11 (exit reclaims memory only for a parentless process).  In every state that
public operations lead to from a constructed simulator, with a process `P` other than the
OS process on the CPU and `p` its record, `SimExit` returns, and whatever it returns
satisfies: when `P` has no parent in the registry, `P` is erased from the registry and
the list reported by `GetMemory` is the list before the call without the region of `P`;
when `P` has a registered parent, `P` stays in the registry marked zombie and
`GetMemory` reports the same list as before; in both cases every region owned by another
process, descendants of `P` included, is still reported.  Before the call the list
holds at most one region of `P`, and the regions of `P` in it are the entries equal to
the region that the record of `P` names.  (It holds none when the allocation for `P`
moved the storage of the full vector; the list is then the same after the call.) -/
theorem exit_reclaims_parentless (numberOfDisks amountOfRAM sizeOfOS : Nat) (s : SimOS)
    (p : Process) (h : Reachable (SimOS.construct numberOfDisks amountOfRAM sizeOfOS) s)
    (hc : s.cpuPid_ ≠ NO_PROCESS) (hc1 : s.cpuPid_ ≠ 1)
    (hp : s.processes_ s.cpuPid_ = some p) :
    (s.SimExit s.nextPid_.toNat).isSome = true ∧
    (∀ r ∈ s.GetMemory, r.PID = s.cpuPid_ ↔ r = p.memory) ∧
    (s.GetMemory.filter (fun r => decide (r.PID = s.cpuPid_))).length ≤ 1 ∧
    ∀ (fuel : Nat) (s' : SimOS), s.SimExit fuel = some s' →
      ((p.parentPid = NO_PROCESS ∨ s.processes_ p.parentPid = none) →
        s'.processes_ s.cpuPid_ = none ∧
        s'.GetMemory = s.GetMemory.filter (fun r => decide (r.PID ≠ s.cpuPid_))) ∧
      ((p.parentPid ≠ NO_PROCESS ∧ (s.processes_ p.parentPid).isSome = true) →
        (∃ p', s'.processes_ s.cpuPid_ = some p' ∧ p'.isZombie = true) ∧
        s'.GetMemory = s.GetMemory) ∧
      (∀ r ∈ s.GetMemory, r.PID ≠ s.cpuPid_ → r ∈ s'.GetMemory) := by
  have hr := reachable_range _ _ _ s h
  have he := reachable_excl _ _ _ s h
  have hs := reachable_sched _ _ _ s h
  have hf := reachable_family _ _ _ s h
  have hb := reachable_blocks _ _ _ s h
  refine ⟨(reachable_returns _ _ _ s h).2.2.1, ?_, ?_, ?_⟩
  · intro r hrm
    constructor
    · intro hrp
      rw [GetMemory_eq] at hrm
      obtain ⟨b, hbm, rfl⟩ := List.mem_map.1 hrm
      have hbp : b.pid = s.cpuPid_ := hrp
      rw [hb.names b hbm p (by rw [hbp]; exact hp)]
    · intro e
      rw [e]
      exact hb.pids _ p hp
  · rw [GetMemory_eq, List.filter_map, List.length_map]
    exact owner_once s.cpuPid_ _ hb.nodup
  intro fuel s' hexit
  rcases SimExit_effect s s' fuel hexit hr he hs with ⟨hg, _⟩ | ⟨_, s1, h1, _, hm, hbl, _⟩
  · rcases hg with hg | hg
    · exact absurd hg hc
    · exact absurd hg hc1
  obtain ⟨e1, e2, e3⟩ := terminate_effect _ _ _ _ p h1 hp hf.parent
    (range_unregistered s hr).2
  refine ⟨?_, ?_, ?_⟩
  · intro hno
    have hh : hasParent s.processes_ p = false := by
      cases hh : hasParent s.processes_ p with
      | false => rfl
      | true =>
        obtain ⟨a1, a2⟩ := hasParent_true _ _ hh
        rcases hno with hno | hno
        · exact absurd hno a1
        · rw [hno] at a2
          cases a2
    rw [hh] at e1 e2
    simp only [Bool.false_eq_true, if_false] at e1 e2
    constructor
    · have := e2 s.cpuPid_
      rw [← hm] at this
      simpa using this
    · rw [GetMemory_eq, GetMemory_eq, hbl, e1, deallocate_occupied,
        dropOwner_filter _ _ hb.nodup, List.filter_map]
      rfl
  · intro hyes
    have hh : hasParent s.processes_ p = true := hasParent_of _ _ hyes.1 hyes.2
    rw [hh] at e1
    simp only [if_true] at e1
    obtain ⟨p', hp', hz⟩ := e3 hh
    refine ⟨⟨p', by rw [hm]; exact hp', hz⟩, ?_⟩
    rw [GetMemory_eq, GetMemory_eq, hbl, e1]
  · intro r hrm hrp
    rw [GetMemory_eq] at hrm ⊢
    obtain ⟨b, hbm, rfl⟩ := List.mem_map.1 hrm
    apply List.mem_map.2
    refine ⟨b, ?_, rfl⟩
    rw [hbl, e1]
    split
    · exact hbm
    · rw [deallocate_occupied]
      exact mem_dropOwner _ b hrp _ hbm

/-- Witness for C11, on `SimOS(1, 100, 10)`.  After `NewProcess(10, 1)` and
`NewProcess(10, 5)` the parentless process 3 is on the CPU and owns the region at
address 10: its exit removes this region from the list and erases the process.  After
`NewProcess(10, 1)`, `SimFork()` and `SimWait()` the child 3 of the waiting process 2
is on the CPU: its exit leaves the reported regions as they are and marks it zombie. -/
theorem exit_reclaims_parentless_witness :
    (ownerOnCpuExample.cpuPid_ = 3 ∧
      ownerOnCpuExample.GetMemory = [⟨0, 10, 1⟩, ⟨10, 10, 3⟩] ∧
      (ownerOnCpuExample.SimExit 4).map (fun s => s.GetMemory) = some [⟨0, 10, 1⟩] ∧
      ∀ s', ownerOnCpuExample.SimExit 4 = some s' →
        s'.processes_ 3 = none ∧ s'.GetMemory = [⟨0, 10, 1⟩]) ∧
    (childOnCpuExample.cpuPid_ = 3 ∧
      ∀ s', childOnCpuExample.SimExit 4 = some s' →
        (∃ p', s'.processes_ 3 = some p' ∧ p'.isZombie = true) ∧
        s'.GetMemory = [⟨0, 10, 1⟩, ⟨10, 10, 3⟩]) := by
  obtain ⟨p2, hp2⟩ := Option.isSome_iff_exists.1
    (show (ownerOnCpuExample.processes_ ownerOnCpuExample.cpuPid_).isSome = true by decide)
  have hpar2 : p2.parentPid = NO_PROCESS := by
    have e : (ownerOnCpuExample.processes_ ownerOnCpuExample.cpuPid_).map
        (fun p => p.parentPid) = some NO_PROCESS := by decide
    rw [hp2] at e
    simpa using e
  obtain ⟨p3, hp3⟩ := Option.isSome_iff_exists.1
    (show (childOnCpuExample.processes_ childOnCpuExample.cpuPid_).isSome = true by decide)
  have hpar3 : p3.parentPid = 2 := by
    have e : (childOnCpuExample.processes_ childOnCpuExample.cpuPid_).map
        (fun p => p.parentPid) = some 2 := by decide
    rw [hp3] at e
    simpa using e
  have T2 := (exit_reclaims_parentless 1 100 10 ownerOnCpuExample p2
    ownerOnCpuExample_reachable (by decide) (by decide) hp2).2.2.2
  have T3 := (exit_reclaims_parentless 1 100 10 childOnCpuExample p3
    childOnCpuExample_reachable (by decide) (by decide) hp3).2.2.2
  refine ⟨⟨by decide, by decide, by decide, ?_⟩, by decide, ?_⟩
  · intro s' hs'
    obtain ⟨a, _, _⟩ := T2 4 s' hs'
    obtain ⟨a1, a2⟩ := a (Or.inl hpar2)
    refine ⟨a1, ?_⟩
    rw [a2]
    decide
  · intro s' hs'
    obtain ⟨_, b, _⟩ := T3 4 s' hs'
    have hb := b ⟨by rw [hpar3]; decide, by rw [hpar3]; decide⟩
    refine ⟨hb.1, ?_⟩
    rw [hb.2]
    decide

/-! ## The postcondition of `SimFork` -/

/-- C16 (fork postcondition), evaluated on `SimOS(1, 100, 10)` after `NewProcess(10, 1)`
and `SimFork()`, where its clause on the block of the child does not hold.  Process 2 is
on the CPU with child list `[3]`, and the vector of blocks is full.  The second
`SimFork()` returns `true` and registers process 4 with the priority and the size of
process 2, parent 2, not a zombie; process 4 is last in the child list of process 2 and
in the ready queue, and process 2 keeps the CPU.  The record of process 4 names the
region at address 20, but the insert of the remainder has moved the storage and the
assignments through `worstFitIt` are lost: no occupied block is owned by process 4, and
the block at address 20 is free.  Process 2 itself owns no occupied block either: the
region at address 10 that its record names is the block of its first child, process 3.
The other clauses of the claim hold in every state that public operations lead to from
a constructed simulator, with a process `P` other than the OS process on the CPU, `p`
its record, and the allocation made by `SimFork` succeeding: `SimFork` returns `true`;
the identifier `nextPid_` of the child was not registered and is larger than every
registered identifier; the record registered under it has the priority and the memory
size of `P`, parent `P`, and is not a zombie; the child list of `P` and the ready queue
are the ones before followed by the child; and `P` is still on the CPU. -/
theorem fork_child_without_block :
    (parentOnCpuExample.cpuPid_ = 2 ∧ parentOnCpuExample.nextPid_ = 4 ∧
      parentOnCpuExample.memoryBlocks_.length = parentOnCpuExample.blocksCapacity_ ∧
      (parentOnCpuExample.processes_ 2).map (fun p => (p.children.elems, p.memory)) =
        some ([3], ⟨10, 10, 2⟩) ∧
      parentOnCpuExample.GetMemory = [⟨0, 10, 1⟩, ⟨10, 10, 3⟩] ∧
      parentOnCpuExample.SimFork.map (fun r => (r.1, r.2.cpuPid_, r.2.readyQueue_)) =
        some (true, 2, [3, 4]) ∧
      parentOnCpuExample.SimFork.map (fun r => (r.2.processes_ 4).map
          (fun c => (c.priority, c.memorySize, c.parentPid, c.isZombie))) =
        some (some (1, 10, 2, false)) ∧
      parentOnCpuExample.SimFork.map (fun r => (r.2.processes_ 4).map
          (fun c => c.memory)) = some (some ⟨20, 10, 4⟩) ∧
      parentOnCpuExample.SimFork.map (fun r => (r.2.processes_ 2).map
          (fun p => p.children.elems)) = some (some [3, 4]) ∧
      parentOnCpuExample.SimFork.map (fun r => r.2.memoryBlocks_) =
        some [⟨0, 10, false, 1⟩, ⟨10, 10, false, 3⟩, ⟨20, 80, true, NO_PROCESS⟩,
          ⟨30, 70, true, NO_PROCESS⟩, ⟨20, 80, true, NO_PROCESS⟩] ∧
      parentOnCpuExample.SimFork.map (fun r => r.2.GetMemory) =
        some [⟨0, 10, 1⟩, ⟨10, 10, 3⟩]) ∧
    (∀ (numberOfDisks amountOfRAM sizeOfOS : Nat) (s : SimOS) (p : Process),
      Reachable (SimOS.construct numberOfDisks amountOfRAM sizeOfOS) s →
      s.cpuPid_ ≠ NO_PROCESS → s.cpuPid_ ≠ 1 → s.processes_ s.cpuPid_ = some p →
      s.forkAlloc.1 = true →
      ∃ (s' : SimOS) (c : Process), s.SimFork = some (true, s') ∧
        s.processes_ s.nextPid_ = none ∧
        (∀ k, (s.processes_ k).isSome = true → k < s.nextPid_) ∧
        s'.processes_ s.nextPid_ = some c ∧
        c.pid = s.nextPid_ ∧ c.priority = p.priority ∧ c.memorySize = p.memorySize ∧
        c.parentPid = s.cpuPid_ ∧ c.isZombie = false ∧
        (∃ p', s'.processes_ s.cpuPid_ = some p' ∧
          p'.children.elems = p.children.elems ++ [s.nextPid_]) ∧
        s'.readyQueue_ = s.readyQueue_ ++ [s.nextPid_] ∧
        s'.cpuPid_ = s.cpuPid_) := by
  refine ⟨⟨by decide, by decide, by decide, by decide, by decide, by decide, by decide,
    by decide, by decide, by decide, by decide⟩, ?_⟩
  intro numberOfDisks amountOfRAM sizeOfOS s p h hc hc1 hp hal
  have hr := reachable_range _ _ _ s h
  have he := reachable_excl _ _ _ s h
  have hs := reachable_sched _ _ _ s h
  have hret := (reachable_returns _ _ _ s h).2.1
  have hfork := SimFork_result s p hr he hs hc hc1 hp hal hret
  have hreg : (s.processes_ s.cpuPid_).isSome = true := by rw [hp]; rfl
  have hidx : mapIndex s.processes_ s.cpuPid_ = s.processes_ := mapIndex_of_isSome _ _ hreg
  have hcn : s.cpuPid_ ≠ s.nextPid_ := by
    have := (hr.cpu hc).2
    omega
  have hcrec : s.childRecord.priority = p.priority ∧
      s.childRecord.memorySize = p.memorySize := by
    unfold SimOS.childRecord
    simp only
    rw [hidx, mapGet_of_eq _ _ _ hp]
    exact ⟨rfl, rfl⟩
  have hC : (mapModify
      (mapSet s.processes_ s.nextPid_
        { s.childRecord with memory := s.forkAlloc.2.2.memory })
      s.cpuPid_ (fun p => { p with children := p.children.push_back s.nextPid_ }))
      s.nextPid_ = some { s.childRecord with memory := s.forkAlloc.2.2.memory } := by
    rw [mapModify_apply, if_neg (Ne.symm hcn), mapSet_apply, if_pos rfl]
  have hP : (mapModify
      (mapSet s.processes_ s.nextPid_
        { s.childRecord with memory := s.forkAlloc.2.2.memory })
      s.cpuPid_ (fun p => { p with children := p.children.push_back s.nextPid_ }))
      s.cpuPid_ = some { p with children := p.children.push_back s.nextPid_ } := by
    rw [mapModify_apply, if_pos rfl, mapSet_apply, if_neg hcn, hp]
    rfl
  exact ⟨_, { s.childRecord with memory := s.forkAlloc.2.2.memory }, hfork,
    (range_unregistered s hr).1, fun k hk => (hr.keys k hk).2,
    hC, rfl, hcrec.1, hcrec.2, rfl, rfl, ⟨_, hP, rfl⟩, rfl, rfl⟩

/-! ## `SimWait` -/

/-- C12 (wait reaps the first zombie child or blocks).  In every state that public
operations lead to from a constructed simulator, with a process `P` other than the OS
process on the CPU and `p` its record: if the child list of `P` is `X ++ z :: Y` with no
zombie in `X` and `z` a zombie, `SimWait` returns the state that differs from the one
before only in the registry, where `z` is erased, the child list of `P` is `X ++ Y` and
nothing else has changed; if the child list holds no zombie, `SimWait` returns, `P` is
neither on the CPU nor in the ready queue afterwards, the CPU is idle when the ready
queue was empty, and otherwise the CPU holds the first ready process of the highest
priority, which alone has left the ready queue.  In such states no child list holds a
zombie, so it is the second case that occurs there.  The same holds of every state,
reached or not, in which `P` is registered and not the OS process, the identifiers of
its child list are registered and are not `P`, `P` is not in the ready queue and the
identifiers of the ready queue are registered; there the first case occurs too. -/
theorem wait_reaps_or_blocks :
    (∀ (numberOfDisks amountOfRAM sizeOfOS : Nat) (s : SimOS) (p : Process),
      Reachable (SimOS.construct numberOfDisks amountOfRAM sizeOfOS) s →
      s.cpuPid_ ≠ NO_PROCESS → s.cpuPid_ ≠ 1 → s.processes_ s.cpuPid_ = some p →
      WaitOutcome s p ∧
      (∀ c ∈ p.children.elems, ∀ pc, s.processes_ c = some pc → pc.isZombie = false)) ∧
    (∀ (s : SimOS) (p : Process),
      s.cpuPid_ ≠ NO_PROCESS → s.cpuPid_ ≠ 1 → s.processes_ s.cpuPid_ = some p →
      (∀ c ∈ p.children.elems, (s.processes_ c).isSome = true) →
      s.cpuPid_ ∉ p.children.elems → s.cpuPid_ ∉ s.readyQueue_ →
      (∀ r ∈ s.readyQueue_, (s.processes_ r).isSome = true) →
      WaitOutcome s p) := by
  refine ⟨?_, waitOutcome_of⟩
  intro numberOfDisks amountOfRAM sizeOfOS s p h hc hc1 hp
  have he := reachable_excl _ _ _ s h
  have hs := reachable_sched _ _ _ s h
  have hf := reachable_family _ _ _ s h
  have ht := reachable_tree _ _ _ s h
  have hkid := (hf.child _ p hp).2
  refine ⟨waitOutcome_of s p hc hc1 hp ?_ ?_ (he.cpu_not_ready hc) ?_, ?_⟩
  · intro c hcm
    obtain ⟨pc, hpc, _⟩ := hkid c hcm
    rw [hpc]
    rfl
  · intro hself
    have := ht s.cpuPid_ s.cpuPid_ (mem_storage_of_elems _ _ p _ hp hself)
    omega
  · intro r hr
    obtain ⟨pr, hpr, _⟩ := hs.alive.2 r hr
    rw [hpr]
    rfl
  · intro c hcm pc hpc
    obtain ⟨pc', hpc', hz⟩ := hkid c hcm
    rw [hpc] at hpc'
    simp only [Option.some.injEq] at hpc'
    rw [hpc']
    exact hz

/-- Witness for C12: after `NewProcess(10, 1)` and `SimFork()` on `SimOS(1, 100, 10)`,
`SimWait` of process 2 gives the CPU to its child 3 and leaves the ready queue empty; in
the state where process 2 on the CPU has the child list `[4, 3]` with process 3 a
zombie, `SimWait` erases process 3 from the registry and from the child list and leaves
the CPU and the ready queue as they are. -/
theorem wait_reaps_or_blocks_witness :
    (parentOnCpuExample.cpuPid_ = 2 ∧ parentOnCpuExample.readyQueue_ = [3] ∧
      ∃ s', parentOnCpuExample.SimWait = some s' ∧ s'.cpuPid_ = 3 ∧ s'.readyQueue_ = []) ∧
    (zombieChildExample.cpuPid_ = 2 ∧ zombieChildExample.readyQueue_ = [4] ∧
      (zombieChildExample.processes_ 2).map (fun p => p.children.elems) = some [4, 3] ∧
      (zombieChildExample.processes_ 3).map (fun p => p.isZombie) = some true ∧
      ∃ m : Int → Option Process,
        zombieChildExample.SimWait = some { zombieChildExample with processes_ := m } ∧
        m 3 = none ∧ (m 2).map (fun p => p.children.elems) = some [4] ∧
        m 4 = zombieChildExample.processes_ 4) := by
  obtain ⟨m, hm1, hm2, hm3, hm4, hm5⟩ := (wait_reaps_or_blocks.2 zombieChildExample
    { requestExample 2 0 with children := ⟨[4, 3], []⟩ }
    (by decide) (by decide) (by decide) (by decide) (by decide) (by decide)
    (by decide)).1 [4] 3 []
    { requestExample 3 0 with parentPid := 2, isZombie := true } rfl
    (by
      intro c hc pc hpc
      simp only [List.mem_singleton] at hc
      subst hc
      have e : (zombieChildExample.processes_ 4).map (fun p => p.isZombie) = some false := by
        decide
      rw [hpc] at e
      simpa using e)
    (by decide) rfl
  obtain ⟨p, hp⟩ := Option.isSome_iff_exists.1
    (show (parentOnCpuExample.processes_ parentOnCpuExample.cpuPid_).isSome = true by decide)
  obtain ⟨hout, hnz⟩ := wait_reaps_or_blocks.1 1 100 10 parentOnCpuExample p
    parentOnCpuExample_reachable (by decide) (by decide) hp
  obtain ⟨s', h1, _, _, _, h5⟩ := hout.2 hnz
  obtain ⟨X, h, Y, hsplit, _, _, hcpu, hqueue⟩ := h5 (by decide)
  have hq3 : parentOnCpuExample.readyQueue_ = [3] := by decide
  have hh : h = 3 := by
    have : h ∈ parentOnCpuExample.readyQueue_ := by rw [hsplit]; simp
    rw [hq3] at this
    simpa using this
  subst hh
  refine ⟨⟨by decide, hq3, s', h1, hcpu, ?_⟩,
    by decide, by decide, by decide, by decide, m, hm1, hm2, ?_, hm5 4 (by decide) (by decide)⟩
  · rw [hqueue, hq3]
    decide
  · have e : zombieChildExample.cpuPid_ = 2 := by decide
    rw [e] at hm3
    rw [hm3]
    show some ((PidVector.eraseAt ⟨[4, 3], []⟩ 1).elems) = some [4]
    decide

end Sim
